import Mathlib

/-!
# QuantPDE iteration engine: a shallow embedding

Definitions are transcribed from `QuantPDE/src/Core/IterativeMethod.hpp` and
`QuantPDE/src/Core/CrankNicolson.hpp`.

Conventions of the embedding.

* `Real` (a C++ `double`) is the field of rationals, and the definitions named
  after the source compute with exact arithmetic. Where the arithmetic of
  `double`s changes the outcome in kind, a second definition follows the same
  source text with that arithmetic: `Double` holds a value that may be an
  infinity or a NaN (`relativeError`, the test of `ToleranceIteration`), and
  the definitions ending in `Rounded` round every sum, difference and product
  by a function `fl` (`Double.round` for the type `double`, which is monotone
  and idempotent, see `Double.round_monotone` and `Double.round_idempotent`;
  the identity for exact arithmetic).
* `int` values are mathematical integers, except where overflow is in reach:
  `int32` reduces a result to the range of a 32-bit `int`. In `CircularBuffer`
  the value `tail - 1 + n - index` of `operator[]` lies in `[0, 2 n - 1]`, so
  `position` and `get` are what the machine computes whenever `2 n - 1` fits
  in an `int` (`position32_eq`, `get32_eq`); `position32` and `get32` give the
  machine's result for every capacity.
* `assert` is modelled as in a debug build: a failed assertion aborts the
  computation (`none` / an error).
* The global constant `epsilon` is not defined in the files at hand and is a
  parameter throughout.
-/

namespace QuantPDE

/-- Scalar type `Real` of the library (`double`): a finite number, taken with
exact arithmetic; see `Double` and `Double.round` for the values and the
rounding of the type `double`. -/
abbrev Real := ℚ

/-- The value a 32-bit `int` holds after an operation whose mathematical
result is `x`: `x` itself when it fits, and otherwise `x` reduced modulo
`2^32` into `[-2^31, 2^31)` (two's-complement wraparound). -/
def int32 (x : Int) : Int := (x + 2147483648) % 4294967296 - 2147483648

/-! ## CircularBuffer -/

/-- Class `CircularBuffer<T>`: the array `data` (of length `n`), the write
cursor `tail`, the capacity `n` and the debug counter `size`. -/
structure CircularBuffer (T : Type) where
  data : List T
  tail : Int
  n : Int
  size : Int

namespace CircularBuffer

variable {T : Type}

/-- Method `clear()`: `tail = 0; size = 0;` (the array is left as it is). -/
def clear (c : CircularBuffer T) : CircularBuffer T :=
  { c with tail := 0, size := 0 }

/-- Constructor `CircularBuffer(int lookback)`: `data = new T[lookback]`
(default-constructed elements), `n = lookback`, then `clear()`. The
constructor asserts `lookback > 0`; the assertion is not part of this
definition, which is used with a positive `lookback` (a hypothesis of the
theorems on buffers of any capacity). -/
def new [Inhabited T] (lookback : Int) : CircularBuffer T :=
  clear { data := List.replicate lookback.toNat default, tail := 0, n := lookback, size := 0 }

/-- Method `push(element)`: `data[tail] = element; tail = (tail + 1) % n;
if(size < n) ++size;`. The operator `%` of C++ truncates towards zero
(`Int.tmod`). -/
def push (c : CircularBuffer T) (element : T) : CircularBuffer T :=
  { c with
    data := c.data.set c.tail.toNat element
    tail := (c.tail + 1).tmod c.n
    size := if c.size < c.n then c.size + 1 else c.size }

/-- The local `position` of `operator[]`: `(tail - 1 + n - index) % n`. -/
def position (c : CircularBuffer T) (index : Int) : Int :=
  (c.tail - 1 + c.n - index).tmod c.n

/-- Method `operator[](int index)`: asserts `index >= 0`, `index < n` and
`position < size`, then returns `data[position]`. The result is `none` when
an assertion fails, and also for a position outside the array (a negative
`position`, which no admitted index produces). -/
def get (c : CircularBuffer T) (index : Int) : Option T :=
  if 0 ≤ index ∧ index < c.n then
    if c.position index < c.size then
      (if 0 ≤ c.position index then c.data[(c.position index).toNat]? else none)
    else none
  else none

/-- The local `position` of `operator[]` as a machine with 32-bit `int`
computes it: `(tail - 1 + n - index) % n`, evaluated from the left, each
intermediate result held in an `int` (`int32`). It is `position` whenever
`2 n - 1` fits in an `int`. -/
def position32 (c : CircularBuffer T) (index : Int) : Int :=
  (int32 (int32 (int32 (c.tail - 1) + c.n) - index)).tmod c.n

/-- Method `operator[](int index)` on a machine with 32-bit `int`: asserts
`index >= 0`, `index < n` and `position < size`, with `position` as
`position32` gives it, then returns `data[position]`. The result is `none` when
an assertion fails, and also when `position` is negative: the assertions hold
and the read is outside the array. -/
def get32 (c : CircularBuffer T) (index : Int) : Option T :=
  if 0 ≤ index ∧ index < c.n then
    if c.position32 index < c.size then
      (if 0 ≤ c.position32 index then c.data[(c.position32 index).toNat]? else none)
    else none
  else none

/-- Method `lookback()`: returns `n`. -/
def lookback (c : CircularBuffer T) : Int := c.n

/-- A sequence of `push` calls, first element of the list pushed first. -/
def pushAll (c : CircularBuffer T) (es : List T) : CircularBuffer T :=
  es.foldl push c

end CircularBuffer

/-! ## Events and the event queue of `TimeIteration` -/

/-- Outcome of a computation that did not return: the loop budget of the
model ran out, or an `assert` failed. -/
inductive Error where
  | fuel
  | assertion
  deriving DecidableEq, Repr

/-- The comparator `Order` of `TimeIteration<Forward>`: `std::greater<Real>`
when `Forward`, `std::less<Real>` otherwise. -/
def Order (Forward : Bool) (a b : Real) : Bool :=
  if Forward then decide (a > b) else decide (a < b)

/-- The constant `direction`: `Forward ? 1. : -1.`. -/
def direction (Forward : Bool) : Real := if Forward then 1 else -1

/-- Queue entry `T = std::tuple<unsigned, Real, std::shared_ptr<EventBase>>`:
sequence number, time, and the event as a map on vectors. -/
abbrev T (V : Type) := Nat × Real × (V → V)

/-- Functor `TimeOrder`: `Order(get<1>(a), get<1>(b)) || (get<1>(a) == get<1>(b)
&& Order(get<0>(a), get<0>(b)))`; the sequence numbers are compared as
`Real`s. -/
def TimeOrder {V : Type} (Forward : Bool) (a b : T V) : Bool :=
  Order Forward a.2.1 b.2.1 || (decide (a.2.1 = b.2.1) && Order Forward (a.1 : Real) (b.1 : Real))

/-- The type `PriorityQueue = std::priority_queue<T, std::vector<T>, TimeOrder>`,
kept as a list whose head is `top()`. -/
abbrev PriorityQueue (V : Type) := List (T V)

namespace PriorityQueue

variable {V : Type}

/-- Operation `emplace`: the new entry is placed so that `top()` stays an
entry that `TimeOrder` puts before no other entry (the contract of
`std::priority_queue`): it goes in front of the first entry that `TimeOrder`
puts before it. -/
def emplace (Forward : Bool) : PriorityQueue V → T V → PriorityQueue V
  | [], x => [x]
  | y :: ys, x => if TimeOrder Forward y x then x :: y :: ys else y :: emplace Forward ys x

/-- Operation `top()`; `none` on an empty queue. -/
def top (q : PriorityQueue V) : Option (T V) := q.head?

/-- Operation `pop()`. -/
def pop (q : PriorityQueue V) : PriorityQueue V := q.tail

/-- Operation `empty()`. -/
def empty (q : PriorityQueue V) : Bool := q.isEmpty

end PriorityQueue

/-- Modelled from the spec: class `NullEvent` is not in the files at hand; the
sentinel "null event" appended at the terminal time leaves the vector as it
is. -/
def NullEvent {V : Type} : V → V := fun v => v

/-- The value `std::numeric_limits<unsigned>::max()`. -/
def unsignedMax : Nat := 4294967295

/-! ## State of the iteration engine -/

/-- The members of an `Iteration` that change during a solve: `history`,
`implicitTime`, `its`, and for a `TimeIteration` also `dt`, `dtPrevious`. -/
structure Vars (V : Type) where
  history : CircularBuffer (Real × V)
  implicitTime : Real
  its : List Nat
  dt : Real
  dtPrevious : Real

/-- A call made by the engine on a collaborator, recorded in order: the node
hooks (by node identifier), the methods of the root node and of the linear
solver, the application of an event (by sequence number) and a push into the
history of the iteration at a nesting level. -/
inductive Call where
  | clear (node : Nat)
  | onAfterEvent (node : Nat)
  | onIterationStart (node : Nat)
  | onIterationEnd (node : Nat)
  | isATheSame (result : Bool)
  | A (t : Real)
  | initialise
  | b (t : Real)
  | solve
  | event (seq : Nat)
  | push (level : Nat) (t : Real)
  deriving DecidableEq, Repr

/-- Everything a solve acts on: the variables of each iteration of the chain
(by nesting level, 0 the outermost), the state of the linear solver, and the
record of calls made so far. -/
structure World (S V : Type) where
  vars : Nat → Vars V
  solver : S
  log : List Call

/-- The system interface of the root `IterationNode`: `isATheSame()`, `A(t)`
and `b(t)`. A node reads its iteration through `time`, `iterand`, `nextTime`,
`isTimestepTheSame`, and keeps state of its own that its hooks update; both are
functions of the world (the latter of the record of calls). -/
structure IterationNode (S M V : Type) where
  isATheSame : World S V → Bool
  A : World S V → Real → M
  b : World S V → Real → V

/-- Interface `LinearSolver`: `initialize(A)` (here `initialise`) and
`solve(b, guess)`. -/
structure LinearSolver (S M V : Type) where
  initialise : S → M → S
  solve : S → V → V → V

/-- A value of the C++ type `double` by kind: a finite number, an infinity or
a NaN. Arithmetic on finite numbers is exact and the two zeros are not told
apart (a zero divisor counts as `+0`); the operations follow IEEE 754 on the
infinities and on NaN. -/
inductive Double where
  | finite (x : Real)
  | infinity (negative : Bool)
  | nan
  deriving DecidableEq, Inhabited

namespace Double

/-- Subtraction `a - b`: `inf - inf` (of one sign) and every difference with a
NaN are NaN. -/
def sub : Double → Double → Double
  | finite x, finite y => finite (x - y)
  | finite _, infinity s => infinity (!s)
  | infinity s, finite _ => infinity s
  | infinity s, infinity t => if s = t then nan else infinity s
  | _, _ => nan

/-- Absolute value (`cwiseAbs` on one coefficient). -/
def abs : Double → Double
  | finite x => finite |x|
  | infinity _ => infinity false
  | nan => nan

/-- Comparison `a < b`: false when either side is NaN. -/
def lt : Double → Double → Bool
  | finite x, finite y => decide (x < y)
  | finite _, infinity s => !s
  | infinity s, finite _ => s
  | infinity s, infinity t => s && !t
  | _, _ => false

/-- Comparison `a > b`, that is `b < a`: false when either side is NaN. -/
def gt (a b : Double) : Bool := lt b a

/-- Comparison `a <= b`: false when either side is NaN. -/
def le : Double → Double → Bool
  | finite x, finite y => decide (x ≤ y)
  | finite _, infinity s => !s
  | infinity s, finite _ => s
  | infinity s, infinity t => s || !t
  | _, _ => false

/-- The function `std::max(a, b)`, which is `(a < b) ? b : a`; the coefficient
of `cwiseMax` and the step of `maxCoeff` are taken to be this function. -/
def max (a b : Double) : Double := if lt a b then b else a

/-- Division `a / b` (`cwiseQuotient` on one coefficient): `0 / 0` and
`inf / inf` are NaN, a number other than zero over zero is an infinity. -/
def div : Double → Double → Double
  | finite x, finite y =>
    if y = 0 then (if x = 0 then nan else infinity (decide (x < 0))) else finite (x / y)
  | finite _, infinity _ => finite 0
  | infinity s, finite y => infinity (s != decide (y < 0))
  | infinity _, infinity _ => nan
  | _, _ => nan

end Double

/-- Class `ToleranceIteration`: the members `tolerance`, `scale`, and the
attached nodes; `relativeError` is the free function of that name on the
vector type in use, with a value of type `double`. -/
structure ToleranceIteration (V : Type) where
  tolerance : Real
  scale : Real
  nodes : List Nat
  relativeError : V → V → Real → Double

/-- Class `TimeIteration<Forward>`: the members `id`, `events`, `startTime`,
`endTime`, the virtual `timestep()` of the subclass (it sees the variables of
the iteration), and the attached nodes. -/
structure TimeIteration (V : Type) where
  Forward : Bool
  id : Nat
  events : PriorityQueue V
  startTime : Real
  endTime : Real
  timestep : Vars V → Real
  nodes : List Nat

namespace TimeIteration

variable {V : Type}

/-- Method `initialTime()`: `startTime` when `Forward`, else `endTime`. -/
def initialTime (it : TimeIteration V) : Real :=
  if it.Forward then it.startTime else it.endTime

/-- Method `terminalTime()`: `endTime` when `Forward`, else `startTime`. -/
def terminalTime (it : TimeIteration V) : Real :=
  if it.Forward then it.endTime else it.startTime

/-- Constructor `TimeIteration(startTime, endTime)`: `id(0)`, an empty queue;
it asserts `startTime >= 0` and `startTime < endTime`. -/
def new (Forward : Bool) (startTime endTime : Real) (timestep : Vars V → Real)
    (nodes : List Nat) : Option (TimeIteration V) :=
  if startTime ≥ 0 ∧ startTime < endTime then
    some { Forward := Forward, id := 0, events := [], startTime := startTime,
           endTime := endTime, timestep := timestep, nodes := nodes }
  else none

/-- Method `add(time, event)`: asserts `time >= startTime`,
`time < endTime - epsilon` and `time != initialTime()`, then
`events.emplace(id++, time, event)`; `id` is an `unsigned`. -/
def add (epsilon : Real) (it : TimeIteration V) (time : Real) (event : V → V) :
    Option (TimeIteration V) :=
  if time ≥ it.startTime ∧ time < it.endTime - epsilon ∧ time ≠ it.initialTime then
    some { it with
      events := it.events.emplace it.Forward (it.id, time, event)
      id := (it.id + 1) % 4294967296 }
  else none

/-- A sequence of `add(time, event)` calls, in list order. -/
def addAll (epsilon : Real) : TimeIteration V → List (Real × (V → V)) → Option (TimeIteration V)
  | it, [] => some it
  | it, e :: es =>
    match add epsilon it e.1 e.2 with
    | none => none
    | some it' => addAll epsilon it' es

end TimeIteration

/-! ## The loop skeleton of `Iteration` -/

namespace World

variable {S V : Type}

/-- Appends calls to the record. -/
def record (w : World S V) (cs : List Call) : World S V :=
  { w with log := w.log ++ cs }

/-- Replaces the variables of the iteration at a nesting level. -/
def setVars (w : World S V) (lvl : Nat) (v : Vars V) : World S V :=
  { w with vars := Function.update w.vars lvl v }

end World

/-- An `iterateUntilDone(iterand, root, solver, time, initialized)` of some
iteration, with `root` and `solver` fixed: from the initial iterand, the time
of the parent, the flag `initialized` and the world, to the returned vector
and the world it leaves. -/
abbrev Runner (S V : Type) := V → Real → Bool → World S V → Except Error (V × World S V)

/-- An assertion or a guarded read. -/
def orAssert {α : Type} : Option α → Except Error α
  | some a => .ok a
  | none => .error Error.assertion

namespace Iteration

variable {S M V : Type}

/-- Method `time(index)`: `std::get<0>((*history)[index])`. -/
def time (w : World S V) (lvl : Nat) (index : Int) : Option Real :=
  ((w.vars lvl).history.get index).map Prod.fst

/-- Method `iterand(index)`: `std::get<1>((*history)[index])`. -/
def iterand (w : World S V) (lvl : Nat) (index : Int) : Option V :=
  ((w.vars lvl).history.get index).map Prod.snd

/-- Method `clearNodes()`: `node->clear()` on each node, in list order. -/
def clearNodes (nodes : List Nat) (w : World S V) : World S V :=
  w.record (nodes.map Call.clear)

/-- Method `afterEvent()`: `node->onAfterEvent()` on each node, in list
order. -/
def afterEvent (nodes : List Nat) (w : World S V) : World S V :=
  w.record (nodes.map Call.onAfterEvent)

/-- Method `startNodes()`: `node->onIterationStart()` on each node, in list
order. -/
def startNodes (nodes : List Nat) (w : World S V) : World S V :=
  w.record (nodes.map Call.onIterationStart)

/-- Method `endNodes()`: `onIterationEnd()` on each node, from `rbegin()` to
`rend()`. -/
def endNodes (nodes : List Nat) (w : World S V) : World S V :=
  w.record (nodes.reverse.map Call.onIterationEnd)

/-- The statement `this->history->push(std::make_tuple(t, x))`. -/
def pushHistory (lvl : Nat) (t : Real) (x : V) (w : World S V) : World S V :=
  (w.setVars lvl { w.vars lvl with history := (w.vars lvl).history.push (t, x) }).record
    [Call.push lvl t]

/-- The statement `this->history->clear()`. -/
def clearHistory (lvl : Nat) (w : World S V) : World S V :=
  w.setVars lvl { w.vars lvl with history := (w.vars lvl).history.clear }

/-- Method `solveLinearSystemAndSaveResult(root, solver, initialized)`:
`if(!initialized || !root.isATheSame()) solver.initialize(root.A(implicitTime));`
then `history->push(make_tuple(implicitTime, solver.solve(root.b(implicitTime),
iterand(0))))`. The operator `||` does not evaluate `root.isATheSame()` when
`initialized` is false. -/
def solveLinearSystemAndSaveResult (root : IterationNode S M V) (solver : LinearSolver S M V)
    (lvl : Nat) (initialized : Bool) (w : World S V) : Except Error (World S V) :=
  let t := (w.vars lvl).implicitTime
  let w1 : World S V :=
    if !initialized then
      { w with solver := solver.initialise w.solver (root.A w t),
               log := w.log ++ [Call.A t, Call.initialise] }
    else if !(root.isATheSame w) then
      { w with solver := solver.initialise w.solver
                 (root.A (w.record [Call.isATheSame false]) t),
               log := w.log ++ [Call.isATheSame false, Call.A t, Call.initialise] }
    else w.record [Call.isATheSame true]
  match iterand w1 lvl 0 with
  | none => .error Error.assertion
  | some x0 =>
    .ok (pushHistory lvl t (solver.solve w1.solver (root.b w1 t) x0)
      (w1.record [Call.b t, Call.solve]))

/-- The statement `++this->its.back()`. -/
def incrementBack : List Nat → List Nat
  | [] => []
  | [x] => [x + 1]
  | x :: y :: ys => x :: incrementBack (y :: ys)

/-- Macro `QUANT_PDE_TMP_TAIL` (the part acting on the members; the local
`initialized = true` is in `stepLoop`): `++this->its.back(); this->endNodes();`. -/
def TAIL (lvl : Nat) (nodes : List Nat) (w : World S V) : World S V :=
  endNodes nodes (w.setVars lvl { w.vars lvl with its := incrementBack (w.vars lvl).its })

/-- The step of the loop body that produces the next iterand. With a child:
`history->push(make_tuple(implicitTime, child->iterateUntilDone(iterand(0),
root, solver, implicitTime, initialized)))`; without:
`solveLinearSystemAndSaveResult(root, solver, initialized)`. -/
def produce (root : IterationNode S M V) (solver : LinearSolver S M V) (lvl : Nat)
    (child : Option (Runner S V)) (initialized : Bool) (w : World S V) :
    Except Error (World S V) :=
  match child with
  | some run =>
    match iterand w lvl 0 with
    | none => .error Error.assertion
    | some x0 =>
      match run x0 (w.vars lvl).implicitTime initialized w with
      | .error e => .error e
      | .ok r => .ok (pushHistory lvl (r.2.vars lvl).implicitTime r.1 r.2)
  | none => solveLinearSystemAndSaveResult root solver lvl initialized w

/-- The inner `do { TIMESTEP; HEAD; ...; TAIL; } while(NOT_DONE);` of
`QUANT_PDE_TMP_ITERATE_UNTIL_DONE`, with the phases `TIMESTEP` and `NOT_DONE`
of the iteration class passed in. Each turn of the loop uses one unit of
`fuel`. Returns the local `initialized` with the world. -/
def stepLoop (root : IterationNode S M V) (solver : LinearSolver S M V) (lvl : Nat)
    (nodes : List Nat) (child : Option (Runner S V))
    (TIMESTEP : World S V → Except Error (World S V))
    (NOT_DONE : World S V → Except Error Bool) :
    Nat → Bool → World S V → Except Error (Bool × World S V)
  | 0, _, _ => .error Error.fuel
  | fuel + 1, initialized, w =>
    match TIMESTEP w with
    | .error e => .error e
    | .ok w1 =>
      match produce root solver lvl child initialized (startNodes nodes w1) with
      | .error e => .error e
      | .ok w2 =>
        match NOT_DONE (TAIL lvl nodes w2) with
        | .error e => .error e
        | .ok true => stepLoop root solver lvl nodes child TIMESTEP NOT_DONE fuel true
            (TAIL lvl nodes w2)
        | .ok false => .ok (true, TAIL lvl nodes w2)

/-- The common opening of `QUANT_PDE_TMP_ITERATE_UNTIL_DONE` after `SET_TIME`:
`its.push_back(0); clear(); clearNodes(); history->clear();
history->push(make_tuple(implicitTime, std::move(iterand)));` (the virtual
`Iteration::clear()` does nothing). -/
def opening (lvl : Nat) (nodes : List Nat) (iterand : V) (w : World S V) : World S V :=
  let w1 := w.setVars lvl { w.vars lvl with its := (w.vars lvl).its ++ [0] }
  let w2 := clearHistory lvl (clearNodes nodes w1)
  pushHistory lvl (w2.vars lvl).implicitTime iterand w2

end Iteration

/-! ## ToleranceIteration -/

namespace ToleranceIteration

variable {S M V : Type}

/-- Macro `QUANT_PDE_TMP_NOT_DONE` of `ToleranceIteration`:
`relativeError(iterand(0), iterand(1), scale) > tolerance`, a comparison of
`double`s: it is false when the relative error is NaN. -/
def NOT_DONE (it : ToleranceIteration V) (lvl : Nat) (w : World S V) : Except Error Bool :=
  match Iteration.iterand w lvl 0, Iteration.iterand w lvl 1 with
  | some a, some b => .ok (Double.gt (it.relativeError a b it.scale) (Double.finite it.tolerance))
  | _, _ => .error Error.assertion

/-- Method `ToleranceIteration::iterateUntilDone`, the expansion of
`QUANT_PDE_TMP_ITERATE_UNTIL_DONE` with `SET_TIME` = `implicitTime = time`,
empty `OUTER_HEAD`, `OUTER_TAIL` and `TIMESTEP`. -/
def iterateUntilDone (fuel : Nat) (root : IterationNode S M V) (solver : LinearSolver S M V)
    (it : ToleranceIteration V) (lvl : Nat) (child : Option (Runner S V)) : Runner S V :=
  fun iterand time initialized w =>
    let w0 := w.setVars lvl { w.vars lvl with implicitTime := time }
    match Iteration.stepLoop root solver lvl it.nodes child (fun w => .ok w) (NOT_DONE it lvl)
        fuel initialized (Iteration.opening lvl it.nodes iterand w0) with
    | .error e => .error e
    | .ok r =>
      match Iteration.iterand r.2 lvl 0 with
      | none => .error Error.assertion
      | some x => .ok (x, r.2)

/-- Method `isTimestepTheSame()` of `ToleranceIteration`. -/
def isTimestepTheSame (_it : ToleranceIteration V) : Bool := true

/-- Method `minimumLookback()` of `ToleranceIteration`. -/
def minimumLookback (_it : ToleranceIteration V) : Int := 2

end ToleranceIteration

/-! ## TimeIteration -/

namespace TimeIteration

variable {S M V : Type}

/-- The arithmetic of macro `QUANT_PDE_TMP_TIMESTEP` after `dt = timestep()`:
`tmp = implicitTime + direction * dt; if(abs(tmp - nextEventTime) < epsilon)
tmp = nextEventTime; else if(Order()(tmp, nextEventTime)) { tmp = nextEventTime;
dt = direction * (nextEventTime - implicitTime); }`. Returns the committed
`implicitTime` and `dt`. -/
def timestepCore (Forward : Bool) (epsilon implicitTime nextEventTime dt : Real) : Real × Real :=
  if |implicitTime + direction Forward * dt - nextEventTime| < epsilon then
    (nextEventTime, dt)
  else if Order Forward (implicitTime + direction Forward * dt) nextEventTime then
    (nextEventTime, direction Forward * (nextEventTime - implicitTime))
  else (implicitTime + direction Forward * dt, dt)

/-- Macro `QUANT_PDE_TMP_TIMESTEP` of `TimeIteration`: `dtPrevious = dt;
dt = timestep(); assert(dt > 0.);` then the arithmetic of `timestepCore` and
`this->implicitTime = tmp`. -/
def TIMESTEP (epsilon : Real) (it : TimeIteration V) (lvl : Nat) (nextEventTime : Real)
    (w : World S V) : Except Error (World S V) :=
  if it.timestep { w.vars lvl with dtPrevious := (w.vars lvl).dt } > 0 then
    .ok (w.setVars lvl { w.vars lvl with
      dtPrevious := (w.vars lvl).dt
      dt := (timestepCore it.Forward epsilon (w.vars lvl).implicitTime nextEventTime
        (it.timestep { w.vars lvl with dtPrevious := (w.vars lvl).dt })).2
      implicitTime := (timestepCore it.Forward epsilon (w.vars lvl).implicitTime nextEventTime
        (it.timestep { w.vars lvl with dtPrevious := (w.vars lvl).dt })).1 })
  else .error Error.assertion

/-- Macro `QUANT_PDE_TMP_NOT_DONE` of `TimeIteration`:
`Order()(nextEventTime, this->implicitTime + direction * epsilon)`. -/
def NOT_DONE (epsilon : Real) (it : TimeIteration V) (lvl : Nat) (nextEventTime : Real)
    (w : World S V) : Except Error Bool :=
  .ok (Order it.Forward nextEventTime
    ((w.vars lvl).implicitTime + direction it.Forward * epsilon))

/-- The loop of `QUANT_PDE_TMP_OUTER_TAIL`: `while(!events.empty() &&
get<1>(events.top()) == implicitTime) { transformed = (*get<2>(events.top()))
(*current); events.pop(); current = &transformed; }`. Arguments: the queue,
`*current`, `transformed`. Returns `transformed`, the queue left, and the
sequence numbers of the events applied, in order. -/
def applyEvents (implicitTime : Real) : PriorityQueue V → V → V → V × PriorityQueue V × List Nat
  | [], _, transformed => (transformed, [], [])
  | e :: q, current, transformed =>
    if e.2.1 = implicitTime then
      ((applyEvents implicitTime q (e.2.2 current) (e.2.2 current)).1,
       (applyEvents implicitTime q (e.2.2 current) (e.2.2 current)).2.1,
       e.1 :: (applyEvents implicitTime q (e.2.2 current) (e.2.2 current)).2.2)
    else (transformed, e :: q, [])

/-- Macro `QUANT_PDE_TMP_OUTER_TAIL` of `TimeIteration` up to the closing
`while`: `implicitTime = nextEventTime; current = &iterand(0); Vector
transformed;` the event loop; `afterEvent(); history->clear();
history->push(make_tuple(implicitTime, std::move(transformed)));`. Returns the
queue left and the world. -/
def OUTER_TAIL [Inhabited V] (it : TimeIteration V) (lvl : Nat) (nextEventTime : Real)
    (events : PriorityQueue V) (w : World S V) : Except Error (PriorityQueue V × World S V) :=
  let w1 := w.setVars lvl { w.vars lvl with implicitTime := nextEventTime }
  match Iteration.iterand w1 lvl 0 with
  | none => .error Error.assertion
  | some x =>
    let r := applyEvents nextEventTime events x default
    let w2 := Iteration.afterEvent it.nodes (w1.record (r.2.2.map Call.event))
    .ok (r.2.1, Iteration.pushHistory lvl nextEventTime r.1 (Iteration.clearHistory lvl w2))

/-- The outer `do { const Real nextEventTime = get<1>(events.top()); ... }
while(Order()(terminalTime(), this->implicitTime));` opened by
`QUANT_PDE_TMP_OUTER_HEAD` and closed by `QUANT_PDE_TMP_OUTER_TAIL`. Each turn
uses one unit of the outer fuel; the step loop inside gets `inner` units. -/
def outerLoop [Inhabited V] (epsilon : Real) (root : IterationNode S M V)
    (solver : LinearSolver S M V) (it : TimeIteration V) (lvl : Nat)
    (child : Option (Runner S V)) (inner : Nat) :
    Nat → PriorityQueue V → Bool → World S V → Except Error (World S V)
  | 0, _, _, _ => .error Error.fuel
  | fuel + 1, events, initialized, w =>
    match events.top with
    | none => .error Error.assertion
    | some e =>
      match Iteration.stepLoop root solver lvl it.nodes child
          (TIMESTEP epsilon it lvl e.2.1) (NOT_DONE epsilon it lvl e.2.1)
          inner initialized w with
      | .error err => .error err
      | .ok r =>
        match OUTER_TAIL it lvl e.2.1 events r.2 with
        | .error err => .error err
        | .ok r' =>
          if Order it.Forward it.terminalTime (r'.2.vars lvl).implicitTime then
            outerLoop epsilon root solver it lvl child inner fuel r'.1 r.1 r'.2
          else .ok r'.2

/-- The queue built by `QUANT_PDE_TMP_OUTER_HEAD`: a copy of `this->events`
with `(numeric_limits<unsigned>::max(), terminalTime(), NullEvent)` added. -/
def OUTER_HEAD (it : TimeIteration V) : PriorityQueue V :=
  it.events.emplace it.Forward (unsignedMax, it.terminalTime, NullEvent)

/-- Macro `QUANT_PDE_TMP_SET_TIME` of `TimeIteration`:
`implicitTime = initialTime(); dt = -1.;`. -/
def SET_TIME (it : TimeIteration V) (lvl : Nat) (w : World S V) : World S V :=
  w.setVars lvl { w.vars lvl with implicitTime := it.initialTime, dt := -1 }

/-- Method `TimeIteration::iterateUntilDone`, the expansion of
`QUANT_PDE_TMP_ITERATE_UNTIL_DONE` with the macros of `TimeIteration`. The
argument `time` is not used. -/
def iterateUntilDone [Inhabited V] (epsilon : Real) (fuel : Nat) (root : IterationNode S M V)
    (solver : LinearSolver S M V) (it : TimeIteration V) (lvl : Nat)
    (child : Option (Runner S V)) : Runner S V :=
  fun iterand _time initialized w =>
    match outerLoop epsilon root solver it lvl child fuel fuel (OUTER_HEAD it) initialized
        (Iteration.opening lvl it.nodes iterand (SET_TIME it lvl w)) with
    | .error e => .error e
    | .ok w' =>
      match Iteration.iterand w' lvl 0 with
      | none => .error Error.assertion
      | some x => .ok (x, w')

/-- The two variables that a running `TimeIteration::iterateUntilDone` can
name `events`: the object `*this`, with its members `events` and `id`, and the
local `PriorityQueue events` declared by `QUANT_PDE_TMP_OUTER_HEAD`, which
shadows the member from its declaration on. -/
structure Activation (V : Type) where
  self : TimeIteration V
  events : PriorityQueue V

/-- Macro `QUANT_PDE_TMP_OUTER_HEAD` on the object: `PriorityQueue
events(this->events); events.emplace(numeric_limits<unsigned>::max(),
terminalTime(), NullEvent);`: the member is copied into the local, and the
entry is added to the local. -/
def OUTER_HEAD_on (it : TimeIteration V) : Activation V :=
  { self := it,
    events := it.events.emplace it.Forward (unsignedMax, it.terminalTime, NullEvent) }

/-- Macro `QUANT_PDE_TMP_OUTER_TAIL` on the object and the local queue (see
`OUTER_TAIL`): `events.top()` and `events.pop()` act on the local. -/
def OUTER_TAIL_on [Inhabited V] (a : Activation V) (lvl : Nat) (nextEventTime : Real)
    (w : World S V) : Except Error (Activation V × World S V) :=
  let w1 := w.setVars lvl { w.vars lvl with implicitTime := nextEventTime }
  match Iteration.iterand w1 lvl 0 with
  | none => .error Error.assertion
  | some x =>
    let r := applyEvents nextEventTime a.events x default
    let w2 := Iteration.afterEvent a.self.nodes (w1.record (r.2.2.map Call.event))
    .ok ({ a with events := r.2.1 },
      Iteration.pushHistory lvl nextEventTime r.1 (Iteration.clearHistory lvl w2))

/-- The outer loop of `TimeIteration::iterateUntilDone` (see `outerLoop`) on
the object and the local queue: `nextEventTime` is read from the top of the
local queue; the macros of the step loop name neither `events` nor `id`.
Returns the object and the local queue with the world. -/
def outerLoopOn [Inhabited V] (epsilon : Real) (root : IterationNode S M V)
    (solver : LinearSolver S M V) (lvl : Nat) (child : Option (Runner S V)) (inner : Nat) :
    Nat → Activation V → Bool → World S V → Except Error (Activation V × World S V)
  | 0, _, _, _ => .error Error.fuel
  | fuel + 1, a, initialized, w =>
    match a.events.top with
    | none => .error Error.assertion
    | some e =>
      match Iteration.stepLoop root solver lvl a.self.nodes child
          (TIMESTEP epsilon a.self lvl e.2.1) (NOT_DONE epsilon a.self lvl e.2.1)
          inner initialized w with
      | .error err => .error err
      | .ok r =>
        match OUTER_TAIL_on a lvl e.2.1 r.2 with
        | .error err => .error err
        | .ok r' =>
          if Order r'.1.self.Forward r'.1.self.terminalTime (r'.2.vars lvl).implicitTime then
            outerLoopOn epsilon root solver lvl child inner fuel r'.1 r.1 r'.2
          else .ok r'

/-- Method `TimeIteration::iterateUntilDone` as a method of the object `it`
(see `iterateUntilDone`): returns, with the vector and the world, the object as
the run leaves it. -/
def iterateUntilDoneOn [Inhabited V] (epsilon : Real) (fuel : Nat) (root : IterationNode S M V)
    (solver : LinearSolver S M V) (it : TimeIteration V) (lvl : Nat)
    (child : Option (Runner S V)) (iterand : V) (_time : Real) (initialized : Bool)
    (w : World S V) : Except Error ((V × World S V) × TimeIteration V) :=
  match outerLoopOn epsilon root solver lvl child fuel fuel (OUTER_HEAD_on it) initialized
      (Iteration.opening lvl it.nodes iterand (SET_TIME it lvl w)) with
  | .error e => .error e
  | .ok r =>
    match Iteration.iterand r.2 lvl 0 with
    | none => .error Error.assertion
    | some x => .ok ((x, r.2), r.1.self)

/-- Method `isTimestepTheSame()` of `TimeIteration`: `dt == dtPrevious`. -/
def isTimestepTheSame (v : Vars V) : Bool := decide (v.dt = v.dtPrevious)

end TimeIteration

/-- An iteration of the chain: one of the two classes derived from
`Iteration`. -/
inductive IterationKind (V : Type) where
  | tolerance (it : ToleranceIteration V)
  | time (it : TimeIteration V)

/-- The virtual call `iterateUntilDone` along a chain `outer, inner, ...`
linked by `setInnerIteration`: the iteration at the head runs at level `lvl`
with the rest of the chain as its `child`; the empty chain is `child ==
nullptr`. -/
def runChain {S M V : Type} [Inhabited V] (epsilon : Real) (fuel : Nat)
    (root : IterationNode S M V) (solver : LinearSolver S M V) :
    List (IterationKind V) → Nat → Option (Runner S V)
  | [], _ => none
  | .tolerance it :: rest, lvl =>
    some (ToleranceIteration.iterateUntilDone fuel root solver it lvl
      (runChain epsilon fuel root solver rest (lvl + 1)))
  | .time it :: rest, lvl =>
    some (TimeIteration.iterateUntilDone epsilon fuel root solver it lvl
      (runChain epsilon fuel root solver rest (lvl + 1)))

/-! ## CrankNicolson -/

/-- Interface `LinearSystem` of the system wrapped by a discretization:
`A(t)`, `b(t)` and `isATheSame()`, on a domain of `n` nodes. -/
structure LinearSystem (n : Nat) where
  A : Real → Matrix (Fin n) (Fin n) Real
  b : Real → (Fin n → Real)
  isATheSame : Bool

/-- Class `CrankNicolson<Dimension, Forward, ThetaInverse>` on a domain of `n`
nodes: the template arguments, the wrapped `system`, and the nesting level of
the iteration the node is attached to (`setIteration`). The class has
`static_assert(ThetaInverse > 0)`. -/
structure CrankNicolson (n : Nat) where
  Forward : Bool
  ThetaInverse : Int
  system : LinearSystem n
  iteration : Nat

namespace CrankNicolson

variable {S : Type} {n : Nat}

/-- The constant `theta = 1. / ((Real) ThetaInverse)`. -/
def theta (cn : CrankNicolson n) : Real := 1 / (cn.ThetaInverse : Real)

/-- Method `dt()`: `t1 = nextTime(), t0 = time(0); dt = Forward ? t1 - t0 :
t0 - t1; assert(dt > epsilon); return dt;`. -/
def dt (epsilon : Real) (cn : CrankNicolson n) (w : World S (Fin n → Real)) : Option Real :=
  match Iteration.time w cn.iteration 0 with
  | none => none
  | some t0 =>
    if (if cn.Forward then (w.vars cn.iteration).implicitTime - t0
        else t0 - (w.vars cn.iteration).implicitTime) > epsilon then
      some (if cn.Forward then (w.vars cn.iteration).implicitTime - t0
            else t0 - (w.vars cn.iteration).implicitTime)
    else none

/-- Method `Ad(t1)`: `if(theta < epsilon) return identity;` else
`identity + system.A(t1) * theta * dt()`. -/
def Ad (epsilon : Real) (cn : CrankNicolson n) (w : World S (Fin n → Real)) (t1 : Real) :
    Option (Matrix (Fin n) (Fin n) Real) :=
  if cn.theta < epsilon then some 1
  else
    match cn.dt epsilon w with
    | none => none
    | some dt => some (1 + dt • (cn.theta • cn.system.A t1))

/-- Method `bd(t1)`: `t0 = time(0); v0 = iterand(0);` and the value
`(identity - system.A(t0) * (1 - theta) * dt()) * v0 + (theta * system.b(t1)
+ (1 - theta) * system.b(t0))`. -/
def bd (epsilon : Real) (cn : CrankNicolson n) (w : World S (Fin n → Real)) (t1 : Real) :
    Option (Fin n → Real) :=
  match Iteration.time w cn.iteration 0, Iteration.iterand w cn.iteration 0 with
  | some t0, some v0 =>
    match cn.dt epsilon w with
    | none => none
    | some dt =>
      some ((1 - dt • ((1 - cn.theta) • cn.system.A t0)).mulVec v0
        + (cn.theta • cn.system.b t1 + (1 - cn.theta) • cn.system.b t0))
  | _, _ => none

/-- Method `isATheSame()`: `if(theta < epsilon) return true;` else
`isTimestepTheSame() && system.isATheSame()`; the first argument is the value
of `isTimestepTheSame()` of the iteration the node is attached to. -/
def isATheSame (epsilon : Real) (cn : CrankNicolson n) (isTimestepTheSame : Bool) : Bool :=
  if cn.theta < epsilon then true else isTimestepTheSame && cn.system.isATheSame

end CrankNicolson

/-! ## Reading the record of calls -/

/-- The calls on the root node and on the linear solver. -/
def Call.isSystemCall : Call → Bool
  | .isATheSame _ => true
  | .A _ => true
  | .initialise => true
  | .b _ => true
  | .solve => true
  | _ => false

/-- What the record shows for one linear-system solve: the value returned by
`root.isATheSame()` if it was called, the number of evaluations of `root.A`,
and the number of calls of `solver.initialize`, all since the previous
`solver.solve`. -/
structure SolveRecord where
  queried : Option Bool
  evaluationsOfA : Nat
  initialiseCalls : Nat
  deriving DecidableEq, Repr

/-- Splits a record of calls at each `solver.solve`, starting from the counts
`cur` gathered so far. -/
def solveRecordsFrom : SolveRecord → List Call → List SolveRecord
  | _, [] => []
  | cur, .solve :: cs => cur :: solveRecordsFrom ⟨none, 0, 0⟩ cs
  | cur, .isATheSame r :: cs => solveRecordsFrom { cur with queried := some r } cs
  | cur, .A _ :: cs => solveRecordsFrom { cur with evaluationsOfA := cur.evaluationsOfA + 1 } cs
  | cur, .initialise :: cs =>
    solveRecordsFrom { cur with initialiseCalls := cur.initialiseCalls + 1 } cs
  | cur, _ :: cs => solveRecordsFrom cur cs

/-- The linear-system solves of a record of calls, numbered from 0. -/
def solveRecords (cs : List Call) : List SolveRecord := solveRecordsFrom ⟨none, 0, 0⟩ cs

/-- Shape of the calls on root and solver made from a point where the local
`initialized` has the given value: one block per solve; the block of a solve
entered with `initialized == false` is `A, initialize, b, solve`; any other
block is `isATheSame -> true, b, solve` or `isATheSame -> false, A,
initialize, b, solve`. -/
inductive Gated : Bool → List Call → Prop where
  | done (i : Bool) : Gated i []
  | first (t : Real) (rest : List Call) : Gated true rest →
      Gated false (Call.A t :: Call.initialise :: Call.b t :: Call.solve :: rest)
  | reuse (t : Real) (rest : List Call) : Gated true rest →
      Gated true (Call.isATheSame true :: Call.b t :: Call.solve :: rest)
  | rebuild (t : Real) (rest : List Call) : Gated true rest →
      Gated true (Call.isATheSame false :: Call.A t :: Call.initialise :: Call.b t ::
        Call.solve :: rest)

/-- The world `w'` extends the record of `w` by calls none of which is on the
root or the solver. -/
def Quiet {S V : Type} (w w' : World S V) : Prop :=
  ∃ seg, w'.log = w.log ++ seg ∧ seg.filter Call.isSystemCall = []

/-- The world `w'` extends the record of `w` by calls that contain at least
one solve and are gated from the flag `i`. -/
def LogSpec {S V : Type} (i : Bool) (w w' : World S V) : Prop :=
  ∃ seg, w'.log = w.log ++ seg ∧ Gated i (seg.filter Call.isSystemCall) ∧
    seg.filter Call.isSystemCall ≠ []

/-- An `iterateUntilDone` whose calls on root and solver are gated by its
argument `initialized` and contain at least one solve. -/
def RunnerGated {S V : Type} (run : Runner S V) : Prop :=
  ∀ x t i w r, run x t i w = .ok r → LogSpec i w r.2

/-- Shape of the calls on root and solver made from a point where the local
`initialized` has the given value, together with the state of the solver
before and after them: one block per solve. The block of a solve entered with
`initialized == false` in a world `w` is `A, initialize, b, solve` and takes the
solver from `w.solver` to `solver.initialize(root.A(implicitTime))` evaluated
in `w`; a block entered with `initialized == true` in a world `w` where
`root.isATheSame()` returns true is `isATheSame, b, solve` and leaves the state
of the solver as it is; one where `root.isATheSame()` returns false is
`isATheSame, A, initialize, b, solve` and takes the solver to
`solver.initialize(root.A(implicitTime))`. The time is the `implicitTime` of
the iteration (at nesting level `lvl`) that makes the solve. -/
inductive SolverGated {S M V : Type} (root : IterationNode S M V) (solver : LinearSolver S M V) :
    Bool → S → List Call → S → Prop where
  | done (i : Bool) (s : S) : SolverGated root solver i s [] s
  | first (w : World S V) (lvl : Nat) (rest : List Call) (s' : S) :
      SolverGated root solver true
        (solver.initialise w.solver (root.A w (w.vars lvl).implicitTime)) rest s' →
      SolverGated root solver false w.solver
        (Call.A (w.vars lvl).implicitTime :: Call.initialise ::
          Call.b (w.vars lvl).implicitTime :: Call.solve :: rest) s'
  | reuse (w : World S V) (lvl : Nat) (rest : List Call) (s' : S) :
      root.isATheSame w = true → SolverGated root solver true w.solver rest s' →
      SolverGated root solver true w.solver
        (Call.isATheSame true :: Call.b (w.vars lvl).implicitTime :: Call.solve :: rest) s'
  | rebuild (w : World S V) (lvl : Nat) (rest : List Call) (s' : S) :
      root.isATheSame w = false →
      SolverGated root solver true
        (solver.initialise w.solver
          (root.A (w.record [Call.isATheSame false]) (w.vars lvl).implicitTime)) rest s' →
      SolverGated root solver true w.solver
        (Call.isATheSame false :: Call.A (w.vars lvl).implicitTime :: Call.initialise ::
          Call.b (w.vars lvl).implicitTime :: Call.solve :: rest) s'

/-- The world `w'` extends the record of `w` by calls none of which is on the
root or the solver, and has the solver in the same state. -/
def Still {S V : Type} (w w' : World S V) : Prop :=
  Quiet w w' ∧ w'.solver = w.solver

/-- The world `w'` extends the record of `w` by calls that contain at least
one solve and, with the states of the solver in `w` and `w'`, are gated from
the flag `i`. -/
def SolverSpec {S M V : Type} (root : IterationNode S M V) (solver : LinearSolver S M V)
    (i : Bool) (w w' : World S V) : Prop :=
  ∃ seg, w'.log = w.log ++ seg ∧
    SolverGated root solver i w.solver (seg.filter Call.isSystemCall) w'.solver ∧
    seg.filter Call.isSystemCall ≠ []

/-- An `iterateUntilDone` whose calls on root and solver, and whose changes of
the solver, are gated by its argument `initialized` and contain at least one
solve. -/
def RunnerSolverGated {S M V : Type} (root : IterationNode S M V) (solver : LinearSolver S M V)
    (run : Runner S V) : Prop :=
  ∀ x t i w r, run x t i w = .ok r → SolverSpec root solver i w r.2

/-! ## Predicates on the history buffer used in the proofs -/

/-- A buffer as the constructor, `clear` and `push` leave it: positive
capacity, an array of that length, the cursor inside it, and the debug counter
either at capacity or equal to the cursor. -/
def CircularBuffer.WF {T : Type} (c : CircularBuffer T) : Prop :=
  0 < c.n ∧ c.data.length = c.n.toNat ∧ 0 ≤ c.tail ∧ c.tail < c.n ∧
    (c.size = c.n ∨ c.size = c.tail)

/-- A well-formed buffer whose index 0 can be read. -/
def CircularBuffer.Ready {T : Type} (c : CircularBuffer T) : Prop :=
  c.WF ∧ ∃ e, c.get 0 = some e

/-- A child iteration that returns on every input and leaves the variables of
the iteration at level `lvl` (its parent) as they are. -/
def ChildReturns {S V : Type} (lvl : Nat) (child : Option (Runner S V)) : Prop :=
  ∀ run, child = some run → ∀ x t i w, ∃ r, run x t i w = .ok r ∧ r.2.vars lvl = w.vars lvl

/-- Distance left to the pending event time in march order:
`direction * (nextEventTime - implicitTime)`. -/
def TimeIteration.distance (Forward : Bool) (nextEventTime implicitTime : Real) : Real :=
  direction Forward * (nextEventTime - implicitTime)

/-! ## Collaborators used in the examples -/

/-- Modelled from the spec: the classes `ForwardConstantStepper` and
`ReverseConstantStepper` are not in the files at hand; a constant stepper is a
`TimeIteration` whose `timestep()` returns the configured `dt` verbatim. -/
def ConstantStepper (V : Type) (Forward : Bool) (startTime endTime dt : Real) :
    TimeIteration V :=
  { Forward := Forward, id := 0, events := [], startTime := startTime, endTime := endTime,
    timestep := fun _ => dt, nodes := [] }

/-- A world whose iterations all start as after construction (`implicitTime`,
`dt`, `dtPrevious` at -1, no counts) with a history of the given capacity. -/
def World.fresh {V : Type} [Inhabited V] (lookback : Int) : World Unit V :=
  { vars := fun _ => { history := CircularBuffer.new lookback, implicitTime := -1, its := [],
                       dt := -1, dtPrevious := -1 },
    solver := (), log := [] }

/-- A wrapped system on one node with `A(t) = 0` and `b(t) = [1]`. -/
def unitSourceSystem : LinearSystem 1 :=
  { A := fun _ => 0, b := fun _ _ => 1, isATheSame := true }

/-- The implicit method (`ThetaInverse = 1`), forward, on `unitSourceSystem`,
attached to the iteration at level 0. -/
def implicitUnitSource : CrankNicolson 1 :=
  { Forward := true, ThetaInverse := 1, system := unitSourceSystem, iteration := 0 }

/-- The Crank-Nicolson method (`ThetaInverse = 2`), forward, on
`unitSourceSystem`, attached to the iteration at level 0. -/
def crankNicolsonUnitSource : CrankNicolson 1 :=
  { Forward := true, ThetaInverse := 2, system := unitSourceSystem, iteration := 0 }

/-- A world in which the iteration at level 0 holds the iterand `[0]` at time 0
and is computing the solution at `implicitTime = 1/2`. -/
def halfStepWorld : World Unit (Fin 1 → Real) :=
  let w : World Unit (Fin 1 → Real) := Iteration.pushHistory 0 0 (fun _ => 0) (World.fresh 1)
  w.setVars 0 { w.vars 0 with implicitTime := 1 / 2 }

/-- The events of scenario S4 in insertion order, on vectors of one component
written as scalars: first `v <- v + [1]`, then `v <- v * 2`, both at
`t = 1/2`. -/
def S4events : List (Real × (Real → Real)) :=
  [(1 / 2, fun v => v + 1), (1 / 2, fun v => v * 2)]

/-- The time iteration of scenario S4 as constructed, before the events are
added: times 0 to 1, constant timestep 1/2. -/
def S4new (Forward : Bool) : TimeIteration Real :=
  { Forward := Forward, id := 0, events := [], startTime := 0, endTime := 1,
    timestep := fun _ => 1 / 2, nodes := [] }

/-- The time iteration of scenario S4 after the two `add` calls (see
`S4iteration_eq`). -/
def S4iteration (Forward : Bool) : TimeIteration Real :=
  { S4new Forward with
    id := 2
    events := if Forward then [(0, 1 / 2, fun v => v + 1), (1, 1 / 2, fun v => v * 2)]
              else [(1, 1 / 2, fun v => v * 2), (0, 1 / 2, fun v => v + 1)] }

/-- A root node on vectors of one component, written as scalars, attached to
the iteration at level `lvl`: `A(t)` is the identity (no data), `b(t)` is the
previous iterand `iterand(0)`, and `isATheSame()` is `isTimestepTheSame()` of
the time iteration at level 0. -/
def carryRoot (lvl : Nat) : IterationNode Unit Unit Real :=
  { isATheSame := fun w => TimeIteration.isTimestepTheSame (w.vars 0),
    A := fun _ _ => (),
    b := fun w _ => (Iteration.iterand w lvl 0).getD 0 }

/-- A linear solver for the identity matrix: `solve(b, guess)` returns `b`. -/
def identitySolver : LinearSolver Unit Unit Real :=
  { initialise := fun _ _ => (), solve := fun _ b _ => b }

/-- The function `relativeError` on vectors of one component, written as
scalars: `|a - b| / max(scale, max(|a|, |b|))` in `double`s (see
`relativeError_one`). -/
def relativeError1 (a b : Double) (scale : Real) : Double :=
  Double.div (Double.abs (Double.sub a b))
    (Double.max (Double.finite scale) (Double.max (Double.abs a) (Double.abs b)))

/-- A `ToleranceIteration` on vectors of one finite component with tolerance and
scale 1/1000 and no nodes. -/
def scalarTolerance : ToleranceIteration Real :=
  { tolerance := 1 / 1000, scale := 1 / 1000, nodes := [],
    relativeError := fun a b s => relativeError1 (Double.finite a) (Double.finite b) s }

/-- A `ToleranceIteration` on vectors of one component of type `double`, finite
or not, with tolerance and scale 1/1000 and no nodes. -/
def doubleTolerance : ToleranceIteration Double :=
  { tolerance := 1 / 1000, scale := 1 / 1000, nodes := [], relativeError := relativeError1 }

/-- A root node on vectors of one component of type `double`, attached to the
iteration at level `lvl`: `A(t)` is the identity (no data), `b(t)` is
`1 / iterand(0)` in `double`s, and `isATheSame()` is true. -/
def reciprocalRoot (lvl : Nat) : IterationNode Unit Unit Double :=
  { isATheSame := fun _ => true,
    A := fun _ _ => (),
    b := fun w _ => Double.div (Double.finite 1) ((Iteration.iterand w lvl 0).getD Double.nan) }

/-- A linear solver for the identity matrix on vectors of one component of type
`double`: `solve(b, guess)` returns `b`. -/
def doubleIdentitySolver : LinearSolver Unit Unit Double :=
  { initialise := fun _ _ => (), solve := fun _ b _ => b }

/-- Scenario S4 marched in full with `epsilon = 1/1000`: the time iteration
`S4iteration` alone in the chain, root `carryRoot 0`, from a fresh world, with
loop budget 3. Returns the final vector and the record of calls. -/
def S4march (Forward : Bool) (x0 : Real) : Except Error (Real × List Call) :=
  match runChain (1 / 1000) 3 (carryRoot 0) identitySolver [IterationKind.time (S4iteration Forward)]
      0 with
  | none => .error Error.assertion
  | some run =>
    match run x0 (-1) false (World.fresh 1) with
    | .error e => .error e
    | .ok r => .ok (r.1, r.2.log)

/-- Scenario S4 with a tolerance iteration as the inner iteration of the time
iteration, root `carryRoot 1`, histories of capacity 2, loop budget 3. -/
def S4nested (Forward : Bool) (x0 : Real) : Except Error (Real × World Unit Real) :=
  match runChain (1 / 1000) 3 (carryRoot 1) identitySolver
      [IterationKind.time (S4iteration Forward), IterationKind.tolerance scalarTolerance] 0 with
  | none => .error Error.assertion
  | some run => run x0 (-1) false (World.fresh 2)

/-! ## Further definitions: explicit method, relative error, lookback -/

/-- The value `std::numeric_limits<int>::max()`. -/
def intMax : Int := 2147483647

/-- The aliases `ReverseExplicitMethod` / `ForwardExplicitMethod`:
`CrankNicolson<Dimension, Forward, std::numeric_limits<int>::max()>`. -/
def ExplicitMethod {n : Nat} (Forward : Bool) (system : LinearSystem n) (iteration : Nat) :
    CrankNicolson n :=
  { Forward := Forward, ThetaInverse := intMax, system := system, iteration := iteration }

/-- The virtual `isTimestepTheSame()` of the iteration a node is attached to:
`true` for a `ToleranceIteration`, `dt == dtPrevious` for a `TimeIteration`. -/
def IterationKind.isTimestepTheSame {V : Type} (k : IterationKind V) (v : Vars V) : Bool :=
  match k with
  | .tolerance it => it.isTimestepTheSame
  | .time _ => TimeIteration.isTimestepTheSame v

/-- Function `relativeError(a, b, scale)` on vectors of `n` components of type
`double` (the assertion `a.size() == b.size()` is in the types):
`assert(scale >= 0.)`, then `(a - b).cwiseAbs().cwiseQuotient((scale * Ones)
.cwiseMax(a.cwiseAbs().cwiseMax(b.cwiseAbs()))).maxCoeff()`; `maxCoeff()` is
the first coefficient combined with the others in order by `Double.max`, so
the coefficient itself on a vector of one component. The result is `none` when
the assertion fails and for vectors without components, where `maxCoeff()` has
no value. -/
def relativeError {n : Nat} (a b : Fin n → Double) (scale : Real) : Option Double :=
  if scale ≥ 0 then
    match List.ofFn fun i =>
        Double.div (Double.abs (Double.sub (a i) (b i)))
          (Double.max (Double.finite scale) (Double.max (Double.abs (a i)) (Double.abs (b i))))
      with
    | [] => none
    | q :: qs => some (qs.foldl Double.max q)
  else none

/-- A wrapped system on one node with `A(t) = [1]` and `b(t) = [t]`. -/
def rampSystem : LinearSystem 1 :=
  { A := fun _ => 1, b := fun t _ => t, isATheSame := true }

/-- A world in which the iteration at level 0 holds the iterand `x0` at time
`t0` and is computing the solution at `implicitTime = t1`. -/
def stepWorld {n : Nat} (t0 t1 : Real) (x0 : Fin n → Real) : World Unit (Fin n → Real) :=
  let w : World Unit (Fin n → Real) := Iteration.pushHistory 0 t0 x0 (World.fresh 1)
  w.setVars 0 { w.vars 0 with implicitTime := t1 }

/-- The part of `Iteration::solve` that sets up the history of one iteration
`current` of the chain: `int lookback = current->minimumLookback(); for(auto
node : current->nodes) { int tmp = node->minimumLookback(); if(tmp > lookback)
lookback = tmp; delete current->history; current->history = new CB(lookback); }`.
The history pointer is `none` when it is `nullptr`; `lookbackOf` gives
`minimumLookback()` of a node. Returns the final `lookback` and the history
pointer. -/
def Iteration.solveHistory {T : Type} [Inhabited T] (minimumLookback : Int)
    (lookbackOf : Nat → Int) (nodes : List Nat) (history : Option (CircularBuffer T)) :
    Int × Option (CircularBuffer T) :=
  nodes.foldl
    (fun st node =>
      ((if lookbackOf node > st.1 then lookbackOf node else st.1),
       some (CircularBuffer.new (if lookbackOf node > st.1 then lookbackOf node else st.1))))
    (minimumLookback, history)

/-- The first step of a forward march on `[0, 1]` with `epsilon = 1/1000`, a
constant timestep `3/10` and one event added at `t = 1/2000`: the world after
the opening of `iterateUntilDone` and the first `TIMESTEP` towards the time of
the top of the working queue (an assertion error if `add` refuses the event). -/
def closeEventFirstStep : Except Error (World Unit (Fin 1 → Real)) :=
  match TimeIteration.add (1 / 1000) (ConstantStepper (Fin 1 → Real) true 0 1 (3 / 10))
      (1 / 2000) (fun v => v) with
  | none => .error Error.assertion
  | some it =>
    match (TimeIteration.OUTER_HEAD it).top with
    | none => .error Error.assertion
    | some e =>
      TimeIteration.TIMESTEP (1 / 1000) it 0 e.2.1
        (Iteration.opening 0 it.nodes (fun _ => 1) (TimeIteration.SET_TIME it 0 (World.fresh 1)))

/-! ## Steps and boundaries of a run, for the proofs -/

/-- One turn of the step loop up to and including `TAIL`: `TIMESTEP`, `HEAD`
(`startNodes`), the step that produces the iterand, `TAIL`. The loop
`stepLoop` is this turn followed by the test `NOT_DONE` (see
`stepLoop_succ`). -/
def Iteration.turn {S M V : Type} (root : IterationNode S M V) (solver : LinearSolver S M V)
    (lvl : Nat) (nodes : List Nat) (child : Option (Runner S V))
    (TIMESTEP : World S V → Except Error (World S V)) (initialized : Bool) (w : World S V) :
    Except Error (World S V) :=
  match TIMESTEP w with
  | .error e => .error e
  | .ok w1 =>
    match Iteration.produce root solver lvl child initialized (Iteration.startNodes nodes w1) with
    | .error e => .error e
    | .ok w2 => .ok (Iteration.TAIL lvl nodes w2)

/-- The calls recorded by one step at level `lvl`: `onIterationStart` on the
nodes in list order, the calls `body` of the solve or of the inner iteration,
the push of the result, `onIterationEnd` on the nodes in reverse order. -/
def Iteration.stepCalls (lvl : Nat) (nodes : List Nat) (body : List Call) (t : Real) :
    List Call :=
  nodes.map Call.onIterationStart ++ body ++ [Call.push lvl t]
    ++ nodes.reverse.map Call.onIterationEnd

/-- The calls of the step that produces the iterand, before the push: without
a child, calls on root and solver only, ending with `solver.solve`; with a
child, the record of one `iterateUntilDone` of the child. -/
def Iteration.ProduceCalls {S V : Type} (child : Option (Runner S V)) (body : List Call) :
    Prop :=
  match child with
  | none => body.all Call.isSystemCall = true ∧ body.getLast? = some Call.solve
  | some run => ∃ x t i w r, run x t i w = .ok r ∧ r.2.log = w.log ++ body

/-- The calls recorded by one event boundary at level `lvl`: the events applied
(by sequence number), `onAfterEvent` on the nodes in list order, the push of
the transformed vector. -/
def TimeIteration.boundaryCalls (lvl : Nat) (nodes : List Nat) (seqs : List Nat) (t : Real) :
    List Call :=
  seqs.map Call.event ++ nodes.map Call.onAfterEvent ++ [Call.push lvl t]

/-- An `iterateUntilDone` that leaves the variables of every iteration above
level `L` (levels `j < L`) as they are. -/
def RunnerFrame {S V : Type} (L : Nat) (run : Runner S V) : Prop :=
  ∀ x t i w r, run x t i w = .ok r → ∀ j, j < L → r.2.vars j = w.vars j

/-- The attached nodes of an iteration of the chain. -/
def IterationKind.nodes {V : Type} (k : IterationKind V) : List Nat :=
  match k with
  | .tolerance it => it.nodes
  | .time it => it.nodes

/-- The phase `TIMESTEP` that `iterateUntilDone` of the class passes to its
step loop: empty for a `ToleranceIteration`; for a `TimeIteration`, the macro
towards the pending event time `nextEventTime`. -/
def IterationKind.TIMESTEP {S V : Type} (epsilon : Real) (k : IterationKind V) (lvl : Nat)
    (nextEventTime : Real) : World S V → Except Error (World S V) :=
  match k with
  | .tolerance _ => fun w => .ok w
  | .time it => TimeIteration.TIMESTEP epsilon it lvl nextEventTime

/-- The phase `NOT_DONE` that `iterateUntilDone` of the class passes to its
step loop. -/
def IterationKind.NOT_DONE {S V : Type} (epsilon : Real) (k : IterationKind V) (lvl : Nat)
    (nextEventTime : Real) : World S V → Except Error Bool :=
  match k with
  | .tolerance it => ToleranceIteration.NOT_DONE it lvl
  | .time it => TimeIteration.NOT_DONE epsilon it lvl nextEventTime

/-- A forward constant stepper on `[0, 1]` with timestep 1/2, on vectors of one
component, with the nodes 7 and 8 attached in this order. -/
def hookedStepper : TimeIteration Real :=
  { ConstantStepper Real true 0 1 (1 / 2) with nodes := [7, 8] }

/-- A `ToleranceIteration` as `scalarTolerance` with the node 9 attached. -/
def hookedTolerance : ToleranceIteration Real :=
  { scalarTolerance with nodes := [9] }

/-- The forward iteration of scenario S4 with the nodes 7 and 8 attached in
this order. -/
def hookedS4 : TimeIteration Real :=
  { S4iteration true with nodes := [7, 8] }

/-- Scenario S5 with `epsilon = 1/1000`: a forward time iteration on `[0, 1]`
with constant timestep 1/2 wraps the tolerance iteration `scalarTolerance`; the
root (`carryRoot 1`, attached to the inner iteration) has `A = I` and
`b` = previous iterand; histories of capacity 2, loop budget 3, initial vector
`[3]`. -/
def S5nested : Except Error (Real × World Unit Real) :=
  match runChain (1 / 1000) 3 (carryRoot 1) identitySolver
      [IterationKind.time (ConstantStepper Real true 0 1 (1 / 2)),
       IterationKind.tolerance scalarTolerance] 0 with
  | none => .error Error.assertion
  | some run => run 3 (-1) false (World.fresh 2)

/-- The tolerance iteration `scalarTolerance` run on its own (as the outermost
iteration, so from the time -1 that `solve` passes), root `carryRoot 0`,
history of capacity 2, loop budget 3, initial vector `[3]`. -/
def toleranceAlone : Except Error (Real × World Unit Real) :=
  match runChain (1 / 1000) 3 (carryRoot 0) identitySolver
      [IterationKind.tolerance scalarTolerance] 0 with
  | none => .error Error.assertion
  | some run => run 3 (-1) false (World.fresh 2)

/-- A root node on vectors of one component attached to the iteration at level
`lvl`: `A(t)` is the identity (no data), `b(t)` is `min(iterand(0), 1)`, and
`isATheSame()` is true. -/
def clampRoot (lvl : Nat) : IterationNode Unit Unit Real :=
  { isATheSame := fun _ => true,
    A := fun _ _ => (),
    b := fun w _ => min ((Iteration.iterand w lvl 0).getD 0) 1 }

/-- The vector `x` is the solution produced by a step entered in the world `w`
with the flag `initialized`: without a child, the value of
`solver.solve(root.b(implicitTime), iterand(0))` (the solver possibly
re-initialised first, which leaves the variables as they are); with a child,
the vector returned by `child->iterateUntilDone(iterand(0), root, solver,
implicitTime, initialized)`. -/
def Iteration.Produced {S M V : Type} (root : IterationNode S M V) (solver : LinearSolver S M V)
    (lvl : Nat) (child : Option (Runner S V)) (initialized : Bool) (w : World S V) (x : V) :
    Prop :=
  match child with
  | none => ∃ (w1 : World S V) (x0 : V), w1.vars = w.vars ∧ Iteration.iterand w lvl 0 = some x0 ∧
      x = solver.solve w1.solver (root.b w1 (w.vars lvl).implicitTime) x0
  | some run => ∃ (x0 : V) (r : V × World S V), Iteration.iterand w lvl 0 = some x0 ∧
      run x0 (w.vars lvl).implicitTime initialized w = .ok r ∧ x = r.1

/-! ## Discretization: Dirichlet boundary conditions -/

/-- Class `Discretization<Dimension>`, the part for boundary conditions: the
member `boundary`, a `std::unordered_map<Index, Function<Dimension + 1>>`, kept
as a list of pairs with distinct keys, and `domain.coordinates`; `C` is the
type of the coordinates of a node. -/
structure Discretization (C : Type) where
  boundary : List (Int × (Real → C → Real))
  coordinates : Int → C

namespace Discretization

variable {C : Type} {n : Nat}

/-- Constructor `Discretization(domain)`: the map `boundary` is empty. -/
def new (coordinates : Int → C) : Discretization C :=
  { boundary := [], coordinates := coordinates }

/-- Method `addDirichletNode(index, function)`: `boundary[index] = function`;
the value of an existing key is replaced, a new key is inserted. -/
def addDirichletNode (d : Discretization C) (index : Int) (function : Real → C → Real) :
    Discretization C :=
  { d with boundary :=
      if d.boundary.any (fun pair => decide (pair.1 = index)) then
        d.boundary.map (fun pair => if pair.1 = index then (index, function) else pair)
      else (index, function) :: d.boundary }

/-- The loop `for(auto pair : boundary) { index = pair.first; b(index) =
pair.second(time, domain.coordinates(index)); }` of `Discretization::b` over
the pairs in the order `pairs` in which the map iterates them (an order the
standard library leaves open). The coefficient access `b(index)` of the vector
type asserts `0 <= index < size`. -/
def overlay (d : Discretization C) (time : Real) :
    List (Int × (Real → C → Real)) → (Fin n → Real) → Option (Fin n → Real)
  | [], b => some b
  | pair :: pairs, b =>
    if h : 0 ≤ pair.1 ∧ pair.1 < (n : Int) then
      overlay d time pairs
        (Function.update b ⟨pair.1.toNat, by omega⟩ (pair.2 time (d.coordinates pair.1)))
    else none

/-- Method `Discretization::b(time)`: `Vector b = bd(time);` then the loop over
`boundary`; `bd` is the virtual method of the subclass, which may fail an
assertion. -/
def b (d : Discretization C) (bd : Real → Option (Fin n → Real)) (time : Real) :
    Option (Fin n → Real) :=
  match bd time with
  | none => none
  | some v => d.overlay time d.boundary v

/-- Method `Discretization::A(time)`: `Matrix A = Ad(time); return A;` (the
block that would change rows of `A` is compiled out by `#if 0`). -/
def A {M : Type} (_d : Discretization C) (Ad : Real → M) (time : Real) : M := Ad time

/-- The function `f` is the one most recently registered for the index `i` by
the calls `regs` (in call order). -/
def LastRegistered (regs : List (Int × (Real → C → Real))) (i : Int) (f : Real → C → Real) :
    Prop :=
  ∃ pre post, regs = pre ++ (i, f) :: post ∧ ∀ p ∈ post, p.1 ≠ i

end Discretization

/-! ## Binding nodes to iterations -/

/-- The state that `IterationNode::setIteration` acts on, with iterations and
nodes named by numbers: the member `nodes` (a `std::list<IterationNode *>`) of
each iteration and the member `iteration` of each node (`none` for
`nullptr`). -/
structure Bindings where
  nodes : Nat → List Nat
  iteration : Nat → Option Nat

namespace Bindings

/-- The state after construction: `Iteration()` leaves `nodes` empty and
`IterationNode()` sets `iteration(nullptr)`. -/
def initial : Bindings := { nodes := fun _ => [], iteration := fun _ => none }

/-- The statement `this->iteration->nodes.remove(this)` under
`if(this->iteration)`: `std::list::remove` erases every element equal to the
value. -/
def detach (s : Bindings) (node : Nat) : Nat → List Nat :=
  match s.iteration node with
  | some i => Function.update s.nodes i ((s.nodes i).filter (fun m => decide (m ≠ node)))
  | none => s.nodes

/-- Method `IterationNode::setIteration(iteration)` called on `node` with the
iteration `j`: `if(this->iteration) this->iteration->nodes.remove(this);
this->iteration = &iteration; iteration.nodes.push_back(this);`. -/
def setIteration (s : Bindings) (node j : Nat) : Bindings :=
  { nodes := Function.update (s.detach node) j (s.detach node j ++ [node])
    iteration := Function.update s.iteration node (some j) }

/-- The state after a sequence of `setIteration` calls `(node, iteration)`. -/
def after (calls : List (Nat × Nat)) : Bindings :=
  calls.foldl (fun s c => s.setIteration c.1 c.2) initial

/-- Every node in a list is bound to the iteration of that list, and no list
holds a node twice. -/
def Consistent (s : Bindings) : Prop :=
  (∀ m i, m ∈ s.nodes i → s.iteration m = some i) ∧ ∀ i, (s.nodes i).Nodup

end Bindings

/-! ## A theta-scheme node as the root of a solve -/

/-- The world as a `CrankNicolson` node reads it, for a solve whose vectors
and matrices are optional (`none` standing for the value of a computation that
failed an assertion): the entries of the histories with `none` read as the
zero vector. The node checks the entry it reads before using this view (see
`CrankNicolson.node`). -/
def World.values {S : Type} {n : Nat} (w : World S (Option (Fin n → Real))) :
    World S (Fin n → Real) :=
  { vars := fun j =>
      { history :=
          { data := (w.vars j).history.data.map (fun e => (e.1, e.2.getD 0))
            tail := (w.vars j).history.tail
            n := (w.vars j).history.n
            size := (w.vars j).history.size }
        implicitTime := (w.vars j).implicitTime
        its := (w.vars j).its
        dt := (w.vars j).dt
        dtPrevious := (w.vars j).dtPrevious }
    solver := w.solver
    log := w.log }

/-- A `CrankNicolson` discretization as the root `IterationNode` of a solve,
attached to the iteration `owner` at level `cn.iteration`: `A(t)` and `b(t)`
are those of `Discretization` over `Ad` and `bd`, `isATheSame()` is that of
`CrankNicolson`. A failed assertion of `dt()` gives `none`, and so does a
previous iterand that is `none`. -/
def CrankNicolson.node {S C : Type} {n : Nat} (epsilon : Real) (cn : CrankNicolson n)
    (d : Discretization C) (owner : IterationKind (Option (Fin n → Real))) :
    IterationNode S (Option (Matrix (Fin n) (Fin n) Real)) (Option (Fin n → Real)) :=
  { isATheSame := fun w =>
      cn.isATheSame epsilon (owner.isTimestepTheSame (w.vars cn.iteration))
    A := fun w t => d.A (cn.Ad epsilon w.values) t
    b := fun w t =>
      match Iteration.iterand w cn.iteration 0 with
      | some (some _) => d.b (cn.bd epsilon w.values) t
      | _ => none }

/-- A linear solver that is exact on diagonal matrices: `initialize(A)` keeps
`A`, and `solve(b, guess)` returns the solution `x` of `A x = b`, that is
`x[i] = b[i] / A[i][i]`; `none` for a matrix that is not diagonal or has a zero
on the diagonal, and for an input that is `none`. -/
def diagonalSolver (n : Nat) :
    LinearSolver (Option (Matrix (Fin n) (Fin n) Real)) (Option (Matrix (Fin n) (Fin n) Real))
      (Option (Fin n → Real)) :=
  { initialise := fun _ A => A
    solve := fun s b _ =>
      match s, b with
      | some A, some v =>
        if (∀ i j, i ≠ j → A i j = 0) ∧ (∀ i, A i i ≠ 0) then some (fun i => v i / A i i)
        else none
      | _, _ => none }

/-- A world whose iterations all start as after construction, with a history
of the given capacity and the given state of the linear solver. -/
def World.freshWith {S V : Type} [Inhabited V] (solver : S) (lookback : Int) : World S V :=
  { vars := fun _ => { history := CircularBuffer.new lookback, implicitTime := -1, its := [],
                       dt := -1, dtPrevious := -1 },
    solver := solver, log := [] }

/-- A root node as `carryRoot` (attached to the iteration at level `lvl`) for a
solver with state, whose matrix `A(t)` is the number `t`. -/
def stampedRoot (lvl : Nat) : IterationNode (List Real) Real Real :=
  { isATheSame := fun w => TimeIteration.isTimestepTheSame (w.vars 0),
    A := fun _ t => t,
    b := fun w _ => (Iteration.iterand w lvl 0).getD 0 }

/-- A linear solver for the identity matrix whose state is the list of the
matrices passed to `initialize`, in order: `solve(b, guess)` returns `b`. -/
def recordingSolver : LinearSolver (List Real) Real Real :=
  { initialise := fun s A => s ++ [A], solve := fun _ b _ => b }

/-- A forward march on `[0, 1]` with constant timestep 3/10 and
`epsilon = 1/1000` (steps to 3/10, 6/10, 9/10 and, cut, to 1), alone in the
chain, on the root `stampedRoot 0` and the solver `recordingSolver`, from the
vector `[3]` and a solver never initialised; loop budget 5. -/
def stampedMarch : Except Error (Real × World (List Real) Real) :=
  match runChain (1 / 1000) 5 (stampedRoot 0) recordingSolver
      [IterationKind.time (ConstantStepper Real true 0 1 (3 / 10))] 0 with
  | none => .error Error.assertion
  | some run => run 3 (-1) false (World.freshWith [] 1)

/-- The wrapped system of scenario S1 on three nodes: `A(t) = 0`, `b(t) = 0`. -/
def S1system : LinearSystem 3 :=
  { A := fun _ => 0, b := fun _ => 0, isATheSame := true }

/-- The time iteration of scenario S1: a reverse constant stepper from `t = 1`
to `t = 0` with timestep 1/4 and no events. -/
def S1stepper : TimeIteration (Option (Fin 3 → Real)) :=
  ConstantStepper (Option (Fin 3 → Real)) false 0 1 (1 / 4)

/-- Scenario S1 with `epsilon = 1/1000`: the reverse Crank-Nicolson method
(`ThetaInverse = 2`) on `S1system`, without Dirichlet nodes, as the root of a
solve by `S1stepper` alone (no inner iteration), from `x0 = [1, 2, 3]`, with
the exact solver, a history of capacity 1 and loop budget 5. -/
def S1march : Except Error (Option (Fin 3 → Real) × World (Option (Matrix (Fin 3) (Fin 3) Real))
    (Option (Fin 3 → Real))) :=
  match runChain (1 / 1000) 5
      (CrankNicolson.node (1 / 1000)
        { Forward := false, ThetaInverse := 2, system := S1system, iteration := 0 }
        (Discretization.new (fun _ => ())) (IterationKind.time S1stepper))
      (diagonalSolver 3) [IterationKind.time S1stepper] 0 with
  | none => .error Error.assertion
  | some run =>
    run (some (fun i => if i = 0 then 1 else if i = 1 then 2 else 3)) (-1) false
      (World.freshWith none 1)

/-- The pushes into a history and the applications of events, among the calls
of a record. -/
def Call.isPushOrEvent : Call → Bool
  | .push _ _ => true
  | .event _ => true
  | _ => false

/-- The wrapped system of scenario S2 on one node: `A(t) = [1]`, `b(t) = 0`. -/
def S2system : LinearSystem 1 :=
  { A := fun _ => 1, b := fun _ => 0, isATheSame := true }

/-- The time iteration of scenario S2: a forward constant stepper on `[0, 1]`
with timestep 1/10 and no events. -/
def S2stepper : TimeIteration (Option (Fin 1 → Real)) :=
  ConstantStepper (Option (Fin 1 → Real)) true 0 1 (1 / 10)

/-- The root of scenario S2 with `epsilon = 1/1000`: the forward implicit
method (`ThetaInverse = 1`) on `S2system`, without Dirichlet nodes, attached to
`S2stepper`. -/
def S2root : IterationNode (Option (Matrix (Fin 1) (Fin 1) Real))
    (Option (Matrix (Fin 1) (Fin 1) Real)) (Option (Fin 1 → Real)) :=
  CrankNicolson.node (1 / 1000)
    { Forward := true, ThetaInverse := 1, system := S2system, iteration := 0 }
    (Discretization.new (fun _ => ())) (IterationKind.time S2stepper)

/-- Scenario S2 with `epsilon = 1/1000`: a solve by `S2stepper` alone (no
inner iteration) on `S2root` from `x0 = [1]`, with the exact solver, a history
of capacity 1 and loop budget 11. -/
def S2march : Except Error (Option (Fin 1 → Real) × World (Option (Matrix (Fin 1) (Fin 1) Real))
    (Option (Fin 1 → Real))) :=
  match runChain (1 / 1000) 11 S2root (diagonalSolver 1) [IterationKind.time S2stepper] 0 with
  | none => .error Error.assertion
  | some run => run (some (fun _ => 1)) (-1) false (World.freshWith none 1)

/-- The world of scenario S2 after the opening of `iterateUntilDone` and the
first `j` steps of the step loop towards the terminal time 1. -/
def S2steps : Nat → Except Error (World (Option (Matrix (Fin 1) (Fin 1) Real))
    (Option (Fin 1 → Real)))
  | 0 => .ok (Iteration.opening 0 S2stepper.nodes (some (fun _ => 1))
      (TimeIteration.SET_TIME S2stepper 0 (World.freshWith none 1)))
  | j + 1 =>
    match S2steps j with
    | .error e => .error e
    | .ok w =>
      Iteration.turn S2root (diagonalSolver 1) 0 S2stepper.nodes none
        (TimeIteration.TIMESTEP (1 / 1000) S2stepper 0 1) (decide (j ≠ 0)) w

/-- A root node on vectors of one component, written as scalars, attached to
the iteration at level `lvl`: `A(t)` is the identity (no data), `b(t)` is
`iterand(0) + 1`, and `isATheSame()` is true. -/
def incrementRoot (lvl : Nat) : IterationNode Unit Unit Real :=
  { isATheSame := fun _ => true,
    A := fun _ _ => (),
    b := fun w _ => (Iteration.iterand w lvl 0).getD 0 + 1 }

/-- Scenario S3 with `epsilon = 1/1000`: a forward constant stepper on `[0, 1]`
with timestep 3/10 and the event `event` added at `t = 1/2`, alone in the
chain, on the root `incrementRoot 0` (every step adds 1 to the vector) with the
identity solver, from the vector `x0`, with a history of capacity 1 and loop
budget 3. -/
def S3march (event : Real → Real) (x0 : Real) : Except Error (Real × World Unit Real) :=
  match TimeIteration.add (1 / 1000) (ConstantStepper Real true 0 1 (3 / 10)) (1 / 2) event with
  | none => .error Error.assertion
  | some it =>
    match runChain (1 / 1000) 3 (incrementRoot 0) identitySolver [IterationKind.time it] 0 with
    | none => .error Error.assertion
    | some run => run x0 (-1) false (World.fresh 1)

/-! ## The boundaries of a march, for the proofs -/

/-- The working queues `qs 0, ..., qs m` of a march over `m` event boundaries
of the iteration `it`: `qs 0` is the queue built by `OUTER_HEAD` from the
member `events`; boundary `b` is at the time of the top of `qs b` and pops the
entries at the top that share this time; the march goes on to a further
boundary exactly when `Order()(terminalTime(), time)` holds. -/
def TimeIteration.Schedule {V : Type} (it : TimeIteration V) (m : Nat)
    (qs : Nat → PriorityQueue V) : Prop :=
  1 ≤ m ∧ qs 0 = TimeIteration.OUTER_HEAD it ∧
  ∀ b, b < m → ∃ e, (qs b).top = some e ∧
    qs (b + 1) = (qs b).dropWhile (fun a => decide (a.2.1 = e.2.1)) ∧
    (Order it.Forward it.terminalTime e.2.1 = true ↔ b + 1 < m)

/-- A run of `TimeIteration::iterateUntilDone` from the world `w` and the
vector `x` to the world `w'` visits the boundaries of the queues `qs`: before
boundary `b` it runs the step loop towards the time of the top of `qs b`, and
at the boundary it applies the entries at the top of `qs b` that share this
time, in queue order, then calls `onAfterEvent` on the nodes and pushes at this
time. -/
def TimeIteration.Fires {S M V : Type} (epsilon : Real) (fuel : Nat)
    (root : IterationNode S M V) (solver : LinearSolver S M V) (it : TimeIteration V) (lvl : Nat)
    (child : Option (Runner S V)) (x : V) (w w' : World S V) (m : Nat)
    (qs : Nat → PriorityQueue V) : Prop :=
  ∃ ws : Nat → World S V,
    ws 0 = Iteration.opening lvl it.nodes x (TimeIteration.SET_TIME it lvl w) ∧ ws m = w' ∧
    ∀ b, b < m → ∃ e i pre, (qs b).top = some e ∧
      Iteration.stepLoop root solver lvl it.nodes child
        (TimeIteration.TIMESTEP epsilon it lvl e.2.1)
        (TimeIteration.NOT_DONE epsilon it lvl e.2.1) fuel i (ws b) = .ok pre ∧
      ((ws (b + 1)).vars lvl).implicitTime = e.2.1 ∧
      (ws (b + 1)).log = pre.2.log ++ TimeIteration.boundaryCalls lvl it.nodes
        (((qs b).takeWhile (fun a => decide (a.2.1 = e.2.1))).map (fun a => a.1)) e.2.1

/-! ## The method `solve` and the counts of steps -/

/-- The virtual `minimumLookback()` of an iteration: 2 for a
`ToleranceIteration`, the default 1 of `Iteration` for a `TimeIteration`. -/
def IterationKind.minimumLookback {V : Type} (k : IterationKind V) : Int :=
  match k with
  | .tolerance it => it.minimumLookback
  | .time _ => 1

/-- The loop of `Iteration::solve` over the chain, from the iteration at level
`lvl` on: `do { [the history of current, see solveHistory] current->its.clear();
current = current->child; } while(current);`. When the loop over the nodes
allocates nothing the history stays the one of the world. -/
def Iteration.solveSetup {S V : Type} [Inhabited V] (lookbackOf : Nat → Int) :
    List (IterationKind V) → Nat → World S V → World S V
  | [], _, w => w
  | k :: rest, lvl, w =>
    Iteration.solveSetup lookbackOf rest (lvl + 1)
      (w.setVars lvl { w.vars lvl with
        history := ((Iteration.solveHistory k.minimumLookback lookbackOf k.nodes
          (some (w.vars lvl).history)).2).getD (w.vars lvl).history
        its := [] })

/-- Method `Iteration::solve` called on the head of the chain, after
`map(initialCondition)` has given the vector `x0` and before `factory.make`
wraps the result: the loop over the chain, then `iterateUntilDone(x0, root,
solver, -1., false)`. -/
def Iteration.solve {S M V : Type} [Inhabited V] (epsilon : Real) (fuel : Nat)
    (root : IterationNode S M V) (solver : LinearSolver S M V) (lookbackOf : Nat → Int)
    (chain : List (IterationKind V)) (x0 : V) (w : World S V) : Except Error (V × World S V) :=
  match runChain epsilon fuel root solver chain 0 with
  | none => .error Error.assertion
  | some run => run x0 (-1) false (Iteration.solveSetup lookbackOf chain 0 w)

/-- The phase `SET_TIME` of an iteration of either class, given the argument
`time` of `iterateUntilDone`. -/
def IterationKind.SET_TIME {S V : Type} (k : IterationKind V) (lvl : Nat) (time : Real)
    (w : World S V) : World S V :=
  match k with
  | .tolerance _ => w.setVars lvl { w.vars lvl with implicitTime := time }
  | .time it => TimeIteration.SET_TIME it lvl w

/-- The worlds before and after an event boundary of the iteration at level
`lvl`: an `OUTER_TAIL` of a `TimeIteration`; a `ToleranceIteration` has none. -/
def IterationKind.boundary {S V : Type} [Inhabited V] (k : IterationKind V) (lvl : Nat)
    (w w' : World S V) : Prop :=
  match k with
  | .tolerance _ => False
  | .time it => ∃ ne events r, TimeIteration.OUTER_TAIL it lvl ne events w = .ok r ∧ r.2 = w'

/-- A passage from the world `w` to the world `w'` by steps and boundaries in
any succession; `cs` lists the labels of the steps, in order. -/
inductive Iteration.March {W : Type} (step : W → Nat → W → Prop) (boundary : W → W → Prop) :
    W → List Nat → W → Prop where
  | start (w : W) : Iteration.March step boundary w [] w
  | step {w w1 w2 : W} {cs : List Nat} {c : Nat} : Iteration.March step boundary w cs w1 →
      step w1 c w2 → Iteration.March step boundary w (cs ++ [c]) w2
  | boundary {w w1 w2 : W} {cs : List Nat} : Iteration.March step boundary w cs w1 →
      boundary w1 w2 → Iteration.March step boundary w cs w2

/-- The run of `iterateUntilDone` of the iteration `k` at level `lvl` (its
child the rest of the chain) from the vector `x`, the time `time` and the world
`w`, ending in the world `w'`, made `c` steps of its loop: after the opening it
is a succession of `c` steps (turns of the step loop) and of event
boundaries. -/
def Iteration.RunSteps {S M V : Type} [Inhabited V] (epsilon : Real) (fuel : Nat)
    (root : IterationNode S M V) (solver : LinearSolver S M V) (k : IterationKind V)
    (rest : List (IterationKind V)) (lvl : Nat) (x : V) (time : Real) (w w' : World S V)
    (c : Nat) : Prop :=
  ∃ cs : List Nat, cs.length = c ∧
    Iteration.March
      (fun a _ b => ∃ ne i, Iteration.turn root solver lvl k.nodes
        (runChain epsilon fuel root solver rest (lvl + 1)) (k.TIMESTEP epsilon lvl ne) i a = .ok b)
      (k.boundary lvl)
      (Iteration.opening lvl k.nodes x (k.SET_TIME lvl time w)) cs w'

/-- One step of the iteration `k` at level `lvl`, from the world `w` to the
world `w'`, whose inner iteration `k'` (followed by `rest`) made `c` steps:
`TIMESTEP`, `startNodes`, then the run of the child from `iterand(0)` that
returns `r`, then the push of the vector returned and `TAIL`. -/
def Iteration.StepCounting {S M V : Type} [Inhabited V] (epsilon : Real) (fuel : Nat)
    (root : IterationNode S M V) (solver : LinearSolver S M V) (k k' : IterationKind V)
    (rest : List (IterationKind V)) (lvl : Nat) (w : World S V) (c : Nat) (w' : World S V) :
    Prop :=
  ∃ (ne : Real) (i : Bool) (w1 : World S V) (x : V) (r : V × World S V),
    k.TIMESTEP epsilon lvl ne w = .ok w1 ∧
    Iteration.iterand (Iteration.startNodes k.nodes w1) lvl 0 = some x ∧
    (∃ run, runChain epsilon fuel root solver (k' :: rest) (lvl + 1) = some run ∧
      run x ((Iteration.startNodes k.nodes w1).vars lvl).implicitTime i
        (Iteration.startNodes k.nodes w1) = .ok r) ∧
    Iteration.RunSteps epsilon fuel root solver k' rest (lvl + 1) x
      ((Iteration.startNodes k.nodes w1).vars lvl).implicitTime
      (Iteration.startNodes k.nodes w1) r.2 c ∧
    w' = Iteration.TAIL lvl k.nodes
      (Iteration.pushHistory lvl (r.2.vars lvl).implicitTime r.1 r.2)

/-! ## Controllable -/

/-- Class `Controllable<Dimension>::Base` with its subclasses `Constant`,
`FunctionST`, `FunctionS` and `Control`, as one type with their members. A
`Function<N>` is a function of an array of `N` reals; the interpolant wrapper
`WI` is `none` when it wraps `nullptr`; the factory wrapper `WF` is its method
`make`, from an input vector to an interpolant. -/
inductive Controllable.Base (D : Nat) (V : Type) where
  | Constant (constant : Real)
  | FunctionST (function : (Fin (D + 1) → Real) → Real)
  | FunctionS (function : (Fin D → Real) → Real)
  | Control (factory : V → (Fin D → Real) → Real) (interpolant : Option ((Fin D → Real) → Real))

namespace Controllable.Base

variable {D : Nat} {V : Type}

/-- Method `value(coordinates)` on the array `{time, coordinates...}`:
`Constant` returns `constant`; `FunctionST` calls `function` on the whole
array; `FunctionS` calls `function` on `coordinates.data() + 1`; `Control`
asserts `interpolant` and calls it on `coordinates.data() + 1`. -/
def value : Base D V → (Fin (D + 1) → Real) → Option Real
  | Constant constant, _ => some constant
  | FunctionST function, coordinates => some (function coordinates)
  | FunctionS function, coordinates => some (function (fun i => coordinates i.succ))
  | Control _ interpolant, coordinates =>
    match interpolant with
    | none => none
    | some f => some (f (fun i => coordinates i.succ))

/-- Method `isConstantInTime()`: the default `false` of `Base`, overridden to
`true` by `Constant` and `FunctionS`. -/
def isConstantInTime : Base D V → Bool
  | Constant _ => true
  | FunctionST _ => false
  | FunctionS _ => true
  | Control _ _ => false

/-- Method `isControllable()`: the default `false` of `Base`, overridden to
`true` by `Control`. -/
def isControllable : Base D V → Bool
  | Control _ _ => true
  | _ => false

/-- Method `setInput(input)`: the default of `Base` does nothing; `Control`
does `interpolant = factory.make(input)`. -/
def setInput : Base D V → V → Base D V
  | Control factory _, input => Control factory (some (factory input))
  | b, _ => b

/-- Method `clone()`: a new object of the same subclass made by its copy
constructor, which copies the members. -/
def clone : Base D V → Base D V
  | Constant constant => Constant constant
  | FunctionST function => FunctionST function
  | FunctionS function => FunctionS function
  | Control factory interpolant => Control factory interpolant

end Controllable.Base

/-- Class `Controllable<Dimension>`: the member `base`. -/
structure Controllable (D : Nat) (V : Type) where
  base : Controllable.Base D V

namespace Controllable

variable {D : Nat} {V : Type}

/-- Constructor `Controllable(Real constant)`. -/
def ofConstant (constant : Real) : Controllable D V := { base := Base.Constant constant }

/-- Constructor `Controllable(Function<Dimension + 1>)`. -/
def ofFunctionST (function : (Fin (D + 1) → Real) → Real) : Controllable D V :=
  { base := Base.FunctionST function }

/-- Constructor `Controllable(Function<Dimension>)`. -/
def ofFunctionS (function : (Fin D → Real) → Real) : Controllable D V :=
  { base := Base.FunctionS function }

/-- Constructor `Controllable(Control &&control)` on a `Control(factory)`,
whose interpolant is `nullptr`. -/
def ofControl (factory : V → (Fin D → Real) → Real) : Controllable D V :=
  { base := Base.Control factory none }

/-- Copy constructor: `base(that.base->clone())`. -/
def copy (that : Controllable D V) : Controllable D V := { base := that.base.clone }

/-- Operator `operator()(time, coordinates...)`:
`base->value({{time, coordinates...}})`. -/
def call (c : Controllable D V) (time : Real) (coordinates : Fin D → Real) : Option Real :=
  c.base.value (Fin.cons time coordinates)

/-- Method `isConstantInTime()`: `base->isConstantInTime()`. -/
def isConstantInTime (c : Controllable D V) : Bool := c.base.isConstantInTime

/-- Method `isControllable()`: `base->isControllable()`. -/
def isControllable (c : Controllable D V) : Bool := c.base.isControllable

/-- Method `setInput(input)`: `base->setInput(input)`. -/
def setInput (c : Controllable D V) (input : V) : Controllable D V :=
  { base := c.base.setInput input }

end Controllable

/-- Class `ControlledLinearSystem<Dimension>` with the wrappers it may point
to: the wrappers are objects named by numbers (their addresses), `wrappers`
gives the state of each, and `controls` is the member
`std::vector<Controllable<Dimension> *>`. -/
structure ControlledLinearSystem (D : Nat) (V : Type) where
  wrappers : Nat → Controllable D V
  controls : List Nat

namespace ControlledLinearSystem

variable {D : Nat} {V : Type}

/-- Constructor `ControlledLinearSystem()`: `controls` is empty. -/
def new (wrappers : Nat → Controllable D V) : ControlledLinearSystem D V :=
  { wrappers := wrappers, controls := [] }

/-- Method `registerControl(wrapper)`: `if(wrapper.isControllable())
controls.push_back(&wrapper);`. -/
def registerControl (s : ControlledLinearSystem D V) (wrapper : Nat) :
    ControlledLinearSystem D V :=
  if (s.wrappers wrapper).isControllable then { s with controls := s.controls ++ [wrapper] }
  else s

/-- Method `controlDimension()`: `controls.size()`. -/
def controlDimension (s : ControlledLinearSystem D V) : Nat := s.controls.length

/-- The loop of the virtual `setInputs(Vector *inputs)`: `for(auto control :
controls) control->setInput(*(inputs++));` over the controls left and the
inputs left. -/
def setInputsLoop : (Nat → Controllable D V) → List Nat → List V → (Nat → Controllable D V)
  | wrappers, control :: controls, input :: inputs =>
    setInputsLoop (Function.update wrappers control ((wrappers control).setInput input))
      controls inputs
  | wrappers, _, _ => wrappers

/-- Method `setInputs(inputs...)` of `ControlledLinearSystemBase`:
`assert(controlDimension() == sizeof...(Ts));` then the array of the inputs is
passed to the virtual `setInputs`. -/
def setInputs (s : ControlledLinearSystem D V) (inputs : List V) :
    Option (ControlledLinearSystem D V) :=
  if s.controlDimension = inputs.length then
    some { s with wrappers := setInputsLoop s.wrappers s.controls inputs }
  else none

end ControlledLinearSystem

/-! ## Marches that land close to the terminal time -/

/-- A root node on vectors of one component, written as scalars, attached to
the iteration at level `lvl`: `A(t)` is the identity (no data), `b(t)` is
`iterand(0) + 1`, and `isATheSame()` returns `isTimestepTheSame()` of its
iteration, as `CrankNicolson::isATheSame` does over a system whose matrix is
constant. -/
def stepSizeRoot (lvl : Nat) : IterationNode Unit Unit Real :=
  { isATheSame := fun w => TimeIteration.isTimestepTheSame (w.vars lvl),
    A := fun _ _ => (),
    b := fun w _ => (Iteration.iterand w lvl 0).getD 0 + 1 }

/-- The pushes into a history and the calls of `root.isATheSame()`, among the
calls of a record. -/
def Call.isPushOrSame : Call → Bool
  | .push _ _ => true
  | .isATheSame _ => true
  | _ => false

/-- A forward constant stepper on `[0, 1]` with timestep 3334/10000 and no
events, alone in the chain, with `epsilon = 1/1000`, on the root
`stepSizeRoot 0` with the identity solver, from the vector 0, with a history of
capacity 1 and loop budget 4. The third step would end at 10002/10000, within
`epsilon` of the terminal time. -/
def snappedMarch : Except Error (Real × World Unit Real) :=
  match runChain (1 / 1000) 4 (stepSizeRoot 0) identitySolver
      [IterationKind.time (ConstantStepper Real true 0 1 (3334 / 10000))] 0 with
  | none => .error Error.assertion
  | some run => run 0 (-1) false (World.fresh 1)

/-- A forward constant stepper on `[0, 1]` with timestep 999/1000 and no
events, alone in the chain, with `epsilon = 1/1000`, on the root
`incrementRoot 0` with the identity solver, from the vector 0, with a history
of capacity 1 and loop budget 2. The first step ends at 999/1000, at the
distance `epsilon` from the terminal time. -/
def nearMissMarch : Except Error (Real × World Unit Real) :=
  match runChain (1 / 1000) 2 (incrementRoot 0) identitySolver
      [IterationKind.time (ConstantStepper Real true 0 1 (999 / 1000))] 0 with
  | none => .error Error.assertion
  | some run => run 0 (-1) false (World.fresh 1)

/-- The step loop of `nearMissMarch` towards the terminal time 1, entered after
the opening of `iterateUntilDone`. -/
def nearMissSteps : Except Error (Bool × World Unit Real) :=
  Iteration.stepLoop (incrementRoot 0) identitySolver 0 [] none
    (TimeIteration.TIMESTEP (1 / 1000) (ConstantStepper Real true 0 1 (999 / 1000)) 0 1)
    (TimeIteration.NOT_DONE (1 / 1000) (ConstantStepper Real true 0 1 (999 / 1000)) 0 1)
    2 false
    (Iteration.opening 0 [] (0 : Real)
      (TimeIteration.SET_TIME (ConstantStepper Real true 0 1 (999 / 1000)) 0 (World.fresh 1)))


/-! ## The direction of a march -/

/-- The time `s` is strictly before the time `t` in the march direction:
`s < t` when `Forward`, `s > t` otherwise. -/
def TimeIteration.Before (Forward : Bool) (s t : Real) : Prop :=
  if Forward then s < t else t < s

/-- The time `s` is not past the time `t` in the march direction: `s ≤ t` when
`Forward`, `s ≥ t` otherwise. -/
def TimeIteration.NotPast (Forward : Bool) (s t : Real) : Prop :=
  if Forward then s ≤ t else t ≤ s

/-- A turn of the step loop of the time iteration `it` at level `lvl`, from
the world `a` to the world `b`, that advances: its `TIMESTEP` (towards some
pending event time) moves `implicitTime` strictly in the march direction, the
rest of the turn leaves `implicitTime` as committed, and the time is not past
`terminalTime()`. -/
def TimeIteration.StepAdvances {S M V : Type} (epsilon : Real) (root : IterationNode S M V)
    (solver : LinearSolver S M V) (it : TimeIteration V) (lvl : Nat)
    (child : Option (Runner S V)) (a b : World S V) : Prop :=
  ∃ (ne : Real) (i : Bool) (w1 : World S V),
    TimeIteration.TIMESTEP epsilon it lvl ne a = .ok w1 ∧
    Iteration.turn root solver lvl it.nodes child (TimeIteration.TIMESTEP epsilon it lvl ne) i a
      = .ok b ∧
    TimeIteration.Before it.Forward (a.vars lvl).implicitTime (w1.vars lvl).implicitTime ∧
    (b.vars lvl).implicitTime = (w1.vars lvl).implicitTime ∧
    TimeIteration.NotPast it.Forward (b.vars lvl).implicitTime it.terminalTime

/-- An event boundary (`OUTER_TAIL`) of the time iteration `it` at level `lvl`,
from the world `a` to the world `b`, that advances: it moves `implicitTime`
weakly in the march direction, to a time that is not past `terminalTime()`. -/
def TimeIteration.BoundaryAdvances {S V : Type} [Inhabited V] (it : TimeIteration V) (lvl : Nat)
    (a b : World S V) : Prop :=
  ∃ (ne : Real) (events : PriorityQueue V) (r : PriorityQueue V × World S V),
    TimeIteration.OUTER_TAIL it lvl ne events a = .ok r ∧ r.2 = b ∧
    TimeIteration.NotPast it.Forward (a.vars lvl).implicitTime (b.vars lvl).implicitTime ∧
    TimeIteration.NotPast it.Forward (b.vars lvl).implicitTime it.terminalTime


/-! ## Arithmetic that rounds -/

namespace Double

/-- The number of times `n` can be halved (integer division) before it is less
than 2, which is `⌊log2 n⌋` for `n ≥ 1`; `fuel` bounds the number of halvings
and is `n` itself at every use. -/
def halvings : Nat → Nat → Nat
  | 0, _ => 0
  | fuel + 1, n => if n < 2 then 0 else halvings fuel (n / 2) + 1

/-- The binary exponent of a number `x ≠ 0`: the integer `e` with
`2^e ≤ |x| < 2^(e+1)`, found from the sizes of the numerator and of the
denominator of `x`. -/
def exponent (x : Real) : Int :=
  if (2 : Real) ^ ((halvings x.num.natAbs x.num.natAbs : Int) - (halvings x.den x.den : Int)) ≤ |x|
  then (halvings x.num.natAbs x.num.natAbs : Int) - (halvings x.den x.den : Int)
  else (halvings x.num.natAbs x.num.natAbs : Int) - (halvings x.den x.den : Int) - 1

/-- The integer nearest to `q`, the even one of the two when `q` is half way
between two integers. -/
def nearestEven (q : Real) : Int :=
  if q - (⌊q⌋ : Int) < 1 / 2 then ⌊q⌋
  else if 1 / 2 < q - (⌊q⌋ : Int) then ⌊q⌋ + 1
  else if ⌊q⌋ % 2 = 0 then ⌊q⌋
  else ⌊q⌋ + 1

/-- Rounding of a number to the nearest value of the type `double` (IEEE 754
binary64: 53 significant bits, so a multiple of `ulp = 2^(e-52)` where `e` is
the binary exponent of `x`), ties to the even multiple. The exponent is not
bounded: there is no overflow and there are no subnormal numbers. -/
def round (x : Real) : Real :=
  if x = 0 then 0
  else nearestEven (x / (2 : Real) ^ (exponent x - 52)) * (2 : Real) ^ (exponent x - 52)

end Double

namespace TimeIteration

variable {S M V : Type}

/-- The arithmetic of macro `QUANT_PDE_TMP_TIMESTEP` (see `timestepCore`) in an
arithmetic that rounds: `fl` is applied to the result of every sum, difference
and product of `Real`s, in the order of evaluation of the source
(`implicitTime + direction * dt`, `tmp - nextEventTime`,
`direction * (nextEventTime - implicitTime)`). For the type `double`, `fl` is
`Double.round`; with `fl` the identity this is `timestepCore`. -/
def timestepCoreRounded (fl : Real → Real) (Forward : Bool)
    (epsilon implicitTime nextEventTime dt : Real) : Real × Real :=
  if |fl (fl (implicitTime + fl (direction Forward * dt)) - nextEventTime)| < epsilon then
    (nextEventTime, dt)
  else if Order Forward (fl (implicitTime + fl (direction Forward * dt))) nextEventTime then
    (nextEventTime, fl (direction Forward * fl (nextEventTime - implicitTime)))
  else (fl (implicitTime + fl (direction Forward * dt)), dt)

/-- Macro `QUANT_PDE_TMP_TIMESTEP` of `TimeIteration` (see `TIMESTEP`) in an
arithmetic that rounds by `fl`. -/
def TIMESTEPRounded (fl : Real → Real) (epsilon : Real) (it : TimeIteration V) (lvl : Nat)
    (nextEventTime : Real) (w : World S V) : Except Error (World S V) :=
  if it.timestep { w.vars lvl with dtPrevious := (w.vars lvl).dt } > 0 then
    .ok (w.setVars lvl { w.vars lvl with
      dtPrevious := (w.vars lvl).dt
      dt := (timestepCoreRounded fl it.Forward epsilon (w.vars lvl).implicitTime nextEventTime
        (it.timestep { w.vars lvl with dtPrevious := (w.vars lvl).dt })).2
      implicitTime := (timestepCoreRounded fl it.Forward epsilon (w.vars lvl).implicitTime
        nextEventTime (it.timestep { w.vars lvl with dtPrevious := (w.vars lvl).dt })).1 })
  else .error Error.assertion

/-- Macro `QUANT_PDE_TMP_NOT_DONE` of `TimeIteration` (see `NOT_DONE`) in an
arithmetic that rounds by `fl`:
`Order()(nextEventTime, this->implicitTime + direction * epsilon)`. -/
def NOT_DONERounded (fl : Real → Real) (epsilon : Real) (it : TimeIteration V) (lvl : Nat)
    (nextEventTime : Real) (w : World S V) : Except Error Bool :=
  .ok (Order it.Forward nextEventTime
    (fl ((w.vars lvl).implicitTime + fl (direction it.Forward * epsilon))))

/-- The outer loop of `TimeIteration::iterateUntilDone` (see `outerLoop`) in an
arithmetic that rounds by `fl`; the event boundary and the test of the outer
loop compare times and do no arithmetic. -/
def outerLoopRounded [Inhabited V] (fl : Real → Real) (epsilon : Real)
    (root : IterationNode S M V) (solver : LinearSolver S M V) (it : TimeIteration V)
    (lvl : Nat) (child : Option (Runner S V)) (inner : Nat) :
    Nat → PriorityQueue V → Bool → World S V → Except Error (World S V)
  | 0, _, _, _ => .error Error.fuel
  | fuel + 1, events, initialized, w =>
    match events.top with
    | none => .error Error.assertion
    | some e =>
      match Iteration.stepLoop root solver lvl it.nodes child
          (TIMESTEPRounded fl epsilon it lvl e.2.1) (NOT_DONERounded fl epsilon it lvl e.2.1)
          inner initialized w with
      | .error err => .error err
      | .ok r =>
        match OUTER_TAIL it lvl e.2.1 events r.2 with
        | .error err => .error err
        | .ok r' =>
          if Order it.Forward it.terminalTime (r'.2.vars lvl).implicitTime then
            outerLoopRounded fl epsilon root solver it lvl child inner fuel r'.1 r.1 r'.2
          else .ok r'.2

/-- Method `TimeIteration::iterateUntilDone` (see `iterateUntilDone`) in an
arithmetic that rounds by `fl`. -/
def iterateUntilDoneRounded [Inhabited V] (fl : Real → Real) (epsilon : Real) (fuel : Nat)
    (root : IterationNode S M V) (solver : LinearSolver S M V) (it : TimeIteration V)
    (lvl : Nat) (child : Option (Runner S V)) : Runner S V :=
  fun iterand _time initialized w =>
    match outerLoopRounded fl epsilon root solver it lvl child fuel fuel (OUTER_HEAD it)
        initialized (Iteration.opening lvl it.nodes iterand (SET_TIME it lvl w)) with
    | .error e => .error e
    | .ok w' =>
      match Iteration.iterand w' lvl 0 with
      | none => .error Error.assertion
      | some x => .ok (x, w')

/-- A turn of the step loop of the time iteration `it` at level `lvl`, in an
arithmetic that rounds by `fl`, from the world `a` to the world `b`, that does
not turn back: its `TIMESTEP` (towards some pending event time) moves
`implicitTime` weakly in the march direction, and strictly unless the sum
`implicitTime + direction * dt` is rounded back to `implicitTime`; the rest of
the turn leaves `implicitTime` as committed, and the time is not past
`terminalTime()`. -/
def StepAdvancesRounded (fl : Real → Real) (epsilon : Real) (root : IterationNode S M V)
    (solver : LinearSolver S M V) (it : TimeIteration V) (lvl : Nat)
    (child : Option (Runner S V)) (a b : World S V) : Prop :=
  ∃ (ne : Real) (i : Bool) (w1 : World S V),
    TIMESTEPRounded fl epsilon it lvl ne a = .ok w1 ∧
    Iteration.turn root solver lvl it.nodes child (TIMESTEPRounded fl epsilon it lvl ne) i a
      = .ok b ∧
    NotPast it.Forward (a.vars lvl).implicitTime (w1.vars lvl).implicitTime ∧
    (Before it.Forward (a.vars lvl).implicitTime (w1.vars lvl).implicitTime ∨
      fl ((a.vars lvl).implicitTime + fl (direction it.Forward *
        it.timestep { a.vars lvl with dtPrevious := (a.vars lvl).dt }))
        = (a.vars lvl).implicitTime) ∧
    (b.vars lvl).implicitTime = (w1.vars lvl).implicitTime ∧
    NotPast it.Forward (b.vars lvl).implicitTime it.terminalTime

end TimeIteration

/-- A child iteration that, from every world in which `Inv` holds, returns,
leaves the variables of the iteration at level `lvl` (its parent) as they are,
and leaves a world in which `Inv` holds; `Inv` (what the child needs, such as
an allocated history) is a condition on the variables of the levels other than
`lvl`. -/
def ChildReturnsWhen {S V : Type} (lvl : Nat) (child : Option (Runner S V))
    (Inv : World S V → Prop) : Prop :=
  (∀ w w', Inv w → (∀ l, l ≠ lvl → w'.vars l = w.vars l) → Inv w') ∧
  ∀ run, child = some run → ∀ x t i w, Inv w →
    ∃ r, run x t i w = .ok r ∧ r.2.vars lvl = w.vars lvl ∧ Inv r.2

/-- A forward time iteration on `[1, 2]` without events whose `timestep()` is
`2^-60` at every call. -/
def absorbedStepper : TimeIteration Real :=
  ConstantStepper Real true 1 2 (1 / 1152921504606846976)

/-- The history of the iteration at level 1 is allocated with room for two
entries. -/
def InnerAllocated {S V : Type} (w : World S V) : Prop :=
  2 ≤ (w.vars 1).history.n ∧ (w.vars 1).history.data.length = (w.vars 1).history.n.toNat


/-! ## Lemmas on the circular buffer -/

namespace CircularBuffer

variable {T : Type}

theorem new_clear [Inhabited T] (L : Int) : (new L : CircularBuffer T).clear = new L := rfl

theorem mod_ne_of_lt_of_lt {i len m : Nat} (h1 : i < len) (h2 : len < i + m) :
    len % m ≠ i % m := by
  intro h
  have h3 : (len - i) % m = 0 := Nat.sub_mod_eq_zero_of_mod_eq h
  have h4 : (len - i) % m = len - i := Nat.mod_eq_of_lt (by omega)
  omega

/-- State of a cleared buffer of capacity `m` after the pushes `es`. -/
theorem pushAll_inv (m : Nat) (hm : 0 < m) (c : CircularBuffer T)
    (hn : c.n = (m : Int)) (hlen : c.data.length = m) (es : List T) :
    (c.clear.pushAll es).n = (m : Int) ∧ (c.clear.pushAll es).data.length = m ∧
    (c.clear.pushAll es).tail = ((es.length % m : Nat) : Int) ∧
    (c.clear.pushAll es).size = ((min es.length m : Nat) : Int) ∧
    ∀ i, i < es.length → es.length ≤ i + m →
      (c.clear.pushAll es).data[i % m]? = es[i]? := by
  induction es using List.reverseRecOn with
  | nil =>
    refine ⟨hn, hlen, ?_, ?_, ?_⟩
    · simp [pushAll, clear]
    · simp [pushAll, clear]
    · intro i hi; simp at hi
  | append_singleton es a ih =>
    obtain ⟨h1, h2, h3, h4, h5⟩ := ih
    have hstep : c.clear.pushAll (es ++ [a]) = (c.clear.pushAll es).push a := by
      simp [pushAll, List.foldl_append]
    rw [hstep]
    have hlt : es.length % m < m := Nat.mod_lt _ hm
    refine ⟨?_, ?_, ?_, ?_, ?_⟩
    · simpa [push] using h1
    · simpa [push] using h2
    · simp only [push, h1, h3, List.length_append, List.length_singleton]
      rw [Int.tmod_eq_emod (by positivity) (by positivity)]
      have : ((es.length % m : Nat) : Int) + 1 = ((es.length % m + 1 : Nat) : Int) := by
        push_cast; ring
      rw [this, ← Int.natCast_mod, Nat.add_mod, Nat.mod_mod, ← Nat.add_mod]
    · simp only [push, h1, h4, List.length_append, List.length_singleton]
      split_ifs with hlt'
      · have : min es.length m < m := by exact_mod_cast hlt'
        have e1 : min es.length m = es.length := by omega
        have e2 : min (es.length + 1) m = es.length + 1 := by omega
        rw [e1, e2]; push_cast; ring
      · have : ¬ (min es.length m < m) := by exact_mod_cast hlt'
        have e1 : min es.length m = m := by omega
        have e2 : min (es.length + 1) m = m := by omega
        rw [e1, e2]
    · intro i hi hle
      simp only [List.length_append, List.length_singleton] at hi hle
      simp only [push, h3, Int.toNat_natCast, List.getElem?_set, h2]
      by_cases hie : i = es.length
      · subst hie
        simp [hlt]
      · have hi' : i < es.length := by omega
        have hne : es.length % m ≠ i % m := mod_ne_of_lt_of_lt hi' (by omega)
        rw [if_neg hne, h5 i hi' (by omega), List.getElem?_append_left hi']

/-- Reading a cleared buffer of capacity `m` after the pushes `es`: index `k`
below the stored count yields the `k`-th most recent push. -/
theorem get_pushAll (m : Nat) (hm : 0 < m) (c : CircularBuffer T)
    (hn : c.n = (m : Int)) (hlen : c.data.length = m) (es : List T)
    (k : Nat) (hk : k < min es.length m) :
    (c.clear.pushAll es).get (k : Int) = es[es.length - 1 - k]? := by
  obtain ⟨h1, h2, h3, h4, h5⟩ := pushAll_inv m hm c hn hlen es
  have hkl : k < es.length := by omega
  have hkm : k < m := by omega
  have hmod : (es.length % m : Nat) ≤ es.length := Nat.mod_le _ _
  have hpos : (c.clear.pushAll es).position (k : Int)
      = (((es.length - 1 - k) % m : Nat) : Int) := by
    simp only [position, h1, h3]
    have hlt : es.length % m < m := Nat.mod_lt _ hm
    rw [Int.tmod_eq_emod (by have := Int.emod_nonneg (es.length : Int) (show (m : Int) ≠ 0 by omega); omega) (by positivity)]
    have hdecomp : ((es.length : Int) % (m : Int))
        = (es.length : Int) - (m : Int) * ((es.length : Int) / (m : Int)) := by
      have := Int.emod_add_ediv (es.length : Int) (m : Int)
      linarith
    have hsub : (((es.length - 1 - k : Nat)) : Int) = (es.length : Int) - 1 - k := by omega
    rw [Int.natCast_mod, Int.natCast_mod, hsub, hdecomp]
    have : (es.length : Int) - (m : Int) * ((es.length : Int) / (m : Int)) - 1 + (m : Int) - (k : Int)
        = ((es.length : Int) - 1 - k) + (m : Int) * (1 - ((es.length : Int) / (m : Int))) := by ring
    rw [this, Int.add_mul_emod_self_left]
  have hlt2 : (es.length - 1 - k) % m < min es.length m := by
    by_cases hc : es.length ≤ m
    · have : (es.length - 1 - k) % m ≤ es.length - 1 - k := Nat.mod_le _ _
      omega
    · have : (es.length - 1 - k) % m < m := Nat.mod_lt _ hm
      omega
  unfold get
  rw [hpos, h1, h4]
  have c1 : (0 : Int) ≤ (k : Int) ∧ (k : Int) < (m : Int) := ⟨by positivity, by exact_mod_cast hkm⟩
  have c2 : (((es.length - 1 - k) % m : Nat) : Int) < ((min es.length m : Nat) : Int) := by
    exact_mod_cast hlt2
  have c3 : (0 : Int) ≤ (((es.length - 1 - k) % m : Nat) : Int) := by positivity
  rw [if_pos c1, if_pos c2, if_pos c3, Int.toNat_natCast]
  exact h5 (es.length - 1 - k) (by omega) (by omega)

/-- Reads outside `[0, n)` fail the assertions of `operator[]`. -/
theorem get_out_of_range (c : CircularBuffer T) (index : Int)
    (h : index < 0 ∨ c.n ≤ index) : c.get index = none := by
  unfold get
  rw [if_neg]
  rintro ⟨h1, h2⟩
  omega

/-- In `operator[]` the value `tail - 1 + n - index` lies in `[0, 2 n - 1]`
for every admitted index of a buffer reached by pushes. -/
theorem position_arg_bounds (m : Nat) (hm : 0 < m) (c : CircularBuffer T)
    (hn : c.n = (m : Int)) (hlen : c.data.length = m) (es : List T)
    (index : Int) (h0 : 0 ≤ index) (h1 : index < (m : Int)) :
    0 ≤ (c.clear.pushAll es).tail - 1 + (c.clear.pushAll es).n - index ∧
    (c.clear.pushAll es).tail - 1 + (c.clear.pushAll es).n - index ≤ 2 * (m : Int) - 1 := by
  obtain ⟨e1, _, e3, _, _⟩ := pushAll_inv m hm c hn hlen es
  have hlt : es.length % m < m := Nat.mod_lt _ hm
  rw [e1, e3]
  omega

theorem int32_of_fits (x : Int) (h1 : -2147483648 ≤ x) (h2 : x ≤ 2147483647) : int32 x = x := by
  unfold int32; omega

/-- When `2 n - 1` fits in an `int`, no intermediate result of
`tail - 1 + n - index` overflows: the machine computes `position`. -/
theorem position32_eq (c : CircularBuffer T) (index : Int) (ht0 : 0 ≤ c.tail)
    (ht1 : c.tail < c.n) (h0 : 0 ≤ index) (h1 : index < c.n)
    (hfit : 2 * c.n - 1 ≤ 2147483647) : c.position32 index = c.position index := by
  unfold position32 position
  rw [int32_of_fits (c.tail - 1) (by omega) (by omega),
    int32_of_fits (c.tail - 1 + c.n) (by omega) (by omega),
    int32_of_fits (c.tail - 1 + c.n - index) (by omega) (by omega)]

theorem get32_eq (c : CircularBuffer T) (index : Int) (ht0 : 0 ≤ c.tail)
    (ht1 : c.tail < c.n) (hfit : 2 * c.n - 1 ≤ 2147483647) : c.get32 index = c.get index := by
  unfold get32 get
  by_cases h : 0 ≤ index ∧ index < c.n
  · rw [if_pos h, if_pos h, position32_eq c index ht0 ht1 h.1 h.2 hfit]
  · rw [if_neg h, if_neg h]

/-- Reading, on a machine with 32-bit `int`, a cleared buffer of capacity
`m ≤ 2^30` after the pushes `es`: index `k` below the stored count yields the
`k`-th most recent push. -/
theorem get32_pushAll (m : Nat) (hm : 0 < m) (hfit : m ≤ 1073741824) (c : CircularBuffer T)
    (hn : c.n = (m : Int)) (hlen : c.data.length = m) (es : List T)
    (k : Nat) (hk : k < min es.length m) :
    (c.clear.pushAll es).get32 (k : Int) = es[es.length - 1 - k]? := by
  obtain ⟨h1, _, h3, _, _⟩ := pushAll_inv m hm c hn hlen es
  have hlt : es.length % m < m := Nat.mod_lt _ hm
  rw [get32_eq _ _ (by rw [h3]; positivity) (by rw [h3, h1]; exact_mod_cast hlt)
    (by rw [h1]; omega)]
  exact get_pushAll m hm c hn hlen es k hk

/-- State of a buffer of capacity `2^30 + 1` after a `clear` and `len` pushes of
the element `x`, with `len` congruent to `2^30` modulo the capacity: the cursor
is at `2^30`, and on a machine with 32-bit `int` the value
`tail - 1 + n - 0 = 2^31` of `operator[](0)` wraps to `-2^31`, so `position`
is `-(2^30 - 1)`: the assertions hold and the read is outside the array. -/
theorem overflow_read [Inhabited T] (x : T) (len : Nat) (hlen : len % 1073741825 = 1073741824) :
    ((new (1073741825 : Int) : CircularBuffer T).clear.pushAll (List.replicate len x)).position32 0
      = -1073741823 ∧
    ((new (1073741825 : Int) : CircularBuffer T).clear.pushAll (List.replicate len x)).position32 0
      < ((new (1073741825 : Int) : CircularBuffer T).clear.pushAll (List.replicate len x)).size ∧
    ((new (1073741825 : Int) : CircularBuffer T).clear.pushAll (List.replicate len x)).get32 0
      = none := by
  have hdata : (new (1073741825 : Int) : CircularBuffer T).data.length = 1073741825 := by
    show (List.replicate _ _).length = _
    rw [List.length_replicate]
    rfl
  obtain ⟨e1, _, e3, e4, _⟩ := pushAll_inv 1073741825 (by norm_num)
    (new (1073741825 : Int) : CircularBuffer T) rfl hdata (List.replicate len x)
  rw [List.length_replicate] at e3 e4
  rw [hlen] at e3
  have hpos : ((new (1073741825 : Int) : CircularBuffer T).clear.pushAll
      (List.replicate len x)).position32 0 = -1073741823 := by
    unfold position32
    rw [e1, e3]
    decide
  have hsize : (0 : Int) ≤ ((new (1073741825 : Int) : CircularBuffer T).clear.pushAll
      (List.replicate len x)).size := by
    rw [e4]; positivity
  refine ⟨hpos, by rw [hpos]; omega, ?_⟩
  unfold get32
  rw [hpos, e1]
  simp

end CircularBuffer

/-! ## Claims on the circular buffer -/

/-- C1, the code at the failing input. On a machine with 32-bit `int` the
law of `operator[]` (after `n ≤ L` pushes `es` into a fresh or a just-cleared
buffer of capacity `L`, index `k < n` reads push number `n - 1 - k`) holds for
every capacity `1 ≤ L ≤ 2^30`, where `tail - 1 + n - index` fits in an `int`.
For the capacity `L = 2^30 + 1` it fails: after `2^30` pushes of the number 7
the cursor is at `2^30`, the value `tail - 1 + n - 0 = 2^31` wraps, `position`
is `-(2^30 - 1)`, the assertion `position < size` holds, and `operator[](0)`
reads outside the array instead of returning the most recent push. -/
theorem C1_history_indexing_law :
    (∀ (T : Type) [Inhabited T] (L : Nat) (es : List T) (k : Nat), 1 ≤ L → L ≤ 1073741824 →
      es.length ≤ L → k < es.length →
      ((CircularBuffer.new (L : Int)).pushAll es).get32 (k : Int) = es[es.length - 1 - k]? ∧
      (es[es.length - 1 - k]?).isSome = true ∧
      ∀ c : CircularBuffer T, c.n = (L : Int) → c.data.length = L →
        (c.clear.pushAll es).get32 (k : Int) = es[es.length - 1 - k]?) ∧
    ((List.replicate 1073741824 (7 : Nat)).length ≤ 1073741825 ∧
      ((CircularBuffer.new (1073741825 : Int) : CircularBuffer Nat).pushAll
        (List.replicate 1073741824 7)).position32 0 = -1073741823 ∧
      ((CircularBuffer.new (1073741825 : Int) : CircularBuffer Nat).pushAll
        (List.replicate 1073741824 7)).position32 0
        < ((CircularBuffer.new (1073741825 : Int) : CircularBuffer Nat).pushAll
          (List.replicate 1073741824 7)).size ∧
      ((CircularBuffer.new (1073741825 : Int) : CircularBuffer Nat).pushAll
        (List.replicate 1073741824 7)).get32 0 = none ∧
      (List.replicate 1073741824 (7 : Nat))[1073741824 - 1 - 0]? = some 7) := by
  constructor
  · intro T _ L es k hL hfit hn hk
    refine ⟨?_, ?_, ?_⟩
    · rw [← CircularBuffer.new_clear]
      exact CircularBuffer.get32_pushAll L hL hfit _ rfl
        (by simp [CircularBuffer.new, CircularBuffer.clear]) es k (by omega)
    · have : es.length - 1 - k < es.length := by omega
      simp [List.getElem?_eq_getElem this]
    · intro c hc hlen
      exact CircularBuffer.get32_pushAll L hL hfit c hc hlen es k (by omega)
  · have h := CircularBuffer.overflow_read (7 : Nat) 1073741824 (by norm_num)
    rw [CircularBuffer.new_clear] at h
    refine ⟨by rw [List.length_replicate]; norm_num, h.1, h.2.1, h.2.2, ?_⟩
    rw [List.getElem?_replicate]
    norm_num

/-- C2, the code at the failing input. On a machine with 32-bit `int` ring
eviction (after `L + m` pushes into a cleared buffer of capacity `L`, index
`k < L` reads push number `L + m - 1 - k`, so the last `L` pushes most recent
first, and no other index can be read) holds for every capacity
`1 ≤ L ≤ 2^30`. For the capacity `L = 2^30 + 1` and `m = 2^30` it fails: after
the `2^31 + 1` pushes the cursor is at `2^30`, `tail - 1 + n - 0 = 2^31` wraps,
`position` is `-(2^30 - 1)`, the assertion `position < size` holds, and
`operator[](0)` reads outside the array instead of returning the last push. -/
theorem C2_ring_eviction :
    (∀ (T : Type) (L m : Nat) (c : CircularBuffer T) (es : List T), 1 ≤ L → L ≤ 1073741824 →
      c.n = (L : Int) → c.data.length = L → es.length = L + m →
      (∀ k : Nat, k < L →
        (c.clear.pushAll es).get32 (k : Int) = es[L + m - 1 - k]? ∧
        es[L + m - 1 - k]? = (es.drop m).reverse[k]?) ∧
      (∀ index : Int, index < 0 ∨ (L : Int) ≤ index →
        (c.clear.pushAll es).get32 index = none)) ∧
    ((List.replicate 2147483649 (7 : Nat)).length = 1073741825 + 1073741824 ∧
      ((CircularBuffer.new (1073741825 : Int) : CircularBuffer Nat).clear.pushAll
        (List.replicate 2147483649 7)).position32 0 = -1073741823 ∧
      ((CircularBuffer.new (1073741825 : Int) : CircularBuffer Nat).clear.pushAll
        (List.replicate 2147483649 7)).position32 0
        < ((CircularBuffer.new (1073741825 : Int) : CircularBuffer Nat).clear.pushAll
          (List.replicate 2147483649 7)).size ∧
      ((CircularBuffer.new (1073741825 : Int) : CircularBuffer Nat).clear.pushAll
        (List.replicate 2147483649 7)).get32 0 = none ∧
      (List.replicate 2147483649 (7 : Nat))[1073741825 + 1073741824 - 1 - 0]? = some 7) := by
  constructor
  · intro T L m c es hL hfit hc hlen hes
    have hinv := CircularBuffer.pushAll_inv L hL c hc hlen es
    have hmodlt : es.length % L < L := Nat.mod_lt _ hL
    constructor
    · intro k hk
      constructor
      · have := CircularBuffer.get32_pushAll L hL hfit c hc hlen es k (by omega)
        rw [this, hes]
      · have hlen2 : (es.drop m).length = L := by simp [hes]
        rw [List.getElem?_reverse (by omega), List.getElem?_drop, hlen2]
        congr 1
        omega
    · intro index hidx
      unfold CircularBuffer.get32
      rw [if_neg]
      rw [hinv.1]
      rintro ⟨h1, h2⟩
      omega
  · have h := CircularBuffer.overflow_read (7 : Nat) 2147483649 (by norm_num)
    refine ⟨by rw [List.length_replicate], h.1, h.2.1, h.2.2, ?_⟩
    rw [List.getElem?_replicate]
    norm_num

/-! ## The phase `TIMESTEP` of `TimeIteration` -/

namespace TimeIteration

variable {S M V : Type}

theorem timestepCore_forward_le (epsilon implicitTime nextEventTime dt : Real) :
    (timestepCore true epsilon implicitTime nextEventTime dt).1 ≤ nextEventTime := by
  unfold timestepCore
  split_ifs with h1 h2
  · exact le_refl _
  · exact le_refl _
  · simpa [Order] using h2

theorem timestepCore_reverse_ge (epsilon implicitTime nextEventTime dt : Real) :
    nextEventTime ≤ (timestepCore false epsilon implicitTime nextEventTime dt).1 := by
  unfold timestepCore
  split_ifs with h1 h2
  · exact le_refl _
  · exact le_refl _
  · simpa [Order] using h2

theorem TIMESTEP_ok (epsilon : Real) (it : TimeIteration V) (lvl : Nat) (nextEventTime : Real)
    (w : World S V) (hpos : 0 < it.timestep { w.vars lvl with dtPrevious := (w.vars lvl).dt }) :
    TIMESTEP epsilon it lvl nextEventTime w = .ok (w.setVars lvl { w.vars lvl with
      dtPrevious := (w.vars lvl).dt
      dt := (timestepCore it.Forward epsilon (w.vars lvl).implicitTime nextEventTime
        (it.timestep { w.vars lvl with dtPrevious := (w.vars lvl).dt })).2
      implicitTime := (timestepCore it.Forward epsilon (w.vars lvl).implicitTime nextEventTime
        (it.timestep { w.vars lvl with dtPrevious := (w.vars lvl).dt })).1 }) := by
  unfold TIMESTEP
  rw [if_pos hpos]

end TimeIteration

/-- C3 (timesteps never overshoot an event). In either direction, for every
value `timestep() > 0` and every pending event time, the phase `TIMESTEP`
completes and the `implicitTime` it commits is not past the pending event time
in march order: `implicitTime ≤ nextEventTime` when `Forward`,
`implicitTime ≥ nextEventTime` otherwise. -/
theorem C3_timestep_never_overshoots {S V : Type} (epsilon : Real) (it : TimeIteration V)
    (lvl : Nat) (nextEventTime : Real) (w : World S V)
    (hpos : 0 < it.timestep { w.vars lvl with dtPrevious := (w.vars lvl).dt }) :
    ∃ w', TimeIteration.TIMESTEP epsilon it lvl nextEventTime w = .ok w' ∧
      Order it.Forward (w'.vars lvl).implicitTime nextEventTime = false ∧
      (it.Forward = true → (w'.vars lvl).implicitTime ≤ nextEventTime) ∧
      (it.Forward = false → nextEventTime ≤ (w'.vars lvl).implicitTime) := by
  refine ⟨_, TimeIteration.TIMESTEP_ok epsilon it lvl nextEventTime w hpos, ?_, ?_, ?_⟩
  · cases hF : it.Forward
    · have := TimeIteration.timestepCore_reverse_ge epsilon (w.vars lvl).implicitTime
        nextEventTime (it.timestep { w.vars lvl with dtPrevious := (w.vars lvl).dt })
      simpa [Order, World.setVars] using this
    · have := TimeIteration.timestepCore_forward_le epsilon (w.vars lvl).implicitTime
        nextEventTime (it.timestep { w.vars lvl with dtPrevious := (w.vars lvl).dt })
      simpa [Order, World.setVars] using this
  · intro hF
    rw [hF]
    simpa [World.setVars] using TimeIteration.timestepCore_forward_le epsilon
      (w.vars lvl).implicitTime nextEventTime _
  · intro hF
    rw [hF]
    simpa [World.setVars] using TimeIteration.timestepCore_reverse_ge epsilon
      (w.vars lvl).implicitTime nextEventTime _

/-- Witness of C3: a forward constant stepper with `dt = 3/10` standing at
`implicitTime = -1` with the next event at `-9/10`. -/
theorem C3_timestep_never_overshoots_witness :
    ∃ w', TimeIteration.TIMESTEP (1 / 1000) (ConstantStepper Unit true 0 1 (3 / 10)) 0 (-9 / 10)
        (World.fresh 1) = .ok w' ∧
      Order (ConstantStepper Unit true 0 1 (3 / 10)).Forward (w'.vars 0).implicitTime (-9 / 10)
        = false ∧
      ((ConstantStepper Unit true 0 1 (3 / 10)).Forward = true →
        (w'.vars 0).implicitTime ≤ -9 / 10) ∧
      ((ConstantStepper Unit true 0 1 (3 / 10)).Forward = false →
        -9 / 10 ≤ (w'.vars 0).implicitTime) :=
  C3_timestep_never_overshoots (1 / 1000) (ConstantStepper Unit true 0 1 (3 / 10)) 0 (-9 / 10)
    (World.fresh 1) (by simp [ConstantStepper])

/-- C4 (clamp property). In every `TIMESTEP`, if the tentative time
`t* = implicitTime + direction * dt`, with `dt` the value returned by
`timestep()`, satisfies `|t* - nextEventTime| < epsilon`, then the committed
`implicitTime` is `nextEventTime` exactly and the member `dt` is the value
returned by `timestep()`. -/
theorem C4_clamp_property {S V : Type} (epsilon : Real) (it : TimeIteration V)
    (lvl : Nat) (nextEventTime : Real) (w : World S V)
    (hpos : 0 < it.timestep { w.vars lvl with dtPrevious := (w.vars lvl).dt })
    (hnear : |(w.vars lvl).implicitTime + direction it.Forward *
        it.timestep { w.vars lvl with dtPrevious := (w.vars lvl).dt } - nextEventTime|
      < epsilon) :
    ∃ w', TimeIteration.TIMESTEP epsilon it lvl nextEventTime w = .ok w' ∧
      (w'.vars lvl).implicitTime = nextEventTime ∧
      (w'.vars lvl).dt = it.timestep { w.vars lvl with dtPrevious := (w.vars lvl).dt } := by
  refine ⟨_, TimeIteration.TIMESTEP_ok epsilon it lvl nextEventTime w hpos, ?_, ?_⟩
  · simp [World.setVars, TimeIteration.timestepCore, hnear]
  · simp [World.setVars, TimeIteration.timestepCore, hnear]

/-- Witness of C4: a forward constant stepper with `dt = 3/10` standing at
`implicitTime = -1` lands within `1/1000` of an event at `-6999/10000`. -/
theorem C4_clamp_property_witness :
    ∃ w', TimeIteration.TIMESTEP (1 / 1000) (ConstantStepper Unit true 0 1 (3 / 10)) 0
        (-6999 / 10000) (World.fresh 1) = .ok w' ∧
      (w'.vars 0).implicitTime = -6999 / 10000 ∧
      (w'.vars 0).dt = (ConstantStepper Unit true 0 1 (3 / 10)).timestep
        { (World.fresh 1 : World Unit Unit).vars 0 with
          dtPrevious := ((World.fresh 1 : World Unit Unit).vars 0).dt } :=
  C4_clamp_property (1 / 1000) (ConstantStepper Unit true 0 1 (3 / 10)) 0 (-6999 / 10000)
    (World.fresh 1) (by simp [ConstantStepper])
    (by simp [ConstantStepper, World.fresh, direction]; norm_num [abs_lt])

/-! ## The theta scheme -/

namespace CrankNicolson

variable {S : Type} {n : Nat}

theorem dt_eq (epsilon : Real) (cn : CrankNicolson n) (w : World S (Fin n → Real)) (t0 : Real)
    (ht0 : Iteration.time w cn.iteration 0 = some t0)
    (hdt : epsilon < (if cn.Forward then (w.vars cn.iteration).implicitTime - t0
      else t0 - (w.vars cn.iteration).implicitTime)) :
    cn.dt epsilon w = some (if cn.Forward then (w.vars cn.iteration).implicitTime - t0
      else t0 - (w.vars cn.iteration).implicitTime) := by
  unfold dt
  rw [ht0]
  simp only []
  rw [if_pos hdt]

theorem halfStepWorld_time : Iteration.time halfStepWorld 0 0 = some 0 := by
  simp [halfStepWorld, Iteration.time, Iteration.pushHistory, World.setVars, World.record,
    World.fresh, CircularBuffer.get, CircularBuffer.push, CircularBuffer.new,
    CircularBuffer.clear, CircularBuffer.position]

theorem halfStepWorld_iterand : Iteration.iterand halfStepWorld 0 0 = some (fun _ => 0) := by
  simp [halfStepWorld, Iteration.iterand, Iteration.pushHistory, World.setVars, World.record,
    World.fresh, CircularBuffer.get, CircularBuffer.push, CircularBuffer.new,
    CircularBuffer.clear, CircularBuffer.position]

theorem halfStepWorld_implicitTime : (halfStepWorld.vars 0).implicitTime = 1 / 2 := by
  simp [halfStepWorld, World.setVars]

end CrankNicolson

/-- C9 (theta-scheme assembly). For a `CrankNicolson` node with
`theta = 1/ThetaInverse ≥ epsilon`, `t1 = nextTime()`, `t0 = time(0)`,
`x0 = iterand(0)` and `dt = Forward ? t1 - t0 : t0 - t1` (with `dt > epsilon`,
as `dt()` asserts): `Ad(t1) = I + theta dt A_sys(t1)` and
`bd(t1) = (I - (1 - theta) dt A_sys(t0)) x0 + theta b_sys(t1) + (1 - theta)
b_sys(t0)`; for `ThetaInverse = 2` these are `I + A(t1) dt/2` and
`(I - A(t0) dt/2) x0 + (b(t1) + b(t0))/2`. -/
theorem C9_theta_scheme_assembly {S : Type} {n : Nat} (epsilon : Real) (cn : CrankNicolson n)
    (w : World S (Fin n → Real)) (t0 : Real) (x0 : Fin n → Real)
    (ht0 : Iteration.time w cn.iteration 0 = some t0)
    (hx0 : Iteration.iterand w cn.iteration 0 = some x0)
    (htheta : epsilon ≤ cn.theta)
    (hdt : epsilon < (if cn.Forward then (w.vars cn.iteration).implicitTime - t0
      else t0 - (w.vars cn.iteration).implicitTime)) :
    cn.Ad epsilon w (w.vars cn.iteration).implicitTime
      = some (1 + (cn.theta * (if cn.Forward then (w.vars cn.iteration).implicitTime - t0
          else t0 - (w.vars cn.iteration).implicitTime))
        • cn.system.A (w.vars cn.iteration).implicitTime) ∧
    cn.bd epsilon w (w.vars cn.iteration).implicitTime
      = some ((1 - ((1 - cn.theta) * (if cn.Forward then (w.vars cn.iteration).implicitTime - t0
          else t0 - (w.vars cn.iteration).implicitTime)) • cn.system.A t0).mulVec x0
        + cn.theta • cn.system.b (w.vars cn.iteration).implicitTime
        + (1 - cn.theta) • cn.system.b t0) ∧
    (cn.ThetaInverse = 2 →
      cn.Ad epsilon w (w.vars cn.iteration).implicitTime
        = some (1 + ((if cn.Forward then (w.vars cn.iteration).implicitTime - t0
            else t0 - (w.vars cn.iteration).implicitTime) / 2)
          • cn.system.A (w.vars cn.iteration).implicitTime) ∧
      cn.bd epsilon w (w.vars cn.iteration).implicitTime
        = some ((1 - ((if cn.Forward then (w.vars cn.iteration).implicitTime - t0
            else t0 - (w.vars cn.iteration).implicitTime) / 2) • cn.system.A t0).mulVec x0
          + (1 / 2 : Real) • (cn.system.b (w.vars cn.iteration).implicitTime
            + cn.system.b t0))) := by
  have hA : cn.Ad epsilon w (w.vars cn.iteration).implicitTime
      = some (1 + (cn.theta * (if cn.Forward then (w.vars cn.iteration).implicitTime - t0
          else t0 - (w.vars cn.iteration).implicitTime))
        • cn.system.A (w.vars cn.iteration).implicitTime) := by
    unfold CrankNicolson.Ad
    rw [if_neg (not_lt.mpr htheta), CrankNicolson.dt_eq epsilon cn w t0 ht0 hdt]
    simp only [smul_smul, mul_comm]
  have hb : cn.bd epsilon w (w.vars cn.iteration).implicitTime
      = some ((1 - ((1 - cn.theta) * (if cn.Forward then (w.vars cn.iteration).implicitTime - t0
          else t0 - (w.vars cn.iteration).implicitTime)) • cn.system.A t0).mulVec x0
        + cn.theta • cn.system.b (w.vars cn.iteration).implicitTime
        + (1 - cn.theta) • cn.system.b t0) := by
    unfold CrankNicolson.bd
    rw [ht0, hx0]
    simp only []
    rw [CrankNicolson.dt_eq epsilon cn w t0 ht0 hdt]
    simp only [smul_smul, mul_comm, add_assoc]
  refine ⟨hA, hb, ?_⟩
  intro h2
  have hth : cn.theta = 1 / 2 := by simp [CrankNicolson.theta, h2]
  rw [hA, hb, hth]
  constructor
  · congr 2
    ring_nf
  · have e : (1 : Real) - 1 / 2 = 1 / 2 := by norm_num
    rw [e, smul_add, add_assoc]
    congr 4
    ring_nf

/-- Witness of C9: the Crank-Nicolson method on `unitSourceSystem`, stepping
from time 0 to time 1/2 with `epsilon = 1/1000`. -/
theorem C9_theta_scheme_assembly_witness :
    crankNicolsonUnitSource.Ad (1 / 1000) halfStepWorld
        (halfStepWorld.vars crankNicolsonUnitSource.iteration).implicitTime
      = some (1 + (crankNicolsonUnitSource.theta *
          (if crankNicolsonUnitSource.Forward then
            (halfStepWorld.vars crankNicolsonUnitSource.iteration).implicitTime - 0
          else 0 - (halfStepWorld.vars crankNicolsonUnitSource.iteration).implicitTime))
        • crankNicolsonUnitSource.system.A
          (halfStepWorld.vars crankNicolsonUnitSource.iteration).implicitTime) :=
  (C9_theta_scheme_assembly (1 / 1000) crankNicolsonUnitSource halfStepWorld 0 (fun _ => 0)
    CrankNicolson.halfStepWorld_time CrankNicolson.halfStepWorld_iterand
    (by norm_num [CrankNicolson.theta, crankNicolsonUnitSource])
    (by
      have h := CrankNicolson.halfStepWorld_implicitTime
      simp only [crankNicolsonUnitSource] at h ⊢
      rw [h]; norm_num)).1

/-- C10, counterexample. The implicit method (`ThetaInverse = 1`) on the
system `A = 0`, `b = [1]`, with `x0 = [0]`, `t0 = 0`, `t1 = 1/2` (so
`dt = 1/2`): the right-hand side assembled by `bd` is not `x0 + dt b(t1)`
(it is `[1]`, not `[1/2]`). -/
theorem C10_implicit_identity_counterexample :
    Iteration.time halfStepWorld implicitUnitSource.iteration 0 = some 0 ∧
    Iteration.iterand halfStepWorld implicitUnitSource.iteration 0 = some (fun _ => 0) ∧
    (halfStepWorld.vars implicitUnitSource.iteration).implicitTime = 1 / 2 ∧
    implicitUnitSource.bd (1 / 1000) halfStepWorld (1 / 2)
      ≠ some ((fun _ => (0 : Real)) + (1 / 2 : Real) • implicitUnitSource.system.b (1 / 2)) := by
  refine ⟨CrankNicolson.halfStepWorld_time, CrankNicolson.halfStepWorld_iterand,
    CrankNicolson.halfStepWorld_implicitTime, ?_⟩
  have hd : implicitUnitSource.dt (1 / 1000) halfStepWorld = some (1 / 2) := by
    have h := CrankNicolson.dt_eq (1 / 1000) implicitUnitSource halfStepWorld 0
      CrankNicolson.halfStepWorld_time
      (by
        have h := CrankNicolson.halfStepWorld_implicitTime
        simp only [implicitUnitSource] at h ⊢
        rw [h]; norm_num)
    rw [h]
    have h' := CrankNicolson.halfStepWorld_implicitTime
    simp only [implicitUnitSource] at h' ⊢
    rw [h']; norm_num
  have ht := CrankNicolson.halfStepWorld_time
  have hx := CrankNicolson.halfStepWorld_iterand
  simp only [implicitUnitSource] at ht hx hd
  unfold CrankNicolson.bd
  simp only [implicitUnitSource, ht, hx, hd]
  intro h
  have h0 := congrFun (Option.some.inj h) 0
  simp [CrankNicolson.theta, unitSourceSystem] at h0

/-- C10, amended (implicit scheme). For `ThetaInverse = 1` (with
`epsilon ≤ 1`, so that the scheme is not taken as explicit, and a step
`dt > epsilon`, as `dt()` asserts), for every wrapped system, previous iterand
`x0` and step `dt`: `Ad(t1) = I + dt A(t1)` and `bd(t1) = x0 + b(t1)`, so
the assembled system is `(I + dt A(t1)) x1 = x0 + b(t1)`. -/
theorem C10_implicit_identity {S : Type} {n : Nat} (epsilon : Real) (cn : CrankNicolson n)
    (w : World S (Fin n → Real)) (t0 : Real) (x0 : Fin n → Real)
    (hti : cn.ThetaInverse = 1)
    (ht0 : Iteration.time w cn.iteration 0 = some t0)
    (hx0 : Iteration.iterand w cn.iteration 0 = some x0)
    (heps : epsilon ≤ 1)
    (hdt : epsilon < (if cn.Forward then (w.vars cn.iteration).implicitTime - t0
      else t0 - (w.vars cn.iteration).implicitTime)) :
    cn.Ad epsilon w (w.vars cn.iteration).implicitTime
      = some (1 + (if cn.Forward then (w.vars cn.iteration).implicitTime - t0
          else t0 - (w.vars cn.iteration).implicitTime)
        • cn.system.A (w.vars cn.iteration).implicitTime) ∧
    cn.bd epsilon w (w.vars cn.iteration).implicitTime
      = some (x0 + cn.system.b (w.vars cn.iteration).implicitTime) := by
  have hth : cn.theta = 1 := by simp [CrankNicolson.theta, hti]
  constructor
  · unfold CrankNicolson.Ad
    rw [hth, if_neg (not_lt.mpr heps), CrankNicolson.dt_eq epsilon cn w t0 ht0 hdt]
    simp
  · unfold CrankNicolson.bd
    rw [ht0, hx0]
    simp only []
    rw [CrankNicolson.dt_eq epsilon cn w t0 ht0 hdt, hth]
    simp

/-- Witness of the amended C10: the implicit method on `unitSourceSystem`,
stepping from time 0 to time 1/2 with `epsilon = 1/1000`. -/
theorem C10_implicit_identity_witness :
    implicitUnitSource.bd (1 / 1000) halfStepWorld
        (halfStepWorld.vars implicitUnitSource.iteration).implicitTime
      = some ((fun _ => 0) + implicitUnitSource.system.b
          (halfStepWorld.vars implicitUnitSource.iteration).implicitTime) :=
  (C10_implicit_identity (1 / 1000) implicitUnitSource halfStepWorld 0 (fun _ => 0) rfl
    CrankNicolson.halfStepWorld_time CrankNicolson.halfStepWorld_iterand (by norm_num)
    (by
      have h := CrankNicolson.halfStepWorld_implicitTime
      simp only [implicitUnitSource] at h ⊢
      rw [h]; norm_num)).2

/-! ## The event queue -/

theorem timeOrder_forward_false {V : Type} (a b : T V) :
    TimeOrder true a b = false ↔ a.2.1 < b.2.1 ∨ (a.2.1 = b.2.1 ∧ a.1 ≤ b.1) := by
  simp only [TimeOrder, Order, if_true, Bool.or_eq_false_iff, Bool.and_eq_false_iff,
    decide_eq_false_iff_not, not_lt, gt_iff_lt, Nat.cast_le]
  constructor
  · rintro ⟨h1, h2 | h2⟩
    · exact Or.inl (lt_of_le_of_ne h1 h2)
    · rcases lt_or_eq_of_le h1 with h | h
      · exact Or.inl h
      · exact Or.inr ⟨h, h2⟩
  · rintro (h | ⟨h1, h2⟩)
    · exact ⟨le_of_lt h, Or.inl (ne_of_lt h)⟩
    · exact ⟨le_of_eq h1, Or.inr h2⟩

theorem timeOrder_reverse_false {V : Type} (a b : T V) :
    TimeOrder false a b = false ↔ b.2.1 < a.2.1 ∨ (a.2.1 = b.2.1 ∧ b.1 ≤ a.1) := by
  simp only [TimeOrder, Order, Bool.false_eq_true, if_false, Bool.or_eq_false_iff,
    Bool.and_eq_false_iff, decide_eq_false_iff_not, not_lt, Nat.cast_le]
  constructor
  · rintro ⟨h1, h2 | h2⟩
    · exact Or.inl (lt_of_le_of_ne h1 (Ne.symm h2))
    · rcases lt_or_eq_of_le h1 with h | h
      · exact Or.inl h
      · exact Or.inr ⟨h.symm, h2⟩
  · rintro (h | ⟨h1, h2⟩)
    · exact ⟨le_of_lt h, Or.inl (ne_of_gt h)⟩
    · exact ⟨le_of_eq h1.symm, Or.inr h2⟩

/-- The entry `a` is at or before the entry `b` in firing order. -/
theorem timeOrder_false_trans {V : Type} (Forward : Bool) (a b c : T V)
    (h1 : TimeOrder Forward a b = false) (h2 : TimeOrder Forward b c = false) :
    TimeOrder Forward a c = false := by
  cases Forward
  · rw [timeOrder_reverse_false] at *
    rcases h1 with h1 | ⟨h1, h1'⟩ <;> rcases h2 with h2 | ⟨h2, h2'⟩
    · exact Or.inl (lt_trans h2 h1)
    · exact Or.inl (by rw [← h2]; exact h1)
    · exact Or.inl (by rw [h1]; exact h2)
    · exact Or.inr ⟨h1.trans h2, le_trans h2' h1'⟩
  · rw [timeOrder_forward_false] at *
    rcases h1 with h1 | ⟨h1, h1'⟩ <;> rcases h2 with h2 | ⟨h2, h2'⟩
    · exact Or.inl (lt_trans h1 h2)
    · exact Or.inl (by rw [← h2]; exact h1)
    · exact Or.inl (by rw [h1]; exact h2)
    · exact Or.inr ⟨h1.trans h2, le_trans h1' h2'⟩

theorem timeOrder_true_imp_false {V : Type} (Forward : Bool) (a b : T V)
    (h : TimeOrder Forward a b = true) : TimeOrder Forward b a = false := by
  cases Forward
  · rw [timeOrder_reverse_false]
    by_contra hc
    have h' : ¬ (TimeOrder false a b = false) := by simp [h]
    rw [timeOrder_reverse_false] at h'
    push_neg at hc h'
    have heq : a.2.1 = b.2.1 := le_antisymm h'.1 hc.1
    have := hc.2 heq.symm
    have := h'.2 heq
    omega
  · rw [timeOrder_forward_false]
    by_contra hc
    have h' : ¬ (TimeOrder true a b = false) := by simp [h]
    rw [timeOrder_forward_false] at h'
    push_neg at hc h'
    have heq : a.2.1 = b.2.1 := le_antisymm hc.1 h'.1
    have := hc.2 heq.symm
    have := h'.2 heq
    omega

namespace PriorityQueue

variable {V : Type}

theorem emplace_perm (Forward : Bool) (q : PriorityQueue V) (x : T V) :
    (emplace Forward q x).Perm (x :: q) := by
  induction q with
  | nil => exact List.Perm.refl _
  | cons y ys ih =>
    unfold emplace
    split_ifs with h
    · exact List.Perm.refl _
    · exact (List.Perm.cons y ih).trans (List.Perm.swap x y ys)

theorem mem_emplace (Forward : Bool) (q : PriorityQueue V) (x z : T V) :
    z ∈ emplace Forward q x ↔ z = x ∨ z ∈ q := by
  rw [(emplace_perm Forward q x).mem_iff, List.mem_cons]

/-- The queue keeps `top()` first: no entry is put by `TimeOrder` before an
entry that follows it in the list. -/
theorem emplace_pairwise (Forward : Bool) (q : PriorityQueue V) (x : T V)
    (hq : q.Pairwise (fun a b => TimeOrder Forward a b = false)) :
    (emplace Forward q x).Pairwise (fun a b => TimeOrder Forward a b = false) := by
  induction q with
  | nil => simp [emplace]
  | cons y ys ih =>
    rw [List.pairwise_cons] at hq
    unfold emplace
    split_ifs with h
    · rw [List.pairwise_cons]
      refine ⟨?_, List.pairwise_cons.mpr hq⟩
      intro z hz
      have hxy := timeOrder_true_imp_false Forward y x h
      rcases List.mem_cons.mp hz with rfl | hz'
      · exact hxy
      · exact timeOrder_false_trans Forward x y z hxy (hq.1 z hz')
    · rw [List.pairwise_cons]
      refine ⟨?_, ih hq.2⟩
      intro z hz
      rcases (mem_emplace Forward ys x z).mp hz with rfl | hz'
      · simpa using h
      · exact hq.1 z hz'

end PriorityQueue

namespace TimeIteration

variable {V : Type}

theorem add_spec (epsilon : Real) (it it' : TimeIteration V) (time : Real) (event : V → V)
    (h : add epsilon it time event = some it') :
    it' = { it with
      events := it.events.emplace it.Forward (it.id, time, event)
      id := (it.id + 1) % 4294967296 } ∧
    time ≥ it.startTime ∧ time < it.endTime - epsilon ∧ time ≠ it.initialTime := by
  unfold add at h
  split_ifs at h with hc
  exact ⟨(Option.some.inj h).symm, hc⟩

/-- The queue and counter after a sequence of accepted `add` calls. -/
theorem addAll_spec (epsilon : Real) (es : List (Real × (V → V))) :
    ∀ (it it' : TimeIteration V), addAll epsilon it es = some it' →
      it.events.Pairwise (fun a b => TimeOrder it.Forward a b = false) →
      it.id < 4294967296 →
      it'.events.Pairwise (fun a b => TimeOrder it.Forward a b = false) ∧
      it'.Forward = it.Forward ∧ it'.startTime = it.startTime ∧ it'.endTime = it.endTime ∧
      it'.id = (it.id + es.length) % 4294967296 ∧
      (it'.events.map (fun a => a.1)).Perm
        (it.events.map (fun a => a.1) ++
          (List.range es.length).map (fun i => (it.id + i) % 4294967296)) ∧
      (∀ a ∈ it'.events, a ∈ it.events ∨
        (a.2.1 ≥ it.startTime ∧ a.2.1 < it.endTime - epsilon ∧ a.2.1 ≠ it.initialTime)) := by
  induction es with
  | nil =>
    intro it it' h hs hid
    simp only [addAll, Option.some.injEq] at h
    subst h
    refine ⟨hs, rfl, rfl, rfl, ?_, ?_, ?_⟩
    · simp only [List.length_nil, Nat.add_zero]
      omega
    · simp
    · intro a ha; exact Or.inl ha
  | cons e es ih =>
    intro it it' h hs hid
    unfold addAll at h
    cases hadd : add epsilon it e.1 e.2 with
    | none => rw [hadd] at h; exact absurd h (by simp)
    | some it1 =>
      rw [hadd] at h
      simp only [] at h
      obtain ⟨h1, hc⟩ := add_spec epsilon it it1 e.1 e.2 hadd
      have hF : it1.Forward = it.Forward := by rw [h1]
      have hs1 : it1.events.Pairwise (fun a b => TimeOrder it1.Forward a b = false) := by
        rw [hF, h1]
        exact PriorityQueue.emplace_pairwise it.Forward it.events _ hs
      have hid1 : it1.id < 4294967296 := by rw [h1]; simp only []; omega
      obtain ⟨g1, g2, g3, g4, g5, g6, g7⟩ := ih it1 it' h hs1 hid1
      rw [hF] at g1
      refine ⟨g1, g2.trans hF, ?_, ?_, ?_, ?_, ?_⟩
      · rw [g3, h1]
      · rw [g4, h1]
      · rw [g5, h1]
        simp only [List.length_cons]
        omega
      · refine g6.trans ?_
        rw [h1]
        simp only []
        have hp := (PriorityQueue.emplace_perm it.Forward it.events (it.id, e.1, e.2)).map
          (fun a => a.1)
        simp only [List.map_cons] at hp
        simp only [List.length_cons]
        rw [List.range_succ_eq_map, List.map_cons, List.map_map]
        refine (List.Perm.append hp (List.Perm.refl _)).trans ?_
        simp only [List.cons_append]
        refine List.Perm.trans ?_ List.perm_middle.symm
        have e1 : (it.id + 0) % 4294967296 = it.id := by omega
        rw [e1]
        refine List.Perm.cons _ (List.Perm.append (List.Perm.refl _) ?_)
        refine List.Perm.of_eq (List.map_congr_left ?_)
        intro i _
        simp only [Function.comp]
        omega
      · intro a ha
        rcases g7 a ha with hin | hv
        · rw [h1] at hin
          rcases (PriorityQueue.mem_emplace _ _ _ _).mp hin with rfl | hin'
          · exact Or.inr hc
          · exact Or.inl hin'
        · right
          rw [h1] at hv
          simpa [initialTime] using hv

/-- In a queue with `top()` first, an entry behind one whose time is strictly
past `t` in march order has a time other than `t`. -/
theorem time_ne_of_behind (Forward : Bool) (t : Real) (e a : T V)
    (he : Order Forward e.2.1 t = true) (hea : TimeOrder Forward e a = false) :
    Order Forward a.2.1 t = true := by
  cases Forward
  · rw [timeOrder_reverse_false] at hea
    simp only [Order, Bool.false_eq_true, if_false, decide_eq_true_eq] at he ⊢
    rcases hea with h | ⟨h, _⟩
    · exact lt_trans h he
    · rw [← h]; exact he
  · rw [timeOrder_forward_false] at hea
    simp only [Order, if_true, decide_eq_true_eq, gt_iff_lt] at he ⊢
    rcases hea with h | ⟨h, _⟩
    · exact lt_trans he h
    · rw [← h]; exact he

theorem order_irrefl (Forward : Bool) (t : Real) : Order Forward t t = false := by
  cases Forward <;> simp [Order]

/-- The event loop of `OUTER_TAIL` on a queue with `top()` first, none of whose
times is before `t` in march order: it applies exactly the entries of time `t`,
in queue order, threading the vector through them, and leaves the others. -/
theorem applyEvents_spec (Forward : Bool) (t : Real) (q : PriorityQueue V) :
    ∀ (x d : V), q.Pairwise (fun a b => TimeOrder Forward a b = false) →
      (∀ a ∈ q, a.2.1 = t ∨ Order Forward a.2.1 t = true) →
      (applyEvents t q x d).2.2 = (q.filter (fun a => decide (a.2.1 = t))).map (fun a => a.1) ∧
      (applyEvents t q x d).2.1 = q.filter (fun a => decide (a.2.1 ≠ t)) ∧
      (applyEvents t q x d).1 =
        (if (q.filter (fun a => decide (a.2.1 = t))).isEmpty then d
         else (q.filter (fun a => decide (a.2.1 = t))).foldl (fun v a => a.2.2 v) x) := by
  induction q with
  | nil => intro x d _ _; simp [applyEvents]
  | cons e q ih =>
    intro x d hq hmin
    rw [List.pairwise_cons] at hq
    by_cases het : e.2.1 = t
    · have hmin' : ∀ a ∈ q, a.2.1 = t ∨ Order Forward a.2.1 t = true :=
        fun a ha => hmin a (List.mem_cons_of_mem _ ha)
      obtain ⟨i1, i2, i3⟩ := ih (e.2.2 x) (e.2.2 x) hq.2 hmin'
      simp only [applyEvents, het, if_true, i1, i2, i3]
      refine ⟨by simp [het], by simp [het], ?_⟩
      simp only [List.filter_cons, het, decide_True, if_true, List.foldl_cons]
      cases hnil : List.filter (fun a => decide (a.2.1 = t)) q <;> simp
    · have he : Order Forward e.2.1 t = true := by
        rcases hmin e (List.mem_cons_self _ _) with h | h
        · exact absurd h het
        · exact h
      have hall : ∀ a ∈ e :: q, a.2.1 ≠ t := by
        intro a ha hat
        rcases List.mem_cons.mp ha with rfl | ha'
        · exact het hat
        · have := time_ne_of_behind Forward t e a he (hq.1 a ha')
          rw [hat, order_irrefl] at this
          exact absurd this (by simp)
      have hf1 : (e :: q).filter (fun a => decide (a.2.1 = t)) = [] := by
        rw [List.filter_eq_nil_iff]
        intro a ha
        simpa using hall a ha
      have hf2 : (e :: q).filter (fun a => decide (a.2.1 ≠ t)) = e :: q := by
        rw [List.filter_eq_self]
        intro a ha
        simpa using hall a ha
      rw [hf1, hf2]
      simp [applyEvents, het]

/-- Entries of one time in a queue with `top()` first: their sequence numbers
ascend when `Forward` and descend otherwise. -/
theorem seq_sorted_of_same_time (Forward : Bool) (t : Real) (q : PriorityQueue V)
    (hq : q.Pairwise (fun a b => TimeOrder Forward a b = false)) :
    (Forward = true →
      ((q.filter (fun a => decide (a.2.1 = t))).map (fun a => a.1)).Pairwise (· ≤ ·)) ∧
    (Forward = false →
      ((q.filter (fun a => decide (a.2.1 = t))).map (fun a => a.1)).Pairwise (· ≥ ·)) := by
  have hf := hq.filter (fun a => decide (a.2.1 = t))
  constructor
  · intro hF
    subst hF
    rw [List.pairwise_map]
    refine List.Pairwise.imp_of_mem ?_ hf
    intro a b ha hb hab
    have hat : a.2.1 = t := by simpa using (List.mem_filter.mp ha).2
    have hbt : b.2.1 = t := by simpa using (List.mem_filter.mp hb).2
    rw [timeOrder_forward_false] at hab
    rcases hab with h | ⟨_, h⟩
    · rw [hat, hbt] at h; exact absurd h (lt_irrefl _)
    · exact h
  · intro hF
    subst hF
    rw [List.pairwise_map]
    refine List.Pairwise.imp_of_mem ?_ hf
    intro a b ha hb hab
    have hat : a.2.1 = t := by simpa using (List.mem_filter.mp ha).2
    have hbt : b.2.1 = t := by simpa using (List.mem_filter.mp hb).2
    rw [timeOrder_reverse_false] at hab
    rcases hab with h | ⟨_, h⟩
    · rw [hat, hbt] at h; exact absurd h (lt_irrefl _)
    · exact h

theorem new_spec (Forward : Bool) (startTime endTime : Real) (timestep : Vars V → Real)
    (nodes : List Nat) (it : TimeIteration V)
    (h : TimeIteration.new Forward startTime endTime timestep nodes = some it) :
    it = { Forward := Forward, id := 0, events := [], startTime := startTime,
           endTime := endTime, timestep := timestep, nodes := nodes } ∧
    startTime ≥ 0 ∧ startTime < endTime := by
  unfold TimeIteration.new at h
  split_ifs at h with hc
  exact ⟨(Option.some.inj h).symm, hc⟩

theorem atOrAfter_of_behind (Forward : Bool) (e a : T V)
    (h : TimeOrder Forward e a = false) :
    a.2.1 = e.2.1 ∨ Order Forward a.2.1 e.2.1 = true := by
  cases Forward
  · rw [timeOrder_reverse_false] at h
    simp only [Order, Bool.false_eq_true, if_false, decide_eq_true_eq]
    rcases h with h | ⟨h, _⟩
    · exact Or.inr h
    · exact Or.inl h.symm
  · rw [timeOrder_forward_false] at h
    simp only [Order, if_true, decide_eq_true_eq, gt_iff_lt]
    rcases h with h | ⟨h, _⟩
    · exact Or.inr h
    · exact Or.inl h.symm

/-- The queue of a solve of an iteration built by the constructor and accepted
`add` calls: `top()` is first, and the sequence numbers are the insertion
indices together with that of the sentinel. -/
theorem OUTER_HEAD_spec (epsilon : Real) (Forward : Bool) (startTime endTime : Real)
    (timestep : Vars V → Real) (nodes : List Nat) (es : List (Real × (V → V)))
    (it0 it : TimeIteration V)
    (h0 : TimeIteration.new Forward startTime endTime timestep nodes = some it0)
    (h1 : addAll epsilon it0 es = some it) (hlen : es.length ≤ 4294967295) :
    (OUTER_HEAD it).Pairwise (fun a b => TimeOrder Forward a b = false) ∧
    ((OUTER_HEAD it).map (fun a => a.1)).Perm (unsignedMax :: List.range es.length) ∧
    ((OUTER_HEAD it).map (fun a => a.1)).Nodup ∧ it.Forward = Forward := by
  obtain ⟨e0, _, _⟩ := new_spec Forward startTime endTime timestep nodes it0 h0
  have hF0 : it0.Forward = Forward := by rw [e0]
  have hid0 : it0.id = 0 := by rw [e0]
  have hev0 : it0.events = [] := by rw [e0]
  obtain ⟨g1, g2, _, _, _, g6, _⟩ := addAll_spec epsilon es it0 it h1
    (by rw [hev0]; exact List.Pairwise.nil) (by rw [hid0]; norm_num)
  rw [hF0] at g1 g2
  have hperm : ((OUTER_HEAD it).map (fun a => a.1)).Perm (unsignedMax :: List.range es.length) := by
    unfold OUTER_HEAD
    refine ((PriorityQueue.emplace_perm _ _ _).map (fun a => a.1)).trans ?_
    simp only [List.map_cons]
    refine List.Perm.cons _ (g6.trans ?_)
    rw [hev0, hid0]
    simp only [List.map_nil, List.nil_append]
    refine List.Perm.of_eq ?_
    conv_rhs => rw [← List.map_id (List.range es.length)]
    refine List.map_congr_left ?_
    intro i hi
    have := List.mem_range.mp hi
    show (0 + i) % 4294967296 = i
    omega
  refine ⟨?_, hperm, ?_, g2⟩
  · unfold OUTER_HEAD
    rw [g2]
    exact PriorityQueue.emplace_pairwise Forward _ _ g1
  · rw [hperm.nodup_iff, List.nodup_cons]
    refine ⟨?_, List.nodup_range _⟩
    intro hmem
    have := List.mem_range.mp hmem
    simp only [unsignedMax] at this
    omega

end TimeIteration

/-- C6 (simultaneous events). For an iteration built by the constructor and
accepted `add` calls (fewer than 2^32 of them), at any point of a solve where
an entry `e` is at the top of the working queue: the event loop of `OUTER_TAIL`
applies exactly the queued events whose time is that of `e`, threading the
vector through them in the order applied, and this order is ascending in the
insertion sequence number when `Forward` and descending when not. -/
theorem C6_simultaneous_events_order {V : Type} (epsilon : Real) (Forward : Bool)
    (startTime endTime : Real) (timestep : Vars V → Real) (nodes : List Nat)
    (es : List (Real × (V → V))) (it0 it : TimeIteration V)
    (h0 : TimeIteration.new Forward startTime endTime timestep nodes = some it0)
    (h1 : TimeIteration.addAll epsilon it0 es = some it) (hlen : es.length ≤ 4294967295)
    (k : Nat) (e : T V)
    (htop : PriorityQueue.top ((TimeIteration.OUTER_HEAD it).drop k) = some e) (x d : V) :
    (TimeIteration.applyEvents e.2.1 ((TimeIteration.OUTER_HEAD it).drop k) x d).2.2
      = (((TimeIteration.OUTER_HEAD it).drop k).filter
          (fun a => decide (a.2.1 = e.2.1))).map (fun a => a.1) ∧
    (TimeIteration.applyEvents e.2.1 ((TimeIteration.OUTER_HEAD it).drop k) x d).1
      = (((TimeIteration.OUTER_HEAD it).drop k).filter
          (fun a => decide (a.2.1 = e.2.1))).foldl (fun v a => a.2.2 v) x ∧
    (Forward = true → List.Sorted (· < ·)
      (TimeIteration.applyEvents e.2.1 ((TimeIteration.OUTER_HEAD it).drop k) x d).2.2) ∧
    (Forward = false → List.Sorted (· > ·)
      (TimeIteration.applyEvents e.2.1 ((TimeIteration.OUTER_HEAD it).drop k) x d).2.2) := by
  obtain ⟨hs, _, hnd, _⟩ := TimeIteration.OUTER_HEAD_spec epsilon Forward startTime endTime
    timestep nodes es it0 it h0 h1 hlen
  have hsd : ((TimeIteration.OUTER_HEAD it).drop k).Pairwise
      (fun a b => TimeOrder Forward a b = false) := hs.sublist (List.drop_sublist _ _)
  obtain ⟨q, hq⟩ : ∃ q, (TimeIteration.OUTER_HEAD it).drop k = e :: q := by
    cases hd : (TimeIteration.OUTER_HEAD it).drop k with
    | nil => rw [hd] at htop; simp [PriorityQueue.top] at htop
    | cons a q =>
      rw [hd] at htop
      simp only [PriorityQueue.top, List.head?_cons, Option.some.injEq] at htop
      exact ⟨q, by rw [htop]⟩
  have hmin : ∀ a ∈ (TimeIteration.OUTER_HEAD it).drop k,
      a.2.1 = e.2.1 ∨ Order Forward a.2.1 e.2.1 = true := by
    intro a ha
    rw [hq] at ha hsd
    rcases List.mem_cons.mp ha with rfl | ha'
    · exact Or.inl rfl
    · exact TimeIteration.atOrAfter_of_behind Forward e a ((List.pairwise_cons.mp hsd).1 a ha')
  obtain ⟨r1, _, r3⟩ := TimeIteration.applyEvents_spec Forward e.2.1 _ x d hsd hmin
  have hne : (((TimeIteration.OUTER_HEAD it).drop k).filter
      (fun a => decide (a.2.1 = e.2.1))).isEmpty = false := by
    rw [hq]; simp
  have hnd' : ((((TimeIteration.OUTER_HEAD it).drop k).filter
      (fun a => decide (a.2.1 = e.2.1))).map (fun a => a.1)).Nodup :=
    hnd.sublist (((List.filter_sublist _).trans (List.drop_sublist _ _)).map _)
  obtain ⟨s1, s2⟩ := TimeIteration.seq_sorted_of_same_time Forward e.2.1 _ hsd
  refine ⟨r1, ?_, ?_, ?_⟩
  · rw [r3, hne]; simp
  · intro hF
    rw [r1]
    exact List.Sorted.lt_of_le (s1 hF) hnd'
  · intro hF
    rw [r1]
    have := (s2 hF).and hnd'
    exact this.imp (fun ⟨h1, h2⟩ => lt_of_le_of_ne h1 (Ne.symm h2))

theorem S4new_eq (Forward : Bool) :
    TimeIteration.new Forward 0 1 (fun _ => 1 / 2) [] = some (S4new Forward) := by
  simp [TimeIteration.new, S4new]

theorem S4iteration_eq (Forward : Bool) :
    TimeIteration.addAll (1 / 1000) (S4new Forward) S4events = some (S4iteration Forward) := by
  cases Forward <;>
  simp [TimeIteration.addAll, TimeIteration.add, S4events, S4new, S4iteration,
    TimeIteration.initialTime] <;> norm_num [PriorityQueue.emplace, TimeOrder, Order]

theorem S4_OUTER_HEAD_forward :
    TimeIteration.OUTER_HEAD (S4iteration true)
      = [(0, 1 / 2, fun v => v + 1), (1, 1 / 2, fun v => v * 2), (unsignedMax, 1, NullEvent)] := by
  simp [TimeIteration.OUTER_HEAD, S4iteration, S4new, TimeIteration.terminalTime,
    PriorityQueue.emplace, TimeOrder, Order, unsignedMax]
  norm_num

theorem S4_OUTER_HEAD_reverse :
    TimeIteration.OUTER_HEAD (S4iteration false)
      = [(1, 1 / 2, fun v => v * 2), (0, 1 / 2, fun v => v + 1), (unsignedMax, 0, NullEvent)] := by
  simp [TimeIteration.OUTER_HEAD, S4iteration, S4new, TimeIteration.terminalTime,
    PriorityQueue.emplace, TimeOrder, Order, unsignedMax]
  norm_num

/-- Witness of C6: scenario S4 marched forward; at the first boundary the
sequence numbers applied ascend. -/
theorem C6_simultaneous_events_order_witness :
    List.Sorted (· < ·)
      (TimeIteration.applyEvents ((0 : Nat), (1 / 2 : Real), fun v : Real => v + 1).2.1
        ((TimeIteration.OUTER_HEAD (S4iteration true)).drop 0) (3 : Real) 0).2.2 :=
  (C6_simultaneous_events_order (1 / 1000) true 0 1 (fun _ => 1 / 2) [] S4events
    (S4new true) (S4iteration true) (S4new_eq true) (S4iteration_eq true)
    (by simp [S4events]) 0 (0, 1 / 2, fun v => v + 1)
    (by rw [S4_OUTER_HEAD_forward]; rfl) 3 0).2.2.1 rfl

/-- C7, counterexample (scenario S4, forward, `x0 = [3]`). With
`v <- v + [1]` added first and `v <- v * 2` added second, both at `t = 1/2`,
the forward march applies the add (sequence number 0) first and the multiply
(sequence number 1) second, and the vector after the boundary is not
`2 x0 + 1`; the whole forward march returns `[8]` (not `[7]`) and the whole
reverse march `[7]` (not `[8]`). -/
theorem C7_tie_break_counterexample :
    (TimeIteration.applyEvents (1 / 2) (TimeIteration.OUTER_HEAD (S4iteration true))
      (3 : Real) 0).2.2 = [0, 1] ∧
    (TimeIteration.applyEvents (1 / 2) (TimeIteration.OUTER_HEAD (S4iteration true))
      (3 : Real) 0).1 ≠ 2 * 3 + 1 ∧
    (S4march true 3).toOption.map Prod.fst = some 8 ∧
    (S4march false 3).toOption.map Prod.fst = some 7 := by
  rw [S4_OUTER_HEAD_forward]
  refine ⟨?_, ?_, by decide!, by decide!⟩
  · simp [TimeIteration.applyEvents]
  · simp [TimeIteration.applyEvents]
    norm_num

/-- C7, amended (tie-break among simultaneous events). Of two events added at
the same time `t`, first `f` and then `g`, the earlier-inserted `f` fires first
when `Forward` and last when not: at the boundary of time `t` the forward march
turns the vector `x` into `g (f x)` and the reverse march into `f (g x)`
(`epsilon ≥ 0`). In
scenario S4 (`f = v + [1]`, `g = v * 2`) the forward march gives `2 (x0 + 1)`
and the reverse march `2 x0 + 1`. -/
theorem C7_tie_break {V : Type} (epsilon : Real) (heps : 0 ≤ epsilon) (Forward : Bool)
    (startTime endTime : Real) (timestep : Vars V → Real) (nodes : List Nat)
    (t : Real) (f g : V → V) (it0 it : TimeIteration V)
    (h0 : TimeIteration.new Forward startTime endTime timestep nodes = some it0)
    (h1 : TimeIteration.addAll epsilon it0 [(t, f), (t, g)] = some it) (x d : V) :
    (TimeIteration.applyEvents t (TimeIteration.OUTER_HEAD it) x d).1
      = (if Forward then g (f x) else f (g x)) ∧
    (TimeIteration.applyEvents t (TimeIteration.OUTER_HEAD it) x d).2.2.filter
        (fun s => decide (s ≠ unsignedMax))
      = (if Forward then [0, 1] else [1, 0]) := by
  obtain ⟨e0, _, hse⟩ := TimeIteration.new_spec Forward startTime endTime timestep nodes it0 h0
  subst e0
  unfold TimeIteration.addAll at h1
  cases ha1 : TimeIteration.add epsilon _ (t, f).1 (t, f).2 with
  | none => rw [ha1] at h1; exact absurd h1 (by simp)
  | some it1 =>
    rw [ha1] at h1
    simp only [] at h1
    obtain ⟨e1, c1, c2, c3⟩ := TimeIteration.add_spec epsilon _ it1 _ _ ha1
    subst e1
    unfold TimeIteration.addAll at h1
    cases ha2 : TimeIteration.add epsilon _ (t, g).1 (t, g).2 with
    | none => rw [ha2] at h1; exact absurd h1 (by simp)
    | some it2 =>
      rw [ha2] at h1
      simp only [TimeIteration.addAll, Option.some.injEq] at h1
      obtain ⟨e2, _, _, _⟩ := TimeIteration.add_spec epsilon _ it2 _ _ ha2
      subst h1
      subst e2
      simp only [] at c1 c2 c3
      cases Forward
      · simp only [TimeIteration.initialTime, Bool.false_eq_true, if_false] at c3
        by_cases hts : t = startTime
        · subst hts
          simp [TimeIteration.OUTER_HEAD, TimeIteration.terminalTime, PriorityQueue.emplace,
            TimeOrder, Order, unsignedMax, TimeIteration.applyEvents, NullEvent]
        · have hlt : startTime < t := lt_of_le_of_ne c1 (Ne.symm hts)
          simp [TimeIteration.OUTER_HEAD, TimeIteration.terminalTime, PriorityQueue.emplace,
            TimeOrder, Order, unsignedMax, TimeIteration.applyEvents, NullEvent, hts,
            not_lt.mpr (le_of_lt hlt), Ne.symm hts]
      · have hlt : t < endTime := by linarith [c2, heps]
        simp [TimeIteration.OUTER_HEAD, TimeIteration.terminalTime, PriorityQueue.emplace,
          TimeOrder, Order, unsignedMax, TimeIteration.applyEvents, NullEvent,
          not_lt.mpr (le_of_lt hlt), ne_of_lt hlt, ne_of_gt hlt]

/-- Witness of the amended C7: scenario S4 with `x0 = [3]`; the forward march
gives `(3 + 1) * 2` and the reverse march `3 * 2 + 1`. -/
theorem C7_tie_break_witness :
    (TimeIteration.applyEvents (1 / 2) (TimeIteration.OUTER_HEAD (S4iteration true))
      (3 : Real) 0).1 = (if true then (fun v : Real => v * 2) ((fun v : Real => v + 1) 3)
        else (fun v : Real => v + 1) ((fun v : Real => v * 2) 3)) ∧
    (TimeIteration.applyEvents (1 / 2) (TimeIteration.OUTER_HEAD (S4iteration false))
      (3 : Real) 0).1 = (if false then (fun v : Real => v * 2) ((fun v : Real => v + 1) 3)
        else (fun v : Real => v + 1) ((fun v : Real => v * 2) 3)) :=
  ⟨(C7_tie_break (1 / 1000) (by norm_num) true 0 1 (fun _ => 1 / 2) [] (1 / 2)
      (fun v => v + 1) (fun v => v * 2) (S4new true) (S4iteration true) (S4new_eq true)
      (S4iteration_eq true) 3 0).1,
   (C7_tie_break (1 / 1000) (by norm_num) false 0 1 (fun _ => 1 / 2) [] (1 / 2)
      (fun v => v + 1) (fun v => v * 2) (S4new false) (S4iteration false) (S4new_eq false)
      (S4iteration_eq false) 3 0).1⟩

/-! ## Solver-reuse gating -/

theorem Gated.append {i : Bool} {s1 s2 : List Call} (h1 : Gated i s1) (h2 : Gated true s2)
    (hne : i = true ∨ s1 ≠ []) : Gated i (s1 ++ s2) := by
  induction h1 with
  | done i =>
    rcases hne with h | h
    · subst h; simpa using h2
    · exact absurd rfl h
  | first t rest _ ih => exact Gated.first t _ (ih (Or.inl rfl))
  | reuse t rest _ ih => exact Gated.reuse t _ (ih (Or.inl rfl))
  | rebuild t rest _ ih => exact Gated.rebuild t _ (ih (Or.inl rfl))

theorem Quiet.refl {S V : Type} (w : World S V) : Quiet w w := ⟨[], by simp, rfl⟩

theorem Quiet.of_log_eq {S V : Type} {w w' : World S V} (h : w'.log = w.log) : Quiet w w' :=
  ⟨[], by simp [h], rfl⟩

theorem Quiet.then_quiet {S V : Type} {w1 w2 w3 : World S V} (h1 : Quiet w1 w2) (h2 : Quiet w2 w3) :
    Quiet w1 w3 := by
  obtain ⟨s1, e1, f1⟩ := h1
  obtain ⟨s2, e2, f2⟩ := h2
  exact ⟨s1 ++ s2, by rw [e2, e1, List.append_assoc], by rw [List.filter_append, f1, f2]; rfl⟩

theorem LogSpec.quiet_left {S V : Type} {i : Bool} {w1 w2 w3 : World S V} (h1 : Quiet w1 w2)
    (h2 : LogSpec i w2 w3) : LogSpec i w1 w3 := by
  obtain ⟨s1, e1, f1⟩ := h1
  obtain ⟨s2, e2, g2, n2⟩ := h2
  refine ⟨s1 ++ s2, by rw [e2, e1, List.append_assoc], ?_, ?_⟩
  · rw [List.filter_append, f1]; simpa using g2
  · rw [List.filter_append, f1]; simpa using n2

theorem LogSpec.quiet_right {S V : Type} {i : Bool} {w1 w2 w3 : World S V}
    (h1 : LogSpec i w1 w2) (h2 : Quiet w2 w3) : LogSpec i w1 w3 := by
  obtain ⟨s1, e1, g1, n1⟩ := h1
  obtain ⟨s2, e2, f2⟩ := h2
  refine ⟨s1 ++ s2, by rw [e2, e1, List.append_assoc], ?_, ?_⟩
  · rw [List.filter_append, f2]; simpa using g1
  · rw [List.filter_append, f2]; simpa using n1

theorem LogSpec.then_gated {S V : Type} {i : Bool} {w1 w2 w3 : World S V}
    (h1 : LogSpec i w1 w2) (h2 : LogSpec true w2 w3) : LogSpec i w1 w3 := by
  obtain ⟨s1, e1, g1, n1⟩ := h1
  obtain ⟨s2, e2, g2, _⟩ := h2
  refine ⟨s1 ++ s2, by rw [e2, e1, List.append_assoc], ?_, ?_⟩
  · rw [List.filter_append]; exact Gated.append g1 g2 (Or.inr n1)
  · rw [List.filter_append]; simp [n1]

theorem quiet_record {S V : Type} (w : World S V) (cs : List Call)
    (h : ∀ c ∈ cs, c.isSystemCall = false) : Quiet w (w.record cs) :=
  ⟨cs, rfl, by rw [List.filter_eq_nil_iff]; intro c hc; simp [h c hc]⟩

namespace Iteration

variable {S M V : Type}

theorem quiet_startNodes (nodes : List Nat) (w : World S V) : Quiet w (startNodes nodes w) := by
  apply quiet_record
  intro c hc
  obtain ⟨n, _, rfl⟩ := List.mem_map.mp hc
  rfl

theorem quiet_clearNodes (nodes : List Nat) (w : World S V) : Quiet w (clearNodes nodes w) := by
  apply quiet_record
  intro c hc
  obtain ⟨n, _, rfl⟩ := List.mem_map.mp hc
  rfl

theorem quiet_afterEvent (nodes : List Nat) (w : World S V) : Quiet w (afterEvent nodes w) := by
  apply quiet_record
  intro c hc
  obtain ⟨n, _, rfl⟩ := List.mem_map.mp hc
  rfl

theorem quiet_endNodes (nodes : List Nat) (w : World S V) : Quiet w (endNodes nodes w) := by
  apply quiet_record
  intro c hc
  obtain ⟨n, _, rfl⟩ := List.mem_map.mp hc
  rfl

theorem quiet_setVars (w : World S V) (lvl : Nat) (v : Vars V) : Quiet w (w.setVars lvl v) :=
  Quiet.of_log_eq rfl

theorem quiet_pushHistory (lvl : Nat) (t : Real) (x : V) (w : World S V) :
    Quiet w (pushHistory lvl t x w) :=
  ⟨[Call.push lvl t], rfl, rfl⟩

theorem quiet_clearHistory (lvl : Nat) (w : World S V) : Quiet w (clearHistory lvl w) :=
  Quiet.of_log_eq rfl

theorem quiet_TAIL (lvl : Nat) (nodes : List Nat) (w : World S V) : Quiet w (TAIL lvl nodes w) :=
  (quiet_setVars w lvl _).then_quiet (quiet_endNodes nodes _)

theorem quiet_opening (lvl : Nat) (nodes : List Nat) (x : V) (w : World S V) :
    Quiet w (opening lvl nodes x w) :=
  (((quiet_setVars w lvl _).then_quiet (quiet_clearNodes nodes _)).then_quiet
    (quiet_clearHistory lvl _)).then_quiet (quiet_pushHistory lvl _ x _)

/-- One call of `solveLinearSystemAndSaveResult`: a single block, gated by
`initialized`. -/
theorem logSpec_solve (root : IterationNode S M V) (solver : LinearSolver S M V) (lvl : Nat)
    (i : Bool) (w w' : World S V)
    (h : solveLinearSystemAndSaveResult root solver lvl i w = .ok w') : LogSpec i w w' := by
  unfold solveLinearSystemAndSaveResult at h
  cases i
  · simp only [Bool.not_false, if_true] at h
    split at h
    · exact absurd h (by simp)
    · simp only [Except.ok.injEq] at h
      subst h
      refine ⟨[Call.A (w.vars lvl).implicitTime, Call.initialise, Call.b (w.vars lvl).implicitTime,
        Call.solve, Call.push lvl (w.vars lvl).implicitTime], ?_, ?_, ?_⟩
      · simp [pushHistory, World.record, World.setVars]
      · exact Gated.first _ _ (Gated.done true)
      · simp [List.filter, Call.isSystemCall]
  · simp only [Bool.not_true, Bool.false_eq_true, if_false] at h
    by_cases hs : root.isATheSame w = true
    · simp only [hs, Bool.not_true, Bool.false_eq_true, if_false] at h
      split at h
      · exact absurd h (by simp)
      · simp only [Except.ok.injEq] at h
        subst h
        refine ⟨[Call.isATheSame true, Call.b (w.vars lvl).implicitTime,
          Call.solve, Call.push lvl (w.vars lvl).implicitTime], ?_, ?_, ?_⟩
        · simp [pushHistory, World.record, World.setVars]
        · exact Gated.reuse _ _ (Gated.done true)
        · simp [List.filter, Call.isSystemCall]
    · have hs' : root.isATheSame w = false := by simpa using hs
      simp only [hs', Bool.not_false, if_true] at h
      split at h
      · exact absurd h (by simp)
      · simp only [Except.ok.injEq] at h
        subst h
        refine ⟨[Call.isATheSame false, Call.A (w.vars lvl).implicitTime, Call.initialise,
          Call.b (w.vars lvl).implicitTime, Call.solve,
          Call.push lvl (w.vars lvl).implicitTime], ?_, ?_, ?_⟩
        · simp [pushHistory, World.record, World.setVars]
        · exact Gated.rebuild _ _ (Gated.done true)
        · simp [List.filter, Call.isSystemCall]

end Iteration

namespace Iteration

variable {S M V : Type}

theorem logSpec_produce (root : IterationNode S M V) (solver : LinearSolver S M V) (lvl : Nat)
    (child : Option (Runner S V)) (hchild : ∀ run, child = some run → RunnerGated run)
    (i : Bool) (w w' : World S V)
    (h : produce root solver lvl child i w = .ok w') : LogSpec i w w' := by
  unfold produce at h
  cases child with
  | none => exact logSpec_solve root solver lvl i w w' h
  | some run =>
    simp only [] at h
    split at h
    · exact absurd h (by simp)
    · rename_i x0 _
      split at h
      · exact absurd h (by simp)
      · rename_i r hr
        simp only [Except.ok.injEq] at h
        subst h
        exact (hchild run rfl _ _ _ _ _ hr).quiet_right (quiet_pushHistory _ _ _ _)

theorem logSpec_stepLoop (root : IterationNode S M V) (solver : LinearSolver S M V) (lvl : Nat)
    (nodes : List Nat) (child : Option (Runner S V))
    (hchild : ∀ run, child = some run → RunnerGated run)
    (TIMESTEP : World S V → Except Error (World S V))
    (NOT_DONE : World S V → Except Error Bool)
    (hT : ∀ w w', TIMESTEP w = .ok w' → Quiet w w') :
    ∀ (fuel : Nat) (i : Bool) (w : World S V) (r : Bool × World S V),
      stepLoop root solver lvl nodes child TIMESTEP NOT_DONE fuel i w = .ok r →
      LogSpec i w r.2 ∧ r.1 = true := by
  intro fuel
  induction fuel with
  | zero => intro i w r h; simp [stepLoop] at h
  | succ fuel ih =>
    intro i w r h
    unfold stepLoop at h
    split at h
    · exact absurd h (by simp)
    · rename_i w1 hw1
      split at h
      · exact absurd h (by simp)
      · rename_i w2 hw2
        have hstep : LogSpec i w (TAIL lvl nodes w2) :=
          ((logSpec_produce root solver lvl child hchild i _ w2 hw2).quiet_left
            ((hT w w1 hw1).then_quiet (quiet_startNodes nodes w1))).quiet_right (quiet_TAIL lvl nodes w2)
        split at h
        · exact absurd h (by simp)
        · obtain ⟨h1, h2⟩ := ih true _ r h
          exact ⟨hstep.then_gated h1, h2⟩
        · simp only [Except.ok.injEq] at h
          subst h
          exact ⟨hstep, rfl⟩

end Iteration

theorem ToleranceIteration.tolerance_runnerGated {S M V : Type} (fuel : Nat) (root : IterationNode S M V)
    (solver : LinearSolver S M V) (it : ToleranceIteration V) (lvl : Nat)
    (child : Option (Runner S V)) (hchild : ∀ run, child = some run → RunnerGated run) :
    RunnerGated (ToleranceIteration.iterateUntilDone fuel root solver it lvl child) := by
  intro x t i w r h
  unfold ToleranceIteration.iterateUntilDone at h
  simp only [] at h
  split at h
  · exact absurd h (by simp)
  · rename_i r' hr'
    split at h
    · exact absurd h (by simp)
    · simp only [Except.ok.injEq] at h
      subst h
      have := (Iteration.logSpec_stepLoop root solver lvl it.nodes child hchild _ _
        (fun w w' hw => by simp only [Except.ok.injEq] at hw; subst hw; exact Quiet.refl _)
        fuel i _ r' hr').1
      exact this.quiet_left
        ((Iteration.quiet_setVars w lvl _).then_quiet (Iteration.quiet_opening lvl it.nodes x _))

namespace TimeIteration

variable {S M V : Type}

theorem quiet_TIMESTEP (epsilon : Real) (it : TimeIteration V) (lvl : Nat) (nextEventTime : Real)
    (w w' : World S V) (h : TIMESTEP epsilon it lvl nextEventTime w = .ok w') : Quiet w w' := by
  unfold TIMESTEP at h
  split_ifs at h
  simp only [Except.ok.injEq] at h
  subst h
  exact Iteration.quiet_setVars _ _ _

theorem quiet_OUTER_TAIL [Inhabited V] (it : TimeIteration V) (lvl : Nat) (nextEventTime : Real)
    (events : PriorityQueue V) (w : World S V) (r : PriorityQueue V × World S V)
    (h : OUTER_TAIL it lvl nextEventTime events w = .ok r) : Quiet w r.2 := by
  unfold OUTER_TAIL at h
  simp only [] at h
  split at h
  · exact absurd h (by simp)
  · simp only [Except.ok.injEq] at h
    subst h
    rename_i x0 _
    have q1 := Iteration.quiet_setVars w lvl { w.vars lvl with implicitTime := nextEventTime }
    have q2 := quiet_record (w.setVars lvl { w.vars lvl with implicitTime := nextEventTime })
      ((applyEvents nextEventTime events x0 default).2.2.map Call.event)
      (by
        intro c hc
        obtain ⟨n, _, rfl⟩ := List.mem_map.mp hc
        rfl)
    exact q1.then_quiet (q2.then_quiet (((Iteration.quiet_afterEvent it.nodes _).then_quiet
        (Iteration.quiet_clearHistory lvl _)).then_quiet (Iteration.quiet_pushHistory lvl _ _ _)))

theorem logSpec_outerLoop [Inhabited V] (epsilon : Real) (root : IterationNode S M V)
    (solver : LinearSolver S M V) (it : TimeIteration V) (lvl : Nat)
    (child : Option (Runner S V)) (hchild : ∀ run, child = some run → RunnerGated run)
    (inner : Nat) :
    ∀ (fuel : Nat) (events : PriorityQueue V) (i : Bool) (w w' : World S V),
      outerLoop epsilon root solver it lvl child inner fuel events i w = .ok w' →
      LogSpec i w w' := by
  intro fuel
  induction fuel with
  | zero => intro events i w w' h; simp [outerLoop] at h
  | succ fuel ih =>
    intro events i w w' h
    unfold outerLoop at h
    split at h
    · exact absurd h (by simp)
    · rename_i e _
      split at h
      · exact absurd h (by simp)
      · rename_i r hr
        obtain ⟨hs, hr1⟩ := Iteration.logSpec_stepLoop root solver lvl it.nodes child hchild _ _
          (quiet_TIMESTEP epsilon it lvl e.2.1) inner i w r hr
        split at h
        · exact absurd h (by simp)
        · rename_i r' hr'
          have hb : LogSpec i w r'.2 :=
            hs.quiet_right (quiet_OUTER_TAIL it lvl e.2.1 events r.2 r' hr')
          split_ifs at h
          · rw [hr1] at h
            exact hb.then_gated (ih _ true _ w' h)
          · simp only [Except.ok.injEq] at h
            subst h
            exact hb

theorem time_runnerGated [Inhabited V] (epsilon : Real) (fuel : Nat) (root : IterationNode S M V)
    (solver : LinearSolver S M V) (it : TimeIteration V) (lvl : Nat)
    (child : Option (Runner S V)) (hchild : ∀ run, child = some run → RunnerGated run) :
    RunnerGated (iterateUntilDone epsilon fuel root solver it lvl child) := by
  intro x t i w r h
  unfold iterateUntilDone at h
  split at h
  · exact absurd h (by simp)
  · rename_i w' hw'
    split at h
    · exact absurd h (by simp)
    · simp only [Except.ok.injEq] at h
      subst h
      exact (logSpec_outerLoop epsilon root solver it lvl child hchild fuel fuel _ i _ w'
        hw').quiet_left
        ((Iteration.quiet_setVars w lvl _).then_quiet (Iteration.quiet_opening lvl it.nodes x _))

end TimeIteration

theorem runChain_gated {S M V : Type} [Inhabited V] (epsilon : Real) (fuel : Nat)
    (root : IterationNode S M V) (solver : LinearSolver S M V) (chain : List (IterationKind V)) :
    ∀ (lvl : Nat) (run : Runner S V),
      runChain epsilon fuel root solver chain lvl = some run → RunnerGated run := by
  induction chain with
  | nil => intro lvl run h; simp [runChain] at h
  | cons k rest ih =>
    intro lvl run h
    cases k with
    | tolerance it =>
      simp only [runChain, Option.some.injEq] at h
      subst h
      exact ToleranceIteration.tolerance_runnerGated fuel root solver it lvl _ (fun run' h' => ih _ run' h')
    | time it =>
      simp only [runChain, Option.some.injEq] at h
      subst h
      exact TimeIteration.time_runnerGated epsilon fuel root solver it lvl _
        (fun run' h' => ih _ run' h')

theorem solveRecordsFrom_filter (cs : List Call) :
    ∀ cur, solveRecordsFrom cur (cs.filter Call.isSystemCall) = solveRecordsFrom cur cs := by
  induction cs with
  | nil => intro cur; rfl
  | cons c cs ih =>
    intro cur
    cases c <;> simp [List.filter, Call.isSystemCall, solveRecordsFrom, ih]

/-- What the solves of a gated record look like when `initialized` was true
from the start. -/
theorem solveRecords_of_gated_true (s : List Call) (i : Bool) (h : Gated i s) (hi : i = true) :
    ∀ rec ∈ solveRecords s, ∃ r, rec = ⟨some r, if r then 0 else 1, if r then 0 else 1⟩ := by
  induction h with
  | done i => intro rec hrec; simp [solveRecords, solveRecordsFrom] at hrec
  | first t rest _ _ => exact absurd hi (by simp)
  | reuse t rest _ ih =>
    intro rec hrec
    simp only [solveRecords, solveRecordsFrom, List.mem_cons] at hrec
    rcases hrec with rfl | hrec
    · exact ⟨true, rfl⟩
    · exact ih rfl rec hrec
  | rebuild t rest _ ih =>
    intro rec hrec
    simp only [solveRecords, solveRecordsFrom, List.mem_cons] at hrec
    rcases hrec with rfl | hrec
    · exact ⟨false, rfl⟩
    · exact ih rfl rec hrec

/-- What the solves of a gated record look like when `initialized` was false
at the start: solve 0 initialises without asking the root. -/
theorem solveRecords_of_gated_false (s : List Call) (h : Gated false s) (hne : s ≠ []) :
    ∃ rest, solveRecords s = ⟨none, 1, 1⟩ :: rest ∧
      ∀ rec ∈ rest, ∃ r, rec = ⟨some r, if r then 0 else 1, if r then 0 else 1⟩ := by
  cases h with
  | done => exact absurd rfl hne
  | first t rest hrest =>
    refine ⟨solveRecords rest, ?_, solveRecords_of_gated_true rest true hrest rfl⟩
    simp [solveRecords, solveRecordsFrom]

theorem SolverGated.appendBlocks {S M V : Type} {root : IterationNode S M V}
    {solver : LinearSolver S M V} {i : Bool} {s s1 s2 : S} {a b : List Call}
    (h1 : SolverGated root solver i s a s1) (h2 : SolverGated root solver true s1 b s2)
    (hne : i = true ∨ a ≠ []) : SolverGated root solver i s (a ++ b) s2 := by
  induction h1 with
  | done i s =>
    rcases hne with h | h
    · subst h; simpa using h2
    · exact absurd rfl h
  | first w lvl rest s' _ ih => exact SolverGated.first w lvl _ _ (ih h2 (Or.inl rfl))
  | reuse w lvl rest s' hs _ ih => exact SolverGated.reuse w lvl _ _ hs (ih h2 (Or.inl rfl))
  | rebuild w lvl rest s' hs _ ih => exact SolverGated.rebuild w lvl _ _ hs (ih h2 (Or.inl rfl))

/-- The record of a run gated with the states of the solver is gated. -/
theorem SolverGated.gated {S M V : Type} {root : IterationNode S M V}
    {solver : LinearSolver S M V} {i : Bool} {s s1 : S} {a : List Call}
    (h : SolverGated root solver i s a s1) : Gated i a := by
  induction h with
  | done i s => exact Gated.done i
  | first w lvl rest s' _ ih => exact Gated.first _ _ ih
  | reuse w lvl rest s' _ _ ih => exact Gated.reuse _ _ ih
  | rebuild w lvl rest s' _ _ ih => exact Gated.rebuild _ _ ih

theorem Still.same {S V : Type} (w : World S V) : Still w w := ⟨Quiet.refl w, rfl⟩

theorem Still.then_still {S V : Type} {w1 w2 w3 : World S V} (h1 : Still w1 w2)
    (h2 : Still w2 w3) : Still w1 w3 :=
  ⟨h1.1.then_quiet h2.1, by rw [h2.2, h1.2]⟩

theorem SolverSpec.still_left {S M V : Type} {root : IterationNode S M V}
    {solver : LinearSolver S M V} {i : Bool} {w1 w2 w3 : World S V} (h1 : Still w1 w2)
    (h2 : SolverSpec root solver i w2 w3) : SolverSpec root solver i w1 w3 := by
  obtain ⟨⟨s1, e1, f1⟩, hs⟩ := h1
  obtain ⟨s2, e2, g2, n2⟩ := h2
  refine ⟨s1 ++ s2, by rw [e2, e1, List.append_assoc], ?_, ?_⟩
  · rw [List.filter_append, f1, ← hs]; simpa using g2
  · rw [List.filter_append, f1]; simpa using n2

theorem SolverSpec.still_right {S M V : Type} {root : IterationNode S M V}
    {solver : LinearSolver S M V} {i : Bool} {w1 w2 w3 : World S V}
    (h1 : SolverSpec root solver i w1 w2) (h2 : Still w2 w3) : SolverSpec root solver i w1 w3 := by
  obtain ⟨s1, e1, g1, n1⟩ := h1
  obtain ⟨⟨s2, e2, f2⟩, hs⟩ := h2
  refine ⟨s1 ++ s2, by rw [e2, e1, List.append_assoc], ?_, ?_⟩
  · rw [List.filter_append, f2, hs]; simpa using g1
  · rw [List.filter_append, f2]; simpa using n1

theorem SolverSpec.thenBlocks {S M V : Type} {root : IterationNode S M V}
    {solver : LinearSolver S M V} {i : Bool} {w1 w2 w3 : World S V}
    (h1 : SolverSpec root solver i w1 w2) (h2 : SolverSpec root solver true w2 w3) :
    SolverSpec root solver i w1 w3 := by
  obtain ⟨s1, e1, g1, n1⟩ := h1
  obtain ⟨s2, e2, g2, _⟩ := h2
  refine ⟨s1 ++ s2, by rw [e2, e1, List.append_assoc], ?_, ?_⟩
  · rw [List.filter_append]; exact SolverGated.appendBlocks g1 g2 (Or.inr n1)
  · rw [List.filter_append]; simp [n1]

namespace Iteration

variable {S M V : Type}

theorem still_TAIL (lvl : Nat) (nodes : List Nat) (w : World S V) : Still w (TAIL lvl nodes w) :=
  ⟨quiet_TAIL lvl nodes w, rfl⟩

theorem still_opening (lvl : Nat) (nodes : List Nat) (x : V) (w : World S V) :
    Still w (opening lvl nodes x w) :=
  ⟨quiet_opening lvl nodes x w, rfl⟩

/-- One call of `solveLinearSystemAndSaveResult`: a single block, gated by
`initialized`, with the solver initialised in it exactly when the block has
the call. -/
theorem solverSpec_solve (root : IterationNode S M V) (solver : LinearSolver S M V) (lvl : Nat)
    (i : Bool) (w w' : World S V)
    (h : solveLinearSystemAndSaveResult root solver lvl i w = .ok w') :
    SolverSpec root solver i w w' := by
  unfold solveLinearSystemAndSaveResult at h
  cases i
  · simp only [Bool.not_false, if_true] at h
    split at h
    · exact absurd h (by simp)
    · simp only [Except.ok.injEq] at h
      subst h
      refine ⟨[Call.A (w.vars lvl).implicitTime, Call.initialise, Call.b (w.vars lvl).implicitTime,
        Call.solve, Call.push lvl (w.vars lvl).implicitTime], ?_, ?_, ?_⟩
      · simp [pushHistory, World.record, World.setVars]
      · exact SolverGated.first w lvl _ _ (SolverGated.done true _)
      · simp [List.filter, Call.isSystemCall]
  · simp only [Bool.not_true, Bool.false_eq_true, if_false] at h
    by_cases hs : root.isATheSame w = true
    · simp only [hs, Bool.not_true, Bool.false_eq_true, if_false] at h
      split at h
      · exact absurd h (by simp)
      · simp only [Except.ok.injEq] at h
        subst h
        refine ⟨[Call.isATheSame true, Call.b (w.vars lvl).implicitTime,
          Call.solve, Call.push lvl (w.vars lvl).implicitTime], ?_, ?_, ?_⟩
        · simp [pushHistory, World.record, World.setVars]
        · exact SolverGated.reuse w lvl _ _ hs (SolverGated.done true _)
        · simp [List.filter, Call.isSystemCall]
    · have hs' : root.isATheSame w = false := by simpa using hs
      simp only [hs', Bool.not_false, if_true] at h
      split at h
      · exact absurd h (by simp)
      · simp only [Except.ok.injEq] at h
        subst h
        refine ⟨[Call.isATheSame false, Call.A (w.vars lvl).implicitTime, Call.initialise,
          Call.b (w.vars lvl).implicitTime, Call.solve,
          Call.push lvl (w.vars lvl).implicitTime], ?_, ?_, ?_⟩
        · simp [pushHistory, World.record, World.setVars]
        · exact SolverGated.rebuild w lvl _ _ hs' (SolverGated.done true _)
        · simp [List.filter, Call.isSystemCall]

theorem solverSpec_produce (root : IterationNode S M V) (solver : LinearSolver S M V) (lvl : Nat)
    (child : Option (Runner S V))
    (hchild : ∀ run, child = some run → RunnerSolverGated root solver run)
    (i : Bool) (w w' : World S V)
    (h : produce root solver lvl child i w = .ok w') : SolverSpec root solver i w w' := by
  unfold produce at h
  cases child with
  | none => exact solverSpec_solve root solver lvl i w w' h
  | some run =>
    simp only [] at h
    split at h
    · exact absurd h (by simp)
    · rename_i x0 _
      split at h
      · exact absurd h (by simp)
      · rename_i r hr
        simp only [Except.ok.injEq] at h
        subst h
        exact (hchild run rfl _ _ _ _ _ hr).still_right ⟨quiet_pushHistory _ _ _ _, rfl⟩

theorem solverSpec_stepLoop (root : IterationNode S M V) (solver : LinearSolver S M V)
    (lvl : Nat) (nodes : List Nat) (child : Option (Runner S V))
    (hchild : ∀ run, child = some run → RunnerSolverGated root solver run)
    (TIMESTEP : World S V → Except Error (World S V))
    (NOT_DONE : World S V → Except Error Bool)
    (hT : ∀ w w', TIMESTEP w = .ok w' → Still w w') :
    ∀ (fuel : Nat) (i : Bool) (w : World S V) (r : Bool × World S V),
      stepLoop root solver lvl nodes child TIMESTEP NOT_DONE fuel i w = .ok r →
      SolverSpec root solver i w r.2 ∧ r.1 = true := by
  intro fuel
  induction fuel with
  | zero => intro i w r h; simp [stepLoop] at h
  | succ fuel ih =>
    intro i w r h
    unfold stepLoop at h
    split at h
    · exact absurd h (by simp)
    · rename_i w1 hw1
      split at h
      · exact absurd h (by simp)
      · rename_i w2 hw2
        have hstep : SolverSpec root solver i w (TAIL lvl nodes w2) :=
          ((solverSpec_produce root solver lvl child hchild i _ w2 hw2).still_left
            ((hT w w1 hw1).then_still ⟨quiet_startNodes nodes w1, rfl⟩)).still_right
              (still_TAIL lvl nodes w2)
        split at h
        · exact absurd h (by simp)
        · obtain ⟨h1, h2⟩ := ih true _ r h
          exact ⟨hstep.thenBlocks h1, h2⟩
        · simp only [Except.ok.injEq] at h
          subst h
          exact ⟨hstep, rfl⟩

end Iteration

theorem ToleranceIteration.tolerance_runnerSolverGated {S M V : Type} (fuel : Nat)
    (root : IterationNode S M V) (solver : LinearSolver S M V) (it : ToleranceIteration V)
    (lvl : Nat) (child : Option (Runner S V))
    (hchild : ∀ run, child = some run → RunnerSolverGated root solver run) :
    RunnerSolverGated root solver
      (ToleranceIteration.iterateUntilDone fuel root solver it lvl child) := by
  intro x t i w r h
  unfold ToleranceIteration.iterateUntilDone at h
  simp only [] at h
  split at h
  · exact absurd h (by simp)
  · rename_i r' hr'
    split at h
    · exact absurd h (by simp)
    · simp only [Except.ok.injEq] at h
      subst h
      have := (Iteration.solverSpec_stepLoop root solver lvl it.nodes child hchild _ _
        (fun w w' hw => by simp only [Except.ok.injEq] at hw; subst hw; exact Still.same _)
        fuel i _ r' hr').1
      exact this.still_left
        (Still.then_still ⟨Iteration.quiet_setVars w lvl _, rfl⟩
          (Iteration.still_opening lvl it.nodes x _))

namespace TimeIteration

variable {S M V : Type}

theorem still_TIMESTEP (epsilon : Real) (it : TimeIteration V) (lvl : Nat) (nextEventTime : Real)
    (w w' : World S V) (h : TIMESTEP epsilon it lvl nextEventTime w = .ok w') : Still w w' := by
  refine ⟨quiet_TIMESTEP epsilon it lvl nextEventTime w w' h, ?_⟩
  unfold TIMESTEP at h
  split_ifs at h
  simp only [Except.ok.injEq] at h
  subst h
  rfl

theorem still_OUTER_TAIL [Inhabited V] (it : TimeIteration V) (lvl : Nat) (nextEventTime : Real)
    (events : PriorityQueue V) (w : World S V) (r : PriorityQueue V × World S V)
    (h : OUTER_TAIL it lvl nextEventTime events w = .ok r) : Still w r.2 := by
  refine ⟨quiet_OUTER_TAIL it lvl nextEventTime events w r h, ?_⟩
  unfold OUTER_TAIL at h
  simp only [] at h
  split at h
  · exact absurd h (by simp)
  · simp only [Except.ok.injEq] at h
    subst h
    rfl

theorem solverSpec_outerLoop [Inhabited V] (epsilon : Real) (root : IterationNode S M V)
    (solver : LinearSolver S M V) (it : TimeIteration V) (lvl : Nat)
    (child : Option (Runner S V))
    (hchild : ∀ run, child = some run → RunnerSolverGated root solver run)
    (inner : Nat) :
    ∀ (fuel : Nat) (events : PriorityQueue V) (i : Bool) (w w' : World S V),
      outerLoop epsilon root solver it lvl child inner fuel events i w = .ok w' →
      SolverSpec root solver i w w' := by
  intro fuel
  induction fuel with
  | zero => intro events i w w' h; simp [outerLoop] at h
  | succ fuel ih =>
    intro events i w w' h
    unfold outerLoop at h
    split at h
    · exact absurd h (by simp)
    · rename_i e _
      split at h
      · exact absurd h (by simp)
      · rename_i r hr
        obtain ⟨hs, hr1⟩ := Iteration.solverSpec_stepLoop root solver lvl it.nodes child hchild
          _ _ (still_TIMESTEP epsilon it lvl e.2.1) inner i w r hr
        split at h
        · exact absurd h (by simp)
        · rename_i r' hr'
          have hb : SolverSpec root solver i w r'.2 :=
            hs.still_right (still_OUTER_TAIL it lvl e.2.1 events r.2 r' hr')
          split_ifs at h
          · rw [hr1] at h
            exact hb.thenBlocks (ih _ true _ w' h)
          · simp only [Except.ok.injEq] at h
            subst h
            exact hb

theorem time_runnerSolverGated [Inhabited V] (epsilon : Real) (fuel : Nat)
    (root : IterationNode S M V) (solver : LinearSolver S M V) (it : TimeIteration V)
    (lvl : Nat) (child : Option (Runner S V))
    (hchild : ∀ run, child = some run → RunnerSolverGated root solver run) :
    RunnerSolverGated root solver (iterateUntilDone epsilon fuel root solver it lvl child) := by
  intro x t i w r h
  unfold iterateUntilDone at h
  split at h
  · exact absurd h (by simp)
  · rename_i w' hw'
    split at h
    · exact absurd h (by simp)
    · simp only [Except.ok.injEq] at h
      subst h
      exact (solverSpec_outerLoop epsilon root solver it lvl child hchild fuel fuel _ i _ w'
        hw').still_left
        (Still.then_still ⟨Iteration.quiet_setVars w lvl _, rfl⟩
          (Iteration.still_opening lvl it.nodes x _))

end TimeIteration

theorem runChain_solverGated {S M V : Type} [Inhabited V] (epsilon : Real) (fuel : Nat)
    (root : IterationNode S M V) (solver : LinearSolver S M V) (chain : List (IterationKind V)) :
    ∀ (lvl : Nat) (run : Runner S V),
      runChain epsilon fuel root solver chain lvl = some run →
      RunnerSolverGated root solver run := by
  induction chain with
  | nil => intro lvl run h; simp [runChain] at h
  | cons k rest ih =>
    intro lvl run h
    cases k with
    | tolerance it =>
      simp only [runChain, Option.some.injEq] at h
      subst h
      exact ToleranceIteration.tolerance_runnerSolverGated fuel root solver it lvl _
        (fun run' h' => ih _ run' h')
    | time it =>
      simp only [runChain, Option.some.injEq] at h
      subst h
      exact TimeIteration.time_runnerSolverGated epsilon fuel root solver it lvl _
        (fun run' h' => ih _ run' h')

/-- C8 (solver-reuse gating). In a run of the chain started as `solve()`
starts it (`initialized == false`), number the linear-system solves
`k = 0, 1, 2, ...` in the order of the record, across nested inner iterations
and event boundaries. There is at least one solve. The calls on root and
solver come in one block per solve, and the solver changes with them
(`SolverGated`): solve 0 is `A, initialize, b, solve` and puts the solver in the
state `solver.initialize(root.A(implicitTime))`; every later solve first asks
`root.isATheSame()`, and when the root returns true the block is `isATheSame,
b, solve` and the solver stays in the state it is in, when the root returns
false the block is `isATheSame, A, initialize, b, solve` and the solver goes to
`solver.initialize(root.A(implicitTime))`; the state of the solver when the
run returns is the one after the last block. So `solver.initialize` is called
(once) before solve `k` if and only if `k == 0` or `root.isATheSame()` returned
false for that solve; `root.isATheSame()` is not asked for solve 0; and `root.A`
is evaluated exactly as often as `initialize` is called, so at most once per
solve. -/
theorem C8_solver_reuse_gating {S M V : Type} [Inhabited V] (epsilon : Real) (fuel : Nat)
    (root : IterationNode S M V) (solver : LinearSolver S M V) (chain : List (IterationKind V))
    (run : Runner S V) (hrun : runChain epsilon fuel root solver chain 0 = some run)
    (x : V) (time : Real) (w : World S V) (r : V × World S V)
    (h : run x time false w = .ok r) :
    ∃ seg, r.2.log = w.log ++ seg ∧ solveRecords seg ≠ [] ∧
      SolverGated root solver false w.solver (seg.filter Call.isSystemCall) r.2.solver ∧
      ∀ (k : Nat) (rec : SolveRecord), (solveRecords seg)[k]? = some rec →
        (rec.initialiseCalls = 1 ↔ (k = 0 ∨ rec.queried = some false)) ∧
        (rec.initialiseCalls = 0 ↔ ¬ (k = 0 ∨ rec.queried = some false)) ∧
        (rec.queried = none ↔ k = 0) ∧
        rec.evaluationsOfA = rec.initialiseCalls := by
  obtain ⟨seg, hlog, hg, hne⟩ := runChain_solverGated epsilon fuel root solver chain 0 run hrun
    x time false w r h
  obtain ⟨rest, hrec, hrest⟩ := solveRecords_of_gated_false _ hg.gated hne
  have hsr : solveRecords seg = ⟨none, 1, 1⟩ :: rest := by
    rw [← hrec]
    exact (solveRecordsFrom_filter seg _).symm
  refine ⟨seg, hlog, by rw [hsr]; simp, hg, ?_⟩
  intro k rec hk
  rw [hsr] at hk
  cases k with
  | zero =>
    simp only [List.getElem?_cons_zero, Option.some.injEq] at hk
    subst hk
    simp
  | succ k =>
    simp only [List.getElem?_cons_succ] at hk
    obtain ⟨b, hb⟩ := hrest rec (List.getElem?_mem hk)
    subst hb
    cases b <;> simp

/-- Witness of C8: the march `stampedMarch`, whose solver lists the matrices it
was initialised with. Of its four solves the first and the last (the step cut
at the terminal time, which changes `dt`) initialise the solver, with the
matrices of the times 3/10 and 1. -/
theorem C8_solver_reuse_gating_witness :
    ∃ r, stampedMarch = .ok r ∧ r.2.solver = [3 / 10, 1] ∧
      (solveRecords r.2.log).map (fun rec => rec.initialiseCalls) = [1, 0, 0, 1] ∧
      ∃ seg, r.2.log = (World.freshWith [] 1 : World (List Real) Real).log ++ seg ∧
        solveRecords seg ≠ [] ∧
        SolverGated (stampedRoot 0) recordingSolver false
          (World.freshWith [] 1 : World (List Real) Real).solver
          (seg.filter Call.isSystemCall) r.2.solver ∧
        ∀ (k : Nat) (rec : SolveRecord), (solveRecords seg)[k]? = some rec →
          (rec.initialiseCalls = 1 ↔ (k = 0 ∨ rec.queried = some false)) ∧
          (rec.initialiseCalls = 0 ↔ ¬ (k = 0 ∨ rec.queried = some false)) ∧
          (rec.queried = none ↔ k = 0) ∧
          rec.evaluationsOfA = rec.initialiseCalls := by
  have hval : stampedMarch.toOption.map
      (fun r => (r.2.solver, (solveRecords r.2.log).map (fun rec => rec.initialiseCalls)))
      = some ([3 / 10, 1], [1, 0, 0, 1]) := by
    decide!
  cases hr : stampedMarch with
  | error e => rw [hr] at hval; exact absurd hval (by simp [Except.toOption])
  | ok r =>
    rw [hr] at hval
    simp only [Except.toOption, Option.map_some', Option.some.injEq, Prod.mk.injEq] at hval
    refine ⟨r, rfl, hval.1, hval.2, ?_⟩
    exact C8_solver_reuse_gating (1 / 1000) 5 (stampedRoot 0) recordingSolver
      [IterationKind.time (ConstantStepper Real true 0 1 (3 / 10))]
      _ rfl 3 (-1) (World.freshWith [] 1) r hr

/-! ## Termination of the time march -/

namespace CircularBuffer

variable {T : Type}

theorem WF_clear (c : CircularBuffer T) (hn : 0 < c.n) (hlen : c.data.length = c.n.toNat) :
    c.clear.WF := by
  refine ⟨hn, hlen, le_refl _, hn, Or.inr rfl⟩

theorem WF_push (c : CircularBuffer T) (h : c.WF) (e : T) : (c.push e).WF := by
  obtain ⟨h1, h2, h3, h4, h5⟩ := h
  have htm : (c.tail + 1).tmod c.n = (c.tail + 1) % c.n :=
    Int.tmod_eq_emod (by omega) (by omega)
  refine ⟨h1, ?_, ?_, ?_, ?_⟩
  · simpa [push] using h2
  · simp only [push, htm]
    exact Int.emod_nonneg _ (by omega)
  · simp only [push, htm]
    exact Int.emod_lt_of_pos _ h1
  · simp only [push, htm]
    by_cases hlt : c.tail + 1 < c.n
    · rw [Int.emod_eq_of_lt (by omega) hlt]
      rcases h5 with h5 | h5
      · left; rw [if_neg (by omega)]; exact h5
      · right; rw [if_pos (by omega)]; omega
    · have heq : c.tail + 1 = c.n := by omega
      left
      rcases h5 with h5 | h5
      · rw [if_neg (by omega)]; exact h5
      · rw [if_pos (by omega)]; omega

theorem get_zero_push (c : CircularBuffer T) (h : c.WF) (e : T) :
    (c.push e).get 0 = some e := by
  obtain ⟨h1, h2, h3, h4, h5⟩ := h
  have htm : (c.tail + 1).tmod c.n = (c.tail + 1) % c.n :=
    Int.tmod_eq_emod (by omega) (by omega)
  have hpos : (c.push e).position 0 = c.tail := by
    simp only [position, push, htm]
    by_cases hlt : c.tail + 1 < c.n
    · rw [Int.emod_eq_of_lt (by omega) hlt, Int.tmod_eq_emod (by omega) (by omega)]
      have : c.tail + 1 - 1 + c.n - 0 = c.tail + c.n * 1 := by ring
      rw [this, Int.add_mul_emod_self_left, Int.emod_eq_of_lt h3 h4]
    · have heq : c.tail + 1 = c.n := by omega
      rw [heq, Int.emod_self, Int.tmod_eq_emod (by omega) (by omega)]
      have : (0 : Int) - 1 + c.n - 0 = c.tail := by omega
      rw [this, Int.emod_eq_of_lt h3 h4]
  have hsize : c.tail < (c.push e).size := by
    simp only [push]
    rcases h5 with h5 | h5
    · rw [if_neg (by omega)]; omega
    · rw [if_pos (by omega)]; omega
  unfold get
  rw [hpos]
  have hn : (c.push e).n = c.n := rfl
  rw [if_pos ⟨le_refl _, by rw [hn]; exact h1⟩, if_pos hsize, if_pos h3]
  simp only [push]
  rw [List.getElem?_set]
  simp only [if_true]
  rw [if_pos (by omega)]

theorem Ready_push (c : CircularBuffer T) (h : c.WF) (e : T) : (c.push e).Ready :=
  ⟨WF_push c h e, e, get_zero_push c h e⟩

end CircularBuffer

namespace Iteration

variable {S M V : Type}

@[simp] theorem vars_setVars (w : World S V) (lvl : Nat) (v : Vars V) :
    (w.setVars lvl v).vars lvl = v := by
  simp [World.setVars]

@[simp] theorem vars_record (w : World S V) (cs : List Call) : (w.record cs).vars = w.vars := rfl

@[simp] theorem vars_startNodes (nodes : List Nat) (w : World S V) :
    (startNodes nodes w).vars = w.vars := rfl

@[simp] theorem vars_endNodes (nodes : List Nat) (w : World S V) :
    (endNodes nodes w).vars = w.vars := rfl

@[simp] theorem vars_clearNodes (nodes : List Nat) (w : World S V) :
    (clearNodes nodes w).vars = w.vars := rfl

@[simp] theorem vars_afterEvent (nodes : List Nat) (w : World S V) :
    (afterEvent nodes w).vars = w.vars := rfl

theorem vars_pushHistory (lvl : Nat) (t : Real) (x : V) (w : World S V) :
    (pushHistory lvl t x w).vars lvl
      = { w.vars lvl with history := (w.vars lvl).history.push (t, x) } := by
  simp [pushHistory]

theorem vars_TAIL (lvl : Nat) (nodes : List Nat) (w : World S V) :
    (TAIL lvl nodes w).vars lvl
      = { w.vars lvl with its := incrementBack (w.vars lvl).its } := by
  simp [TAIL]

theorem iterand_of_ready (w : World S V) (lvl : Nat) (h : (w.vars lvl).history.Ready) :
    ∃ x, iterand w lvl 0 = some x := by
  obtain ⟨_, e, he⟩ := h
  exact ⟨e.2, by simp [iterand, he]⟩

/-- With a readable history and a child that returns, the step that produces
the next iterand returns; it only pushes into the history of its level. -/
theorem produce_returns (root : IterationNode S M V) (solver : LinearSolver S M V) (lvl : Nat)
    (child : Option (Runner S V)) (hchild : ChildReturns lvl child) (i : Bool) (w : World S V)
    (h : (w.vars lvl).history.Ready) :
    ∃ w2, produce root solver lvl child i w = .ok w2 ∧ (w2.vars lvl).history.Ready ∧
      (w2.vars lvl).implicitTime = (w.vars lvl).implicitTime := by
  unfold produce
  cases child with
  | some run =>
    obtain ⟨x0, hx0⟩ := iterand_of_ready w lvl h
    obtain ⟨r, hr, hframe⟩ := hchild run rfl x0 (w.vars lvl).implicitTime i w
    simp only [hx0, hr]
    refine ⟨_, rfl, ?_, ?_⟩
    · rw [vars_pushHistory, hframe]
      exact CircularBuffer.Ready_push _ h.1 _
    · rw [vars_pushHistory, hframe]
  | none =>
    simp only []
    unfold solveLinearSystemAndSaveResult
    have hvars : ∀ w1 : World S V, w1.vars = w.vars → ∃ w2,
        (match iterand w1 lvl 0 with
          | none => (Except.error Error.assertion : Except Error (World S V))
          | some x0 => .ok (pushHistory lvl (w.vars lvl).implicitTime
              (solver.solve w1.solver (root.b w1 (w.vars lvl).implicitTime) x0)
              (w1.record [Call.b (w.vars lvl).implicitTime, Call.solve]))) = .ok w2 ∧
        (w2.vars lvl).history.Ready ∧
        (w2.vars lvl).implicitTime = (w.vars lvl).implicitTime := by
      intro w1 hw1
      have h1 : (w1.vars lvl).history.Ready := by rw [hw1]; exact h
      obtain ⟨x0, hx0⟩ := iterand_of_ready w1 lvl h1
      simp only [hx0]
      refine ⟨_, rfl, ?_, ?_⟩
      · rw [vars_pushHistory, vars_record, hw1]
        exact CircularBuffer.Ready_push _ h.1 _
      · rw [vars_pushHistory, vars_record, hw1]
    exact hvars _ (by split_ifs <;> rfl)

end Iteration

namespace TimeIteration

variable {S M V : Type}

/-- If the loop goes on after a step, the step moved towards the pending event
time by the whole timestep and has not reached it. -/
theorem timestepCore_progress (Forward : Bool) (epsilon delta t ne dt : Real)
    (heps : 0 ≤ epsilon) (hdt : delta ≤ dt)
    (hnd : Order Forward ne ((timestepCore Forward epsilon t ne dt).1
      + direction Forward * epsilon) = true) :
    0 < distance Forward ne (timestepCore Forward epsilon t ne dt).1 ∧
    distance Forward ne (timestepCore Forward epsilon t ne dt).1
      ≤ distance Forward ne t - delta := by
  unfold timestepCore at hnd ⊢
  cases Forward
  · simp only [Order, direction, distance, Bool.false_eq_true, if_false,
      decide_eq_true_eq] at hnd ⊢
    split_ifs at hnd ⊢ with h1 h2
    · linarith
    · linarith
    · dsimp only at hnd ⊢
      constructor <;> linarith
  · simp only [Order, direction, distance, if_true, decide_eq_true_eq, gt_iff_lt] at hnd ⊢
    split_ifs at hnd ⊢ with h1 h2
    · linarith
    · linarith
    · dsimp only at hnd ⊢
      constructor <;> linarith

/-- One turn of the step loop of a time iteration with a readable history. -/
theorem stepLoop_turn (epsilon : Real) (root : IterationNode S M V)
    (solver : LinearSolver S M V) (it : TimeIteration V) (lvl : Nat)
    (child : Option (Runner S V)) (hchild : ChildReturns lvl child)
    (hpos : ∀ v, 0 < it.timestep v) (ne : Real) (fuel : Nat) (i : Bool) (w : World S V)
    (h : (w.vars lvl).history.Ready) :
    ∃ w3, (w3.vars lvl).history.Ready ∧
      (w3.vars lvl).implicitTime = (timestepCore it.Forward epsilon (w.vars lvl).implicitTime ne
        (it.timestep { w.vars lvl with dtPrevious := (w.vars lvl).dt })).1 ∧
      Iteration.stepLoop root solver lvl it.nodes child (TIMESTEP epsilon it lvl ne)
          (NOT_DONE epsilon it lvl ne) (fuel + 1) i w
        = (if Order it.Forward ne ((w3.vars lvl).implicitTime + direction it.Forward * epsilon)
          then Iteration.stepLoop root solver lvl it.nodes child (TIMESTEP epsilon it lvl ne)
            (NOT_DONE epsilon it lvl ne) fuel true w3
          else .ok (true, w3)) := by
  have hT := TIMESTEP_ok epsilon it lvl ne w (hpos _)
  obtain ⟨w2, hw2, hr2, ht2⟩ := Iteration.produce_returns root solver lvl child hchild i
    (Iteration.startNodes it.nodes (w.setVars lvl { w.vars lvl with
      dtPrevious := (w.vars lvl).dt
      dt := (timestepCore it.Forward epsilon (w.vars lvl).implicitTime ne
        (it.timestep { w.vars lvl with dtPrevious := (w.vars lvl).dt })).2
      implicitTime := (timestepCore it.Forward epsilon (w.vars lvl).implicitTime ne
        (it.timestep { w.vars lvl with dtPrevious := (w.vars lvl).dt })).1 }))
    (by simpa using h)
  refine ⟨Iteration.TAIL lvl it.nodes w2, ?_, ?_, ?_⟩
  · rw [Iteration.vars_TAIL]; exact hr2
  · rw [Iteration.vars_TAIL]; simpa using ht2
  · conv_lhs => unfold Iteration.stepLoop
    rw [hT]
    simp only [hw2, NOT_DONE]
    cases hO : Order it.Forward ne (((Iteration.TAIL lvl it.nodes w2).vars lvl).implicitTime
        + direction it.Forward * epsilon) <;> simp [hO]

/-- The step loop returns once `distance / delta + 1` turns are paid for, when
every timestep is at least `delta > 0`. -/
theorem stepLoop_returns (epsilon delta : Real) (heps : 0 ≤ epsilon) (hdelta : 0 < delta)
    (root : IterationNode S M V) (solver : LinearSolver S M V) (it : TimeIteration V)
    (lvl : Nat) (child : Option (Runner S V)) (hchild : ChildReturns lvl child)
    (hts : ∀ v, delta ≤ it.timestep v) (ne : Real) :
    ∀ (m fuel : Nat) (i : Bool) (w : World S V), m + 1 ≤ fuel →
      (w.vars lvl).history.Ready →
      distance it.Forward ne (w.vars lvl).implicitTime ≤ m * delta →
      ∃ r, Iteration.stepLoop root solver lvl it.nodes child (TIMESTEP epsilon it lvl ne)
          (NOT_DONE epsilon it lvl ne) fuel i w = .ok r ∧ (r.2.vars lvl).history.Ready := by
  intro m
  induction m with
  | zero =>
    intro fuel i w hf hr hd
    obtain ⟨f, rfl⟩ : ∃ f, fuel = f + 1 := ⟨fuel - 1, by omega⟩
    obtain ⟨w3, hr3, ht3, heq⟩ := stepLoop_turn epsilon root solver it lvl child hchild
      (fun v => lt_of_lt_of_le hdelta (hts v)) ne f i w hr
    rw [heq]
    split_ifs with hO
    · rw [ht3] at hO
      have := timestepCore_progress it.Forward epsilon delta _ ne _ heps (hts _) hO
      simp only [Nat.cast_zero, zero_mul] at hd
      linarith [this.1, this.2]
    · exact ⟨_, rfl, hr3⟩
  | succ m ih =>
    intro fuel i w hf hr hd
    obtain ⟨f, rfl⟩ : ∃ f, fuel = f + 1 := ⟨fuel - 1, by omega⟩
    obtain ⟨w3, hr3, ht3, heq⟩ := stepLoop_turn epsilon root solver it lvl child hchild
      (fun v => lt_of_lt_of_le hdelta (hts v)) ne f i w hr
    rw [heq]
    split_ifs with hO
    · rw [ht3] at hO
      have := timestepCore_progress it.Forward epsilon delta _ ne _ heps (hts _) hO
      apply ih f true w3 (by omega) hr3
      rw [ht3]
      push_cast at hd
      linarith [this.2]
    · exact ⟨_, rfl, hr3⟩

theorem applyEvents_rest (t : Real) (q : PriorityQueue V) :
    ∀ (x d : V), (applyEvents t q x d).2.1.length ≤ q.length ∧
      (∀ a ∈ (applyEvents t q x d).2.1, a ∈ q) ∧
      (∀ a ∈ q, a.2.1 ≠ t → a ∈ (applyEvents t q x d).2.1) := by
  induction q with
  | nil => intro x d; simp [applyEvents]
  | cons e q ih =>
    intro x d
    by_cases het : e.2.1 = t
    · obtain ⟨i1, i2, i3⟩ := ih (e.2.2 x) (e.2.2 x)
      simp only [applyEvents, het, if_true, List.length_cons]
      refine ⟨by omega, fun a ha => List.mem_cons_of_mem _ (i2 a ha), ?_⟩
      intro a ha hat
      rcases List.mem_cons.mp ha with rfl | ha'
      · exact absurd het hat
      · exact i3 a ha' hat
    · simp only [applyEvents, het, if_false]
      exact ⟨le_refl _, fun a ha => ha, fun a ha _ => ha⟩

theorem applyEvents_head_popped (t : Real) (e : T V) (q : PriorityQueue V) (x d : V)
    (het : e.2.1 = t) : (applyEvents t (e :: q) x d).2.1.length ≤ q.length := by
  simp only [applyEvents, het, if_true]
  exact (applyEvents_rest t q _ _).1

/-- With a readable history, the event boundary completes: it commits the
event time, and leaves a readable history and the queue without the events
applied. -/
theorem OUTER_TAIL_returns [Inhabited V] (it : TimeIteration V) (lvl : Nat) (ne : Real)
    (events : PriorityQueue V) (w : World S V) (h : (w.vars lvl).history.Ready) :
    ∃ r x, OUTER_TAIL it lvl ne events w = .ok r ∧
      r.1 = (applyEvents ne events x default).2.1 ∧
      (r.2.vars lvl).implicitTime = ne ∧ (r.2.vars lvl).history.Ready := by
  unfold OUTER_TAIL
  have h1 : ((w.setVars lvl { w.vars lvl with implicitTime := ne }).vars lvl).history.Ready := by
    simpa using h
  obtain ⟨x, hx⟩ := Iteration.iterand_of_ready _ lvl h1
  simp only [hx]
  refine ⟨_, x, rfl, rfl, ?_, ?_⟩
  · simp [Iteration.vars_pushHistory, Iteration.clearHistory]
  · simp only [Iteration.vars_pushHistory, Iteration.clearHistory, Iteration.vars_setVars,
      Iteration.vars_afterEvent, Iteration.vars_record]
    obtain ⟨hn, hl, _⟩ := h.1
    exact CircularBuffer.Ready_push _ (CircularBuffer.WF_clear _ hn hl) _

theorem distance_le (Forward : Bool) (lo hi ne t : Real) (h1 : lo ≤ ne) (h2 : ne ≤ hi)
    (h3 : lo ≤ t) (h4 : t ≤ hi) : distance Forward ne t ≤ hi - lo := by
  cases Forward <;> simp only [distance, direction, Bool.false_eq_true, if_false, if_true] <;>
    linarith

/-- The loop over the event boundaries returns at the terminal time, when the
working queue holds an entry at the terminal time and all of its times lie in
`[startTime, endTime]`. -/
theorem outerLoop_returns [Inhabited V] (epsilon delta : Real) (heps : 0 ≤ epsilon)
    (hdelta : 0 < delta) (root : IterationNode S M V) (solver : LinearSolver S M V)
    (it : TimeIteration V) (lvl : Nat) (child : Option (Runner S V))
    (hchild : ChildReturns lvl child) (hts : ∀ v, delta ≤ it.timestep v)
    (bound inner : Nat) (hbound : it.endTime - it.startTime ≤ bound * delta)
    (hinner : bound + 1 ≤ inner) :
    ∀ (n fuel : Nat) (events : PriorityQueue V) (i : Bool) (w : World S V),
      events.length ≤ n → n ≤ fuel →
      (∃ a ∈ events, a.2.1 = it.terminalTime) →
      (∀ a ∈ events, it.startTime ≤ a.2.1 ∧ a.2.1 ≤ it.endTime) →
      (w.vars lvl).history.Ready →
      it.startTime ≤ (w.vars lvl).implicitTime → (w.vars lvl).implicitTime ≤ it.endTime →
      ∃ w', outerLoop epsilon root solver it lvl child inner fuel events i w = .ok w' ∧
        (w'.vars lvl).implicitTime = it.terminalTime ∧ (w'.vars lvl).history.Ready := by
  intro n
  induction n with
  | zero =>
    intro fuel events i w hlen _ hsent
    obtain ⟨a, ha, _⟩ := hsent
    have : events = [] := List.length_eq_zero.mp (by omega)
    rw [this] at ha
    exact absurd ha (List.not_mem_nil _)
  | succ n ih =>
    intro fuel events i w hlen hfuel hsent hall hr hlo hhi
    cases events with
    | nil =>
      obtain ⟨a, ha, _⟩ := hsent
      exact absurd ha (List.not_mem_nil _)
    | cons e q =>
      obtain ⟨f, rfl⟩ : ∃ f, fuel = f + 1 := ⟨fuel - 1, by omega⟩
      have he := hall e (List.mem_cons_self _ _)
      obtain ⟨r, hr1, hr2⟩ := stepLoop_returns epsilon delta heps hdelta root solver it lvl child
        hchild hts e.2.1 bound inner i w hinner hr
        (le_trans (distance_le it.Forward _ _ _ _ he.1 he.2 hlo hhi) hbound)
      obtain ⟨r', x, ho1, ho2, ho3, ho4⟩ := OUTER_TAIL_returns it lvl e.2.1 (e :: q) r.2 hr2
      unfold outerLoop
      simp only [PriorityQueue.top, List.head?_cons, hr1, ho1]
      split_ifs with hO
      · have hne : it.terminalTime ≠ e.2.1 := by
          intro hc
          rw [ho3, hc, order_irrefl] at hO
          exact absurd hO (by simp)
        obtain ⟨i1, i2, i3⟩ := applyEvents_rest e.2.1 (e :: q) x default
        apply ih f r'.1 r.1 r'.2
        · rw [ho2]
          have := applyEvents_head_popped e.2.1 e q x default rfl
          simp only [List.length_cons] at hlen
          omega
        · omega
        · obtain ⟨a, ha, hat⟩ := hsent
          exact ⟨a, by rw [ho2]; exact i3 a ha (by rw [hat]; exact hne), hat⟩
        · intro a ha
          rw [ho2] at ha
          exact hall a (i2 a ha)
        · exact ho4
        · rw [ho3]; exact he.1
        · rw [ho3]; exact he.2
      · refine ⟨_, rfl, ?_, ho4⟩
        rw [ho3] at hO ⊢
        have hO' : Order it.Forward it.terminalTime e.2.1 = false := by simpa using hO
        unfold terminalTime at hO' ⊢
        cases hF : it.Forward
        · rw [hF] at hO'
          simp only [Order, Bool.false_eq_true, if_false, decide_eq_false_iff_not, not_lt] at hO' ⊢
          exact le_antisymm hO' he.1
        · rw [hF] at hO'
          simp only [Order, if_true, decide_eq_false_iff_not, not_lt, gt_iff_lt] at hO' ⊢
          exact le_antisymm he.2 hO'

theorem opening_ready (lvl : Nat) (nodes : List Nat) (x : V) (w : World S V)
    (hn : 0 < (w.vars lvl).history.n)
    (hlen : (w.vars lvl).history.data.length = (w.vars lvl).history.n.toNat) :
    ((Iteration.opening lvl nodes x w).vars lvl).history.Ready ∧
    ((Iteration.opening lvl nodes x w).vars lvl).implicitTime = (w.vars lvl).implicitTime := by
  simp only [Iteration.opening, Iteration.vars_pushHistory, Iteration.clearHistory,
    Iteration.vars_setVars, Iteration.vars_clearNodes]
  exact ⟨CircularBuffer.Ready_push _ (CircularBuffer.WF_clear _ hn hlen) _, trivial⟩

end TimeIteration

/-! ## The explicit method and `isATheSame` -/

namespace CrankNicolson

variable {S : Type} {n : Nat}

theorem bd_eq (epsilon : Real) (cn : CrankNicolson n) (w : World S (Fin n → Real)) (t0 : Real)
    (x0 : Fin n → Real) (t1 : Real)
    (ht0 : Iteration.time w cn.iteration 0 = some t0)
    (hx0 : Iteration.iterand w cn.iteration 0 = some x0)
    (hdt : epsilon < (if cn.Forward then (w.vars cn.iteration).implicitTime - t0
      else t0 - (w.vars cn.iteration).implicitTime)) :
    cn.bd epsilon w t1
      = some ((1 - ((1 - cn.theta) * (if cn.Forward then (w.vars cn.iteration).implicitTime - t0
          else t0 - (w.vars cn.iteration).implicitTime)) • cn.system.A t0).mulVec x0
        + cn.theta • cn.system.b t1 + (1 - cn.theta) • cn.system.b t0) := by
  unfold CrankNicolson.bd
  rw [ht0, hx0]
  simp only []
  rw [CrankNicolson.dt_eq epsilon cn w t0 ht0 hdt]
  simp only [smul_smul, mul_comm, add_assoc]

theorem stepWorld_time (t0 t1 : Real) (x0 : Fin n → Real) :
    Iteration.time (stepWorld t0 t1 x0) 0 0 = some t0 := by
  simp [stepWorld, Iteration.time, Iteration.pushHistory, World.setVars, World.record,
    World.fresh, CircularBuffer.get, CircularBuffer.push, CircularBuffer.new,
    CircularBuffer.clear, CircularBuffer.position]

theorem stepWorld_iterand (t0 t1 : Real) (x0 : Fin n → Real) :
    Iteration.iterand (stepWorld t0 t1 x0) 0 0 = some x0 := by
  simp [stepWorld, Iteration.iterand, Iteration.pushHistory, World.setVars, World.record,
    World.fresh, CircularBuffer.get, CircularBuffer.push, CircularBuffer.new,
    CircularBuffer.clear, CircularBuffer.position]

theorem stepWorld_implicitTime (t0 t1 : Real) (x0 : Fin n → Real) :
    ((stepWorld t0 t1 x0).vars 0).implicitTime = t1 := by
  simp [stepWorld, World.setVars]

end CrankNicolson

/-- C11, counterexample. The explicit method (`ThetaInverse = INT_MAX`),
forward, on the system `A = [1]`, `b(t) = [t]`, with `x0 = [1]`, `t0 = 0`,
`t1 = 1/2` (so `dt = 1/2`) and `epsilon = 1/1000`: `Ad(t1)` is the identity,
but the right-hand side assembled by `bd` is not `(I - dt A(t0)) x0 + dt b(t0)`
(it is `[1/2 + 1/INT_MAX]`, not `[1/2]`). On the system `A = [0]`, `b(t) = [1]`
the right-hand side is `[2]` (`x0 + b`), where `x0 + dt b(t0)` is `[3/2]`: the
source term carries no factor `dt`. -/
theorem C11_explicit_identity_counterexample :
    Iteration.time (stepWorld 0 (1 / 2) (fun _ : Fin 1 => (1 : Real))) 0 0 = some 0 ∧
    Iteration.iterand (stepWorld 0 (1 / 2) (fun _ : Fin 1 => (1 : Real))) 0 0
      = some (fun _ => 1) ∧
    ((stepWorld 0 (1 / 2) (fun _ : Fin 1 => (1 : Real))).vars 0).implicitTime = 1 / 2 ∧
    (ExplicitMethod true rampSystem 0).Ad (1 / 1000)
      (stepWorld 0 (1 / 2) (fun _ : Fin 1 => (1 : Real))) (1 / 2) = some 1 ∧
    (ExplicitMethod true rampSystem 0).bd (1 / 1000)
      (stepWorld 0 (1 / 2) (fun _ : Fin 1 => (1 : Real))) (1 / 2)
      ≠ some ((1 - (1 / 2 : Real) • rampSystem.A 0).mulVec (fun _ => (1 : Real))
          + (1 / 2 : Real) • rampSystem.b 0) ∧
    (ExplicitMethod true unitSourceSystem 0).bd (1 / 1000)
      (stepWorld 0 (1 / 2) (fun _ : Fin 1 => (1 : Real))) (1 / 2) = some (fun _ => 2) ∧
    (1 - (1 / 2 : Real) • unitSourceSystem.A 0).mulVec (fun _ => (1 : Real))
      + (1 / 2 : Real) • unitSourceSystem.b 0 = fun _ => 3 / 2 := by
  refine ⟨CrankNicolson.stepWorld_time _ _ _, CrankNicolson.stepWorld_iterand _ _ _,
    CrankNicolson.stepWorld_implicitTime _ _ _, ?_, ?_, ?_, ?_⟩
  rotate_left 2
  · rw [CrankNicolson.bd_eq (1 / 1000) (ExplicitMethod true unitSourceSystem 0) _ 0 (fun _ => 1)
      (1 / 2) (CrankNicolson.stepWorld_time _ _ _) (CrankNicolson.stepWorld_iterand _ _ _)
      (by
        have h := CrankNicolson.stepWorld_implicitTime 0 (1 / 2) (fun _ : Fin 1 => (1 : Real))
        simp only [ExplicitMethod] at h ⊢
        rw [h]; norm_num)]
    congr 1
    funext i
    simp [CrankNicolson.theta, unitSourceSystem, ExplicitMethod, intMax, Matrix.mulVec,
      Matrix.dotProduct]
    norm_num
  · funext i
    simp [unitSourceSystem, Matrix.mulVec, Matrix.dotProduct]
    norm_num
  · simp [CrankNicolson.Ad, CrankNicolson.theta, ExplicitMethod, intMax]
    norm_num
  · rw [CrankNicolson.bd_eq (1 / 1000) (ExplicitMethod true rampSystem 0) _ 0 (fun _ => 1) (1 / 2)
      (CrankNicolson.stepWorld_time _ _ _) (CrankNicolson.stepWorld_iterand _ _ _)
      (by
        have h := CrankNicolson.stepWorld_implicitTime 0 (1 / 2) (fun _ : Fin 1 => (1 : Real))
        simp only [ExplicitMethod] at h ⊢
        rw [h]; norm_num)]
    intro h
    have h0 := congrFun (Option.some.inj h) 0
    have ht := CrankNicolson.stepWorld_implicitTime 0 (1 / 2) (fun _ : Fin 1 => (1 : Real))
    simp only [ExplicitMethod] at ht h0
    rw [ht] at h0
    simp [CrankNicolson.theta, rampSystem, intMax, Matrix.mulVec, Matrix.dotProduct] at h0
    norm_num at h0

/-- C11, amended (explicit scheme). For the explicit method, which is
`CrankNicolson` with `ThetaInverse = INT_MAX`, so `theta = 1/INT_MAX` (not 0),
taken with `1/INT_MAX < epsilon` and a step `dt > epsilon` (as `dt()` asserts):
`Ad(t1) = I` and `bd(t1) = (I - (1 - theta) dt A(t0)) x0 + theta b(t1)
+ (1 - theta) b(t0)` for every wrapped system, previous iterand and step. -/
theorem C11_explicit_identity {S : Type} {n : Nat} (epsilon : Real) (cn : CrankNicolson n)
    (w : World S (Fin n → Real)) (t0 : Real) (x0 : Fin n → Real)
    (hti : cn.ThetaInverse = intMax)
    (ht0 : Iteration.time w cn.iteration 0 = some t0)
    (hx0 : Iteration.iterand w cn.iteration 0 = some x0)
    (heps : 1 / 2147483647 < epsilon)
    (hdt : epsilon < (if cn.Forward then (w.vars cn.iteration).implicitTime - t0
      else t0 - (w.vars cn.iteration).implicitTime)) :
    cn.Ad epsilon w (w.vars cn.iteration).implicitTime = some 1 ∧
    cn.bd epsilon w (w.vars cn.iteration).implicitTime
      = some ((1 - ((1 - 1 / 2147483647) *
          (if cn.Forward then (w.vars cn.iteration).implicitTime - t0
            else t0 - (w.vars cn.iteration).implicitTime)) • cn.system.A t0).mulVec x0
        + (1 / 2147483647 : Real) • cn.system.b (w.vars cn.iteration).implicitTime
        + (1 - 1 / 2147483647 : Real) • cn.system.b t0) := by
  have hth : cn.theta = 1 / 2147483647 := by simp [CrankNicolson.theta, hti, intMax]
  constructor
  · unfold CrankNicolson.Ad
    rw [hth, if_pos heps]
  · rw [CrankNicolson.bd_eq epsilon cn w t0 x0 _ ht0 hx0 hdt, hth]

/-- Witness of the amended C11: the explicit method on `rampSystem`, stepping
from time 0 to time 1/2 with `epsilon = 1/1000`. -/
theorem C11_explicit_identity_witness :
    (ExplicitMethod true rampSystem 0).Ad (1 / 1000)
      (stepWorld 0 (1 / 2) (fun _ : Fin 1 => (1 : Real)))
      ((stepWorld 0 (1 / 2) (fun _ : Fin 1 => (1 : Real))).vars
        (ExplicitMethod true rampSystem 0).iteration).implicitTime = some 1 :=
  (C11_explicit_identity (1 / 1000) (ExplicitMethod true rampSystem 0)
    (stepWorld 0 (1 / 2) (fun _ => 1)) 0 (fun _ => 1) rfl
    (CrankNicolson.stepWorld_time _ _ _) (CrankNicolson.stepWorld_iterand _ _ _)
    (by norm_num)
    (by
      have h := CrankNicolson.stepWorld_implicitTime 0 (1 / 2) (fun _ : Fin 1 => (1 : Real))
      simp only [ExplicitMethod] at h ⊢
      rw [h]; norm_num)).1

/-- C12 (`CrankNicolson::isATheSame`). It returns true if and only if
`theta < epsilon`, or both `isTimestepTheSame()` of the iteration the node is
attached to (a tolerance or a time iteration) and `isATheSame()` of the wrapped
system return true. -/
theorem C12_isATheSame_iff {V : Type} {n : Nat} (epsilon : Real) (cn : CrankNicolson n)
    (k : IterationKind V) (v : Vars V) :
    cn.isATheSame epsilon (k.isTimestepTheSame v) = true ↔
      (cn.theta < epsilon ∨
        (k.isTimestepTheSame v = true ∧ cn.system.isATheSame = true)) := by
  unfold CrankNicolson.isATheSame
  by_cases h : cn.theta < epsilon
  · simp [h]
  · simp [h]

/-! ## The relative error -/

theorem max?_spec (l : List Real) (hne : l ≠ []) :
    ∃ m, l.max? = some m ∧ m ∈ l ∧ ∀ b ∈ l, b ≤ m := by
  cases h : l.max? with
  | none => exact absurd (List.max?_eq_none_iff.mp h) hne
  | some m =>
    refine ⟨m, rfl, List.max?_mem (fun a b => max_choice a b) h, ?_⟩
    exact (List.max?_le_iff (fun a b c => max_le_iff) h).mp (le_refl m)

theorem Double.max_finite (x y : Real) :
    Double.max (Double.finite x) (Double.finite y) = Double.finite (Max.max x y) := by
  unfold Double.max Double.lt
  by_cases h : x < y
  · simp [h, max_eq_right (le_of_lt h)]
  · simp [h, max_eq_left (not_lt.mp h)]

theorem Double.foldl_max_finite (qs : List Real) (q : Real) :
    (qs.map Double.finite).foldl Double.max (Double.finite q)
      = Double.finite (qs.foldl Max.max q) := by
  induction qs generalizing q with
  | nil => rfl
  | cons x xs ih =>
    simp only [List.map_cons, List.foldl_cons]
    rw [Double.max_finite, ih]

/-- A comparison `a > t` with a finite `t` is false exactly when `a` is NaN or
`a <= t`. -/
theorem Double.gt_finite_false (a : Double) (t : Real) :
    Double.gt a (Double.finite t) = false ↔
      (a = Double.nan ∨ Double.le a (Double.finite t) = true) := by
  cases a with
  | finite x => simp [Double.gt, Double.lt, Double.le]
  | infinity s => cases s <;> simp [Double.gt, Double.lt, Double.le]
  | nan => simp [Double.gt, Double.lt]

/-- On a vector of one component `relativeError` is `relativeError1`. -/
theorem relativeError_one (a b : Double) (s : Real) (hs : 0 ≤ s) :
    relativeError (fun _ : Fin 1 => a) (fun _ => b) s = some (relativeError1 a b s) := by
  unfold relativeError
  rw [if_pos hs]
  rfl

/-- On vectors of finite components and a positive scale `relativeError` is the
greatest of the quotients, a finite number. -/
theorem relativeError_finite (n : Nat) (a b : Fin (n + 1) → Real) (s : Real) (hs : 0 < s) :
    relativeError (fun i => Double.finite (a i)) (fun i => Double.finite (b i)) s
      = ((List.ofFn fun i => |a i - b i| / Max.max s (Max.max |a i| |b i|)).max?).map
          Double.finite := by
  unfold relativeError
  rw [if_pos (le_of_lt hs)]
  have hq : (fun i : Fin (n + 1) =>
      Double.div (Double.abs (Double.sub (Double.finite (a i)) (Double.finite (b i))))
        (Double.max (Double.finite s)
          (Double.max (Double.abs (Double.finite (a i))) (Double.abs (Double.finite (b i))))))
      = fun i => Double.finite (|a i - b i| / Max.max s (Max.max |a i| |b i|)) := by
    funext i
    simp only [Double.sub, Double.abs, Double.max_finite, Double.div]
    have : Max.max s (Max.max |a i| |b i|) ≠ 0 :=
      ne_of_gt (lt_of_lt_of_le hs (le_max_left _ _))
    rw [if_neg this]
  rw [hq]
  have hmap : (List.ofFn fun i : Fin (n + 1) =>
      Double.finite (|a i - b i| / Max.max s (Max.max |a i| |b i|)))
      = (List.ofFn fun i : Fin (n + 1) => |a i - b i| / Max.max s (Max.max |a i| |b i|)).map
          Double.finite := by
    rw [List.map_ofFn]; rfl
  rw [hmap]
  rw [List.ofFn_succ]
  simp only [List.map_cons, List.max?_cons', Option.map_some']
  rw [Double.foldl_max_finite]

/-- C17, counterexample. For the vector `a = [inf]` of one component and the
scale `s = 1`, `relativeError(a, a, s)` is `|inf - inf| / max(1, inf)`, a NaN
and not 0; and for `v = [inf]`, `relativeError(0, v, s)` is `inf / inf`, a NaN,
which is equal to no `double`. -/
theorem C17_relative_error_boundary_counterexample :
    relativeError (fun _ : Fin 1 => Double.infinity false) (fun _ => Double.infinity false) 1
      = some Double.nan ∧
    relativeError (fun _ : Fin 1 => Double.infinity false) (fun _ => Double.infinity false) 1
      ≠ some (Double.finite 0) ∧
    relativeError (fun _ : Fin 1 => Double.finite 0) (fun _ => Double.infinity false) 1
      = some Double.nan := by
  refine ⟨?_, ?_, ?_⟩ <;> decide!

/-- C17 (relative-error boundary), amended. With `relativeError(a, b, s)` the
greatest of the `|a_i - b_i| / max(s, |a_i|, |b_i|)`, for every scale `s > 0`
and all non-empty vectors `a`, `v` of equal length whose components are finite
numbers (no infinity, no NaN), in exact arithmetic: `relativeError(a, a, s)` is
the number 0, and `relativeError(0, v, s)` is the greatest of the
`|v_i| / max(s, |v_i|)`, a finite number. -/
theorem C17_relative_error_boundary (n : Nat) (a v : Fin (n + 1) → Real) (s : Real)
    (hs : 0 < s) :
    relativeError (fun i => Double.finite (a i)) (fun i => Double.finite (a i)) s
      = some (Double.finite 0) ∧
    relativeError (fun _ => Double.finite 0) (fun i => Double.finite (v i)) s
      = ((List.ofFn fun i => |v i| / max s |v i|).max?).map Double.finite ∧
    ∃ m, relativeError (fun _ => Double.finite 0) (fun i => Double.finite (v i)) s
        = some (Double.finite m) ∧
      (∃ i, m = |v i| / max s |v i|) ∧ ∀ i, |v i| / max s |v i| ≤ m := by
  have h0 : relativeError (fun _ : Fin (n + 1) => Double.finite 0)
      (fun i => Double.finite (v i)) s
      = ((List.ofFn fun i => |v i| / max s |v i|).max?).map Double.finite := by
    rw [relativeError_finite n (fun _ => 0) v s hs]
    congr 2
    apply congrArg
    funext i
    simp [max_eq_right (abs_nonneg (v i))]
  refine ⟨?_, h0, ?_⟩
  · rw [relativeError_finite n a a s hs]
    have : (fun i : Fin (n + 1) => |a i - a i| / max s (max |a i| |a i|)) = fun _ => 0 := by
      funext i; simp
    rw [this, List.ofFn_const, List.max?_replicate (max_self _)]
    simp
  · obtain ⟨m, hm, hmem, hle⟩ := max?_spec (List.ofFn fun i => |v i| / max s |v i|)
      (by simp [List.ofFn_succ])
    refine ⟨m, by rw [h0, hm]; rfl, ?_, ?_⟩
    · obtain ⟨i, hi⟩ := (List.mem_ofFn _ _).mp hmem
      exact ⟨i, hi.symm⟩
    · intro i
      exact hle _ ((List.mem_ofFn _ _).mpr ⟨i, rfl⟩)

/-- Witness of C17: the vectors `[1, -3]` and scale 2. -/
theorem C17_relative_error_boundary_witness :
    relativeError (fun i : Fin 2 => Double.finite (if i = 0 then (1 : Real) else -3))
      (fun i : Fin 2 => Double.finite (if i = 0 then (1 : Real) else -3)) 2
        = some (Double.finite 0) :=
  (C17_relative_error_boundary 1 (fun i => if i = 0 then 1 else -3)
    (fun i => if i = 0 then 1 else -3) 2 (by norm_num)).1

/-! ## Event times accepted by `add` -/

/-- C18, counterexample. A reverse time iteration on `[0, 1]` with
`epsilon = 1/1000` accepts an event at `t = 0 = startTime`: all assertions of
`add` hold, and the time is not strictly inside `(startTime, endTime)`. -/
theorem C18_event_time_counterexample :
    (TimeIteration.add (1 / 1000) (S4new false) 0 (fun v => v)).isSome = true ∧
    (S4new false).Forward = false ∧
    ¬ ((S4new false).startTime < 0 ∧ (0 : Real) < (S4new false).endTime) := by
  refine ⟨?_, rfl, ?_⟩
  · simp [TimeIteration.add, S4new, TimeIteration.initialTime]
    norm_num
  · simp [S4new]

/-- C18, amended (event-time invariant). For both directions, every event time
`t` accepted by `add` satisfies `startTime ≤ t < endTime - epsilon` and is not
the initial time; so, with `epsilon ≥ 0`, it lies in `[startTime, endTime)`,
and strictly inside `(startTime, endTime)` when `Forward`. -/
theorem C18_event_time {V : Type} (epsilon : Real) (heps : 0 ≤ epsilon) (it it' : TimeIteration V)
    (t : Real) (event : V → V) (h : TimeIteration.add epsilon it t event = some it') :
    it.startTime ≤ t ∧ t < it.endTime - epsilon ∧ t ≠ it.initialTime ∧ t < it.endTime ∧
    (it.Forward = true → it.startTime < t) := by
  obtain ⟨_, h1, h2, h3⟩ := TimeIteration.add_spec epsilon it it' t event h
  refine ⟨h1, h2, h3, by linarith, ?_⟩
  intro hF
  simp only [TimeIteration.initialTime, hF, if_true] at h3
  exact lt_of_le_of_ne h1 (Ne.symm h3)

/-- Witness of the amended C18: the forward iteration of scenario S4 accepts
an event at `t = 1/2`. -/
theorem C18_event_time_witness :
    (S4new true).startTime ≤ 1 / 2 ∧ (1 / 2 : Real) < (S4new true).endTime - 1 / 1000 ∧
    (1 / 2 : Real) ≠ (S4new true).initialTime ∧ (1 / 2 : Real) < (S4new true).endTime ∧
    ((S4new true).Forward = true → (S4new true).startTime < 1 / 2) :=
  C18_event_time (1 / 1000) (by norm_num) (S4new true)
    { S4new true with
      events := (S4new true).events.emplace (S4new true).Forward
        ((S4new true).id, 1 / 2, fun v => v + 1)
      id := ((S4new true).id + 1) % 4294967296 }
    (1 / 2) (fun v => v + 1)
    (by simp [TimeIteration.add, S4new, TimeIteration.initialTime]; norm_num)

/-! ## The history set up by `solve` -/

/-- With at least one attached node, `solve` leaves a fresh history whose
capacity is the greatest `minimumLookback()` of the iteration and its nodes. -/
theorem solveHistory_cons {T : Type} [Inhabited T] (lookbackOf : Nat → Int) (nodes : List Nat) :
    ∀ (m : Int) (node : Nat) (history : Option (CircularBuffer T)),
      Iteration.solveHistory m lookbackOf (node :: nodes) history
        = ((node :: nodes).foldl (fun lb nd => max lb (lookbackOf nd)) m,
           some (CircularBuffer.new
             ((node :: nodes).foldl (fun lb nd => max lb (lookbackOf nd)) m))) := by
  induction nodes with
  | nil =>
    intro m node history
    simp only [Iteration.solveHistory, List.foldl_cons, List.foldl_nil]
    have : (if lookbackOf node > m then lookbackOf node else m) = max m (lookbackOf node) := by
      rcases le_or_lt (lookbackOf node) m with h | h
      · rw [if_neg (not_lt.mpr h), max_eq_left h]
      · rw [if_pos h, max_eq_right (le_of_lt h)]
    rw [this]
  | cons nd nodes ih =>
    intro m node history
    have hstep : Iteration.solveHistory m lookbackOf (node :: nd :: nodes) history
        = Iteration.solveHistory (max m (lookbackOf node)) lookbackOf (nd :: nodes)
            (some (CircularBuffer.new (max m (lookbackOf node)))) := by
      have : (if lookbackOf node > m then lookbackOf node else m) = max m (lookbackOf node) := by
        rcases le_or_lt (lookbackOf node) m with h | h
        · rw [if_neg (not_lt.mpr h), max_eq_left h]
        · rw [if_pos h, max_eq_right (le_of_lt h)]
      simp only [Iteration.solveHistory, List.foldl_cons, this]
    rw [hstep, ih]
    simp only [List.foldl_cons]

/-- C20, the code at the failing input. For an iteration without attached
nodes (here with `minimumLookback() = 2`, as a `ToleranceIteration`), `solve`
creates no history: a null pointer stays null, and a buffer left by an earlier
solve (here of capacity 1) stays in place. With a node attached the history is
created with capacity 2. -/
theorem C20_history_capacity_no_nodes :
    (Iteration.solveHistory 2 (fun _ => 1) [] (none : Option (CircularBuffer (Real × Real)))).2
      = none ∧
    (Iteration.solveHistory 2 (fun _ => 1) []
      (some (CircularBuffer.new 1 : CircularBuffer (Real × Real)))).2
      = some (CircularBuffer.new 1) ∧
    (Iteration.solveHistory 2 (fun _ => 1) [7]
      (none : Option (CircularBuffer (Real × Real)))).2
      = some (CircularBuffer.new 2) := by
  refine ⟨rfl, rfl, ?_⟩
  rw [solveHistory_cons]
  simp

/-! ## Timesteps towards a close event -/

/-- C19, the code at the failing input. Forward march on `[0, 1]`,
`epsilon = 1/1000`, constant timestep `3/10 > epsilon`, one event at
`t = 1/2000`, which `add` accepts. The first step is cut at the event:
`nextTime() = 1/2000` and `time(0) = 0`, the member `dt` is `1/2000`, and
`CrankNicolson::dt()` of a node attached to the iteration fails its assertion
`dt > epsilon`. -/
theorem C19_degenerate_timestep :
    (TimeIteration.add (1 / 1000) (ConstantStepper (Fin 1 → Real) true 0 1 (3 / 10))
      (1 / 2000) (fun v => v)).isSome = true ∧
    closeEventFirstStep.toOption.map
        (fun w => ((w.vars 0).implicitTime, Iteration.time w 0 0, (w.vars 0).dt,
          crankNicolsonUnitSource.dt (1 / 1000) w))
      = some (1 / 2000, some 0, 1 / 2000, none) := by
  constructor
  · decide!
  · decide!

/-! ## The steps of a run -/

namespace Iteration

variable {S M V : Type}

theorem stepLoop_succ (root : IterationNode S M V) (solver : LinearSolver S M V) (lvl : Nat)
    (nodes : List Nat) (child : Option (Runner S V))
    (TIMESTEP : World S V → Except Error (World S V))
    (NOT_DONE : World S V → Except Error Bool) (fuel : Nat) (i : Bool) (w : World S V) :
    stepLoop root solver lvl nodes child TIMESTEP NOT_DONE (fuel + 1) i w
      = (match turn root solver lvl nodes child TIMESTEP i w with
        | .error e => .error e
        | .ok w3 =>
          match NOT_DONE w3 with
          | .error e => .error e
          | .ok true => stepLoop root solver lvl nodes child TIMESTEP NOT_DONE fuel true w3
          | .ok false => .ok (true, w3)) := by
  conv_lhs => unfold stepLoop
  unfold turn
  cases TIMESTEP w with
  | error e => rfl
  | ok w1 =>
    simp only []
    cases produce root solver lvl child i (startNodes nodes w1) with
    | error e => rfl
    | ok w2 => rfl

/-- A run of the step loop that returns is a chain of `k ≥ 1` turns: the test
`NOT_DONE` holds after each turn but the last. -/
theorem stepLoop_trace (root : IterationNode S M V) (solver : LinearSolver S M V) (lvl : Nat)
    (nodes : List Nat) (child : Option (Runner S V))
    (TIMESTEP : World S V → Except Error (World S V))
    (NOT_DONE : World S V → Except Error Bool) :
    ∀ (fuel : Nat) (i : Bool) (w : World S V) (r : Bool × World S V),
      stepLoop root solver lvl nodes child TIMESTEP NOT_DONE fuel i w = .ok r →
      ∃ (k : Nat) (ws : Nat → World S V), 1 ≤ k ∧ k ≤ fuel ∧ ws 0 = w ∧ ws k = r.2 ∧
        (∀ j, j < k → turn root solver lvl nodes child TIMESTEP (if j = 0 then i else true)
          (ws j) = .ok (ws (j + 1))) ∧
        (∀ j, 1 ≤ j → j < k → NOT_DONE (ws j) = .ok true) ∧
        NOT_DONE (ws k) = .ok false := by
  intro fuel
  induction fuel with
  | zero => intro i w r h; simp [stepLoop] at h
  | succ fuel ih =>
    intro i w r h
    rw [stepLoop_succ] at h
    cases ht : turn root solver lvl nodes child TIMESTEP i w with
    | error e => rw [ht] at h; exact absurd h (by simp)
    | ok w3 =>
      rw [ht] at h
      simp only [] at h
      cases hn : NOT_DONE w3 with
      | error e => rw [hn] at h; exact absurd h (by simp)
      | ok b =>
        rw [hn] at h
        cases b with
        | false =>
          simp only [Except.ok.injEq] at h
          subst h
          refine ⟨1, fun j => if j = 0 then w else w3, le_refl _, by omega, by simp, by simp,
            ?_, ?_, by simpa using hn⟩
          · intro j hj
            have : j = 0 := by omega
            subst this
            simpa using ht
          · intro j h1 h2
            omega
        | true =>
          simp only [] at h
          obtain ⟨k, ws, hk1, hk2, h0, hk, hturn, hnd, hlast⟩ := ih true w3 r h
          refine ⟨k + 1, fun j => if j = 0 then w else ws (j - 1), by omega, by omega, by simp,
            by simpa using hk, ?_, ?_, by simpa using hlast⟩
          · intro j hj
            cases j with
            | zero =>
              simp only [if_true, Nat.zero_add]
              rw [if_neg (by omega)]
              simpa [h0] using ht
            | succ j =>
              have := hturn j (by omega)
              simp only [Nat.add_one_ne_zero, if_false, Nat.add_sub_cancel]
              by_cases hj0 : j = 0
              · subst hj0
                simpa using this
              · rw [if_neg hj0] at this
                simpa using this
          · intro j h1 h2
            cases j with
            | zero => omega
            | succ j =>
              simp only [Nat.add_one_ne_zero, if_false, Nat.add_sub_cancel]
              by_cases hj0 : j = 0
              · subst hj0
                rw [h0]
                exact hn
              · exact hnd j (by omega) (by omega)

end Iteration

namespace Iteration

variable {S M V : Type}

theorem log_startNodes (nodes : List Nat) (w : World S V) :
    (startNodes nodes w).log = w.log ++ nodes.map Call.onIterationStart := rfl

theorem log_TAIL (lvl : Nat) (nodes : List Nat) (w : World S V) :
    (TAIL lvl nodes w).log = w.log ++ nodes.reverse.map Call.onIterationEnd := rfl

/-- The record of the step that produces the iterand: the calls of the solve
or of the child, then the push. -/
theorem produce_log (root : IterationNode S M V) (solver : LinearSolver S M V) (lvl : Nat)
    (child : Option (Runner S V)) (hchild : ∀ run, child = some run → RunnerGated run)
    (i : Bool) (w w2 : World S V) (h : produce root solver lvl child i w = .ok w2) :
    ∃ body t, w2.log = w.log ++ body ++ [Call.push lvl t] ∧ ProduceCalls child body := by
  unfold produce at h
  cases child with
  | some run =>
    simp only [] at h
    split at h
    · exact absurd h (by simp)
    · rename_i x0 _
      split at h
      · exact absurd h (by simp)
      · rename_i r hr
        simp only [Except.ok.injEq] at h
        subst h
        obtain ⟨seg, hseg, _, _⟩ := hchild run rfl _ _ _ _ _ hr
        refine ⟨seg, (r.2.vars lvl).implicitTime, ?_, _, _, _, _, _, hr, hseg⟩
        simp [pushHistory, World.record, World.setVars, hseg]
  | none =>
    simp only [] at h
    unfold solveLinearSystemAndSaveResult at h
    cases i
    · simp only [Bool.not_false, if_true] at h
      split at h
      · exact absurd h (by simp)
      · simp only [Except.ok.injEq] at h
        subst h
        exact ⟨[Call.A (w.vars lvl).implicitTime, Call.initialise,
          Call.b (w.vars lvl).implicitTime, Call.solve], (w.vars lvl).implicitTime,
          by simp [pushHistory, World.record, World.setVars], by simp [Call.isSystemCall], rfl⟩
    · simp only [Bool.not_true, Bool.false_eq_true, if_false] at h
      by_cases hs : root.isATheSame w = true
      · simp only [hs, Bool.not_true, Bool.false_eq_true, if_false] at h
        split at h
        · exact absurd h (by simp)
        · simp only [Except.ok.injEq] at h
          subst h
          exact ⟨[Call.isATheSame true, Call.b (w.vars lvl).implicitTime, Call.solve],
            (w.vars lvl).implicitTime,
            by simp [pushHistory, World.record, World.setVars], by simp [Call.isSystemCall], rfl⟩
      · have hs' : root.isATheSame w = false := by simpa using hs
        simp only [hs', Bool.not_false, if_true] at h
        split at h
        · exact absurd h (by simp)
        · simp only [Except.ok.injEq] at h
          subst h
          exact ⟨[Call.isATheSame false, Call.A (w.vars lvl).implicitTime, Call.initialise,
            Call.b (w.vars lvl).implicitTime, Call.solve], (w.vars lvl).implicitTime,
            by simp [pushHistory, World.record, World.setVars], by simp [Call.isSystemCall], rfl⟩

/-- The record of one turn of the step loop, when `TIMESTEP` records nothing. -/
theorem turn_log (root : IterationNode S M V) (solver : LinearSolver S M V) (lvl : Nat)
    (nodes : List Nat) (child : Option (Runner S V))
    (hchild : ∀ run, child = some run → RunnerGated run)
    (TIMESTEP : World S V → Except Error (World S V))
    (hT : ∀ w w1, TIMESTEP w = .ok w1 → w1.log = w.log)
    (i : Bool) (w w3 : World S V) (h : turn root solver lvl nodes child TIMESTEP i w = .ok w3) :
    ∃ body t, w3.log = w.log ++ stepCalls lvl nodes body t ∧ ProduceCalls child body := by
  unfold turn at h
  split at h
  · exact absurd h (by simp)
  · rename_i w1 hw1
    split at h
    · exact absurd h (by simp)
    · rename_i w2 hw2
      simp only [Except.ok.injEq] at h
      subst h
      obtain ⟨body, t, hlog, hbody⟩ := produce_log root solver lvl child hchild i _ w2 hw2
      refine ⟨body, t, ?_, hbody⟩
      rw [log_TAIL, hlog, log_startNodes, hT w w1 hw1]
      simp [stepCalls, List.append_assoc]

end Iteration

theorem IterationKind.TIMESTEP_log {S V : Type} (epsilon : Real) (k : IterationKind V)
    (lvl : Nat) (ne : Real) (w w1 : World S V)
    (h : k.TIMESTEP epsilon lvl ne w = .ok w1) : w1.log = w.log := by
  cases k with
  | tolerance it =>
    simp only [IterationKind.TIMESTEP, Except.ok.injEq] at h
    rw [h]
  | time it =>
    simp only [IterationKind.TIMESTEP] at h
    unfold TimeIteration.TIMESTEP at h
    split_ifs at h
    simp only [Except.ok.injEq] at h
    rw [← h]
    rfl

/-- C13 (lifecycle order). In the step loop that `iterateUntilDone` runs, for
a tolerance or a time iteration, with or without a child (the rest of the
chain): a run that returns is a chain of steps, and each step extends the
record by `onIterationStart` on every attached node in attachment order, then
the calls of the linear solve or of the inner iteration, then the push of the
result, then `onIterationEnd` on every attached node in reverse attachment
order. -/
theorem C13_lifecycle_order {S M V : Type} [Inhabited V] (epsilon : Real) (fuel : Nat)
    (root : IterationNode S M V) (solver : LinearSolver S M V) (k : IterationKind V)
    (rest : List (IterationKind V)) (lvl : Nat) (nextEventTime : Real) (budget : Nat)
    (i : Bool) (w : World S V) (r : Bool × World S V)
    (h : Iteration.stepLoop root solver lvl k.nodes
      (runChain epsilon fuel root solver rest (lvl + 1)) (k.TIMESTEP epsilon lvl nextEventTime)
      (k.NOT_DONE epsilon lvl nextEventTime) budget i w = .ok r) :
    ∃ (steps : Nat) (ws : Nat → World S V), 1 ≤ steps ∧ ws 0 = w ∧ ws steps = r.2 ∧
      ∀ j, j < steps →
        Iteration.turn root solver lvl k.nodes (runChain epsilon fuel root solver rest (lvl + 1))
          (k.TIMESTEP epsilon lvl nextEventTime) (if j = 0 then i else true) (ws j)
          = .ok (ws (j + 1)) ∧
        ∃ body t, (ws (j + 1)).log = (ws j).log ++
            (k.nodes.map Call.onIterationStart ++ body ++ [Call.push lvl t]
              ++ k.nodes.reverse.map Call.onIterationEnd) ∧
          Iteration.ProduceCalls (runChain epsilon fuel root solver rest (lvl + 1)) body := by
  obtain ⟨steps, ws, h1, _, h0, hk, hturn, _, _⟩ := Iteration.stepLoop_trace root solver lvl
    k.nodes _ _ _ budget i w r h
  refine ⟨steps, ws, h1, h0, hk, ?_⟩
  intro j hj
  refine ⟨hturn j hj, ?_⟩
  exact Iteration.turn_log root solver lvl k.nodes _
    (fun run hr => runChain_gated epsilon fuel root solver rest (lvl + 1) run hr)
    _ (IterationKind.TIMESTEP_log epsilon k lvl nextEventTime) _ _ _ (hturn j hj)

/-- Witness of C13: the step loop of `hookedStepper` (nodes 7, 8) towards the
terminal time 1, with `hookedTolerance` as inner iteration, from the opening
of `iterateUntilDone` on the vector `[3]`. -/
theorem C13_lifecycle_order_witness :
    ∃ r, Iteration.stepLoop (carryRoot 1) identitySolver 0 (IterationKind.time hookedStepper).nodes
        (runChain (1 / 1000) 3 (carryRoot 1) identitySolver
          [IterationKind.tolerance hookedTolerance] (0 + 1))
        ((IterationKind.time hookedStepper).TIMESTEP (1 / 1000) 0 1)
        ((IterationKind.time hookedStepper).NOT_DONE (1 / 1000) 0 1) 3 false
        (Iteration.opening 0 hookedStepper.nodes (3 : Real)
          (TimeIteration.SET_TIME hookedStepper 0 (World.fresh 2))) = .ok r ∧
      ∃ (steps : Nat) (ws : Nat → World Unit Real), 1 ≤ steps ∧
        ws 0 = Iteration.opening 0 hookedStepper.nodes (3 : Real)
          (TimeIteration.SET_TIME hookedStepper 0 (World.fresh 2)) ∧ ws steps = r.2 ∧
        ∀ j, j < steps →
          Iteration.turn (carryRoot 1) identitySolver 0 (IterationKind.time hookedStepper).nodes
            (runChain (1 / 1000) 3 (carryRoot 1) identitySolver
              [IterationKind.tolerance hookedTolerance] (0 + 1))
            ((IterationKind.time hookedStepper).TIMESTEP (1 / 1000) 0 1)
            (if j = 0 then false else true) (ws j) = .ok (ws (j + 1)) ∧
          ∃ body t, (ws (j + 1)).log = (ws j).log ++
              ((IterationKind.time hookedStepper).nodes.map Call.onIterationStart ++ body
                ++ [Call.push 0 t]
                ++ (IterationKind.time hookedStepper).nodes.reverse.map Call.onIterationEnd) ∧
            Iteration.ProduceCalls (runChain (1 / 1000) 3 (carryRoot 1) identitySolver
              [IterationKind.tolerance hookedTolerance] (0 + 1)) body := by
  have hok : (Iteration.stepLoop (carryRoot 1) identitySolver 0
      (IterationKind.time hookedStepper).nodes
      (runChain (1 / 1000) 3 (carryRoot 1) identitySolver
        [IterationKind.tolerance hookedTolerance] (0 + 1))
      ((IterationKind.time hookedStepper).TIMESTEP (1 / 1000) 0 1)
      ((IterationKind.time hookedStepper).NOT_DONE (1 / 1000) 0 1) 3 false
      (Iteration.opening 0 hookedStepper.nodes (3 : Real)
        (TimeIteration.SET_TIME hookedStepper 0 (World.fresh 2)))).toOption.isSome = true := by
    decide!
  cases hr : Iteration.stepLoop (carryRoot 1) identitySolver 0
      (IterationKind.time hookedStepper).nodes
      (runChain (1 / 1000) 3 (carryRoot 1) identitySolver
        [IterationKind.tolerance hookedTolerance] (0 + 1))
      ((IterationKind.time hookedStepper).TIMESTEP (1 / 1000) 0 1)
      ((IterationKind.time hookedStepper).NOT_DONE (1 / 1000) 0 1) 3 false
      (Iteration.opening 0 hookedStepper.nodes (3 : Real)
        (TimeIteration.SET_TIME hookedStepper 0 (World.fresh 2))) with
  | error e => rw [hr] at hok; exact absurd hok (by simp [Except.toOption])
  | ok r =>
    exact ⟨r, rfl, C13_lifecycle_order (1 / 1000) 3 (carryRoot 1) identitySolver
      (IterationKind.time hookedStepper) [IterationKind.tolerance hookedTolerance] 0 1 3 false
      _ r hr⟩

/-! ## The event boundaries of a run -/

namespace TimeIteration

variable {S M V : Type}

/-- The record of one event boundary. -/
theorem OUTER_TAIL_log [Inhabited V] (it : TimeIteration V) (lvl : Nat) (ne : Real)
    (events : PriorityQueue V) (w : World S V) (r : PriorityQueue V × World S V)
    (h : OUTER_TAIL it lvl ne events w = .ok r) :
    ∃ x, Iteration.iterand w lvl 0 = some x ∧
      r.1 = (applyEvents ne events x default).2.1 ∧
      r.2.log = w.log ++ boundaryCalls lvl it.nodes (applyEvents ne events x default).2.2 ne := by
  unfold OUTER_TAIL at h
  simp only [] at h
  split at h
  · exact absurd h (by simp)
  · rename_i x hx
    simp only [Except.ok.injEq] at h
    subst h
    refine ⟨x, ?_, rfl, ?_⟩
    · simpa [Iteration.iterand] using hx
    · simp [boundaryCalls, Iteration.pushHistory, Iteration.clearHistory, Iteration.afterEvent,
        World.record, World.setVars, List.append_assoc]

/-- A run of the loop over the event boundaries that returns is a chain of
`m ≥ 1` boundaries, each a run of the step loop towards the time of the top of
the working queue followed by `OUTER_TAIL`. -/
theorem outerLoop_trace [Inhabited V] (epsilon : Real) (root : IterationNode S M V)
    (solver : LinearSolver S M V) (it : TimeIteration V) (lvl : Nat)
    (child : Option (Runner S V)) (inner : Nat) :
    ∀ (fuel : Nat) (events : PriorityQueue V) (i : Bool) (w w' : World S V),
      outerLoop epsilon root solver it lvl child inner fuel events i w = .ok w' →
      ∃ (m : Nat) (qs : Nat → PriorityQueue V) (ws : Nat → World S V),
        1 ≤ m ∧ qs 0 = events ∧ ws 0 = w ∧ ws m = w' ∧
        ∀ b, b < m → ∃ e i' r r', (qs b).top = some e ∧
          Iteration.stepLoop root solver lvl it.nodes child (TIMESTEP epsilon it lvl e.2.1)
            (NOT_DONE epsilon it lvl e.2.1) inner i' (ws b) = .ok r ∧
          OUTER_TAIL it lvl e.2.1 (qs b) r.2 = .ok r' ∧
          r'.1 = qs (b + 1) ∧ r'.2 = ws (b + 1) := by
  intro fuel
  induction fuel with
  | zero => intro events i w w' h; simp [outerLoop] at h
  | succ fuel ih =>
    intro events i w w' h
    unfold outerLoop at h
    split at h
    · exact absurd h (by simp)
    · rename_i e he
      split at h
      · exact absurd h (by simp)
      · rename_i r hr
        split at h
        · exact absurd h (by simp)
        · rename_i r' hr'
          split_ifs at h with hO
          · obtain ⟨m, qs, ws, hm, hq0, hw0, hwm, hall⟩ := ih _ _ _ _ h
            refine ⟨m + 1, fun b => if b = 0 then events else qs (b - 1),
              fun b => if b = 0 then w else ws (b - 1), by omega, by simp, by simp,
              by simpa using hwm, ?_⟩
            intro b hb
            cases b with
            | zero =>
              refine ⟨e, i, r, r', by simpa using he, by simpa using hr, by simpa using hr', ?_, ?_⟩
              · simp [hq0]
              · simp [hw0]
            | succ b =>
              obtain ⟨e', i', r1, r1', g1, g2, g3, g4, g5⟩ := hall b (by omega)
              exact ⟨e', i', r1, r1', by simpa using g1, by simpa using g2, by simpa using g3,
                by simpa using g4, by simpa using g5⟩
          · simp only [Except.ok.injEq] at h
            subst h
            refine ⟨1, fun b => if b = 0 then events else r'.1,
              fun b => if b = 0 then w else r'.2, le_refl _, by simp, by simp, by simp, ?_⟩
            intro b hb
            have : b = 0 := by omega
            subst this
            exact ⟨e, i, r, r', by simpa using he, by simpa using hr, by simpa using hr',
              by simp, by simp⟩

end TimeIteration

/-- C14 (`onAfterEvent` once per event boundary). A run of
`TimeIteration::iterateUntilDone` that returns is a chain of `m ≥ 1` event
boundaries. At each of them, after the step loop towards the time `t` of the
top of the working queue, the record is extended by exactly: the events of
the queue sharing the time `t` (all of them, as applied by the event loop to
`iterand(0)`), then `onAfterEvent` once on every attached node in attachment
order, then the push of the transformed vector at time `t`. -/
theorem C14_after_event_once {S M V : Type} [Inhabited V] (epsilon : Real) (fuel : Nat)
    (root : IterationNode S M V) (solver : LinearSolver S M V) (it : TimeIteration V)
    (lvl : Nat) (child : Option (Runner S V)) (x0 : V) (time : Real) (i : Bool)
    (w : World S V) (r : V × World S V)
    (h : TimeIteration.iterateUntilDone epsilon fuel root solver it lvl child x0 time i w
      = .ok r) :
    ∃ (m : Nat) (qs : Nat → PriorityQueue V) (ws : Nat → World S V),
      1 ≤ m ∧ qs 0 = TimeIteration.OUTER_HEAD it ∧
      ws 0 = Iteration.opening lvl it.nodes x0 (TimeIteration.SET_TIME it lvl w) ∧
      ws m = r.2 ∧
      ∀ b, b < m → ∃ e i' pre x, (qs b).top = some e ∧
        Iteration.stepLoop root solver lvl it.nodes child
          (TimeIteration.TIMESTEP epsilon it lvl e.2.1)
          (TimeIteration.NOT_DONE epsilon it lvl e.2.1) fuel i' (ws b) = .ok pre ∧
        Iteration.iterand pre.2 lvl 0 = some x ∧
        qs (b + 1) = (TimeIteration.applyEvents e.2.1 (qs b) x default).2.1 ∧
        (ws (b + 1)).log = pre.2.log ++
          ((TimeIteration.applyEvents e.2.1 (qs b) x default).2.2.map Call.event
            ++ it.nodes.map Call.onAfterEvent ++ [Call.push lvl e.2.1]) := by
  unfold TimeIteration.iterateUntilDone at h
  split at h
  · exact absurd h (by simp)
  · rename_i w' hw'
    split at h
    · exact absurd h (by simp)
    · simp only [Except.ok.injEq] at h
      subst h
      obtain ⟨m, qs, ws, hm, hq0, hw0, hwm, hall⟩ := TimeIteration.outerLoop_trace epsilon root
        solver it lvl child fuel fuel _ i _ w' hw'
      refine ⟨m, qs, ws, hm, hq0, hw0, hwm, ?_⟩
      intro b hb
      obtain ⟨e, i', pre, r', g1, g2, g3, g4, g5⟩ := hall b hb
      obtain ⟨x, hx, hq, hlog⟩ := TimeIteration.OUTER_TAIL_log it lvl e.2.1 (qs b) pre.2 r' g3
      refine ⟨e, i', pre, x, g1, g2, hx, ?_, ?_⟩
      · rw [← g4, hq]
      · rw [← g5, hlog]
        rfl

/-- Witness of C14: scenario S4 marched forward with the nodes 7 and 8
attached, from a fresh world. -/
theorem C14_after_event_once_witness :
    ∃ r, TimeIteration.iterateUntilDone (1 / 1000) 3 (carryRoot 0) identitySolver hookedS4 0
        none (3 : Real) (-1) false (World.fresh 1) = .ok r ∧
      ∃ (m : Nat) (qs : Nat → PriorityQueue Real) (ws : Nat → World Unit Real),
        1 ≤ m ∧ qs 0 = TimeIteration.OUTER_HEAD hookedS4 ∧
        ws 0 = Iteration.opening 0 hookedS4.nodes (3 : Real)
          (TimeIteration.SET_TIME hookedS4 0 (World.fresh 1)) ∧
        ws m = r.2 ∧
        ∀ b, b < m → ∃ e i' pre x, (qs b).top = some e ∧
          Iteration.stepLoop (carryRoot 0) identitySolver 0 hookedS4.nodes none
            (TimeIteration.TIMESTEP (1 / 1000) hookedS4 0 e.2.1)
            (TimeIteration.NOT_DONE (1 / 1000) hookedS4 0 e.2.1) 3 i' (ws b) = .ok pre ∧
          Iteration.iterand pre.2 0 0 = some x ∧
          qs (b + 1) = (TimeIteration.applyEvents e.2.1 (qs b) x default).2.1 ∧
          (ws (b + 1)).log = pre.2.log ++
            ((TimeIteration.applyEvents e.2.1 (qs b) x default).2.2.map Call.event
              ++ hookedS4.nodes.map Call.onAfterEvent ++ [Call.push 0 e.2.1]) := by
  have hok : (TimeIteration.iterateUntilDone (1 / 1000) 3 (carryRoot 0) identitySolver hookedS4 0
      none (3 : Real) (-1) false (World.fresh 1)).toOption.isSome = true := by
    decide!
  cases hr : TimeIteration.iterateUntilDone (1 / 1000) 3 (carryRoot 0) identitySolver hookedS4 0
      none (3 : Real) (-1) false (World.fresh 1) with
  | error e => rw [hr] at hok; exact absurd hok (by simp [Except.toOption])
  | ok r =>
    exact ⟨r, rfl, C14_after_event_once (1 / 1000) 3 (carryRoot 0) identitySolver hookedS4 0
      none 3 (-1) false (World.fresh 1) r hr⟩

/-! ## What a run leaves untouched -/

namespace Iteration

variable {S M V : Type}

theorem vars_setVars_ne (w : World S V) (lvl j : Nat) (v : Vars V) (h : j ≠ lvl) :
    (w.setVars lvl v).vars j = w.vars j := by
  simp [World.setVars, Function.update_noteq h]

theorem vars_pushHistory_ne (lvl j : Nat) (t : Real) (x : V) (w : World S V) (h : j ≠ lvl) :
    (pushHistory lvl t x w).vars j = w.vars j := by
  simp [pushHistory, vars_setVars_ne _ _ _ _ h]

theorem vars_TAIL_ne (lvl j : Nat) (nodes : List Nat) (w : World S V) (h : j ≠ lvl) :
    (TAIL lvl nodes w).vars j = w.vars j := by
  simp [TAIL, vars_setVars_ne _ _ _ _ h]

theorem vars_opening_ne (lvl j : Nat) (nodes : List Nat) (x : V) (w : World S V) (h : j ≠ lvl) :
    (opening lvl nodes x w).vars j = w.vars j := by
  simp [opening, clearHistory, vars_pushHistory_ne _ _ _ _ _ h, vars_setVars_ne _ _ _ _ h]

/-- The step that produces the iterand pushes one entry, at the current
`implicitTime`, into the history of its level, and touches no level above. -/
theorem produce_vars (root : IterationNode S M V) (solver : LinearSolver S M V) (lvl : Nat)
    (child : Option (Runner S V)) (hchild : ∀ run, child = some run → RunnerFrame (lvl + 1) run)
    (i : Bool) (w w2 : World S V) (h : produce root solver lvl child i w = .ok w2) :
    (∃ x, w2.vars lvl = { w.vars lvl with
        history := (w.vars lvl).history.push ((w.vars lvl).implicitTime, x) }) ∧
    ∀ j, j < lvl → w2.vars j = w.vars j := by
  unfold produce at h
  cases child with
  | some run =>
    simp only [] at h
    split at h
    · exact absurd h (by simp)
    · split at h
      · exact absurd h (by simp)
      · rename_i r hr
        simp only [Except.ok.injEq] at h
        subst h
        have hf := hchild run rfl _ _ _ _ _ hr
        refine ⟨⟨r.1, ?_⟩, ?_⟩
        · rw [vars_pushHistory, hf lvl (by omega)]
        · intro j hj
          rw [vars_pushHistory_ne _ _ _ _ _ (by omega), hf j (by omega)]
  | none =>
    simp only [] at h
    unfold solveLinearSystemAndSaveResult at h
    have key : ∀ w1 : World S V, w1.vars = w.vars → ∀ w2,
        (match iterand w1 lvl 0 with
          | none => (Except.error Error.assertion : Except Error (World S V))
          | some x0 => .ok (pushHistory lvl (w.vars lvl).implicitTime
              (solver.solve w1.solver (root.b w1 (w.vars lvl).implicitTime) x0)
              (w1.record [Call.b (w.vars lvl).implicitTime, Call.solve]))) = .ok w2 →
        (∃ x, w2.vars lvl = { w.vars lvl with
          history := (w.vars lvl).history.push ((w.vars lvl).implicitTime, x) }) ∧
        ∀ j, j < lvl → w2.vars j = w.vars j := by
      intro w1 hw1 w2 h2
      split at h2
      · exact absurd h2 (by simp)
      · rename_i x0 _
        simp only [Except.ok.injEq] at h2
        subst h2
        refine ⟨⟨solver.solve w1.solver (root.b w1 (w.vars lvl).implicitTime) x0, ?_⟩, ?_⟩
        · rw [vars_pushHistory, vars_record, hw1]
        · intro j hj
          rw [vars_pushHistory_ne _ _ _ _ _ (by omega), vars_record, hw1]
    exact key _ (by split_ifs <;> rfl) w2 h

/-- One turn of the step loop, seen on the variables: `TIMESTEP`, then one
push into the history at the committed `implicitTime`, then the count of the
current run goes up by one. -/
theorem turn_vars (root : IterationNode S M V) (solver : LinearSolver S M V) (lvl : Nat)
    (nodes : List Nat) (child : Option (Runner S V))
    (hchild : ∀ run, child = some run → RunnerFrame (lvl + 1) run)
    (TIMESTEP : World S V → Except Error (World S V))
    (i : Bool) (w w3 : World S V) (h : turn root solver lvl nodes child TIMESTEP i w = .ok w3) :
    ∃ w1 x, TIMESTEP w = .ok w1 ∧
      w3.vars lvl = { w1.vars lvl with
        history := (w1.vars lvl).history.push ((w1.vars lvl).implicitTime, x)
        its := incrementBack (w1.vars lvl).its } ∧
      ∀ j, j < lvl → w3.vars j = w1.vars j := by
  unfold turn at h
  split at h
  · exact absurd h (by simp)
  · rename_i w1 hw1
    split at h
    · exact absurd h (by simp)
    · rename_i w2 hw2
      simp only [Except.ok.injEq] at h
      subst h
      obtain ⟨⟨x, hx⟩, hf⟩ := produce_vars root solver lvl child hchild i _ w2 hw2
      refine ⟨w1, x, hw1, ?_, ?_⟩
      · rw [vars_TAIL, hx]
        simp
      · intro j hj
        rw [vars_TAIL_ne _ _ _ _ (by omega), hf j hj]
        simp

/-- The step loop touches no level above its own, when `TIMESTEP` touches
none. -/
theorem stepLoop_frame (root : IterationNode S M V) (solver : LinearSolver S M V) (lvl : Nat)
    (nodes : List Nat) (child : Option (Runner S V))
    (hchild : ∀ run, child = some run → RunnerFrame (lvl + 1) run)
    (TIMESTEP : World S V → Except Error (World S V))
    (NOT_DONE : World S V → Except Error Bool)
    (hT : ∀ w w1, TIMESTEP w = .ok w1 → ∀ j, j < lvl → w1.vars j = w.vars j)
    (fuel : Nat) (i : Bool) (w : World S V) (r : Bool × World S V)
    (h : stepLoop root solver lvl nodes child TIMESTEP NOT_DONE fuel i w = .ok r) :
    ∀ j, j < lvl → r.2.vars j = w.vars j := by
  obtain ⟨k, ws, _, _, h0, hk, hturn, _, _⟩ := stepLoop_trace root solver lvl nodes child
    TIMESTEP NOT_DONE fuel i w r h
  have key : ∀ n, n ≤ k → ∀ j, j < lvl → (ws n).vars j = w.vars j := by
    intro n
    induction n with
    | zero => intro _ j _; rw [h0]
    | succ n ih =>
      intro hn j hj
      obtain ⟨w1, x, hw1, _, hf⟩ := turn_vars root solver lvl nodes child hchild TIMESTEP _ _ _
        (hturn n (by omega))
      rw [hf j hj, hT _ _ hw1 j hj, ih (by omega) j hj]
  intro j hj
  rw [← hk]
  exact key k (le_refl _) j hj

end Iteration

theorem ToleranceIteration.tolerance_frame {S M V : Type} (fuel : Nat)
    (root : IterationNode S M V) (solver : LinearSolver S M V) (it : ToleranceIteration V)
    (lvl : Nat) (child : Option (Runner S V))
    (hchild : ∀ run, child = some run → RunnerFrame (lvl + 1) run) :
    RunnerFrame lvl (ToleranceIteration.iterateUntilDone fuel root solver it lvl child) := by
  intro x t i w r h j hj
  unfold ToleranceIteration.iterateUntilDone at h
  simp only [] at h
  split at h
  · exact absurd h (by simp)
  · rename_i r' hr'
    split at h
    · exact absurd h (by simp)
    · simp only [Except.ok.injEq] at h
      subst h
      rw [Iteration.stepLoop_frame root solver lvl it.nodes child hchild _ _
        (fun w w1 hw j _ => by simp only [Except.ok.injEq] at hw; rw [hw]) fuel i _ r' hr' j hj,
        Iteration.vars_opening_ne _ _ _ _ _ (by omega),
        Iteration.vars_setVars_ne _ _ _ _ (by omega)]

namespace TimeIteration

variable {S M V : Type}

theorem TIMESTEP_frame (epsilon : Real) (it : TimeIteration V) (lvl : Nat) (ne : Real)
    (w w1 : World S V) (h : TIMESTEP epsilon it lvl ne w = .ok w1) :
    ∀ j, j < lvl → w1.vars j = w.vars j := by
  intro j hj
  unfold TIMESTEP at h
  split_ifs at h
  simp only [Except.ok.injEq] at h
  rw [← h, Iteration.vars_setVars_ne _ _ _ _ (by omega)]

theorem OUTER_TAIL_frame [Inhabited V] (it : TimeIteration V) (lvl : Nat) (ne : Real)
    (events : PriorityQueue V) (w : World S V) (r : PriorityQueue V × World S V)
    (h : OUTER_TAIL it lvl ne events w = .ok r) :
    ∀ j, j < lvl → r.2.vars j = w.vars j := by
  intro j hj
  unfold OUTER_TAIL at h
  simp only [] at h
  split at h
  · exact absurd h (by simp)
  · simp only [Except.ok.injEq] at h
    subst h
    simp [Iteration.vars_pushHistory_ne _ _ _ _ _ (show j ≠ lvl by omega), Iteration.clearHistory,
      Iteration.vars_setVars_ne _ _ _ _ (show j ≠ lvl by omega)]

theorem time_frame [Inhabited V] (epsilon : Real) (fuel : Nat) (root : IterationNode S M V)
    (solver : LinearSolver S M V) (it : TimeIteration V) (lvl : Nat)
    (child : Option (Runner S V))
    (hchild : ∀ run, child = some run → RunnerFrame (lvl + 1) run) :
    RunnerFrame lvl (iterateUntilDone epsilon fuel root solver it lvl child) := by
  intro x t i w r h j hj
  unfold iterateUntilDone at h
  split at h
  · exact absurd h (by simp)
  · rename_i w' hw'
    split at h
    · exact absurd h (by simp)
    · simp only [Except.ok.injEq] at h
      subst h
      obtain ⟨m, qs, ws, _, _, hw0, hwm, hall⟩ := outerLoop_trace epsilon root solver it lvl
        child fuel fuel _ i _ w' hw'
      have key : ∀ n, n ≤ m → (ws n).vars j = (ws 0).vars j := by
        intro n
        induction n with
        | zero => intro _; rfl
        | succ n ih =>
          intro hn
          obtain ⟨e, i', r1, r1', _, g2, g3, _, g5⟩ := hall n (by omega)
          rw [← g5, OUTER_TAIL_frame it lvl e.2.1 (qs n) r1.2 r1' g3 j hj,
            Iteration.stepLoop_frame root solver lvl it.nodes child hchild _ _
              (TIMESTEP_frame epsilon it lvl e.2.1) fuel i' _ r1 g2 j hj, ih (by omega)]
      show w'.vars j = w.vars j
      rw [← hwm, key m (le_refl _), hw0, Iteration.vars_opening_ne _ _ _ _ _ (by omega)]
      simp [SET_TIME, Iteration.vars_setVars_ne _ _ _ _ (show j ≠ lvl by omega)]

end TimeIteration

/-- A run of a chain started at level `lvl` leaves the variables of the levels
above `lvl` as they are. -/
theorem runChain_frame {S M V : Type} [Inhabited V] (epsilon : Real) (fuel : Nat)
    (root : IterationNode S M V) (solver : LinearSolver S M V) (chain : List (IterationKind V)) :
    ∀ (lvl : Nat) (run : Runner S V),
      runChain epsilon fuel root solver chain lvl = some run → RunnerFrame lvl run := by
  induction chain with
  | nil => intro lvl run h; simp [runChain] at h
  | cons k rest ih =>
    intro lvl run h
    cases k with
    | tolerance it =>
      simp only [runChain, Option.some.injEq] at h
      subst h
      exact ToleranceIteration.tolerance_frame fuel root solver it lvl _
        (fun run' h' => ih _ run' h')
    | time it =>
      simp only [runChain, Option.some.injEq] at h
      subst h
      exact TimeIteration.time_frame epsilon fuel root solver it lvl _
        (fun run' h' => ih _ run' h')

/-! ## The tolerance loop -/

namespace Iteration

variable {S M V : Type}

theorem incrementBack_append_singleton (l : List Nat) (n : Nat) :
    incrementBack (l ++ [n]) = l ++ [n + 1] := by
  induction l with
  | nil => rfl
  | cons a l ih =>
    cases l with
    | nil => rfl
    | cons b l =>
      simp only [List.cons_append] at ih ⊢
      rw [incrementBack, ih]

theorem vars_opening (lvl : Nat) (nodes : List Nat) (x : V) (w : World S V) :
    (opening lvl nodes x w).vars lvl = { w.vars lvl with
      history := (w.vars lvl).history.clear.push ((w.vars lvl).implicitTime, x)
      its := (w.vars lvl).its ++ [0] } := by
  simp [opening, vars_pushHistory, clearHistory]

end Iteration

/-- The counts of a tolerance run: along the chain of turns of its step loop,
the last entry of `its` counts the turns made. -/
theorem ToleranceIteration.its_count {S M V : Type} (root : IterationNode S M V)
    (solver : LinearSolver S M V) (lvl : Nat) (nodes : List Nat) (child : Option (Runner S V))
    (hchild : ∀ run, child = some run → RunnerFrame (lvl + 1) run)
    (its0 : List Nat) (k : Nat) (i : Bool) (ws : Nat → World S V)
    (h0 : ((ws 0).vars lvl).its = its0 ++ [0])
    (hturn : ∀ j, j < k → Iteration.turn root solver lvl nodes child (fun w => .ok w)
      (if j = 0 then i else true) (ws j) = .ok (ws (j + 1))) :
    ∀ n, n ≤ k → ((ws n).vars lvl).its = its0 ++ [n] := by
  intro n
  induction n with
  | zero => intro _; exact h0
  | succ n ih =>
    intro hn
    obtain ⟨w1, x, hw1, hv, _⟩ := Iteration.turn_vars root solver lvl nodes child hchild _ _ _ _
      (hturn n (by omega))
    simp only [Except.ok.injEq] at hw1
    subst hw1
    rw [hv]
    simp only []
    rw [ih (by omega), Iteration.incrementBack_append_singleton]

/-- C15, counterexample (scenario S5). A time iteration wraps a tolerance
iteration with tolerance `1/1000 > 0`; the root has `A = I` and `b` = previous
iterand. The run returns, the outer iteration counts 2 steps, and the inner
counts are `[1, 1]`: each inner run makes one step, not two. The tolerance
iteration run on its own also makes one step. -/
theorem C15_tolerance_at_least_twice_counterexample :
    0 < scalarTolerance.tolerance ∧
    S5nested.toOption.map (fun r => ((r.2.vars 0).its, (r.2.vars 1).its))
      = some ([2], [1, 1]) ∧
    toleranceAlone.toOption.map (fun r => (r.2.vars 0).its) = some [1] := by
  refine ⟨by norm_num [scalarTolerance], by decide!, by decide!⟩

/-- C15, amended (the tolerance loop executes at least once). Every run of
`ToleranceIteration::iterateUntilDone` that returns, with or without a child
(the rest of the chain), is a chain of `k ≥ 1` steps of its loop, and the entry
it appends to `iterations()` is `k`, so it is at least 1. -/
theorem C15_tolerance_at_least_once {S M V : Type} [Inhabited V] (epsilon : Real) (fuel : Nat)
    (root : IterationNode S M V) (solver : LinearSolver S M V) (it : ToleranceIteration V)
    (rest : List (IterationKind V)) (lvl : Nat) (x0 : V) (time : Real) (i : Bool)
    (w : World S V) (r : V × World S V)
    (h : ToleranceIteration.iterateUntilDone fuel root solver it lvl
      (runChain epsilon fuel root solver rest (lvl + 1)) x0 time i w = .ok r) :
    ∃ (k : Nat) (ws : Nat → World S V), 1 ≤ k ∧
      ws 0 = Iteration.opening lvl it.nodes x0
        (w.setVars lvl { w.vars lvl with implicitTime := time }) ∧
      ws k = r.2 ∧
      (∀ j, j < k → Iteration.turn root solver lvl it.nodes
        (runChain epsilon fuel root solver rest (lvl + 1)) (fun w => .ok w)
        (if j = 0 then i else true) (ws j) = .ok (ws (j + 1))) ∧
      (r.2.vars lvl).its = (w.vars lvl).its ++ [k] := by
  unfold ToleranceIteration.iterateUntilDone at h
  simp only [] at h
  split at h
  · exact absurd h (by simp)
  · rename_i r' hr'
    split at h
    · exact absurd h (by simp)
    · simp only [Except.ok.injEq] at h
      subst h
      obtain ⟨k, ws, hk1, _, h0, hk, hturn, _, _⟩ := Iteration.stepLoop_trace root solver lvl
        it.nodes _ _ _ fuel i _ r' hr'
      refine ⟨k, ws, hk1, h0, hk, hturn, ?_⟩
      have hits := ToleranceIteration.its_count root solver lvl it.nodes _
        (fun run hr => runChain_frame epsilon fuel root solver rest (lvl + 1) run hr)
        (w.vars lvl).its k i ws (by rw [h0, Iteration.vars_opening]; simp) hturn k (le_refl _)
      show (r'.2.vars lvl).its = _
      rw [← hk, hits]

/-- Witness of the amended C15: the tolerance iteration `scalarTolerance` run
on its own from a fresh world. -/
theorem C15_tolerance_at_least_once_witness :
    ∃ r, ToleranceIteration.iterateUntilDone 3 (carryRoot 0) identitySolver scalarTolerance 0
        (runChain (1 / 1000) 3 (carryRoot 0) identitySolver [] (0 + 1)) (3 : Real) (-1) false
        (World.fresh 2) = .ok r ∧
      ∃ (k : Nat) (ws : Nat → World Unit Real), 1 ≤ k ∧
        ws 0 = Iteration.opening 0 scalarTolerance.nodes (3 : Real)
          ((World.fresh 2 : World Unit Real).setVars 0
            { (World.fresh 2 : World Unit Real).vars 0 with implicitTime := -1 }) ∧
        ws k = r.2 ∧
        (∀ j, j < k → Iteration.turn (carryRoot 0) identitySolver 0 scalarTolerance.nodes
          (runChain (1 / 1000) 3 (carryRoot 0) identitySolver [] (0 + 1)) (fun w => .ok w)
          (if j = 0 then false else true) (ws j) = .ok (ws (j + 1))) ∧
        (r.2.vars 0).its = ((World.fresh 2 : World Unit Real).vars 0).its ++ [k] := by
  have hok : (ToleranceIteration.iterateUntilDone 3 (carryRoot 0) identitySolver scalarTolerance 0
      (runChain (1 / 1000) 3 (carryRoot 0) identitySolver [] (0 + 1)) (3 : Real) (-1) false
      (World.fresh 2)).toOption.isSome = true := by
    decide!
  cases hr : ToleranceIteration.iterateUntilDone 3 (carryRoot 0) identitySolver scalarTolerance 0
      (runChain (1 / 1000) 3 (carryRoot 0) identitySolver [] (0 + 1)) (3 : Real) (-1) false
      (World.fresh 2) with
  | error e => rw [hr] at hok; exact absurd hok (by simp [Except.toOption])
  | ok r =>
    exact ⟨r, rfl, C15_tolerance_at_least_once (1 / 1000) 3 (carryRoot 0) identitySolver
      scalarTolerance [] 0 3 (-1) false (World.fresh 2) r hr⟩

namespace CircularBuffer

variable {T : Type}

theorem tmod_of_decomposition (a n q m : Int) (hq0 : 0 ≤ q) (hqn : q < n) (ha : a = q + n * m)
    (ha0 : 0 ≤ a) : a.tmod n = q := by
  rw [Int.tmod_eq_emod ha0 (by omega), ha, Int.add_mul_emod_self_left, Int.emod_eq_of_lt hq0 hqn]

/-- After a `push`, index 1 reads what index 0 read before. -/
theorem get_one_push (c : CircularBuffer T) (h : c.WF) (e y : T)
    (hy : (c.push e).get 1 = some y) : c.get 0 = some y := by
  obtain ⟨h1, h2, h3, h4, h5⟩ := h
  have hn : (c.push e).n = c.n := rfl
  have hn2 : 1 < c.n := by
    unfold get at hy
    by_contra hcon
    rw [if_neg (by rw [hn]; omega)] at hy
    exact absurd hy (by simp)
  have htm : (c.tail + 1).tmod c.n = (c.tail + 1) % c.n :=
    Int.tmod_eq_emod (by omega) (by omega)
  obtain ⟨q, hq0, hqn, hqt, hq1, hp0, hp1⟩ : ∃ q : Int, 0 ≤ q ∧ q < c.n ∧ q ≠ c.tail ∧
      (c.tail = 0 ∨ q = c.tail - 1) ∧ c.position 0 = q ∧ (c.push e).position 1 = q := by
    by_cases ht : c.tail = 0
    · refine ⟨c.n - 1, by omega, by omega, by omega, Or.inl ht, ?_, ?_⟩
      · exact tmod_of_decomposition _ _ _ 0 (by omega) (by omega) (by rw [ht]; ring) (by omega)
      · simp only [position, push, htm]
        rw [ht, Int.emod_eq_of_lt (by omega) (by omega)]
        exact tmod_of_decomposition _ _ _ 0 (by omega) (by omega) (by ring) (by omega)
    · refine ⟨c.tail - 1, by omega, by omega, by omega, Or.inr rfl, ?_, ?_⟩
      · exact tmod_of_decomposition _ _ _ 1 (by omega) (by omega) (by ring) (by omega)
      · simp only [position, push, htm]
        by_cases hlt : c.tail + 1 < c.n
        · rw [Int.emod_eq_of_lt (by omega) hlt]
          exact tmod_of_decomposition _ _ _ 1 (by omega) (by omega) (by ring) (by omega)
        · have heq : c.tail + 1 = c.n := by omega
          rw [heq, Int.emod_self]
          exact tmod_of_decomposition _ _ _ 0 (by omega) (by omega) (by omega) (by omega)
  unfold get at hy ⊢
  rw [hp1, if_pos ⟨by omega, by rw [hn]; exact hn2⟩] at hy
  rw [hp0, if_pos ⟨le_refl _, h1⟩]
  by_cases hs : q < (c.push e).size
  · rw [if_pos hs, if_pos hq0] at hy
    have hs0 : q < c.size := by
      simp only [push] at hs
      rcases h5 with h5 | h5
      · omega
      · rw [if_pos (by omega)] at hs
        rcases hq1 with hq1 | hq1 <;> omega
    rw [if_pos hs0, if_pos hq0]
    simp only [push] at hy
    rw [List.getElem?_set_ne (by omega)] at hy
    exact hy
  · rw [if_neg hs] at hy
    exact absurd hy (by simp)

end CircularBuffer

theorem ToleranceIteration.NOT_DONE_ok {S V : Type} (it : ToleranceIteration V) (lvl : Nat)
    (w : World S V) (b : Bool) (h : ToleranceIteration.NOT_DONE it lvl w = .ok b) :
    ∃ a c, Iteration.iterand w lvl 0 = some a ∧ Iteration.iterand w lvl 1 = some c ∧
      b = Double.gt (it.relativeError a c it.scale) (Double.finite it.tolerance) := by
  unfold ToleranceIteration.NOT_DONE at h
  split at h
  · rename_i a c ha hc
    simp only [Except.ok.injEq] at h
    exact ⟨a, c, ha, hc, h.symm⟩
  · exact absurd h (by simp)

/-- Along the turns of a tolerance run the history stays well formed and each
turn is one push at the time of the run. -/
theorem ToleranceIteration.history_chain {S M V : Type} (root : IterationNode S M V)
    (solver : LinearSolver S M V) (lvl : Nat) (nodes : List Nat) (child : Option (Runner S V))
    (hchild : ∀ run, child = some run → RunnerFrame (lvl + 1) run)
    (k : Nat) (i : Bool) (ws : Nat → World S V)
    (h0 : ((ws 0).vars lvl).history.WF)
    (hturn : ∀ j, j < k → Iteration.turn root solver lvl nodes child (fun w => .ok w)
      (if j = 0 then i else true) (ws j) = .ok (ws (j + 1))) :
    (∀ n, n ≤ k → ((ws n).vars lvl).history.WF) ∧
    (∀ n, n < k → ∃ x, ((ws (n + 1)).vars lvl).history
      = ((ws n).vars lvl).history.push (((ws n).vars lvl).implicitTime, x)) := by
  have hpush : ∀ n, n < k → ∃ x, ((ws (n + 1)).vars lvl).history
      = ((ws n).vars lvl).history.push (((ws n).vars lvl).implicitTime, x) := by
    intro n hn
    obtain ⟨w1, x, hw1, hv, _⟩ := Iteration.turn_vars root solver lvl nodes child hchild _ _ _ _
      (hturn n hn)
    simp only [Except.ok.injEq] at hw1
    subst hw1
    exact ⟨x, by rw [hv]⟩
  refine ⟨?_, hpush⟩
  intro n
  induction n with
  | zero => intro _; exact h0
  | succ n ih =>
    intro hn
    obtain ⟨x, hx⟩ := hpush n (by omega)
    rw [hx]
    exact CircularBuffer.WF_push _ (ih (by omega)) _

/-- C16, counterexample. The tolerance iteration `doubleTolerance` (tolerance
and scale 1/1000) runs on its own on the root `reciprocalRoot 0`
(`b = 1 / iterand(0)`) from the initial iterand 0. The first step produces
`x_1 = 1 / 0 = inf`; `relativeError(x_1, x_0, scale)` is `inf / inf`, a NaN, and
`NaN > tolerance` is false, so the run returns after `k = 1` step with the
vector `inf` and the count 1, while `relativeError(x_1, x_0, scale) <=
tolerance` is false. -/
theorem C16_tolerance_stopping_rule_counterexample :
    ∃ r, ToleranceIteration.iterateUntilDone 3 (reciprocalRoot 0) doubleIdentitySolver
        doubleTolerance 0 (runChain (1 / 1000) 3 (reciprocalRoot 0) doubleIdentitySolver [] (0 + 1))
        (Double.finite 0) (-1) false (World.fresh 2) = .ok r ∧
      r.1 = Double.infinity false ∧ (r.2.vars 0).its = [1] ∧
      Iteration.iterand r.2 0 0 = some (Double.infinity false) ∧
      Iteration.iterand r.2 0 1 = some (Double.finite 0) ∧
      doubleTolerance.relativeError (Double.infinity false) (Double.finite 0)
        doubleTolerance.scale = Double.nan ∧
      Double.le (doubleTolerance.relativeError (Double.infinity false) (Double.finite 0)
        doubleTolerance.scale) (Double.finite doubleTolerance.tolerance) = false := by
  have hval : (ToleranceIteration.iterateUntilDone 3 (reciprocalRoot 0) doubleIdentitySolver
      doubleTolerance 0 (runChain (1 / 1000) 3 (reciprocalRoot 0) doubleIdentitySolver [] (0 + 1))
      (Double.finite 0) (-1) false (World.fresh 2)).toOption.map
        (fun r => (r.1, (r.2.vars 0).its, Iteration.iterand r.2 0 0, Iteration.iterand r.2 0 1))
      = some (Double.infinity false, [1], some (Double.infinity false),
          some (Double.finite 0)) := by
    decide!
  cases hr : ToleranceIteration.iterateUntilDone 3 (reciprocalRoot 0) doubleIdentitySolver
      doubleTolerance 0 (runChain (1 / 1000) 3 (reciprocalRoot 0) doubleIdentitySolver [] (0 + 1))
      (Double.finite 0) (-1) false (World.fresh 2) with
  | error e => rw [hr] at hval; exact absurd hval (by simp [Except.toOption])
  | ok r =>
    rw [hr] at hval
    simp only [Except.toOption, Option.map_some', Option.some.injEq, Prod.mk.injEq] at hval
    exact ⟨r, rfl, hval.1, hval.2.1, hval.2.2.1, hval.2.2.2, by decide!, by decide!⟩

/-- C16 (tolerance stopping rule), amended. Let
`ToleranceIteration::iterateUntilDone` return from the initial iterand `x_0`,
on a history allocated by the constructor, with or without a child (the rest of
the chain). Then the run is a chain of `k ≥ 1` steps of its loop; step `j + 1`
pushes `x_(j+1)` into the history at the time of the run, so after `j` steps
`iterand(0)` is `x_j`; the comparison of `double`s
`relativeError(x_j, x_(j-1), scale) > tolerance` is true for every `1 ≤ j < k`
and false for `j = k`, that is `relativeError(x_k, x_(k-1), scale)` is a NaN or
`<= tolerance` (so `≤ tolerance` whenever it is a finite number); the returned
vector is `x_k` and the count appended to `iterations()` is `k`. -/
theorem C16_tolerance_stopping_rule {S M V : Type} [Inhabited V] (epsilon : Real) (fuel : Nat)
    (root : IterationNode S M V) (solver : LinearSolver S M V) (it : ToleranceIteration V)
    (rest : List (IterationKind V)) (lvl : Nat) (x0 : V) (time : Real) (i : Bool)
    (w : World S V) (r : V × World S V)
    (hn : 0 < (w.vars lvl).history.n)
    (hlen : (w.vars lvl).history.data.length = (w.vars lvl).history.n.toNat)
    (h : ToleranceIteration.iterateUntilDone fuel root solver it lvl
      (runChain epsilon fuel root solver rest (lvl + 1)) x0 time i w = .ok r) :
    ∃ (k : Nat) (xs : Nat → V) (ws : Nat → World S V), 1 ≤ k ∧ xs 0 = x0 ∧
      ws 0 = Iteration.opening lvl it.nodes x0
        (w.setVars lvl { w.vars lvl with implicitTime := time }) ∧
      ws k = r.2 ∧
      (∀ j, j < k → Iteration.turn root solver lvl it.nodes
        (runChain epsilon fuel root solver rest (lvl + 1)) (fun w => .ok w)
        (if j = 0 then i else true) (ws j) = .ok (ws (j + 1))) ∧
      (∀ j, j < k → ((ws (j + 1)).vars lvl).history
        = ((ws j).vars lvl).history.push (time, xs (j + 1))) ∧
      (∀ j, j ≤ k → Iteration.iterand (ws j) lvl 0 = some (xs j)) ∧
      (∀ j, 1 ≤ j → j < k → Double.gt (it.relativeError (xs j) (xs (j - 1)) it.scale)
        (Double.finite it.tolerance) = true) ∧
      Double.gt (it.relativeError (xs k) (xs (k - 1)) it.scale)
        (Double.finite it.tolerance) = false ∧
      (it.relativeError (xs k) (xs (k - 1)) it.scale = Double.nan ∨
        Double.le (it.relativeError (xs k) (xs (k - 1)) it.scale)
          (Double.finite it.tolerance) = true) ∧
      (∀ e, it.relativeError (xs k) (xs (k - 1)) it.scale = Double.finite e →
        e ≤ it.tolerance) ∧
      r.1 = xs k ∧
      (r.2.vars lvl).its = (w.vars lvl).its ++ [k] := by
  unfold ToleranceIteration.iterateUntilDone at h
  simp only [] at h
  split at h
  · exact absurd h (by simp)
  · rename_i r' hr'
    split at h
    · exact absurd h (by simp)
    · rename_i x hx
      simp only [Except.ok.injEq] at h
      subst h
      obtain ⟨k, ws, hk1, _, h0, hk, hturn, hmore, hdone⟩ := Iteration.stepLoop_trace root solver
        lvl it.nodes _ _ _ fuel i _ r' hr'
      have hframe : ∀ run, runChain epsilon fuel root solver rest (lvl + 1) = some run →
          RunnerFrame (lvl + 1) run :=
        fun run hr => runChain_frame epsilon fuel root solver rest (lvl + 1) run hr
      have hready := TimeIteration.opening_ready lvl it.nodes x0
        (w.setVars lvl { w.vars lvl with implicitTime := time })
        (by simpa using hn) (by simpa using hlen)
      have hopen : ((ws 0).vars lvl).history
          = (w.vars lvl).history.clear.push (time, x0) := by
        rw [h0, Iteration.vars_opening]
        simp
      have hwf0 : ((ws 0).vars lvl).history.WF := by
        rw [h0]; exact hready.1.1
      obtain ⟨hwf, hpush⟩ := ToleranceIteration.history_chain root solver lvl it.nodes _ hframe
        k i ws hwf0 hturn
      have htime : ∀ n, n ≤ k → ((ws n).vars lvl).implicitTime = time := by
        intro n
        induction n with
        | zero =>
          intro _
          rw [h0, hready.2]
          simp
        | succ n ih =>
          intro hn1
          obtain ⟨w1, x, hw1, hv, _⟩ := Iteration.turn_vars root solver lvl it.nodes _ hframe
            _ _ _ _ (hturn n (by omega))
          simp only [Except.ok.injEq] at hw1
          subst hw1
          rw [hv]
          exact ih (by omega)
      have hits := ToleranceIteration.its_count root solver lvl it.nodes _ hframe
        (w.vars lvl).its k i ws (by rw [h0, Iteration.vars_opening]; simp) hturn k (le_refl _)
      have hcur : ∀ j, j ≤ k → ∃ y, Iteration.iterand (ws j) lvl 0 = some y := by
        intro j hj
        cases j with
        | zero =>
          refine ⟨x0, ?_⟩
          simp only [Iteration.iterand]
          rw [hopen, CircularBuffer.get_zero_push _
            (CircularBuffer.WF_clear _ hn hlen)]
          rfl
        | succ m =>
          obtain ⟨y, hy⟩ := hpush m (by omega)
          refine ⟨y, ?_⟩
          simp only [Iteration.iterand]
          rw [hy, CircularBuffer.get_zero_push _ (hwf m (by omega))]
          rfl
      have hxs : ∀ j, j ≤ k →
          Iteration.iterand (ws j) lvl 0 = some ((Iteration.iterand (ws j) lvl 0).getD x0) := by
        intro j hj
        obtain ⟨y, hy⟩ := hcur j hj
        rw [hy]
        rfl
      have hprev : ∀ m c, m < k → Iteration.iterand (ws (m + 1)) lvl 1 = some c →
          c = (Iteration.iterand (ws m) lvl 0).getD x0 := by
        intro m c hm hc
        obtain ⟨y, hy⟩ := hpush m hm
        simp only [Iteration.iterand] at hc
        rw [hy] at hc
        cases hg : (((ws m).vars lvl).history.push (((ws m).vars lvl).implicitTime, y)).get 1 with
        | none => rw [hg] at hc; exact absurd hc (by simp)
        | some e =>
          rw [hg] at hc
          simp only [Option.map, Option.some.injEq] at hc
          have h1 := CircularBuffer.get_one_push _ (hwf m (by omega)) _ _ hg
          simp only [Iteration.iterand, h1, Option.map, Option.getD_some]
          exact hc.symm
      have hlast : Double.gt (it.relativeError ((Iteration.iterand (ws k) lvl 0).getD x0)
          ((Iteration.iterand (ws (k - 1)) lvl 0).getD x0) it.scale)
          (Double.finite it.tolerance) = false := by
        obtain ⟨a, c, ha, hc, hb⟩ := ToleranceIteration.NOT_DONE_ok it lvl _ _ hdone
        obtain ⟨m, rfl⟩ : ∃ m, k = m + 1 := ⟨k - 1, by omega⟩
        have hc2 := hprev m c (by omega) hc
        simp only [ha, Option.getD_some, Nat.add_sub_cancel]
        rw [← hc2]
        exact hb.symm
      refine ⟨k, fun j => (Iteration.iterand (ws j) lvl 0).getD x0, ws, hk1, ?_, h0, hk, hturn,
        ?_, hxs, ?_, hlast, (Double.gt_finite_false _ _).mp hlast, ?_, ?_, ?_⟩
      · obtain ⟨y, hy⟩ := hcur 0 (by omega)
        simp only [Iteration.iterand] at hy ⊢
        rw [hopen, CircularBuffer.get_zero_push _ (CircularBuffer.WF_clear _ hn hlen)]
        rfl
      · intro j hj
        obtain ⟨y, hy⟩ := hpush j hj
        rw [hy, htime j (by omega)]
        simp only [Iteration.iterand]
        rw [hy, CircularBuffer.get_zero_push _ (hwf j (by omega))]
        rfl
      · intro j hj1 hjk
        obtain ⟨a, c, ha, hc, hb⟩ := ToleranceIteration.NOT_DONE_ok it lvl _ _ (hmore j hj1 hjk)
        obtain ⟨m, rfl⟩ : ∃ m, j = m + 1 := ⟨j - 1, by omega⟩
        have hc2 := hprev m c (by omega) hc
        simp only [ha, Option.getD_some, Nat.add_sub_cancel]
        rw [← hc2]
        exact hb.symm
      · intro e he
        have h2 := hlast
        simp only [] at he
        rw [he] at h2
        simpa [Double.gt, Double.lt] using h2
      · show x = (Iteration.iterand (ws k) lvl 0).getD x0
        rw [hk, hx]
        rfl
      · show (r'.2.vars lvl).its = _
        rw [← hk, hits]

/-- Witness of C16: `scalarTolerance` run on its own on the root `clampRoot 0`
(`b` = `min(iterand(0), 1)`) from the initial iterand 3; the run makes two
steps (3, 1, 1) and returns 1. -/
theorem C16_tolerance_stopping_rule_witness :
    ∃ r, ToleranceIteration.iterateUntilDone 3 (clampRoot 0) identitySolver scalarTolerance 0
        (runChain (1 / 1000) 3 (clampRoot 0) identitySolver [] (0 + 1)) (3 : Real) (-1) false
        (World.fresh 2) = .ok r ∧ (r.1, (r.2.vars 0).its) = (1, [2]) ∧
      ∃ (k : Nat) (xs : Nat → Real) (ws : Nat → World Unit Real), 1 ≤ k ∧ xs 0 = 3 ∧
        ws 0 = Iteration.opening 0 scalarTolerance.nodes (3 : Real)
          ((World.fresh 2 : World Unit Real).setVars 0
            { (World.fresh 2 : World Unit Real).vars 0 with implicitTime := -1 }) ∧
        ws k = r.2 ∧
        (∀ j, j < k → Iteration.turn (clampRoot 0) identitySolver 0 scalarTolerance.nodes
          (runChain (1 / 1000) 3 (clampRoot 0) identitySolver [] (0 + 1)) (fun w => .ok w)
          (if j = 0 then false else true) (ws j) = .ok (ws (j + 1))) ∧
        (∀ j, j < k → ((ws (j + 1)).vars 0).history
          = ((ws j).vars 0).history.push (-1, xs (j + 1))) ∧
        (∀ j, j ≤ k → Iteration.iterand (ws j) 0 0 = some (xs j)) ∧
        (∀ j, 1 ≤ j → j < k → Double.gt (scalarTolerance.relativeError (xs j) (xs (j - 1))
          scalarTolerance.scale) (Double.finite scalarTolerance.tolerance) = true) ∧
        Double.gt (scalarTolerance.relativeError (xs k) (xs (k - 1)) scalarTolerance.scale)
          (Double.finite scalarTolerance.tolerance) = false ∧
        (scalarTolerance.relativeError (xs k) (xs (k - 1)) scalarTolerance.scale = Double.nan ∨
          Double.le (scalarTolerance.relativeError (xs k) (xs (k - 1)) scalarTolerance.scale)
            (Double.finite scalarTolerance.tolerance) = true) ∧
        (∀ e, scalarTolerance.relativeError (xs k) (xs (k - 1)) scalarTolerance.scale
          = Double.finite e → e ≤ scalarTolerance.tolerance) ∧
        r.1 = xs k ∧
        (r.2.vars 0).its = ((World.fresh 2 : World Unit Real).vars 0).its ++ [k] := by
  have hval : (ToleranceIteration.iterateUntilDone 3 (clampRoot 0) identitySolver scalarTolerance 0
      (runChain (1 / 1000) 3 (clampRoot 0) identitySolver [] (0 + 1)) (3 : Real) (-1) false
      (World.fresh 2)).toOption.map (fun r => (r.1, (r.2.vars 0).its)) = some (1, [2]) := by
    decide!
  cases hr : ToleranceIteration.iterateUntilDone 3 (clampRoot 0) identitySolver scalarTolerance 0
      (runChain (1 / 1000) 3 (clampRoot 0) identitySolver [] (0 + 1)) (3 : Real) (-1) false
      (World.fresh 2) with
  | error e => rw [hr] at hval; exact absurd hval (by simp [Except.toOption])
  | ok r =>
    rw [hr] at hval
    refine ⟨r, rfl, by simpa [Except.toOption] using hval, ?_⟩
    exact C16_tolerance_stopping_rule (1 / 1000) 3 (clampRoot 0) identitySolver
      scalarTolerance [] 0 3 (-1) false (World.fresh 2) r (by decide) (by decide) hr

/-! ## Reads beyond the stored entries -/

namespace CircularBuffer

variable {T : Type}

theorem tmod_nonpos (a b : Int) (ha : a ≤ 0) : a.tmod b ≤ 0 := by
  have h : a.tmod b = -((-a).tmod b) := by
    rw [Int.tmod_def, Int.tmod_def, Int.neg_tdiv]; ring
  rw [h]
  have := Int.tmod_nonneg b (show (0 : Int) ≤ -a by omega)
  omega

/-- The assertion `position < size` of `operator[]` on a machine with 32-bit
`int`, for a cleared buffer of any capacity `m ≤ INT_MAX` after the pushes
`es`: it holds exactly for the indices below the stored count. -/
theorem position32_lt_size (m : Nat) (hm : 0 < m) (hint : m ≤ 2147483647) (c : CircularBuffer T)
    (hn : c.n = (m : Int)) (hlen : c.data.length = m) (es : List T)
    (index : Int) (h0 : 0 ≤ index) (h1 : index < (m : Int)) :
    (c.clear.pushAll es).position32 index < (c.clear.pushAll es).size
      ↔ index < ((min es.length m : Nat) : Int) := by
  obtain ⟨e1, _, e3, e4, _⟩ := pushAll_inv m hm c hn hlen es
  have hmodlt : es.length % m < m := Nat.mod_lt _ hm
  simp only [position32]
  rw [e1, e3, e4]
  have ha : int32 (((es.length % m : Nat) : Int) - 1) = ((es.length % m : Nat) : Int) - 1 :=
    int32_of_fits _ (by omega) (by omega)
  rw [ha]
  rcases Nat.lt_or_ge es.length m with hlt | hge
  · have hmod : es.length % m = es.length := Nat.mod_eq_of_lt hlt
    have hmin : min es.length m = es.length := Nat.min_eq_left (le_of_lt hlt)
    rw [hmod, hmin]
    -- the mathematical value of `tail - 1 + n - index`
    by_cases hbig : (2147483648 : Int) ≤ (es.length : Int) - 1 + (m : Int) - index
    · -- the sum wraps once and stays negative
      have hd : int32 (int32 ((es.length : Int) - 1 + (m : Int)) - index)
          = (es.length : Int) - 1 + (m : Int) - index - 4294967296 := by
        unfold int32; omega
      rw [hd]
      have hneg : ((es.length : Int) - 1 + (m : Int) - index - 4294967296).tmod (m : Int) ≤ 0 := by
        exact tmod_nonpos _ _ (by omega)
      constructor
      · intro _; omega
      · intro _; omega
    · have hd : int32 (int32 ((es.length : Int) - 1 + (m : Int)) - index)
          = (es.length : Int) - 1 + (m : Int) - index := by
        unfold int32; omega
      rw [hd]
      by_cases hi : index < (es.length : Int)
      · have := tmod_of_decomposition
          ((es.length : Int) - 1 + (m : Int) - index) (m : Int)
          ((es.length : Int) - 1 - index) 1 (by omega) (by omega) (by ring) (by omega)
        rw [this]
        constructor
        · intro _; exact hi
        · intro _; omega
      · have := tmod_of_decomposition
          ((es.length : Int) - 1 + (m : Int) - index) (m : Int)
          ((es.length : Int) - 1 + (m : Int) - index) 0 (by omega) (by omega) (by ring) (by omega)
        rw [this]
        constructor
        · intro h; omega
        · intro h; exact absurd h hi
  · have hmin : min es.length m = m := Nat.min_eq_right hge
    rw [hmin]
    constructor
    · intro _; exact h1
    · intro _
      exact Int.tmod_lt_of_pos _ (by omega)

end CircularBuffer

/-- C21 (reads past the stored depth are asserted against). For a buffer of
capacity `n` (an `int`, so `1 ≤ n ≤ INT_MAX`) after a `clear` and the pushes
`es`, so holding `c = min(es.length, n)` entries, and every index with
`0 ≤ index < n`: on a machine with 32-bit `int` the assertion
`position < size` of `operator[]` holds if and only if `index < c`, also when
`tail - 1 + n - index` wraps; hence a read at `index ≥ c` trips the assertion,
and no read at `index < c` does. When `2 n - 1` fits in an `int` the read at
`index < c` returns the entry. -/
theorem C21_read_past_depth {T : Type} (n : Nat) (hn : 1 ≤ n) (hint : n ≤ 2147483647)
    (c : CircularBuffer T) (hc : c.n = (n : Int)) (hlen : c.data.length = n) (es : List T)
    (index : Int) (h0 : 0 ≤ index) (h1 : index < (n : Int)) :
    ((c.clear.pushAll es).position32 index < (c.clear.pushAll es).size
      ↔ index < ((min es.length n : Nat) : Int)) ∧
    (((min es.length n : Nat) : Int) ≤ index → (c.clear.pushAll es).get32 index = none) ∧
    (index < ((min es.length n : Nat) : Int) → n ≤ 1073741824 →
      (c.clear.pushAll es).get32 index = es[es.length - 1 - index.toNat]? ∧
      ((c.clear.pushAll es).get32 index).isSome = true) := by
  obtain ⟨e1, _, _, _, _⟩ := CircularBuffer.pushAll_inv n hn c hc hlen es
  have key := CircularBuffer.position32_lt_size n hn hint c hc hlen es index h0 h1
  refine ⟨key, ?_, ?_⟩
  · intro hi
    unfold CircularBuffer.get32
    rw [if_pos ⟨h0, by rw [e1]; exact h1⟩, if_neg]
    rw [key]
    omega
  · intro hi hfit
    have hk : index.toNat < min es.length n := by omega
    have hget := CircularBuffer.get32_pushAll n hn hfit c hc hlen es index.toNat hk
    rw [Int.toNat_of_nonneg h0] at hget
    refine ⟨hget, ?_⟩
    rw [hget]
    have : es.length - 1 - index.toNat < es.length := by omega
    simp [List.getElem?_eq_getElem this]

/-- Witness of C21: capacity 3, pushes 10 and 20; index 1 is within the stored
entries and index 2 is beyond them. -/
theorem C21_read_past_depth_witness :
    (((CircularBuffer.new (3 : Nat) : CircularBuffer Nat).clear.pushAll [10, 20]).position32 1
      < ((CircularBuffer.new (3 : Nat) : CircularBuffer Nat).clear.pushAll [10, 20]).size
      ↔ (1 : Int) < ((min [10, 20].length 3 : Nat) : Int)) ∧
    (((CircularBuffer.new (3 : Nat) : CircularBuffer Nat).clear.pushAll [10, 20]).position32 2
      < ((CircularBuffer.new (3 : Nat) : CircularBuffer Nat).clear.pushAll [10, 20]).size
      ↔ (2 : Int) < ((min [10, 20].length 3 : Nat) : Int)) :=
  ⟨(C21_read_past_depth 3 (by decide) (by decide) (CircularBuffer.new (3 : Nat)) rfl rfl
      [10, 20] 1 (by decide) (by decide)).1,
   (C21_read_past_depth 3 (by decide) (by decide) (CircularBuffer.new (3 : Nat)) rfl rfl
      [10, 20] 2 (by decide) (by decide)).1⟩

/-! ## Event threading at a boundary -/

namespace CircularBuffer

variable {T : Type}

/-- After `clear` and one `push` every index other than 0 is beyond the stored
entries. -/
theorem get_clear_push_ne_zero (c : CircularBuffer T) (hn : 0 < c.n) (e : T) (index : Int)
    (hi : index ≠ 0) : (c.clear.push e).get index = none := by
  unfold get
  by_cases hr : 0 ≤ index ∧ index < (c.clear.push e).n
  · rw [if_pos hr, if_neg]
    have hn' : (c.clear.push e).n = c.n := rfl
    rw [hn'] at hr
    have hsize : (c.clear.push e).size = 1 := by
      simp only [push, clear]
      rw [if_pos hn]; rfl
    have htail : (c.clear.push e).tail = 1 := by
      simp only [push, clear]
      exact tmod_of_decomposition _ _ 1 0 (by omega) (by omega) (by ring) (by omega)
    have hpos : (c.clear.push e).position index = c.n - index := by
      simp only [position]
      rw [htail, hn']
      exact tmod_of_decomposition _ _ (c.n - index) 0 (by omega) (by omega) (by ring) (by omega)
    rw [hpos, hsize]
    omega
  · rw [if_neg hr]

end CircularBuffer

/-- A queue with `top()` first whose entries are all at or after `t` in march
order starts with its entries of time `t`. -/
theorem TimeIteration.filter_time_prefix {V : Type} (Forward : Bool) (t : Real)
    (q : PriorityQueue V) (hq : q.Pairwise (fun a b => TimeOrder Forward a b = false))
    (hmin : ∀ a ∈ q, a.2.1 = t ∨ Order Forward a.2.1 t = true) :
    q = q.filter (fun a => decide (a.2.1 = t)) ++ q.filter (fun a => decide (a.2.1 ≠ t)) := by
  induction q with
  | nil => simp
  | cons e q ih =>
    rw [List.pairwise_cons] at hq
    by_cases het : e.2.1 = t
    · have ih' := ih hq.2 (fun a ha => hmin a (List.mem_cons_of_mem _ ha))
      simp only [List.filter_cons, het, decide_True, if_true, ne_eq, not_true_eq_false,
        decide_False, Bool.false_eq_true, if_false, List.cons_append]
      congr 1
    · have he : Order Forward e.2.1 t = true := by
        rcases hmin e (List.mem_cons_self _ _) with h | h
        · exact absurd h het
        · exact h
      have hall : ∀ a ∈ e :: q, a.2.1 ≠ t := by
        intro a ha hat
        rcases List.mem_cons.mp ha with rfl | ha'
        · exact het hat
        · have := TimeIteration.time_ne_of_behind Forward t e a he (hq.1 a ha')
          rw [hat, TimeIteration.order_irrefl] at this
          exact absurd this (by simp)
      have hf1 : (e :: q).filter (fun a => decide (a.2.1 = t)) = [] := by
        rw [List.filter_eq_nil_iff]
        intro a ha
        simpa using hall a ha
      have hf2 : (e :: q).filter (fun a => decide (a.2.1 ≠ t)) = e :: q := by
        rw [List.filter_eq_self]
        intro a ha
        simpa using hall a ha
      rw [hf1, hf2]
      rfl

/-- C23 (event threading). At an event boundary of a `TimeIteration` with
working queue `events` (`top()` first, as `std::priority_queue` keeps it),
`tau` the time of its top, an allocated history and `x = iterand(0)` before
the boundary: `OUTER_TAIL` returns; the events of time `tau` are the first
`m ≥ 1` entries `e_1, ..., e_m` of the queue and exactly they are removed from
it; `implicitTime` is `tau`; and the history is the cleared buffer with the one
push `(tau, e_m(... e_2(e_1(x)) ...))`: it holds one entry, index 0 reads it and
every other index is beyond the stored entries. -/
theorem C23_event_threading {S V : Type} [Inhabited V] (it : TimeIteration V) (lvl : Nat)
    (events : PriorityQueue V) (e : T V) (w : World S V) (x : V)
    (hq : events.Pairwise (fun a b => TimeOrder it.Forward a b = false))
    (htop : events.top = some e)
    (hn : 0 < (w.vars lvl).history.n)
    (hlen : (w.vars lvl).history.data.length = (w.vars lvl).history.n.toNat)
    (hx : Iteration.iterand w lvl 0 = some x) :
    ∃ r, TimeIteration.OUTER_TAIL it lvl e.2.1 events w = .ok r ∧
      events.filter (fun a => decide (a.2.1 = e.2.1)) ≠ [] ∧
      events = events.filter (fun a => decide (a.2.1 = e.2.1)) ++ r.1 ∧
      r.1 = events.filter (fun a => decide (a.2.1 ≠ e.2.1)) ∧
      (r.2.vars lvl).implicitTime = e.2.1 ∧
      (r.2.vars lvl).history = (w.vars lvl).history.clear.push
        (e.2.1, (events.filter (fun a => decide (a.2.1 = e.2.1))).foldl (fun v a => a.2.2 v) x) ∧
      (r.2.vars lvl).history.size = 1 ∧
      (r.2.vars lvl).history.get 0 = some
        (e.2.1, (events.filter (fun a => decide (a.2.1 = e.2.1))).foldl (fun v a => a.2.2 v) x) ∧
      ∀ index : Int, index ≠ 0 → (r.2.vars lvl).history.get index = none := by
  obtain ⟨q, hq'⟩ : ∃ q, events = e :: q := by
    cases hd : events with
    | nil => rw [hd] at htop; simp [PriorityQueue.top] at htop
    | cons a q =>
      rw [hd] at htop
      simp only [PriorityQueue.top, List.head?_cons, Option.some.injEq] at htop
      exact ⟨q, by rw [htop]⟩
  have hmin : ∀ a ∈ events, a.2.1 = e.2.1 ∨ Order it.Forward a.2.1 e.2.1 = true := by
    intro a ha
    rw [hq'] at ha hq
    rcases List.mem_cons.mp ha with rfl | ha'
    · exact Or.inl rfl
    · exact TimeIteration.atOrAfter_of_behind it.Forward e a ((List.pairwise_cons.mp hq).1 a ha')
  obtain ⟨_, r2, r3⟩ := TimeIteration.applyEvents_spec it.Forward e.2.1 events x default hq hmin
  have hne : events.filter (fun a => decide (a.2.1 = e.2.1)) ≠ [] := by
    rw [hq']; simp
  have hne' : (events.filter (fun a => decide (a.2.1 = e.2.1))).isEmpty = false := by
    cases hf : events.filter (fun a => decide (a.2.1 = e.2.1)) with
    | nil => exact absurd hf hne
    | cons a l => rfl
  rw [hne'] at r3
  simp only [Bool.false_eq_true, if_false] at r3
  have hx1 : Iteration.iterand (w.setVars lvl { w.vars lvl with implicitTime := e.2.1 }) lvl 0
      = some x := by
    simpa [Iteration.iterand] using hx
  have hhist : ∀ r : PriorityQueue V × World S V,
      TimeIteration.OUTER_TAIL it lvl e.2.1 events w = .ok r →
      (r.2.vars lvl).history = (w.vars lvl).history.clear.push
        (e.2.1, (events.filter (fun a => decide (a.2.1 = e.2.1))).foldl (fun v a => a.2.2 v) x) ∧
      (r.2.vars lvl).implicitTime = e.2.1 ∧
      r.1 = events.filter (fun a => decide (a.2.1 ≠ e.2.1)) := by
    intro r hr
    unfold TimeIteration.OUTER_TAIL at hr
    simp only [hx1, Except.ok.injEq] at hr
    subst hr
    refine ⟨?_, ?_, r2⟩
    · simp only [Iteration.vars_pushHistory, Iteration.clearHistory, Iteration.vars_setVars,
        Iteration.vars_afterEvent, Iteration.vars_record, r3]
    · simp [Iteration.vars_pushHistory, Iteration.clearHistory]
  have hret : ∃ r, TimeIteration.OUTER_TAIL it lvl e.2.1 events w = .ok r := by
    unfold TimeIteration.OUTER_TAIL
    simp only [hx1]
    exact ⟨_, rfl⟩
  obtain ⟨r, hr⟩ := hret
  obtain ⟨h1, h2, h3⟩ := hhist r hr
  refine ⟨r, hr, hne, ?_, h3, h2, h1, ?_, ?_, ?_⟩
  · rw [h3]
    exact TimeIteration.filter_time_prefix it.Forward e.2.1 events hq hmin
  · rw [h1]
    simp only [CircularBuffer.push, CircularBuffer.clear]
    rw [if_pos hn]; rfl
  · rw [h1]
    exact CircularBuffer.get_zero_push _ (CircularBuffer.WF_clear _ hn hlen) _
  · intro index hi
    rw [h1]
    exact CircularBuffer.get_clear_push_ne_zero _ hn _ index hi

/-- Witness of C23: the first boundary of scenario S4 marched forward, from the
history holding `(0, 3)`: the two events of time 1/2 are applied, the sentinel
stays, and the history holds `(1/2, (3 + 1) * 2)`. -/
theorem C23_event_threading_witness :
    ∃ r, TimeIteration.OUTER_TAIL (S4iteration true) 0
        ((0 : Nat), (1 / 2 : Real), fun v : Real => v + 1).2.1
        (TimeIteration.OUTER_HEAD (S4iteration true))
        (Iteration.opening 0 [] (3 : Real) (World.fresh 1)) = .ok r ∧
      r.1.map (fun a => a.1) = [unsignedMax] ∧
      (r.2.vars 0).history.get 0 = some (1 / 2, 8) := by
  obtain ⟨r, h1, _, _, h4, _, _, _, h8, _⟩ := C23_event_threading (S4iteration true) 0
    (TimeIteration.OUTER_HEAD (S4iteration true)) (0, 1 / 2, fun v => v + 1)
    (Iteration.opening 0 [] (3 : Real) (World.fresh 1)) 3
    (by
      rw [S4_OUTER_HEAD_forward]
      simp [S4iteration, S4new, TimeOrder, Order, unsignedMax]
      norm_num)
    (by rw [S4_OUTER_HEAD_forward]; rfl)
    (by decide) (by decide)
    (by
      simp only [Iteration.iterand]
      rw [Iteration.vars_opening]
      simp only []
      rw [CircularBuffer.get_zero_push _ (CircularBuffer.WF_clear _ (by decide) (by decide))]
      rfl)
  refine ⟨r, h1, ?_, ?_⟩
  · rw [h4, S4_OUTER_HEAD_forward]
    simp
  · rw [h8, S4_OUTER_HEAD_forward]
    simp
    norm_num

/-! ## The history and `implicitTime` -/

namespace Iteration

variable {S M V : Type}

/-- The step that produces the iterand pushes the solution produced, at the
current `implicitTime`, into the history of its level. -/
theorem produce_pushed (root : IterationNode S M V) (solver : LinearSolver S M V) (lvl : Nat)
    (child : Option (Runner S V)) (hchild : ∀ run, child = some run → RunnerFrame (lvl + 1) run)
    (i : Bool) (w w2 : World S V) (h : produce root solver lvl child i w = .ok w2) :
    ∃ x, Produced root solver lvl child i w x ∧
      w2.vars lvl = { w.vars lvl with
        history := (w.vars lvl).history.push ((w.vars lvl).implicitTime, x) } := by
  unfold produce at h
  cases child with
  | some run =>
    simp only [] at h
    split at h
    · exact absurd h (by simp)
    · rename_i x0 hx0
      split at h
      · exact absurd h (by simp)
      · rename_i r hr
        simp only [Except.ok.injEq] at h
        subst h
        have hf := hchild run rfl _ _ _ _ _ hr
        refine ⟨r.1, ⟨x0, r, hx0, hr, rfl⟩, ?_⟩
        rw [vars_pushHistory, hf lvl (by omega)]
  | none =>
    simp only [] at h
    unfold solveLinearSystemAndSaveResult at h
    have key : ∀ w1 : World S V, w1.vars = w.vars → ∀ w2,
        (match iterand w1 lvl 0 with
          | none => (Except.error Error.assertion : Except Error (World S V))
          | some x0 => .ok (pushHistory lvl (w.vars lvl).implicitTime
              (solver.solve w1.solver (root.b w1 (w.vars lvl).implicitTime) x0)
              (w1.record [Call.b (w.vars lvl).implicitTime, Call.solve]))) = .ok w2 →
        ∃ x, Produced root solver lvl none i w x ∧
          w2.vars lvl = { w.vars lvl with
            history := (w.vars lvl).history.push ((w.vars lvl).implicitTime, x) } := by
      intro w1 hw1 w2 h2
      split at h2
      · exact absurd h2 (by simp)
      · rename_i x0 hx0
        simp only [Except.ok.injEq] at h2
        subst h2
        refine ⟨solver.solve w1.solver (root.b w1 (w.vars lvl).implicitTime) x0,
          ⟨w1, x0, hw1, ?_, rfl⟩, ?_⟩
        · simpa [iterand, hw1] using hx0
        · rw [vars_pushHistory, vars_record, hw1]
    exact key _ (by split_ifs <;> rfl) w2 h

end Iteration

/-- The phase `TIMESTEP` of either class leaves the history of its level as it
is. -/
theorem IterationKind.TIMESTEP_history {S V : Type} (epsilon : Real) (k : IterationKind V)
    (lvl : Nat) (ne : Real) (w w1 : World S V) (h : k.TIMESTEP epsilon lvl ne w = .ok w1) :
    (w1.vars lvl).history = (w.vars lvl).history := by
  cases k with
  | tolerance it =>
    simp only [IterationKind.TIMESTEP, Except.ok.injEq] at h
    rw [← h]
  | time it =>
    simp only [IterationKind.TIMESTEP, TimeIteration.TIMESTEP] at h
    split_ifs at h
    simp only [Except.ok.injEq] at h
    rw [← h]
    simp

/-- C22 (history and `implicitTime`). For an iteration of either class at
level `lvl`, with or without a child (the rest of the chain), in a world whose
history at that level is as the constructor, `clear` and `push` leave it:
after the initial push of `iterateUntilDone`, `time(0)` is `implicitTime` and
`iterand(0)` is the initial iterand; after every completed step, `time(0)` is
`implicitTime` and `iterand(0)` is the solution produced by that step; and
after the push of an event boundary of a `TimeIteration`, `time(0)` is
`implicitTime` and `iterand(0)` is the vector transformed by the events. Each
of the three leaves the history in the same form, so this holds throughout a
solve. -/
theorem C22_history_invariant {S M V : Type} [Inhabited V] (epsilon : Real) (fuel : Nat)
    (root : IterationNode S M V) (solver : LinearSolver S M V) (k : IterationKind V)
    (rest : List (IterationKind V)) (lvl : Nat) (w : World S V)
    (hwf : (w.vars lvl).history.WF) :
    (∀ x0 : V,
      Iteration.time (Iteration.opening lvl k.nodes x0 w) lvl 0
        = some ((Iteration.opening lvl k.nodes x0 w).vars lvl).implicitTime ∧
      Iteration.iterand (Iteration.opening lvl k.nodes x0 w) lvl 0 = some x0 ∧
      ((Iteration.opening lvl k.nodes x0 w).vars lvl).history.WF) ∧
    (∀ (ne : Real) (i : Bool) (w3 : World S V),
      Iteration.turn root solver lvl k.nodes (runChain epsilon fuel root solver rest (lvl + 1))
        (k.TIMESTEP epsilon lvl ne) i w = .ok w3 →
      ∃ w1 x, k.TIMESTEP epsilon lvl ne w = .ok w1 ∧
        Iteration.Produced root solver lvl (runChain epsilon fuel root solver rest (lvl + 1)) i
          (Iteration.startNodes k.nodes w1) x ∧
        Iteration.time w3 lvl 0 = some (w3.vars lvl).implicitTime ∧
        Iteration.iterand w3 lvl 0 = some x ∧
        (w3.vars lvl).history.WF) ∧
    (∀ (it : TimeIteration V) (events : PriorityQueue V) (e : T V)
      (r : PriorityQueue V × World S V), events.top = some e →
      TimeIteration.OUTER_TAIL it lvl e.2.1 events w = .ok r →
      ∃ x, Iteration.iterand w lvl 0 = some x ∧
        Iteration.time r.2 lvl 0 = some (r.2.vars lvl).implicitTime ∧
        (r.2.vars lvl).implicitTime = e.2.1 ∧
        Iteration.iterand r.2 lvl 0
          = some (TimeIteration.applyEvents e.2.1 events.pop (e.2.2 x) (e.2.2 x)).1 ∧
        (r.2.vars lvl).history.WF) := by
  obtain ⟨hn, hlen, _⟩ := id hwf
  refine ⟨?_, ?_, ?_⟩
  · intro x0
    have hv := Iteration.vars_opening lvl k.nodes x0 w
    have hwf' := CircularBuffer.WF_clear (w.vars lvl).history hn hlen
    refine ⟨?_, ?_, ?_⟩
    · simp only [Iteration.time]
      rw [hv]
      simp only []
      rw [CircularBuffer.get_zero_push _ hwf']
      rfl
    · simp only [Iteration.iterand]
      rw [hv]
      simp only []
      rw [CircularBuffer.get_zero_push _ hwf']
      rfl
    · rw [hv]
      exact CircularBuffer.WF_push _ hwf' _
  · intro ne i w3 h
    unfold Iteration.turn at h
    split at h
    · exact absurd h (by simp)
    · rename_i w1 hw1
      split at h
      · exact absurd h (by simp)
      · rename_i w2 hw2
        simp only [Except.ok.injEq] at h
        subst h
        obtain ⟨x, hprod, hv⟩ := Iteration.produce_pushed root solver lvl _
          (fun run hr => runChain_frame epsilon fuel root solver rest (lvl + 1) run hr) i _ w2 hw2
        have hh : (w1.vars lvl).history.WF := by
          rw [IterationKind.TIMESTEP_history epsilon k lvl ne w w1 hw1]; exact hwf
        have hv3 : ((Iteration.TAIL lvl k.nodes w2).vars lvl)
            = { w1.vars lvl with
                history := (w1.vars lvl).history.push ((w1.vars lvl).implicitTime, x)
                its := Iteration.incrementBack (w1.vars lvl).its } := by
          rw [Iteration.vars_TAIL, hv]
          simp
        refine ⟨w1, x, hw1, hprod, ?_, ?_, ?_⟩
        · simp only [Iteration.time]
          rw [hv3]
          simp only []
          rw [CircularBuffer.get_zero_push _ hh]
          rfl
        · simp only [Iteration.iterand]
          rw [hv3]
          simp only []
          rw [CircularBuffer.get_zero_push _ hh]
          rfl
        · rw [hv3]
          exact CircularBuffer.WF_push _ hh _
  · intro it events e r htop h
    obtain ⟨q, hq⟩ : ∃ q, events = e :: q := by
      cases hd : events with
      | nil => rw [hd] at htop; simp [PriorityQueue.top] at htop
      | cons a q =>
        rw [hd] at htop
        simp only [PriorityQueue.top, List.head?_cons, Option.some.injEq] at htop
        exact ⟨q, by rw [htop]⟩
    unfold TimeIteration.OUTER_TAIL at h
    simp only [] at h
    split at h
    · exact absurd h (by simp)
    · rename_i x hx
      simp only [Except.ok.injEq] at h
      subst h
      have hwf' := CircularBuffer.WF_clear (w.vars lvl).history hn hlen
      have hv : ∀ y : V, ((Iteration.pushHistory lvl e.2.1 y (Iteration.clearHistory lvl
          (Iteration.afterEvent it.nodes ((w.setVars lvl
            { w.vars lvl with implicitTime := e.2.1 }).record
            ((TimeIteration.applyEvents e.2.1 events x default).2.2.map Call.event))))).vars lvl)
          = { w.vars lvl with
              implicitTime := e.2.1
              history := (w.vars lvl).history.clear.push (e.2.1, y) } := by
        intro y
        simp [Iteration.vars_pushHistory, Iteration.clearHistory]
      have hval : (TimeIteration.applyEvents e.2.1 events x default).1
          = (TimeIteration.applyEvents e.2.1 events.pop (e.2.2 x) (e.2.2 x)).1 := by
        rw [hq]
        simp [TimeIteration.applyEvents, PriorityQueue.pop]
      refine ⟨x, by simpa [Iteration.iterand] using hx, ?_, ?_, ?_, ?_⟩
      · simp only [Iteration.time]
        rw [hv]
        simp only []
        rw [CircularBuffer.get_zero_push _ hwf']
        rfl
      · rw [hv]
      · simp only [Iteration.iterand]
        rw [hv]
        simp only []
        rw [CircularBuffer.get_zero_push _ hwf', hval]
        rfl
      · rw [hv]
        exact CircularBuffer.WF_push _ hwf' _

/-- Witness of C22: a forward constant stepper on `[0, 1]` with timestep 1/2;
after the initial push of the vector 3 the history reads `(implicitTime, 3)`,
and after the first step towards the time 1 it reads the solution produced at
the new `implicitTime`. -/
theorem C22_history_invariant_witness :
    Iteration.iterand (Iteration.opening 0
        (IterationKind.time (ConstantStepper Real true 0 1 (1 / 2))).nodes (3 : Real)
        (TimeIteration.SET_TIME (ConstantStepper Real true 0 1 (1 / 2)) 0 (World.fresh 1))) 0 0
      = some 3 ∧
    ∃ w3, Iteration.turn (carryRoot 0) identitySolver 0
        (IterationKind.time (ConstantStepper Real true 0 1 (1 / 2))).nodes
        (runChain (1 / 1000) 3 (carryRoot 0) identitySolver [] (0 + 1))
        ((IterationKind.time (ConstantStepper Real true 0 1 (1 / 2))).TIMESTEP (1 / 1000) 0 1)
        false
        (Iteration.opening 0 (IterationKind.time (ConstantStepper Real true 0 1 (1 / 2))).nodes
          (3 : Real)
          (TimeIteration.SET_TIME (ConstantStepper Real true 0 1 (1 / 2)) 0 (World.fresh 1)))
        = .ok w3 ∧
      Iteration.time w3 0 0 = some (w3.vars 0).implicitTime := by
  have hfresh : (((TimeIteration.SET_TIME (ConstantStepper Real true 0 1 (1 / 2)) 0
      (World.fresh 1 : World Unit Real))).vars 0).history.WF := by
    refine ⟨by decide, by decide, by decide, by decide, Or.inr (by decide)⟩
  have hopen := (C22_history_invariant (1 / 1000) 3 (carryRoot 0) identitySolver
    (IterationKind.time (ConstantStepper Real true 0 1 (1 / 2))) [] 0
    (TimeIteration.SET_TIME (ConstantStepper Real true 0 1 (1 / 2)) 0 (World.fresh 1))
    hfresh).1 3
  refine ⟨hopen.2.1, ?_⟩
  have hok : (Iteration.turn (carryRoot 0) identitySolver 0
      (IterationKind.time (ConstantStepper Real true 0 1 (1 / 2))).nodes
      (runChain (1 / 1000) 3 (carryRoot 0) identitySolver [] (0 + 1))
      ((IterationKind.time (ConstantStepper Real true 0 1 (1 / 2))).TIMESTEP (1 / 1000) 0 1)
      false
      (Iteration.opening 0 (IterationKind.time (ConstantStepper Real true 0 1 (1 / 2))).nodes
        (3 : Real)
        (TimeIteration.SET_TIME (ConstantStepper Real true 0 1 (1 / 2)) 0
          (World.fresh 1)))).toOption.isSome = true := by
    decide!
  cases hr : Iteration.turn (carryRoot 0) identitySolver 0
      (IterationKind.time (ConstantStepper Real true 0 1 (1 / 2))).nodes
      (runChain (1 / 1000) 3 (carryRoot 0) identitySolver [] (0 + 1))
      ((IterationKind.time (ConstantStepper Real true 0 1 (1 / 2))).TIMESTEP (1 / 1000) 0 1)
      false
      (Iteration.opening 0 (IterationKind.time (ConstantStepper Real true 0 1 (1 / 2))).nodes
        (3 : Real)
        (TimeIteration.SET_TIME (ConstantStepper Real true 0 1 (1 / 2)) 0 (World.fresh 1))) with
  | error e => rw [hr] at hok; exact absurd hok (by simp [Except.toOption])
  | ok w3 =>
    obtain ⟨_, _, _, _, ht, _, _⟩ := (C22_history_invariant (1 / 1000) 3 (carryRoot 0)
      identitySolver (IterationKind.time (ConstantStepper Real true 0 1 (1 / 2))) [] 0
      (Iteration.opening 0 (IterationKind.time (ConstantStepper Real true 0 1 (1 / 2))).nodes
        (3 : Real)
        (TimeIteration.SET_TIME (ConstantStepper Real true 0 1 (1 / 2)) 0 (World.fresh 1)))
      hopen.2.2).2.1 1 false w3 hr
    exact ⟨w3, rfl, ht⟩

/-! ## The Dirichlet overlay -/

namespace Discretization

variable {C : Type} {n : Nat}

theorem addDirichletNode_spec (d : Discretization C) (index : Int) (f : Real → C → Real)
    (hd : (d.boundary.map Prod.fst).Nodup) :
    ((d.addDirichletNode index f).boundary.map Prod.fst).Nodup ∧
    (index, f) ∈ (d.addDirichletNode index f).boundary ∧
    (∀ p, p.1 ≠ index → (p ∈ (d.addDirichletNode index f).boundary ↔ p ∈ d.boundary)) := by
  unfold addDirichletNode
  by_cases hany : d.boundary.any (fun pair => decide (pair.1 = index)) = true
  · simp only [hany, if_true]
    have hfst : (d.boundary.map (fun pair => if pair.1 = index then (index, f) else pair)).map
        Prod.fst = d.boundary.map Prod.fst := by
      rw [List.map_map]
      apply List.map_congr_left
      intro p _
      by_cases hp : p.1 = index <;> simp [hp]
    refine ⟨by rw [hfst]; exact hd, ?_, ?_⟩
    · rw [List.any_eq_true] at hany
      obtain ⟨q, hq, hqi⟩ := hany
      rw [List.mem_map]
      exact ⟨q, hq, by simp [of_decide_eq_true hqi]⟩
    · intro p hp
      rw [List.mem_map]
      constructor
      · rintro ⟨q, hq, hqp⟩
        by_cases hqi : q.1 = index
        · rw [if_pos hqi] at hqp
          rw [← hqp] at hp
          exact absurd rfl hp
        · rw [if_neg hqi] at hqp
          rw [← hqp]; exact hq
      · intro hpd
        exact ⟨p, hpd, by rw [if_neg hp]⟩
  · simp only [hany, Bool.false_eq_true, if_false]
    have hnot : ∀ q ∈ d.boundary, q.1 ≠ index := by
      intro q hq hqi
      apply hany
      rw [List.any_eq_true]
      exact ⟨q, hq, by simp [hqi]⟩
    refine ⟨?_, List.mem_cons_self _ _, ?_⟩
    · rw [List.map_cons, List.nodup_cons]
      refine ⟨?_, hd⟩
      intro hmem
      rw [List.mem_map] at hmem
      obtain ⟨q, hq, hqi⟩ := hmem
      exact hnot q hq hqi
    · intro p hp
      rw [List.mem_cons]
      constructor
      · rintro (h | h)
        · rw [h] at hp; exact absurd rfl hp
        · exact h
      · intro h; exact Or.inr h

/-- The map after a sequence of `addDirichletNode` calls: distinct keys, the
function most recently registered under each registered index, and no key that
was not registered or there before. -/
theorem registered_spec (regs : List (Int × (Real → C → Real))) :
    ∀ d : Discretization C, (d.boundary.map Prod.fst).Nodup →
      (((regs.foldl (fun d r => d.addDirichletNode r.1 r.2) d).boundary).map Prod.fst).Nodup ∧
      (∀ i f, LastRegistered regs i f →
        (i, f) ∈ (regs.foldl (fun d r => d.addDirichletNode r.1 r.2) d).boundary) ∧
      (∀ p ∈ (regs.foldl (fun d r => d.addDirichletNode r.1 r.2) d).boundary,
        (∃ q ∈ regs, q.1 = p.1) ∨ p ∈ d.boundary) ∧
      (∀ p ∈ d.boundary, (∀ q ∈ regs, q.1 ≠ p.1) →
        p ∈ (regs.foldl (fun d r => d.addDirichletNode r.1 r.2) d).boundary) := by
  induction regs with
  | nil =>
    intro d hd
    refine ⟨hd, ?_, fun p hp => Or.inr hp, fun p hp _ => hp⟩
    rintro i f ⟨pre, post, h, _⟩
    exact absurd h (by simp)
  | cons r regs ih =>
    intro d hd
    obtain ⟨a1, a2, a3⟩ := addDirichletNode_spec d r.1 r.2 hd
    obtain ⟨i1, i2, i3, i4⟩ := ih (d.addDirichletNode r.1 r.2) a1
    simp only [List.foldl_cons]
    refine ⟨i1, ?_, ?_, ?_⟩
    · rintro i f ⟨pre, post, h, hpost⟩
      cases pre with
      | nil =>
        simp only [List.nil_append, List.cons.injEq] at h
        obtain ⟨hr, hregs⟩ := h
        subst hr
        apply i4
        · exact a2
        · intro q hq
          rw [hregs] at hq
          exact hpost q hq
      | cons p pre =>
        simp only [List.cons_append, List.cons.injEq] at h
        exact i2 i f ⟨pre, post, h.2, hpost⟩
    · intro p hp
      rcases i3 p hp with ⟨q, hq, hqp⟩ | h
      · exact Or.inl ⟨q, List.mem_cons_of_mem _ hq, hqp⟩
      · by_cases hpr : p.1 = r.1
        · exact Or.inl ⟨r, List.mem_cons_self _ _, hpr.symm⟩
        · exact Or.inr ((a3 p hpr).mp h)
    · intro p hp hq
      apply i4
      · exact (a3 p (fun h => hq r (List.mem_cons_self _ _) h.symm)).mpr hp
      · intro q hq'
        exact hq q (List.mem_cons_of_mem _ hq')

/-- The loop of `Discretization::b` over pairs with distinct keys: every key
reads its function at the coordinates of the node, every other component is
left as it was. -/
theorem overlay_spec (d : Discretization C) (time : Real)
    (pairs : List (Int × (Real → C → Real))) :
    ∀ (v0 v : Fin n → Real), (pairs.map Prod.fst).Nodup → d.overlay time pairs v0 = some v →
      (∀ p ∈ pairs, ∀ j : Fin n, ((j : Nat) : Int) = p.1 →
        v j = p.2 time (d.coordinates p.1)) ∧
      (∀ j : Fin n, (∀ p ∈ pairs, p.1 ≠ ((j : Nat) : Int)) → v j = v0 j) := by
  induction pairs with
  | nil =>
    intro v0 v _ h
    simp only [overlay, Option.some.injEq] at h
    subst h
    exact ⟨fun p hp => absurd hp (List.not_mem_nil _), fun _ _ => rfl⟩
  | cons p pairs ih =>
    intro v0 v hnd h
    rw [List.map_cons, List.nodup_cons] at hnd
    unfold overlay at h
    split_ifs at h with hr
    obtain ⟨i1, i2⟩ := ih _ v hnd.2 h
    constructor
    · intro q hq j hj
      rcases List.mem_cons.mp hq with rfl | hq'
      · have hnot : ∀ p' ∈ pairs, p'.1 ≠ ((j : Nat) : Int) := by
          intro p' hp' hk
          apply hnd.1
          rw [List.mem_map]
          exact ⟨p', hp', by rw [hk, hj]⟩
        rw [i2 j hnot]
        have : (⟨q.1.toNat, by omega⟩ : Fin n) = j := Fin.ext (by simp; omega)
        rw [this, Function.update_same]
      · exact i1 q hq' j hj
    · intro j hj
      rw [i2 j (fun p' hp' => hj p' (List.mem_cons_of_mem _ hp'))]
      have hne : j ≠ (⟨p.1.toNat, by omega⟩ : Fin n) := by
        intro hk
        apply hj p (List.mem_cons_self _ _)
        rw [hk]
        simp
        omega
      rw [Function.update_noteq hne]

theorem overlay_returns (d : Discretization C) (time : Real)
    (pairs : List (Int × (Real → C → Real))) :
    ∀ (v0 : Fin n → Real), (∀ p ∈ pairs, 0 ≤ p.1 ∧ p.1 < (n : Int)) →
      ∃ v, d.overlay time pairs v0 = some v := by
  induction pairs with
  | nil => intro v0 _; exact ⟨v0, rfl⟩
  | cons p pairs ih =>
    intro v0 h
    unfold overlay
    rw [dif_pos (h p (List.mem_cons_self _ _))]
    exact ih _ (fun q hq => h q (List.mem_cons_of_mem _ hq))

theorem registered_coordinates (regs : List (Int × (Real → C → Real))) :
    ∀ d : Discretization C,
      (regs.foldl (fun d r => d.addDirichletNode r.1 r.2) d).coordinates = d.coordinates := by
  induction regs with
  | nil => intro d; rfl
  | cons r regs ih => intro d; rw [List.foldl_cons, ih]; rfl

end Discretization

/-- C24 (Dirichlet overlay). For a `Discretization` whose map `boundary` is
the result of the `addDirichletNode` calls `regs` after construction, for every
order `pairs` in which the map may iterate its pairs, every time `t` and value
`v0` of `bd(t)`: `b(t)` is the loop over the map applied to `v0`; the loop
returns when every registered index is within the vector; and in the vector
`v` it returns, `v[i] = f_i(t, coordinates(i))` for every registered index `i`,
with `f_i` the function most recently registered for `i`, and `v[j] = v0[j]`
for every index `j` that was not registered. -/
theorem C24_dirichlet_overlay {C : Type} {n : Nat} (coordinates : Int → C)
    (regs : List (Int × (Real → C → Real))) (pairs : List (Int × (Real → C → Real)))
    (hperm : pairs.Perm
      (regs.foldl (fun d r => d.addDirichletNode r.1 r.2) (Discretization.new coordinates)).boundary)
    (bd : Real → Option (Fin n → Real)) (time : Real) (v0 : Fin n → Real)
    (hbd : bd time = some v0) :
    (regs.foldl (fun d r => d.addDirichletNode r.1 r.2) (Discretization.new coordinates)).b bd time
      = (regs.foldl (fun d r => d.addDirichletNode r.1 r.2)
          (Discretization.new coordinates)).overlay time
          (regs.foldl (fun d r => d.addDirichletNode r.1 r.2)
            (Discretization.new coordinates)).boundary v0 ∧
    ((∀ r ∈ regs, 0 ≤ r.1 ∧ r.1 < (n : Int)) →
      ∃ v, (regs.foldl (fun d r => d.addDirichletNode r.1 r.2)
        (Discretization.new coordinates)).overlay time pairs v0 = some v) ∧
    ∀ v, (regs.foldl (fun d r => d.addDirichletNode r.1 r.2)
        (Discretization.new coordinates)).overlay time pairs v0 = some v →
      (∀ (i : Fin n) (f : Real → C → Real),
        Discretization.LastRegistered regs ((i : Nat) : Int) f →
        v i = f time (coordinates ((i : Nat) : Int))) ∧
      (∀ j : Fin n, (∀ r ∈ regs, r.1 ≠ ((j : Nat) : Int)) → v j = v0 j) := by
  obtain ⟨r1, r2, r3, _⟩ := Discretization.registered_spec regs (Discretization.new coordinates)
    (by simp [Discretization.new])
  have hcoord := Discretization.registered_coordinates regs (Discretization.new coordinates)
  have hnd : (pairs.map Prod.fst).Nodup := ((hperm.map Prod.fst).nodup_iff).mpr r1
  refine ⟨?_, ?_, ?_⟩
  · simp only [Discretization.b, hbd]
  · intro hrange
    apply Discretization.overlay_returns
    intro p hp
    rcases r3 p (hperm.mem_iff.mp hp) with ⟨q, hq, hqp⟩ | h
    · rw [← hqp]; exact hrange q hq
    · exact absurd h (by simp [Discretization.new])
  · intro v hv
    obtain ⟨o1, o2⟩ := Discretization.overlay_spec _ time pairs v0 v hnd hv
    constructor
    · intro i f hlast
      have := o1 (((i : Nat) : Int), f) (hperm.mem_iff.mpr (r2 _ f hlast)) i rfl
      rw [this, hcoord]
      rfl
    · intro j hj
      apply o2
      intro p hp hk
      rcases r3 p (hperm.mem_iff.mp hp) with ⟨q, hq, hqp⟩ | h
      · exact hj q hq (by rw [hqp, hk])
      · exact absurd h (by simp [Discretization.new])

/-- Witness of C24: a vector of two components with `bd(t) = [5, 6]`; index 0
is registered twice, last with `f(t, x) = t + x + 100`; index 1 is not
registered. At `t = 1` the loop over the map returns a vector `v` with
`v[0] = 101` and `v[1] = 6`. -/
theorem C24_dirichlet_overlay_witness :
    ∃ v : Fin 2 → Real,
      ([((0 : Int), fun (t : Real) (x : Int) => t + x), (0, fun t x => t + x + 100)].foldl
          (fun d r => d.addDirichletNode r.1 r.2)
          (Discretization.new (fun i => i))).overlay 1
        ([((0 : Int), fun (t : Real) (x : Int) => t + x), (0, fun t x => t + x + 100)].foldl
          (fun d r => d.addDirichletNode r.1 r.2)
          (Discretization.new (fun i => i))).boundary (fun i => if i = 0 then 5 else 6) = some v ∧
      v 0 = 101 ∧ v 1 = 6 := by
  obtain ⟨_, h2, h3⟩ := C24_dirichlet_overlay (fun i : Int => i)
    [((0 : Int), fun (t : Real) (x : Int) => t + x), (0, fun t x => t + x + 100)]
    ([((0 : Int), fun (t : Real) (x : Int) => t + x), (0, fun t x => t + x + 100)].foldl
      (fun d r => d.addDirichletNode r.1 r.2) (Discretization.new (fun i => i))).boundary
    (List.Perm.refl _) (fun _ => some (fun i : Fin 2 => if i = 0 then (5 : Real) else 6)) 1
    (fun i => if i = 0 then 5 else 6) rfl
  obtain ⟨v, hv⟩ := h2 (by
    intro r hr
    simp only [List.mem_cons, List.mem_singleton, List.not_mem_nil, or_false] at hr
    rcases hr with rfl | rfl <;> exact ⟨by decide, by decide⟩)
  obtain ⟨g1, g2⟩ := h3 v hv
  refine ⟨v, hv, ?_, ?_⟩
  · have := g1 0 (fun t x => t + x + 100)
      ⟨[((0 : Int), fun (t : Real) (x : Int) => t + x)], [], rfl, by simp⟩
    rw [this]
    norm_num
  · have := g2 1 (by
      intro r hr
      simp only [List.mem_cons, List.mem_singleton, List.not_mem_nil, or_false] at hr
      rcases hr with rfl | rfl <;> decide)
    rw [this]
    simp

/-! ## Re-binding a node -/

namespace Bindings

theorem detach_spec (s : Bindings) (hs : s.Consistent) (node : Nat) :
    (∀ i, node ∉ s.detach node i) ∧
    (∀ i, s.detach node i = (s.nodes i).filter (fun m => decide (m ≠ node))) := by
  have hfil : ∀ i, s.iteration node ≠ some i →
      (s.nodes i).filter (fun m => decide (m ≠ node)) = s.nodes i := by
    intro i hi
    rw [List.filter_eq_self]
    intro m hm
    have := hs.1 m i hm
    simp only [ne_eq, decide_not, Bool.not_eq_true', decide_eq_false_iff_not]
    intro h
    rw [h] at this
    exact hi this
  have h2 : ∀ i, s.detach node i = (s.nodes i).filter (fun m => decide (m ≠ node)) := by
    intro i
    unfold detach
    cases ho : s.iteration node with
    | none =>
      simp only []
      rw [hfil i (by rw [ho]; simp)]
    | some i0 =>
      simp only []
      by_cases hi : i = i0
      · subst hi; rw [Function.update_same]
      · rw [Function.update_noteq hi, hfil i (by rw [ho]; simpa using fun h => hi h.symm)]
  refine ⟨?_, h2⟩
  intro i
  rw [h2 i]
  simp [List.mem_filter]

theorem setIteration_consistent (s : Bindings) (hs : s.Consistent) (node j : Nat) :
    (s.setIteration node j).Consistent := by
  obtain ⟨d1, d2⟩ := detach_spec s hs node
  constructor
  · intro m i hm
    simp only [setIteration] at hm ⊢
    by_cases hi : i = j
    · subst hi
      rw [Function.update_same, List.mem_append, List.mem_singleton] at hm
      rcases hm with hm | hm
      · rw [d2, List.mem_filter] at hm
        have hne : m ≠ node := by simpa using hm.2
        rw [Function.update_noteq hne]
        exact hs.1 m i hm.1
      · rw [hm, Function.update_same]
    · rw [Function.update_noteq hi, d2, List.mem_filter] at hm
      have hne : m ≠ node := by simpa using hm.2
      rw [Function.update_noteq hne]
      exact hs.1 m i hm.1
  · intro i
    simp only [setIteration]
    by_cases hi : i = j
    · subst hi
      rw [Function.update_same]
      apply List.Nodup.append
      · rw [d2]; exact (hs.2 i).filter _
      · exact List.nodup_singleton _
      · intro m hm hm'
        rw [List.mem_singleton] at hm'
        rw [hm'] at hm
        exact d1 i hm
    · rw [Function.update_noteq hi, d2]
      exact (hs.2 i).filter _

theorem after_consistent (calls : List (Nat × Nat)) : (after calls).Consistent := by
  unfold after
  induction calls using List.reverseRecOn with
  | nil => exact ⟨fun m i hm => absurd hm (by simp [initial]), fun i => by simp [initial]⟩
  | append_singleton l c ih =>
    rw [List.foldl_append]
    exact setIteration_consistent _ ih c.1 c.2

end Bindings

/-- C25 (re-binding detaches). In every state reached from construction by
`setIteration` calls, after `node.setIteration(j)`: the node is bound to `j`,
it is the last element of the list of `j` and occurs in it exactly once, it
occurs in the list of no iteration other than `j`, so it no longer occurs in
the list of the iteration it was bound to before (when it is re-bound to the
iteration it is already bound to, it is moved to the end of that list), and
the other nodes keep their lists and their relative order; the state is again
one reached by `setIteration` calls, and in it every node occurs in the list
of at most one iteration and at most once. -/
theorem C25_rebinding_detaches (calls : List (Nat × Nat)) (node j : Nat) :
    ((Bindings.after calls).setIteration node j).iteration node = some j ∧
    (((Bindings.after calls).setIteration node j).nodes j).getLast? = some node ∧
    (((Bindings.after calls).setIteration node j).nodes j).count node = 1 ∧
    (∀ i, i ≠ j → node ∉ ((Bindings.after calls).setIteration node j).nodes i) ∧
    (∀ i, (Bindings.after calls).iteration node = some i → i ≠ j →
      node ∉ ((Bindings.after calls).setIteration node j).nodes i) ∧
    (∀ i, (((Bindings.after calls).setIteration node j).nodes i).filter (fun m => decide (m ≠ node))
      = ((Bindings.after calls).nodes i).filter (fun m => decide (m ≠ node))) ∧
    (∀ m i i', m ∈ ((Bindings.after calls).setIteration node j).nodes i →
      m ∈ ((Bindings.after calls).setIteration node j).nodes i' → i = i') ∧
    (∀ i, (((Bindings.after calls).setIteration node j).nodes i).Nodup) ∧
    ((Bindings.after calls).setIteration node j) = Bindings.after (calls ++ [(node, j)]) := by
  have hs := Bindings.after_consistent calls
  obtain ⟨d1, d2⟩ := Bindings.detach_spec _ hs node
  have hs' := Bindings.setIteration_consistent _ hs node j
  have hother : ∀ i, i ≠ j → node ∉ ((Bindings.after calls).setIteration node j).nodes i := by
    intro i hi
    simp only [Bindings.setIteration]
    rw [Function.update_noteq hi]
    exact d1 i
  refine ⟨?_, ?_, ?_, hother, ?_, ?_, ?_, hs'.2, ?_⟩
  · simp [Bindings.setIteration]
  · simp [Bindings.setIteration]
  · simp only [Bindings.setIteration, Function.update_same]
    rw [List.count_append, List.count_eq_zero_of_not_mem (d1 j)]
    simp
  · intro i _ hi
    exact hother i hi
  · intro i
    simp only [Bindings.setIteration]
    by_cases hi : i = j
    · subst hi
      rw [Function.update_same, List.filter_append, d2, List.filter_filter]
      simp
    · rw [Function.update_noteq hi, d2, List.filter_filter]
      simp
  · intro m i i' h1 h2
    have e1 := hs'.1 m i h1
    have e2 := hs'.1 m i' h2
    rw [e1] at e2
    exact Option.some.inj e2
  · simp [Bindings.after, List.foldl_append]


/-! ## Scenarios S1, S2 and S3 -/

/-- C27, counterexample (scenario S1). The reverse Crank-Nicolson march with
`A_sys = 0`, `b_sys = 0`, `x0 = [1, 2, 3]` and constant timestep 1/4 from
`t = 1` to `t = 0` returns, and `iterations()` of the time iteration is `[4]`:
it is not `[1, 1, 1, 1]`. -/
theorem C27_scenario_S1_counterexample :
    S1march.toOption.map (fun r => (r.2.vars 0).its) = some [4] ∧
    S1march.toOption.map (fun r => (r.2.vars 0).its) ≠ some [1, 1, 1, 1] := by
  have h : S1march.toOption.map (fun r => (r.2.vars 0).its) = some [4] := by decide!
  exact ⟨h, by rw [h]; decide⟩

/-- C27, amended (scenario S1). The reverse Crank-Nicolson march with
`A_sys = 0`, `b_sys = 0`, `x0 = [1, 2, 3]` and constant timestep 1/4 from
`t = 1` to `t = 0` (no events, no inner iteration, exact solver,
`epsilon = 1/1000`) returns `[1, 2, 3]`; it makes four steps, to the times
3/4, 1/2, 1/4 and 0, followed by the boundary of the terminal time; and it ends
with `iterations() == [4]` on the time iteration: one entry for the one call of
`iterateUntilDone`, counting its steps. -/
theorem C27_scenario_S1 :
    S1march.toOption.map (fun r => (r.1.map (fun v => List.ofFn v), (r.2.vars 0).its,
        r.2.log.filter Call.isPushOrEvent))
      = some (some [1, 2, 3], [4],
          [Call.push 0 1, Call.push 0 (3 / 4), Call.push 0 (1 / 2), Call.push 0 (1 / 4),
           Call.push 0 0, Call.event unsignedMax, Call.push 0 0]) := by
  decide!

/-- C28 (scenario S2). The forward time iteration on `[0, 1]` with constant
timestep 1/10 (exact arithmetic, `epsilon = 1/1000`), the implicit method
(`ThetaInverse = 1`) on the system `A_sys = [1]`, `b_sys = 0`, `x0 = [1]` and
the exact solver: the solve returns `x = (10/11)^10`, with `iterations()`
equal to `[10]` and the steps at the times 1/10, 2/10, ..., 1; and after `j`
steps of its step loop, for `j = 0, ..., 10`, `implicitTime` is `j/10`, the
count is `j` and the iterand is `(10/11)^j`, so each step maps `x` to
`x / (1 + 1/10)`. -/
theorem C28_scenario_S2 :
    S2march.toOption.map (fun r => (r.1.map (fun v => v 0), (r.2.vars 0).its,
        r.2.log.filter Call.isPushOrEvent))
      = some (some ((10 / 11) ^ 10), [10],
          [Call.push 0 0, Call.push 0 (1 / 10), Call.push 0 (2 / 10), Call.push 0 (3 / 10),
           Call.push 0 (4 / 10), Call.push 0 (5 / 10), Call.push 0 (6 / 10),
           Call.push 0 (7 / 10), Call.push 0 (8 / 10), Call.push 0 (9 / 10), Call.push 0 1,
           Call.event unsignedMax, Call.push 0 1]) ∧
    (List.range 11).map (fun (j : Nat) =>
        (S2steps j).toOption.map (fun w => ((w.vars 0).implicitTime, (w.vars 0).its,
          (Iteration.iterand w 0 0).map (fun x => x.map (fun v => v 0)))))
      = (List.range 11).map (fun (j : Nat) =>
        some ((j : Real) / 10, [j], some (some ((10 / 11 : Real) ^ j)))) := by
  constructor
  · decide!
  · decide!

/-- C29 (scenario S3). The forward time iteration with `startTime = 0`,
`endTime = 1`, constant timestep 3/10 and one event at `t = 1/2`
(`epsilon = 1/1000`), on a root whose every step adds 1 to the vector, from
the vector 5. With the event "zero the vector": the pushes into the history and
the events applied are, in order, the initial push at time 0, the steps to 3/10
and to 1/2, the event, the push of the boundary at 1/2, the steps to 4/5 and to
1, and the terminal boundary; there are exactly four steps
(`iterations() == [4]`) and the solve returns 2. With the event "multiply by
10" instead the solve returns `10 (5 + 2) + 2 = 72`: the event is applied to
the solution computed at `t = 1/2`. -/
theorem C29_scenario_S3 :
    (S3march (fun _ => 0) 5).toOption.map (fun r => (r.1, (r.2.vars 0).its,
        r.2.log.filter Call.isPushOrEvent))
      = some (2, [4],
          [Call.push 0 0, Call.push 0 (3 / 10), Call.push 0 (1 / 2), Call.event 0,
           Call.push 0 (1 / 2), Call.push 0 (4 / 5), Call.push 0 1, Call.event unsignedMax,
           Call.push 0 1]) ∧
    (S3march (fun v => 10 * v) 5).toOption.map (fun r => (r.1, (r.2.vars 0).its)) = some (72, [4]) := by
  constructor
  · decide!
  · decide!

/-! ## The event queue across solves -/

namespace TimeIteration

variable {S M V : Type}

/-- The event loop pops the entries at the top that share the time `t`,
whatever the vector. -/
theorem applyEvents_queue (t : Real) (q : PriorityQueue V) :
    ∀ (x d : V),
      (applyEvents t q x d).2.1 = q.dropWhile (fun a => decide (a.2.1 = t)) ∧
      (applyEvents t q x d).2.2 = (q.takeWhile (fun a => decide (a.2.1 = t))).map (fun a => a.1) := by
  induction q with
  | nil => intro x d; simp [applyEvents]
  | cons e q ih =>
    intro x d
    by_cases het : e.2.1 = t
    · obtain ⟨i1, i2⟩ := ih (e.2.2 x) (e.2.2 x)
      simp only [applyEvents, het, if_true, i1, i2]
      simp [List.dropWhile_cons, List.takeWhile_cons, het]
    · simp [applyEvents, het, List.dropWhile_cons, List.takeWhile_cons]

theorem OUTER_TAIL_spec [Inhabited V] (it : TimeIteration V) (lvl : Nat) (ne : Real)
    (events : PriorityQueue V) (w : World S V) (r : PriorityQueue V × World S V)
    (h : OUTER_TAIL it lvl ne events w = .ok r) :
    r.1 = events.dropWhile (fun a => decide (a.2.1 = ne)) ∧
    (r.2.vars lvl).implicitTime = ne ∧
    r.2.log = w.log ++ boundaryCalls lvl it.nodes
      ((events.takeWhile (fun a => decide (a.2.1 = ne))).map (fun a => a.1)) ne := by
  obtain ⟨x, _, hq, hlog⟩ := OUTER_TAIL_log it lvl ne events w r h
  obtain ⟨a1, a2⟩ := applyEvents_queue ne events x default
  refine ⟨by rw [hq, a1], ?_, by rw [hlog, a2]⟩
  unfold OUTER_TAIL at h
  simp only [] at h
  split at h
  · exact absurd h (by simp)
  · simp only [Except.ok.injEq] at h
    subst h
    simp [Iteration.vars_pushHistory, Iteration.clearHistory]

/-- A run of the loop over the event boundaries that returns, with the test
that closes each boundary: the march goes on exactly when
`Order()(terminalTime(), implicitTime)` holds. -/
theorem outerLoop_schedule [Inhabited V] (epsilon : Real) (root : IterationNode S M V)
    (solver : LinearSolver S M V) (it : TimeIteration V) (lvl : Nat)
    (child : Option (Runner S V)) (inner : Nat) :
    ∀ (fuel : Nat) (events : PriorityQueue V) (i : Bool) (w w' : World S V),
      outerLoop epsilon root solver it lvl child inner fuel events i w = .ok w' →
      ∃ (m : Nat) (qs : Nat → PriorityQueue V) (ws : Nat → World S V),
        1 ≤ m ∧ qs 0 = events ∧ ws 0 = w ∧ ws m = w' ∧
        ∀ b, b < m → ∃ e i' r r', (qs b).top = some e ∧
          Iteration.stepLoop root solver lvl it.nodes child (TIMESTEP epsilon it lvl e.2.1)
            (NOT_DONE epsilon it lvl e.2.1) inner i' (ws b) = .ok r ∧
          OUTER_TAIL it lvl e.2.1 (qs b) r.2 = .ok r' ∧
          r'.1 = qs (b + 1) ∧ r'.2 = ws (b + 1) ∧
          (Order it.Forward it.terminalTime e.2.1 = true ↔ b + 1 < m) := by
  intro fuel
  induction fuel with
  | zero => intro events i w w' h; simp [outerLoop] at h
  | succ fuel ih =>
    intro events i w w' h
    unfold outerLoop at h
    split at h
    · exact absurd h (by simp)
    · rename_i e he
      split at h
      · exact absurd h (by simp)
      · rename_i r hr
        split at h
        · exact absurd h (by simp)
        · rename_i r' hr'
          have htime := (OUTER_TAIL_spec it lvl e.2.1 events r.2 r' hr').2.1
          rw [htime] at h
          split_ifs at h with hO
          · obtain ⟨m, qs, ws, hm, hq0, hw0, hwm, hall⟩ := ih _ _ _ _ h
            refine ⟨m + 1, fun b => if b = 0 then events else qs (b - 1),
              fun b => if b = 0 then w else ws (b - 1), by omega, by simp, by simp,
              by simpa using hwm, ?_⟩
            intro b hb
            cases b with
            | zero =>
              refine ⟨e, i, r, r', by simpa using he, by simpa using hr, by simpa using hr',
                ?_, ?_, ?_⟩
              · simp [hq0]
              · simp [hw0]
              · constructor
                · intro _; omega
                · intro _; exact hO
            | succ b =>
              obtain ⟨e', i', r1, r1', g1, g2, g3, g4, g5, g6⟩ := hall b (by omega)
              refine ⟨e', i', r1, r1', by simpa using g1, by simpa using g2, by simpa using g3,
                by simpa using g4, by simpa using g5, ?_⟩
              rw [g6]
              omega
          · simp only [Except.ok.injEq] at h
            subst h
            refine ⟨1, fun b => if b = 0 then events else r'.1,
              fun b => if b = 0 then w else r'.2, le_refl _, by simp, by simp, by simp, ?_⟩
            intro b hb
            have : b = 0 := by omega
            subst this
            refine ⟨e, i, r, r', by simpa using he, by simpa using hr, by simpa using hr',
              by simp, by simp, ?_⟩
            constructor
            · intro h'; exact absurd h' hO
            · intro h'; omega

/-- A run of `iterateUntilDone` that returns visits the boundaries of a
schedule of the iteration. -/
theorem run_fires [Inhabited V] (epsilon : Real) (fuel : Nat) (root : IterationNode S M V)
    (solver : LinearSolver S M V) (it : TimeIteration V) (lvl : Nat)
    (child : Option (Runner S V)) (x : V) (time : Real) (i : Bool) (w : World S V)
    (r : V × World S V)
    (h : iterateUntilDone epsilon fuel root solver it lvl child x time i w = .ok r) :
    ∃ m qs, Schedule it m qs ∧ Fires epsilon fuel root solver it lvl child x w r.2 m qs := by
  unfold iterateUntilDone at h
  split at h
  · exact absurd h (by simp)
  · rename_i w' hw'
    split at h
    · exact absurd h (by simp)
    · simp only [Except.ok.injEq] at h
      subst h
      obtain ⟨m, qs, ws, hm, hq0, hw0, hwm, hall⟩ := outerLoop_schedule epsilon root
        solver it lvl child fuel fuel _ i _ w' hw'
      refine ⟨m, qs, ⟨hm, hq0, ?_⟩, ws, hw0, hwm, ?_⟩
      · intro b hb
        obtain ⟨e, i', pre, r', g1, g2, g3, g4, g5, g6⟩ := hall b hb
        obtain ⟨s1, _, _⟩ := OUTER_TAIL_spec it lvl e.2.1 (qs b) pre.2 r' g3
        exact ⟨e, g1, by rw [← g4, s1], g6⟩
      · intro b hb
        obtain ⟨e, i', pre, r', g1, g2, g3, g4, g5, g6⟩ := hall b hb
        obtain ⟨_, s2, s3⟩ := OUTER_TAIL_spec it lvl e.2.1 (qs b) pre.2 r' g3
        exact ⟨e, i', pre, g1, g2, by rw [← g5, s2], by rw [← g5, s3]⟩

/-- The schedule of an iteration is determined by its members `events`,
`Forward` and the terminal time. -/
theorem schedule_unique (it : TimeIteration V) (m m' : Nat) (qs qs' : Nat → PriorityQueue V)
    (h : Schedule it m qs) (h' : Schedule it m' qs') :
    m = m' ∧ ∀ b, b ≤ m → qs b = qs' b := by
  obtain ⟨hm, h0, hall⟩ := h
  obtain ⟨hm', h0', hall'⟩ := h'
  have key : ∀ b, b ≤ m → b ≤ m' → qs b = qs' b := by
    intro b
    induction b with
    | zero => intro _ _; rw [h0, h0']
    | succ b ih =>
      intro hb hb'
      obtain ⟨e, t1, n1, _⟩ := hall b (by omega)
      obtain ⟨e', t1', n1', _⟩ := hall' b (by omega)
      rw [ih (by omega) (by omega), t1'] at t1
      simp only [Option.some.injEq] at t1
      rw [n1, n1', ih (by omega) (by omega), t1]
  have hmm : m = m' := by
    rcases Nat.lt_trichotomy m m' with hlt | heq | hgt
    · obtain ⟨e, t1, _, o1⟩ := hall (m - 1) (by omega)
      obtain ⟨e', t1', _, o1'⟩ := hall' (m - 1) (by omega)
      rw [key (m - 1) (by omega) (by omega), t1'] at t1
      simp only [Option.some.injEq] at t1
      rw [t1] at o1'
      have := o1.mp (o1'.mpr (by omega))
      omega
    · exact heq
    · obtain ⟨e, t1, _, o1⟩ := hall (m' - 1) (by omega)
      obtain ⟨e', t1', _, o1'⟩ := hall' (m' - 1) (by omega)
      rw [key (m' - 1) (by omega) (by omega), t1'] at t1
      simp only [Option.some.injEq] at t1
      rw [t1] at o1'
      have := o1'.mp (o1.mpr (by omega))
      omega
  refine ⟨hmm, ?_⟩
  intro b hb
  exact key b hb (by omega)

end TimeIteration

namespace TimeIteration

variable {S M V : Type}

theorem OUTER_TAIL_on_eq [Inhabited V] (a : Activation V) (lvl : Nat) (nextEventTime : Real)
    (w : World S V) (r : Activation V × World S V)
    (h : OUTER_TAIL_on a lvl nextEventTime w = .ok r) :
    r.1.self = a.self ∧
      OUTER_TAIL a.self lvl nextEventTime a.events w = .ok (r.1.events, r.2) := by
  unfold OUTER_TAIL_on at h
  unfold OUTER_TAIL
  simp only [] at h ⊢
  split at h
  · exact absurd h (by simp)
  · rename_i x hx
    simp only [Except.ok.injEq] at h
    subst h
    exact ⟨rfl, rfl⟩

/-- The outer loop on the object leaves the object as it is and marches as
`outerLoop` does from the local queue. -/
theorem outerLoopOn_spec [Inhabited V] (epsilon : Real) (root : IterationNode S M V)
    (solver : LinearSolver S M V) (lvl : Nat) (child : Option (Runner S V)) (inner : Nat) :
    ∀ (fuel : Nat) (a : Activation V) (i : Bool) (w : World S V) (r : Activation V × World S V),
      outerLoopOn epsilon root solver lvl child inner fuel a i w = .ok r →
      r.1.self = a.self ∧
        outerLoop epsilon root solver a.self lvl child inner fuel a.events i w = .ok r.2 := by
  intro fuel
  induction fuel with
  | zero => intro a i w r h; simp [outerLoopOn] at h
  | succ fuel ih =>
    intro a i w r h
    unfold outerLoopOn at h
    unfold outerLoop
    split at h
    · exact absurd h (by simp)
    · rename_i e he
      split at h
      · exact absurd h (by simp)
      · rename_i r1 hr1
        split at h
        · exact absurd h (by simp)
        · rename_i r2 hr2
          obtain ⟨hself, htail⟩ := OUTER_TAIL_on_eq a lvl e.2.1 r1.2 r2 hr2
          rw [htail]
          simp only []
          rw [hself] at h
          split_ifs at h with hO
          · obtain ⟨h1, h2⟩ := ih r2.1 r1.1 r2.2 r h
            rw [hself] at h2
            rw [if_pos hO]
            exact ⟨by rw [h1, hself], h2⟩
          · simp only [Except.ok.injEq] at h
            subst h
            rw [if_neg hO]
            exact ⟨hself, rfl⟩

/-- A run of `iterateUntilDone` on the object returns the object it was
called on, with the result of `iterateUntilDone`. -/
theorem iterateUntilDoneOn_spec [Inhabited V] (epsilon : Real) (fuel : Nat)
    (root : IterationNode S M V) (solver : LinearSolver S M V) (it : TimeIteration V)
    (lvl : Nat) (child : Option (Runner S V)) (x : V) (time : Real) (i : Bool) (w : World S V)
    (r : (V × World S V) × TimeIteration V)
    (h : iterateUntilDoneOn epsilon fuel root solver it lvl child x time i w = .ok r) :
    r.2 = it ∧ iterateUntilDone epsilon fuel root solver it lvl child x time i w = .ok r.1 := by
  unfold iterateUntilDoneOn at h
  unfold iterateUntilDone
  split at h
  · exact absurd h (by simp)
  · rename_i r1 hr1
    obtain ⟨hself, hloop⟩ := outerLoopOn_spec epsilon root solver lvl child fuel fuel _ i _ r1 hr1
    have hloop2 : outerLoop epsilon root solver it lvl child fuel fuel (OUTER_HEAD it) i
        (Iteration.opening lvl it.nodes x (SET_TIME it lvl w)) = .ok r1.2 := hloop
    rw [hloop2]
    simp only []
    split at h
    · exact absurd h (by simp)
    · rename_i x1 hx1
      simp only [Except.ok.injEq] at h
      subst h
      exact ⟨hself, rfl⟩

end TimeIteration

/-- C30 (the event queue is copied per solve). With the object `*this` and
the local queue of `iterateUntilDone` kept apart (`OUTER_HEAD` copies the
member `events` into the local `events`, which alone is popped), a run of
`iterateUntilDone` on a `TimeIteration` that returns leaves the members
`events` (the scheduled events) and `id` (the insertion counter) as they were.
When `iterateUntilDone` is then run again on the object and the world that the
first run left (with any initial vector and flag) and returns, the members are
again as they were, and both runs visit the same `m` boundaries over the same
working queues: at boundary `b` each applies the same events, in the same
order, at the same time. -/
theorem C30_queue_copied_per_solve {S M V : Type} [Inhabited V] (epsilon : Real) (fuel : Nat)
    (root : IterationNode S M V) (solver : LinearSolver S M V) (it : TimeIteration V)
    (lvl : Nat) (child : Option (Runner S V)) (x1 x2 : V) (t1 t2 : Real) (i1 i2 : Bool)
    (w : World S V) (r1 r2 : (V × World S V) × TimeIteration V)
    (h1 : TimeIteration.iterateUntilDoneOn epsilon fuel root solver it lvl child x1 t1 i1 w
      = .ok r1)
    (h2 : TimeIteration.iterateUntilDoneOn epsilon fuel root solver r1.2 lvl child x2 t2 i2
      r1.1.2 = .ok r2) :
    r1.2.events = it.events ∧ r1.2.id = it.id ∧
    r2.2.events = it.events ∧ r2.2.id = it.id ∧
    ∃ (m : Nat) (qs : Nat → PriorityQueue V), TimeIteration.Schedule it m qs ∧
      TimeIteration.Fires epsilon fuel root solver it lvl child x1 w r1.1.2 m qs ∧
      TimeIteration.Fires epsilon fuel root solver r1.2 lvl child x2 r1.1.2 r2.1.2 m qs := by
  obtain ⟨e1, g1⟩ := TimeIteration.iterateUntilDoneOn_spec epsilon fuel root solver it lvl child
    x1 t1 i1 w r1 h1
  obtain ⟨e2, g2⟩ := TimeIteration.iterateUntilDoneOn_spec epsilon fuel root solver r1.2 lvl
    child x2 t2 i2 r1.1.2 r2 h2
  obtain ⟨m, qs, hs, hf⟩ := TimeIteration.run_fires epsilon fuel root solver it lvl child
    x1 t1 i1 w r1.1 g1
  obtain ⟨m', qs', hs', ws', hw0', hwm', hall'⟩ := TimeIteration.run_fires epsilon fuel root
    solver r1.2 lvl child x2 t2 i2 r1.1.2 r2.1 g2
  have hs2 : TimeIteration.Schedule it m' qs' := by rw [← e1]; exact hs'
  obtain ⟨hmm, hqq⟩ := TimeIteration.schedule_unique it m m' qs qs' hs hs2
  subst hmm
  refine ⟨by rw [e1], by rw [e1], by rw [e2, e1], by rw [e2, e1], m, qs, hs, hf, ws', hw0',
    hwm', ?_⟩
  intro b hb
  rw [hqq b (by omega)]
  exact hall' b hb

/-- Witness of C30: scenario S4 marched forward twice in a row, from the
vector 3 and then, on the object and the world left by the first run, from the
vector 5. -/
theorem C30_queue_copied_per_solve_witness :
    ∃ r1 r2,
      TimeIteration.iterateUntilDoneOn (1 / 1000) 3 (carryRoot 0) identitySolver
        (S4iteration true) 0 none (3 : Real) (-1) false (World.fresh 1) = .ok r1 ∧
      TimeIteration.iterateUntilDoneOn (1 / 1000) 3 (carryRoot 0) identitySolver r1.2
        0 none (5 : Real) (-1) true r1.1.2 = .ok r2 ∧
      r1.2.events = (S4iteration true).events ∧ r1.2.id = (S4iteration true).id ∧
      r2.2.events = (S4iteration true).events ∧ r2.2.id = (S4iteration true).id ∧
      ∃ (m : Nat) (qs : Nat → PriorityQueue Real), TimeIteration.Schedule (S4iteration true) m qs ∧
        TimeIteration.Fires (1 / 1000) 3 (carryRoot 0) identitySolver (S4iteration true) 0 none
          3 (World.fresh 1) r1.1.2 m qs ∧
        TimeIteration.Fires (1 / 1000) 3 (carryRoot 0) identitySolver r1.2 0 none
          5 r1.1.2 r2.1.2 m qs := by
  have hok : ((TimeIteration.iterateUntilDoneOn (1 / 1000) 3 (carryRoot 0) identitySolver
      (S4iteration true) 0 none (3 : Real) (-1) false (World.fresh 1)).bind (fun r1 =>
        TimeIteration.iterateUntilDoneOn (1 / 1000) 3 (carryRoot 0) identitySolver
          r1.2 0 none (5 : Real) (-1) true r1.1.2)).toOption.isSome = true := by
    decide!
  cases hr1 : TimeIteration.iterateUntilDoneOn (1 / 1000) 3 (carryRoot 0) identitySolver
      (S4iteration true) 0 none (3 : Real) (-1) false (World.fresh 1) with
  | error e => rw [hr1] at hok; exact absurd hok (by simp [Except.toOption, Except.bind])
  | ok r1 =>
    rw [hr1] at hok
    cases hr2 : TimeIteration.iterateUntilDoneOn (1 / 1000) 3 (carryRoot 0) identitySolver
        r1.2 0 none (5 : Real) (-1) true r1.1.2 with
    | error e =>
      simp only [Except.bind] at hok
      rw [hr2] at hok
      exact absurd hok (by simp [Except.toOption])
    | ok r2 =>
      exact ⟨r1, r2, rfl, hr2, C30_queue_copied_per_solve (1 / 1000) 3 (carryRoot 0)
        identitySolver (S4iteration true) 0 none 3 5 (-1) (-1) false true (World.fresh 1) r1 r2
        hr1 hr2⟩

/-! ## The counts of steps of a nested solve -/

namespace Iteration

variable {S M V : Type}

theorem march_append {W : Type} {step : W → Nat → W → Prop} {boundary : W → W → Prop}
    {w w1 w2 : W} {cs1 cs2 : List Nat} (h1 : March step boundary w cs1 w1)
    (h2 : March step boundary w1 cs2 w2) : March step boundary w (cs1 ++ cs2) w2 := by
  induction h2 with
  | start => simpa using h1
  | step _ hs ih => rw [← List.append_assoc]; exact March.step ih hs
  | boundary _ hb ih => exact March.boundary ih hb

/-- Along a march whose steps run `++its.back()` at level `L` and whose
boundaries leave `its` alone, the last entry of `its` counts the steps. -/
theorem march_count (L : Nat) {step : World S V → Nat → World S V → Prop}
    {boundary : World S V → World S V → Prop}
    (hP : ∀ a c b, step a c b → (b.vars L).its = incrementBack (a.vars L).its)
    (hB : ∀ a b, boundary a b → (b.vars L).its = (a.vars L).its)
    {w w' : World S V} {cs : List Nat} (h : March step boundary w cs w') (l : List Nat) (n : Nat)
    (h0 : (w.vars L).its = l ++ [n]) : (w'.vars L).its = l ++ [n + cs.length] := by
  induction h with
  | start => simpa using h0
  | step _ hs ih =>
    rw [hP _ _ _ hs, ih, incrementBack_append_singleton]
    simp [Nat.add_assoc]
  | boundary _ hb ih => rw [hB _ _ hb, ih]

/-- Along a march whose steps each append their label to `its` at level `L`
and whose boundaries leave it alone, `its` grows by the labels. -/
theorem march_labels (L : Nat) {step : World S V → Nat → World S V → Prop}
    {boundary : World S V → World S V → Prop}
    (hP : ∀ a c b, step a c b → (b.vars L).its = (a.vars L).its ++ [c])
    (hB : ∀ a b, boundary a b → (b.vars L).its = (a.vars L).its)
    {w w' : World S V} {cs : List Nat} (h : March step boundary w cs w') :
    (w'.vars L).its = (w.vars L).its ++ cs := by
  induction h with
  | start => simp
  | step _ hs ih => rw [hP _ _ _ hs, ih, List.append_assoc]
  | boundary _ hb ih => rw [hB _ _ hb, ih]

/-- A run of the step loop that returns is a march of at least one step. -/
theorem stepLoop_march (root : IterationNode S M V) (solver : LinearSolver S M V) (lvl : Nat)
    (nodes : List Nat) (child : Option (Runner S V))
    (TIMESTEP : World S V → Except Error (World S V))
    (NOT_DONE : World S V → Except Error Bool)
    (P : World S V → Nat → World S V → Prop) (B : World S V → World S V → Prop)
    (hstep : ∀ i a b, turn root solver lvl nodes child TIMESTEP i a = .ok b → ∃ c, P a c b)
    (fuel : Nat) (i : Bool) (w : World S V) (r : Bool × World S V)
    (h : stepLoop root solver lvl nodes child TIMESTEP NOT_DONE fuel i w = .ok r) :
    ∃ cs, 1 ≤ cs.length ∧ March P B w cs r.2 := by
  obtain ⟨k, ws, hk1, _, h0, hk, hturn, _, _⟩ := stepLoop_trace root solver lvl nodes child
    TIMESTEP NOT_DONE fuel i w r h
  have key : ∀ n, n ≤ k → ∃ cs, cs.length = n ∧ March P B (ws 0) cs (ws n) := by
    intro n
    induction n with
    | zero => intro _; exact ⟨[], rfl, March.start _⟩
    | succ n ih =>
      intro hn
      obtain ⟨cs, hlen, hm⟩ := ih (by omega)
      obtain ⟨c, hc⟩ := hstep _ _ _ (hturn n (by omega))
      exact ⟨cs ++ [c], by simp [hlen], March.step hm hc⟩
  obtain ⟨cs, hlen, hm⟩ := key k (le_refl _)
  rw [h0, hk] at hm
  exact ⟨cs, by omega, hm⟩

end Iteration

/-- A run of the loop over the event boundaries that returns is a march of at
least one step. -/
theorem TimeIteration.outerLoop_march {S M V : Type} [Inhabited V] (epsilon : Real)
    (root : IterationNode S M V) (solver : LinearSolver S M V) (it : TimeIteration V) (lvl : Nat)
    (child : Option (Runner S V)) (inner : Nat) (P : World S V → Nat → World S V → Prop)
    (hstep : ∀ ne i a b, Iteration.turn root solver lvl it.nodes child
      (TimeIteration.TIMESTEP epsilon it lvl ne) i a = .ok b → ∃ c, P a c b)
    (fuel : Nat) (events : PriorityQueue V) (i : Bool) (w w' : World S V)
    (h : TimeIteration.outerLoop epsilon root solver it lvl child inner fuel events i w = .ok w') :
    ∃ cs, 1 ≤ cs.length ∧
      Iteration.March P ((IterationKind.time it).boundary lvl) w cs w' := by
  obtain ⟨m, qs, ws, hm, _, hw0, hwm, hall⟩ := TimeIteration.outerLoop_trace epsilon root solver
    it lvl child inner fuel events i w w' h
  have key : ∀ b, b ≤ m → ∃ cs, b ≤ cs.length ∧
      Iteration.March P ((IterationKind.time it).boundary lvl) (ws 0) cs (ws b) := by
    intro b
    induction b with
    | zero => intro _; exact ⟨[], le_refl _, Iteration.March.start _⟩
    | succ b ih =>
      intro hb
      obtain ⟨cs, hlen, hmarch⟩ := ih (by omega)
      obtain ⟨e, i', r, r', _, g2, g3, _, g5⟩ := hall b (by omega)
      obtain ⟨cs', hlen', hmarch'⟩ := Iteration.stepLoop_march root solver lvl it.nodes child _ _
        P ((IterationKind.time it).boundary lvl) (hstep e.2.1) inner i' (ws b) r g2
      refine ⟨cs ++ cs', by simp; omega, ?_⟩
      refine Iteration.March.boundary (Iteration.march_append hmarch hmarch') ?_
      exact ⟨e.2.1, qs b, r', g3, g5⟩
  obtain ⟨cs, hlen, hmarch⟩ := key m (le_refl _)
  rw [hw0, hwm] at hmarch
  exact ⟨cs, by omega, hmarch⟩

/-- A run of `iterateUntilDone` that returns is, after its opening, a march of
at least one step. -/
theorem IterationKind.run_march {S M V : Type} [Inhabited V] (epsilon : Real) (fuel : Nat)
    (root : IterationNode S M V) (solver : LinearSolver S M V) (k : IterationKind V)
    (rest : List (IterationKind V)) (lvl : Nat) (P : World S V → Nat → World S V → Prop)
    (hstep : ∀ ne i a b, Iteration.turn root solver lvl k.nodes
      (runChain epsilon fuel root solver rest (lvl + 1)) (k.TIMESTEP epsilon lvl ne) i a = .ok b →
      ∃ c, P a c b)
    (run : Runner S V) (hrun : runChain epsilon fuel root solver (k :: rest) lvl = some run)
    (x : V) (time : Real) (i : Bool) (w : World S V) (r : V × World S V)
    (h : run x time i w = .ok r) :
    ∃ cs, 1 ≤ cs.length ∧
      Iteration.March P (k.boundary lvl)
        (Iteration.opening lvl k.nodes x (k.SET_TIME lvl time w)) cs r.2 := by
  cases k with
  | tolerance it =>
    simp only [runChain, Option.some.injEq] at hrun
    subst hrun
    unfold ToleranceIteration.iterateUntilDone at h
    simp only [] at h
    split at h
    · exact absurd h (by simp)
    · rename_i r' hr'
      split at h
      · exact absurd h (by simp)
      · simp only [Except.ok.injEq] at h
        subst h
        exact Iteration.stepLoop_march root solver lvl it.nodes _ _ _ P _ (hstep 0) fuel i _ r' hr'
  | time it =>
    simp only [runChain, Option.some.injEq] at hrun
    subst hrun
    unfold TimeIteration.iterateUntilDone at h
    split at h
    · exact absurd h (by simp)
    · rename_i w' hw'
      split at h
      · exact absurd h (by simp)
      · simp only [Except.ok.injEq] at h
        subst h
        exact TimeIteration.outerLoop_march epsilon root solver it lvl _ fuel P hstep fuel _ i _
          w' hw'

/-- The phase `TIMESTEP` of either class acts on its own level only and leaves
`its` as it is. -/
theorem IterationKind.TIMESTEP_vars {S V : Type} (epsilon : Real) (k : IterationKind V)
    (lvl : Nat) (ne : Real) (w w1 : World S V) (h : k.TIMESTEP epsilon lvl ne w = .ok w1) :
    (w1.vars lvl).its = (w.vars lvl).its ∧ ∀ j, j ≠ lvl → w1.vars j = w.vars j := by
  cases k with
  | tolerance it =>
    simp only [IterationKind.TIMESTEP, Except.ok.injEq] at h
    rw [← h]
    exact ⟨rfl, fun _ _ => rfl⟩
  | time it =>
    simp only [IterationKind.TIMESTEP, TimeIteration.TIMESTEP] at h
    split_ifs at h
    simp only [Except.ok.injEq] at h
    rw [← h]
    refine ⟨by simp, fun j hj => Iteration.vars_setVars_ne _ _ _ _ hj⟩

/-- An event boundary acts on its own level only and leaves `its` as it is. -/
theorem IterationKind.boundary_vars {S V : Type} [Inhabited V] (k : IterationKind V) (lvl : Nat)
    (a b : World S V) (h : k.boundary lvl a b) :
    (b.vars lvl).its = (a.vars lvl).its ∧ ∀ j, j ≠ lvl → b.vars j = a.vars j := by
  cases k with
  | tolerance it => exact absurd h (by simp [IterationKind.boundary])
  | time it =>
    obtain ⟨ne, events, r, hr, hb⟩ := h
    subst hb
    unfold TimeIteration.OUTER_TAIL at hr
    simp only [] at hr
    split at hr
    · exact absurd hr (by simp)
    · simp only [Except.ok.injEq] at hr
      subst hr
      constructor
      · simp [Iteration.vars_pushHistory, Iteration.clearHistory]
      · intro j hj
        simp [Iteration.vars_pushHistory_ne _ _ _ _ _ hj, Iteration.clearHistory,
          Iteration.vars_setVars_ne _ _ _ _ hj]

/-- The phase `SET_TIME` of either class acts on its own level only and leaves
`its` as it is. -/
theorem IterationKind.SET_TIME_vars {S V : Type} (k : IterationKind V) (lvl : Nat) (time : Real)
    (w : World S V) :
    ((k.SET_TIME lvl time w).vars lvl).its = (w.vars lvl).its ∧
    ∀ j, j ≠ lvl → (k.SET_TIME lvl time w).vars j = w.vars j := by
  cases k with
  | tolerance it =>
    exact ⟨by simp [IterationKind.SET_TIME], fun j hj => Iteration.vars_setVars_ne _ _ _ _ hj⟩
  | time it =>
    exact ⟨by simp [IterationKind.SET_TIME, TimeIteration.SET_TIME],
      fun j hj => Iteration.vars_setVars_ne _ _ _ _ hj⟩

/-- One step of an iteration of either class runs `++its.back()` once. -/
theorem IterationKind.turn_its {S M V : Type} [Inhabited V] (epsilon : Real) (fuel : Nat)
    (root : IterationNode S M V) (solver : LinearSolver S M V) (k : IterationKind V)
    (rest : List (IterationKind V)) (lvl : Nat) (ne : Real) (i : Bool) (a b : World S V)
    (h : Iteration.turn root solver lvl k.nodes (runChain epsilon fuel root solver rest (lvl + 1))
      (k.TIMESTEP epsilon lvl ne) i a = .ok b) :
    (b.vars lvl).its = Iteration.incrementBack (a.vars lvl).its := by
  obtain ⟨w1, x, hw1, hv, _⟩ := Iteration.turn_vars root solver lvl k.nodes _
    (fun run hr => runChain_frame epsilon fuel root solver rest (lvl + 1) run hr) _ i a b h
  rw [hv]
  simp only []
  rw [(IterationKind.TIMESTEP_vars epsilon k lvl ne a w1 hw1).1]

/-- The count that a run of `iterateUntilDone` appends to `iterations()` is
the number of steps of the run. -/
theorem IterationKind.run_count {S M V : Type} [Inhabited V] (epsilon : Real) (fuel : Nat)
    (root : IterationNode S M V) (solver : LinearSolver S M V) (k : IterationKind V)
    (rest : List (IterationKind V)) (lvl : Nat) (x : V) (time : Real) (w w' : World S V)
    (c : Nat)
    (h : Iteration.RunSteps epsilon fuel root solver k rest lvl x time w w' c) :
    (w'.vars lvl).its = (w.vars lvl).its ++ [c] := by
  obtain ⟨cs, hlen, hmarch⟩ := h
  have := Iteration.march_count lvl
    (fun a _ b hs => by
      obtain ⟨ne, i, ht⟩ := hs
      exact IterationKind.turn_its epsilon fuel root solver k rest lvl ne i a b ht)
    (fun a b hb => (IterationKind.boundary_vars k lvl a b hb).1)
    hmarch (w.vars lvl).its 0
    (by rw [Iteration.vars_opening]; simp [(IterationKind.SET_TIME_vars k lvl time w).1])
  rw [this, hlen]
  simp

/-- A run of `iterateUntilDone` that returns made at least one step. -/
theorem IterationKind.run_steps {S M V : Type} [Inhabited V] (epsilon : Real) (fuel : Nat)
    (root : IterationNode S M V) (solver : LinearSolver S M V) (k : IterationKind V)
    (rest : List (IterationKind V)) (lvl : Nat)
    (run : Runner S V) (hrun : runChain epsilon fuel root solver (k :: rest) lvl = some run)
    (x : V) (time : Real) (i : Bool) (w : World S V) (r : V × World S V)
    (h : run x time i w = .ok r) :
    ∃ c, 1 ≤ c ∧ Iteration.RunSteps epsilon fuel root solver k rest lvl x time w r.2 c := by
  obtain ⟨cs, hlen, hmarch⟩ := IterationKind.run_march epsilon fuel root solver k rest lvl
    (fun a _ b => ∃ ne i, Iteration.turn root solver lvl k.nodes
      (runChain epsilon fuel root solver rest (lvl + 1)) (k.TIMESTEP epsilon lvl ne) i a = .ok b)
    (fun ne i a b ht => ⟨0, ne, i, ht⟩) run hrun x time i w r h
  exact ⟨cs.length, hlen, cs, rfl, hmarch⟩

/-- A step of an iteration with a child is a step in which the child made some
number of steps. -/
theorem IterationKind.turn_counting {S M V : Type} [Inhabited V] (epsilon : Real) (fuel : Nat)
    (root : IterationNode S M V) (solver : LinearSolver S M V) (k k' : IterationKind V)
    (rest : List (IterationKind V)) (lvl : Nat) (ne : Real) (i : Bool) (a b : World S V)
    (h : Iteration.turn root solver lvl k.nodes
      (runChain epsilon fuel root solver (k' :: rest) (lvl + 1)) (k.TIMESTEP epsilon lvl ne) i a
      = .ok b) :
    ∃ c, Iteration.StepCounting epsilon fuel root solver k k' rest lvl a c b := by
  unfold Iteration.turn at h
  split at h
  · exact absurd h (by simp)
  · rename_i w1 hw1
    split at h
    · exact absurd h (by simp)
    · rename_i w2 hw2
      simp only [Except.ok.injEq] at h
      subst h
      obtain ⟨run, hrun⟩ : ∃ run, runChain epsilon fuel root solver (k' :: rest) (lvl + 1)
          = some run := by
        cases k' <;> exact ⟨_, rfl⟩
      rw [hrun] at hw2
      unfold Iteration.produce at hw2
      simp only [] at hw2
      split at hw2
      · exact absurd hw2 (by simp)
      · rename_i x hx
        split at hw2
        · exact absurd hw2 (by simp)
        · rename_i r hr
          simp only [Except.ok.injEq] at hw2
          subst hw2
          obtain ⟨c, _, hc⟩ := IterationKind.run_steps epsilon fuel root solver k' rest (lvl + 1)
            run hrun x _ i _ r hr
          exact ⟨c, ne, i, w1, x, r, hw1, hx, ⟨run, hrun, hr⟩, hc, rfl⟩

/-- In a step in which the child made `c` steps, the count of the iteration
goes up by one and the child appends `c` to its counts. -/
theorem IterationKind.stepCounting_its {S M V : Type} [Inhabited V] (epsilon : Real) (fuel : Nat)
    (root : IterationNode S M V) (solver : LinearSolver S M V) (k k' : IterationKind V)
    (rest : List (IterationKind V)) (lvl : Nat) (a b : World S V) (c : Nat)
    (h : Iteration.StepCounting epsilon fuel root solver k k' rest lvl a c b) :
    (b.vars lvl).its = Iteration.incrementBack (a.vars lvl).its ∧
    (b.vars (lvl + 1)).its = (a.vars (lvl + 1)).its ++ [c] := by
  obtain ⟨ne, i, w1, x, r, hw1, hx, ⟨run, hrun, hr⟩, hc, hb⟩ := h
  obtain ⟨t1, t2⟩ := IterationKind.TIMESTEP_vars epsilon k lvl ne a w1 hw1
  have hframe := runChain_frame epsilon fuel root solver (k' :: rest) (lvl + 1) run hrun
    _ _ _ _ _ hr lvl (by omega)
  have hcount := IterationKind.run_count epsilon fuel root solver k' rest (lvl + 1) x _ _ _ c hc
  subst hb
  constructor
  · rw [Iteration.vars_TAIL]
    simp only []
    rw [Iteration.vars_pushHistory]
    simp only []
    rw [hframe]
    simp only [Iteration.vars_startNodes]
    rw [t1]
  · rw [Iteration.vars_TAIL_ne _ _ _ _ (by omega), Iteration.vars_pushHistory_ne _ _ _ _ _ (by omega),
      hcount]
    simp only [Iteration.vars_startNodes]
    rw [t2 (lvl + 1) (by omega)]

namespace Iteration

variable {S M V : Type}

theorem solveSetup_frame [Inhabited V] (lookbackOf : Nat → Int) (chain : List (IterationKind V)) :
    ∀ (lvl : Nat) (w : World S V) (j : Nat), j < lvl →
      (solveSetup lookbackOf chain lvl w).vars j = w.vars j := by
  induction chain with
  | nil => intro lvl w j _; rfl
  | cons k rest ih =>
    intro lvl w j hj
    simp only [solveSetup]
    rw [ih (lvl + 1) _ j (by omega), vars_setVars_ne _ _ _ _ (by omega)]

/-- The loop of `solve` clears the counts of every iteration of the chain. -/
theorem solveSetup_its [Inhabited V] (lookbackOf : Nat → Int) (chain : List (IterationKind V)) :
    ∀ (lvl : Nat) (w : World S V) (j : Nat), lvl ≤ j → j < lvl + chain.length →
      ((solveSetup lookbackOf chain lvl w).vars j).its = [] := by
  induction chain with
  | nil => intro lvl w j h1 h2; simp at h2; omega
  | cons k rest ih =>
    intro lvl w j h1 h2
    simp only [solveSetup]
    by_cases hj : j = lvl
    · subst hj
      rw [solveSetup_frame lookbackOf rest (j + 1) _ j (by omega)]
      simp
    · exact ih (lvl + 1) _ j (by omega) (by simp at h2; omega)

end Iteration

/-- C26 (per-outer-step inner counts). For a solve on a chain whose outermost
iteration is a time iteration with a child: the loop of `solve` leaves the
counts of every iteration of the chain empty; and when the solve returns, the
run of the outer iteration is a succession of steps and event boundaries in
which step number `j` ran the child once, the child making `cs[j]` steps of
its own; `iterations()` of the outer iteration is `[K]` with `K` the number of
outer steps, and `iterations()` of the child is `cs`: one entry per outer
step, in order, entry `j` the number of inner steps run inside outer step
`j`. -/
theorem C26_inner_counts {S M V : Type} [Inhabited V] (epsilon : Real) (fuel : Nat)
    (root : IterationNode S M V) (solver : LinearSolver S M V) (lookbackOf : Nat → Int)
    (it : TimeIteration V) (k : IterationKind V) (rest : List (IterationKind V)) (x0 : V)
    (w : World S V) (r : V × World S V)
    (h : Iteration.solve epsilon fuel root solver lookbackOf (IterationKind.time it :: k :: rest)
      x0 w = .ok r) :
    (∀ j, j < (IterationKind.time it :: k :: rest).length →
      ((Iteration.solveSetup lookbackOf (IterationKind.time it :: k :: rest) 0 w).vars j).its
        = []) ∧
    ∃ cs : List Nat,
      Iteration.March
        (Iteration.StepCounting epsilon fuel root solver (IterationKind.time it) k rest 0)
        ((IterationKind.time it).boundary 0)
        (Iteration.opening 0 it.nodes x0 (TimeIteration.SET_TIME it 0
          (Iteration.solveSetup lookbackOf (IterationKind.time it :: k :: rest) 0 w))) cs r.2 ∧
      1 ≤ cs.length ∧
      (r.2.vars 0).its = [cs.length] ∧ (r.2.vars 1).its = cs := by
  have hclear : ∀ j, j < (IterationKind.time it :: k :: rest).length →
      ((Iteration.solveSetup lookbackOf (IterationKind.time it :: k :: rest) 0 w).vars j).its
        = [] := fun j hj =>
    Iteration.solveSetup_its lookbackOf _ 0 w j (Nat.zero_le _) (by omega)
  refine ⟨hclear, ?_⟩
  unfold Iteration.solve at h
  obtain ⟨run, hrun⟩ : ∃ run, runChain epsilon fuel root solver
      (IterationKind.time it :: k :: rest) 0 = some run := ⟨_, rfl⟩
  rw [hrun] at h
  simp only [] at h
  obtain ⟨cs, hlen, hmarch⟩ := IterationKind.run_march epsilon fuel root solver
    (IterationKind.time it) (k :: rest) 0
    (Iteration.StepCounting epsilon fuel root solver (IterationKind.time it) k rest 0)
    (fun ne i a b ht =>
      IterationKind.turn_counting epsilon fuel root solver (IterationKind.time it) k rest 0 ne i
        a b ht)
    run hrun x0 (-1) false _ r h
  refine ⟨cs, hmarch, hlen, ?_, ?_⟩
  · have := Iteration.march_count 0
      (fun a c b hs =>
        (IterationKind.stepCounting_its epsilon fuel root solver _ k rest 0 a b c hs).1)
      (fun a b hb => (IterationKind.boundary_vars (IterationKind.time it) 0 a b hb).1)
      hmarch [] 0
      (by
        rw [Iteration.vars_opening]
        simp only []
        rw [(IterationKind.SET_TIME_vars (IterationKind.time it) 0 (-1) _).1,
          hclear 0 (by simp)])
    simpa using this
  · have := Iteration.march_labels 1
      (fun a c b hs =>
        (IterationKind.stepCounting_its epsilon fuel root solver _ k rest 0 a b c hs).2)
      (fun a b hb => by
        rw [(IterationKind.boundary_vars (IterationKind.time it) 0 a b hb).2 1 (by omega)])
      hmarch
    rw [this, Iteration.vars_opening_ne _ _ _ _ _ (by omega),
      (IterationKind.SET_TIME_vars (IterationKind.time it) 0 (-1) _).2 1 (by omega),
      hclear 1 (by simp)]
    simp

/-- Witness of C26: a forward constant stepper on `[0, 1]` with timestep 1/2
(nodes 7 and 8) wraps the tolerance iteration `hookedTolerance` (node 9); the
root `clampRoot 1` gives `min(iterand(0), 1)`; from the vector 3 the outer
iteration makes 2 steps and the inner counts are `[2, 1]`. -/
theorem C26_inner_counts_witness :
    ∃ r, Iteration.solve (1 / 1000) 3 (clampRoot 1) identitySolver (fun _ => 1)
        [IterationKind.time hookedStepper, IterationKind.tolerance hookedTolerance] (3 : Real)
        (World.fresh 1) = .ok r ∧
      ((r.2.vars 0).its, (r.2.vars 1).its) = ([2], [2, 1]) ∧
      ∃ cs : List Nat,
        Iteration.March
          (Iteration.StepCounting (1 / 1000) 3 (clampRoot 1) identitySolver
            (IterationKind.time hookedStepper) (IterationKind.tolerance hookedTolerance) [] 0)
          ((IterationKind.time hookedStepper).boundary 0)
          (Iteration.opening 0 hookedStepper.nodes (3 : Real) (TimeIteration.SET_TIME hookedStepper 0
            (Iteration.solveSetup (fun _ => 1)
              [IterationKind.time hookedStepper, IterationKind.tolerance hookedTolerance] 0
              (World.fresh 1)))) cs r.2 ∧
        1 ≤ cs.length ∧
        (r.2.vars 0).its = [cs.length] ∧ (r.2.vars 1).its = cs := by
  have hval : (Iteration.solve (1 / 1000) 3 (clampRoot 1) identitySolver (fun _ => 1)
      [IterationKind.time hookedStepper, IterationKind.tolerance hookedTolerance] (3 : Real)
      (World.fresh 1)).toOption.map (fun r => ((r.2.vars 0).its, (r.2.vars 1).its))
      = some ([2], [2, 1]) := by
    decide!
  cases hr : Iteration.solve (1 / 1000) 3 (clampRoot 1) identitySolver (fun _ => 1)
      [IterationKind.time hookedStepper, IterationKind.tolerance hookedTolerance] (3 : Real)
      (World.fresh 1) with
  | error e => rw [hr] at hval; exact absurd hval (by simp [Except.toOption])
  | ok r =>
    rw [hr] at hval
    refine ⟨r, rfl, by simpa [Except.toOption] using hval, ?_⟩
    exact (C26_inner_counts (1 / 1000) 3 (clampRoot 1) identitySolver (fun _ => 1) hookedStepper
      (IterationKind.tolerance hookedTolerance) [] 3 (World.fresh 1) r hr).2

/-! ## Controllable coefficients and controls -/

namespace ControlledLinearSystem

variable {D : Nat} {V : Type}

theorem registered_controls (wrappers : Nat → Controllable D V) (regs : List Nat) :
    (regs.foldl registerControl (new wrappers)).controls
      = regs.filter (fun a => (wrappers a).isControllable) ∧
    (regs.foldl registerControl (new wrappers)).wrappers = wrappers := by
  induction regs using List.reverseRecOn with
  | nil => exact ⟨rfl, rfl⟩
  | append_singleton l a ih =>
    rw [List.foldl_append, List.filter_append]
    simp only [List.foldl_cons, List.foldl_nil]
    obtain ⟨h1, h2⟩ := ih
    generalize l.foldl registerControl (new wrappers) = s at h1 h2 ⊢
    by_cases h : (wrappers a).isControllable = true
    · simp [registerControl, h1, h2, h]
    · simp [registerControl, h1, h2, h]

theorem setInputsLoop_spec (controls : List Nat) :
    ∀ (wrappers : Nat → Controllable D V) (inputs : List V), controls.Nodup →
      (∀ (k : Nat) (a : Nat) (v : V), controls[k]? = some a → inputs[k]? = some v →
        setInputsLoop wrappers controls inputs a = (wrappers a).setInput v) ∧
      (∀ a, a ∉ controls → setInputsLoop wrappers controls inputs a = wrappers a) := by
  induction controls with
  | nil =>
    intro wrappers inputs _
    refine ⟨fun k a v h1 => absurd h1 (by simp), fun a _ => ?_⟩
    cases inputs <;> rfl
  | cons c cs ih =>
    intro wrappers inputs hnd
    rw [List.nodup_cons] at hnd
    cases inputs with
    | nil =>
      refine ⟨fun k a v _ h2 => absurd h2 (by simp), fun a _ => rfl⟩
    | cons v vs =>
      obtain ⟨i1, i2⟩ := ih (Function.update wrappers c ((wrappers c).setInput v)) vs hnd.2
      constructor
      · intro k a u h1 h2
        cases k with
        | zero =>
          simp only [List.getElem?_cons_zero, Option.some.injEq] at h1 h2
          subst h1 h2
          simp only [setInputsLoop]
          rw [i2 _ hnd.1, Function.update_same]
        | succ k =>
          simp only [List.getElem?_cons_succ] at h1 h2
          simp only [setInputsLoop]
          rw [i1 k a u h1 h2]
          have hne : a ≠ c := by
            intro h
            apply hnd.1
            rw [← h]
            exact List.getElem?_mem h1
          rw [Function.update_noteq hne]
      · intro a ha
        simp only [setInputsLoop]
        rw [i2 a (fun h => ha (List.mem_cons_of_mem _ h)),
          Function.update_noteq (fun h => ha (by rw [h]; exact List.mem_cons_self _ _))]

end ControlledLinearSystem

/-- C31 (Controllable variants). For every time `t` and coordinates `x`: a
`Controllable` built from a constant `c` has value `c`, is constant in time
and is not controllable; built from a function `f` of space and time it has
value `f(t, x)` and is not constant in time; built from a function `g` of
space it has value `g(x)` and is constant in time; none of the three is
controllable, `setInput` leaves the value of each as it was, and a copy of each
gives the same answers. -/
theorem C31_controllable_variants {D : Nat} {V : Type} (c : Real)
    (f : (Fin (D + 1) → Real) → Real) (g : (Fin D → Real) → Real) (t : Real) (x : Fin D → Real)
    (input : V) :
    ((Controllable.ofConstant c : Controllable D V).call t x = some c ∧
      (Controllable.ofConstant c : Controllable D V).isConstantInTime = true ∧
      (Controllable.ofConstant c : Controllable D V).isControllable = false ∧
      ((Controllable.ofConstant c : Controllable D V).setInput input).call t x = some c ∧
      (Controllable.ofConstant c : Controllable D V).copy.call t x = some c ∧
      (Controllable.ofConstant c : Controllable D V).copy.isConstantInTime = true ∧
      (Controllable.ofConstant c : Controllable D V).copy.isControllable = false) ∧
    ((Controllable.ofFunctionST f : Controllable D V).call t x = some (f (Fin.cons t x)) ∧
      (Controllable.ofFunctionST f : Controllable D V).isConstantInTime = false ∧
      (Controllable.ofFunctionST f : Controllable D V).isControllable = false ∧
      ((Controllable.ofFunctionST f : Controllable D V).setInput input).call t x
        = some (f (Fin.cons t x)) ∧
      (Controllable.ofFunctionST f : Controllable D V).copy.call t x = some (f (Fin.cons t x)) ∧
      (Controllable.ofFunctionST f : Controllable D V).copy.isConstantInTime = false ∧
      (Controllable.ofFunctionST f : Controllable D V).copy.isControllable = false) ∧
    ((Controllable.ofFunctionS g : Controllable D V).call t x = some (g x) ∧
      (Controllable.ofFunctionS g : Controllable D V).isConstantInTime = true ∧
      (Controllable.ofFunctionS g : Controllable D V).isControllable = false ∧
      ((Controllable.ofFunctionS g : Controllable D V).setInput input).call t x = some (g x) ∧
      (Controllable.ofFunctionS g : Controllable D V).copy.call t x = some (g x) ∧
      (Controllable.ofFunctionS g : Controllable D V).copy.isConstantInTime = true ∧
      (Controllable.ofFunctionS g : Controllable D V).copy.isControllable = false) := by
  refine ⟨⟨rfl, rfl, rfl, rfl, rfl, rfl, rfl⟩, ⟨rfl, rfl, rfl, rfl, rfl, rfl, rfl⟩,
    ⟨?_, rfl, rfl, ?_, ?_, rfl, rfl⟩⟩
  · simp [Controllable.call, Controllable.ofFunctionS, Controllable.Base.value]
  · simp [Controllable.call, Controllable.ofFunctionS, Controllable.Base.value,
      Controllable.setInput, Controllable.Base.setInput]
  · simp [Controllable.call, Controllable.ofFunctionS, Controllable.Base.value,
      Controllable.copy, Controllable.Base.clone]


/-- C32, counterexample. One control wrapper (object 0, whose factory makes
the interpolant with the constant value of its input) is registered twice:
`controlDimension()` is 2, `setInputs(1, 2)` passes its assertion, and
afterwards the first registered control has the value of the second input, not
`factory.make(v_1)(x) = 1`. -/
theorem C32_control_dispatch_counterexample :
    ([0, 0].foldl ControlledLinearSystem.registerControl
      (ControlledLinearSystem.new
        (fun _ => (Controllable.ofControl (fun v _ => v) : Controllable 1 Real)))).controlDimension
      = 2 ∧
    (([0, 0].foldl ControlledLinearSystem.registerControl
      (ControlledLinearSystem.new
        (fun _ => (Controllable.ofControl (fun v _ => v) : Controllable 1 Real)))).setInputs
      [1, 2]).map (fun s => (s.wrappers 0).call 0 (fun _ => 0)) = some (some 2) := by
  constructor
  · rfl
  · simp [ControlledLinearSystem.setInputs, ControlledLinearSystem.controlDimension,
      ControlledLinearSystem.registerControl, ControlledLinearSystem.new,
      ControlledLinearSystem.setInputsLoop, Controllable.ofControl, Controllable.isControllable,
      Controllable.Base.isControllable, Controllable.setInput, Controllable.Base.setInput,
      Controllable.call, Controllable.Base.value]

/-- C32, amended (control dispatch). After the `registerControl` calls `regs`
on a new system, `controls` lists the wrappers registered that are controls
(a wrapper that is not controllable is ignored) and `controlDimension()` is
their number. `setInputs(v_1, ..., v_K)` fails its assertion unless
`K == controlDimension()`. When it holds and no control was registered twice,
`setInputs` returns and for every `k` the `k`-th registered control is
controllable and has `value(t, x) = factory_k.make(v_k)(x)` for every `t`
and `x`; the wrappers that are not registered controls are left as they
were. -/
theorem C32_control_dispatch {D : Nat} {V : Type} (wrappers : Nat → Controllable D V)
    (regs : List Nat) (inputs : List V) :
    (regs.foldl ControlledLinearSystem.registerControl
        (ControlledLinearSystem.new wrappers)).controls
      = regs.filter (fun a => (wrappers a).isControllable) ∧
    (regs.foldl ControlledLinearSystem.registerControl
        (ControlledLinearSystem.new wrappers)).controlDimension
      = (regs.filter (fun a => (wrappers a).isControllable)).length ∧
    (inputs.length ≠ (regs.foldl ControlledLinearSystem.registerControl
        (ControlledLinearSystem.new wrappers)).controlDimension →
      (regs.foldl ControlledLinearSystem.registerControl
        (ControlledLinearSystem.new wrappers)).setInputs inputs = none) ∧
    (inputs.length = (regs.foldl ControlledLinearSystem.registerControl
        (ControlledLinearSystem.new wrappers)).controlDimension →
      (regs.filter (fun a => (wrappers a).isControllable)).Nodup →
      ∃ s, (regs.foldl ControlledLinearSystem.registerControl
          (ControlledLinearSystem.new wrappers)).setInputs inputs = some s ∧
        s.controls = regs.filter (fun a => (wrappers a).isControllable) ∧
        (∀ (k : Nat) (a : Nat) (v : V),
          (regs.filter (fun a => (wrappers a).isControllable))[k]? = some a →
          inputs[k]? = some v →
          ∃ factory interpolant,
            (wrappers a).base = Controllable.Base.Control factory interpolant ∧
            (s.wrappers a).isControllable = true ∧
            ∀ (t : Real) (x : Fin D → Real), (s.wrappers a).call t x = some (factory v x)) ∧
        ∀ a, a ∉ regs.filter (fun a => (wrappers a).isControllable) →
          s.wrappers a = wrappers a) := by
  obtain ⟨hc, hw⟩ := ControlledLinearSystem.registered_controls wrappers regs
  refine ⟨hc, by rw [ControlledLinearSystem.controlDimension, hc], ?_, ?_⟩
  · intro hne
    unfold ControlledLinearSystem.setInputs
    rw [if_neg (fun h => hne h.symm)]
  · intro hlen hnd
    unfold ControlledLinearSystem.setInputs
    rw [if_pos hlen.symm]
    obtain ⟨l1, l2⟩ := ControlledLinearSystem.setInputsLoop_spec
      (regs.filter (fun a => (wrappers a).isControllable)) wrappers inputs hnd
    refine ⟨_, rfl, hc, ?_, ?_⟩
    · intro k a v hk hv
      have hmem : a ∈ regs.filter (fun a => (wrappers a).isControllable) :=
        List.getElem?_mem hk
      have hctl : (wrappers a).isControllable = true := (List.mem_filter.mp hmem).2
      have hval : (ControlledLinearSystem.setInputsLoop (regs.foldl ControlledLinearSystem.registerControl
          (ControlledLinearSystem.new wrappers)).wrappers
          (regs.foldl ControlledLinearSystem.registerControl
            (ControlledLinearSystem.new wrappers)).controls inputs) a
          = (wrappers a).setInput v := by
        rw [hw, hc]
        exact l1 k a v hk hv
      cases hb : (wrappers a).base with
      | Constant c => simp [Controllable.isControllable, hb, Controllable.Base.isControllable] at hctl
      | FunctionST f => simp [Controllable.isControllable, hb, Controllable.Base.isControllable] at hctl
      | FunctionS g => simp [Controllable.isControllable, hb, Controllable.Base.isControllable] at hctl
      | Control factory interpolant =>
        refine ⟨factory, interpolant, rfl, ?_, ?_⟩
        · show (ControlledLinearSystem.setInputsLoop _ _ inputs a).isControllable = true
          rw [hval]
          simp [Controllable.setInput, Controllable.isControllable, hb,
            Controllable.Base.setInput, Controllable.Base.isControllable]
        · intro t x
          show (ControlledLinearSystem.setInputsLoop _ _ inputs a).call t x = _
          rw [hval]
          simp [Controllable.setInput, Controllable.call, hb, Controllable.Base.setInput,
            Controllable.Base.value]
    · intro a ha
      show ControlledLinearSystem.setInputsLoop _ _ inputs a = wrappers a
      rw [hw, hc]
      exact l2 a ha

/-- Witness of the amended C32: the wrappers 0 and 2 are controls with the
factories "constant value of the input" and "twice that", wrapper 1 is the
constant 7; all three are registered and `setInputs(5, 6)` is called. -/
theorem C32_control_dispatch_witness :
    ∃ s, ([0, 1, 2].foldl ControlledLinearSystem.registerControl
        (ControlledLinearSystem.new (fun a =>
          if a = 0 then (Controllable.ofControl (fun v _ => v) : Controllable 1 Real)
          else if a = 1 then Controllable.ofConstant 7
          else Controllable.ofControl (fun v _ => 2 * v)))).setInputs [5, 6] = some s ∧
      s.controls = [0, 2] ∧
      (s.wrappers 2).call 0 (fun _ => 0) = some 12 := by
  obtain ⟨_, _, _, h⟩ := C32_control_dispatch (fun a =>
      if a = 0 then (Controllable.ofControl (fun v _ => v) : Controllable 1 Real)
      else if a = 1 then Controllable.ofConstant 7
      else Controllable.ofControl (fun v _ => 2 * v)) [0, 1, 2] [5, 6]
  obtain ⟨s, hs, hcs, hk, _⟩ := h (by rfl) (by decide)
  refine ⟨s, hs, by rw [hcs]; rfl, ?_⟩
  obtain ⟨factory, interpolant, hb, _, hv⟩ := hk 1 2 6 (by rfl) (by rfl)
  rw [hv 0 (fun _ => 0)]
  simp only [Controllable.ofControl] at hb
  simp at hb
  rw [← hb.1]
  norm_num


/-! ## The order of the event queue -/

theorem timeOrder_irrefl {V : Type} (Forward : Bool) (a : T V) :
    TimeOrder Forward a a = false := by
  cases Forward <;> simp [TimeOrder, Order]

theorem timeOrder_true_trans {V : Type} (Forward : Bool) (a b c : T V)
    (h1 : TimeOrder Forward a b = true) (h2 : TimeOrder Forward b c = true) :
    TimeOrder Forward a c = true := by
  by_contra hc
  have hac : TimeOrder Forward a c = false := by simpa using hc
  have hcb := timeOrder_true_imp_false Forward b c h2
  have hab := timeOrder_false_trans Forward a c b hac hcb
  rw [h1] at hab
  exact Bool.noConfusion hab

theorem timeOrder_total {V : Type} (Forward : Bool) (a b : T V) (h : a.1 ≠ b.1) :
    TimeOrder Forward a b = true ∨ TimeOrder Forward b a = true := by
  by_contra hc
  push_neg at hc
  have h1 : TimeOrder Forward a b = false := by simpa using hc.1
  have h2 : TimeOrder Forward b a = false := by simpa using hc.2
  cases Forward
  · rw [timeOrder_reverse_false] at h1 h2
    rcases h1 with h1 | ⟨_, h1⟩ <;> rcases h2 with h2 | ⟨_, h2⟩
    · exact absurd (lt_trans h1 h2) (lt_irrefl _)
    · rename_i e; rw [e] at h1; exact absurd h1 (lt_irrefl _)
    · rename_i e; rw [e] at h2; exact absurd h2 (lt_irrefl _)
    · exact h (le_antisymm h2 h1)
  · rw [timeOrder_forward_false] at h1 h2
    rcases h1 with h1 | ⟨_, h1⟩ <;> rcases h2 with h2 | ⟨_, h2⟩
    · exact absurd (lt_trans h1 h2) (lt_irrefl _)
    · rename_i e; rw [e] at h1; exact absurd h1 (lt_irrefl _)
    · rename_i e; rw [e] at h2; exact absurd h2 (lt_irrefl _)
    · exact h (le_antisymm h1 h2)

/-- A queue that is not empty holds an entry that `TimeOrder` puts before no
entry of the queue. -/
theorem top_exists {V : Type} (Forward : Bool) :
    ∀ (q : PriorityQueue V), q ≠ [] → ∃ e ∈ q, ∀ x ∈ q, TimeOrder Forward e x = false := by
  intro q
  induction q with
  | nil => intro h; exact absurd rfl h
  | cons y ys ih =>
    intro _
    by_cases hys : ys = []
    · subst hys
      refine ⟨y, List.mem_singleton.mpr rfl, ?_⟩
      intro x hx
      rw [List.mem_singleton.mp hx]
      exact timeOrder_irrefl Forward y
    · obtain ⟨e0, he0, hmax⟩ := ih hys
      cases hy : TimeOrder Forward e0 y with
      | false =>
        refine ⟨e0, List.mem_cons_of_mem _ he0, ?_⟩
        intro x hx
        rcases List.mem_cons.mp hx with hx | hx
        · rw [hx]; exact hy
        · exact hmax x hx
      | true =>
        refine ⟨y, List.mem_cons_self _ _, ?_⟩
        intro x hx
        rcases List.mem_cons.mp hx with hx | hx
        · rw [hx]; exact timeOrder_irrefl Forward y
        · exact timeOrder_false_trans Forward y e0 x
            (timeOrder_true_imp_false Forward e0 y hy) (hmax x hx)

/-- C35 (the order of the event queue). For both directions `TimeOrder` is
irreflexive, asymmetric and transitive, and of two entries with different
sequence numbers exactly one goes before the other. Hence in a queue that is
not empty and whose entries have pairwise distinct sequence numbers there is
exactly one entry that `TimeOrder` puts before no entry of the queue: the
`top()` of the `std::priority_queue` is uniquely determined. -/
theorem C35_time_order_strict_total {V : Type} (Forward : Bool) (q : PriorityQueue V)
    (hne : q ≠ []) (hseq : (q.map (fun e => e.1)).Nodup) :
    (∀ a : T V, TimeOrder Forward a a = false) ∧
    (∀ a b : T V, TimeOrder Forward a b = true → TimeOrder Forward b a = false) ∧
    (∀ a b c : T V, TimeOrder Forward a b = true → TimeOrder Forward b c = true →
      TimeOrder Forward a c = true) ∧
    (∀ a ∈ q, ∀ b ∈ q, a ≠ b →
      (TimeOrder Forward a b = true ∧ TimeOrder Forward b a = false) ∨
      (TimeOrder Forward a b = false ∧ TimeOrder Forward b a = true)) ∧
    (∃ e ∈ q, (∀ x ∈ q, TimeOrder Forward e x = false) ∧
      ∀ e2 ∈ q, (∀ x ∈ q, TimeOrder Forward e2 x = false) → e2 = e) := by
  have hinj : ∀ a ∈ q, ∀ b ∈ q, a ≠ b → a.1 ≠ b.1 := by
    intro a ha b hb hab h1
    exact hab (List.inj_on_of_nodup_map hseq ha hb h1)
  refine ⟨timeOrder_irrefl Forward, timeOrder_true_imp_false Forward,
    timeOrder_true_trans Forward, ?_, ?_⟩
  · intro a ha b hb hab
    rcases timeOrder_total Forward a b (hinj a ha b hb hab) with h | h
    · exact Or.inl ⟨h, timeOrder_true_imp_false Forward a b h⟩
    · exact Or.inr ⟨timeOrder_true_imp_false Forward b a h, h⟩
  · obtain ⟨e, he, hmax⟩ := top_exists Forward q hne
    refine ⟨e, he, hmax, ?_⟩
    intro e2 he2 hmax2
    by_contra hd
    rcases timeOrder_total Forward e2 e (hinj e2 he2 e he hd) with h | h
    · rw [hmax2 e he] at h; exact Bool.noConfusion h
    · rw [hmax e2 he2] at h; exact Bool.noConfusion h

/-- Witness of C35: a reverse queue with two entries at the time 1 (sequence
numbers 0 and 2) and one at the time 3; its top is the entry at the time 3. -/
theorem C35_time_order_strict_total_witness :
    ∃ e ∈ [((0 : Nat), (1 : Real), (id : Nat → Nat)), (1, 3, id), (2, 1, id)],
      (∀ x ∈ [((0 : Nat), (1 : Real), (id : Nat → Nat)), (1, 3, id), (2, 1, id)],
        TimeOrder false e x = false) ∧
      ∀ e2 ∈ [((0 : Nat), (1 : Real), (id : Nat → Nat)), (1, 3, id), (2, 1, id)],
        (∀ x ∈ [((0 : Nat), (1 : Real), (id : Nat → Nat)), (1, 3, id), (2, 1, id)],
          TimeOrder false e2 x = false) → e2 = e :=
  (C35_time_order_strict_total false
    [((0 : Nat), (1 : Real), (id : Nat → Nat)), (1, 3, id), (2, 1, id)]
    (by simp) (by decide)).2.2.2.2


/-! ## The size of a timestep and the member `dt` -/

/-- C33, counterexample. Forward constant stepper on `[0, 1]` with timestep
3334/10000 and `epsilon = 1/1000`, with a root whose `isATheSame()` returns
`isTimestepTheSame()`. The steps end at 3334/10000, 6668/10000 and, snapped
onto the terminal time, at 1. On the third step `isTimestepTheSame()` returns
true, although the size of this step, `1 - 6668/10000 = 3332/10000`, differs
from the size 3334/10000 of the step before. -/
theorem C33_timestep_the_same_counterexample :
    snappedMarch.toOption.map (fun r => r.2.log.filter Call.isPushOrSame)
      = some [Call.push 0 0, Call.push 0 (3334 / 10000), Call.isATheSame true,
          Call.push 0 (6668 / 10000), Call.isATheSame true, Call.push 0 1, Call.push 0 1] ∧
    (1 : Real) - 6668 / 10000 ≠ 6668 / 10000 - 3334 / 10000 := by
  constructor
  · decide!
  · norm_num

/-- C33, amended (`isTimestepTheSame`). When `timestep()` returns a positive
value the phase `TIMESTEP` completes, and after it `isTimestepTheSame()` returns
false if and only if the member `dt` it committed differs from the member `dt`
before it, which it has saved in `dtPrevious` (the `dt` committed by the
`TIMESTEP` before, or the -1 of `SET_TIME`). The member `dt` is the size of the
step, `direction * (implicitTime - previous time)`, except when the step is
snapped onto the pending event time from less than `epsilon` away: then `dt` is
the value of `timestep()` and differs from the size of the step by less than
`epsilon`. The rest of the turn of the step loop leaves `dt`, `dtPrevious` and
`implicitTime` as `TIMESTEP` committed them, when the inner iteration leaves
the variables of its parent alone. -/
theorem C33_timestep_the_same {S M V : Type} (epsilon : Real) (it : TimeIteration V) (lvl : Nat)
    (nextEventTime : Real) (w : World S V)
    (hpos : 0 < it.timestep { w.vars lvl with dtPrevious := (w.vars lvl).dt }) :
    ∃ w1, TimeIteration.TIMESTEP epsilon it lvl nextEventTime w = .ok w1 ∧
      (w1.vars lvl).dtPrevious = (w.vars lvl).dt ∧
      (TimeIteration.isTimestepTheSame (w1.vars lvl) = false ↔
        (w1.vars lvl).dt ≠ (w.vars lvl).dt) ∧
      (|(w.vars lvl).implicitTime + direction it.Forward *
          it.timestep { w.vars lvl with dtPrevious := (w.vars lvl).dt } - nextEventTime|
          < epsilon →
        (w1.vars lvl).implicitTime = nextEventTime ∧
        (w1.vars lvl).dt = it.timestep { w.vars lvl with dtPrevious := (w.vars lvl).dt } ∧
        |direction it.Forward * ((w1.vars lvl).implicitTime - (w.vars lvl).implicitTime)
          - (w1.vars lvl).dt| < epsilon) ∧
      (¬ |(w.vars lvl).implicitTime + direction it.Forward *
          it.timestep { w.vars lvl with dtPrevious := (w.vars lvl).dt } - nextEventTime|
          < epsilon →
        direction it.Forward * ((w1.vars lvl).implicitTime - (w.vars lvl).implicitTime)
          = (w1.vars lvl).dt) ∧
      ∀ (root : IterationNode S M V) (solver : LinearSolver S M V) (nodes : List Nat)
        (child : Option (Runner S V)),
        (∀ run, child = some run → RunnerFrame (lvl + 1) run) →
        ∀ (i : Bool) (w3 : World S V),
          Iteration.turn root solver lvl nodes child
            (TimeIteration.TIMESTEP epsilon it lvl nextEventTime) i w = .ok w3 →
          (w3.vars lvl).dt = (w1.vars lvl).dt ∧
          (w3.vars lvl).dtPrevious = (w1.vars lvl).dtPrevious ∧
          (w3.vars lvl).implicitTime = (w1.vars lvl).implicitTime := by
  refine ⟨_, TimeIteration.TIMESTEP_ok epsilon it lvl nextEventTime w hpos, ?_, ?_, ?_, ?_, ?_⟩
  · simp
  · simp [TimeIteration.isTimestepTheSame]
  · intro hc
    simp only [Iteration.vars_setVars, TimeIteration.timestepCore, if_pos hc]
    refine ⟨trivial, trivial, ?_⟩
    cases hF : it.Forward
    · rw [hF] at hc
      simp only [direction, Bool.false_eq_true, if_false] at hc ⊢
      rw [abs_sub_comm] at hc
      have e : nextEventTime - ((w.vars lvl).implicitTime + -1 *
          it.timestep { w.vars lvl with dtPrevious := (w.vars lvl).dt })
          = -1 * (nextEventTime - (w.vars lvl).implicitTime) -
            it.timestep { w.vars lvl with dtPrevious := (w.vars lvl).dt }
            + 2 * (nextEventTime - (w.vars lvl).implicitTime)
            + 2 * it.timestep { w.vars lvl with dtPrevious := (w.vars lvl).dt } := by ring
      rw [abs_lt] at hc ⊢
      constructor <;> linarith [hc.1, hc.2]
    · rw [hF] at hc
      simp only [direction, if_true] at hc ⊢
      rw [abs_lt] at hc ⊢
      constructor <;> linarith [hc.1, hc.2]
  · intro hc
    simp only [Iteration.vars_setVars, TimeIteration.timestepCore, if_neg hc]
    split_ifs with hO
    · rfl
    · cases hF : it.Forward <;> simp only [direction, Bool.false_eq_true, if_false, if_true] <;>
        ring
  · intro root solver nodes child hchild i w3 h3
    obtain ⟨w1, x, hw1, hv, _⟩ := Iteration.turn_vars root solver lvl nodes child hchild _ i w w3 h3
    rw [TimeIteration.TIMESTEP_ok epsilon it lvl nextEventTime w hpos] at hw1
    simp only [Except.ok.injEq] at hw1
    subst hw1
    rw [hv]
    exact ⟨rfl, rfl, rfl⟩

/-- Witness of the amended C33: the first `TIMESTEP` of a forward constant
stepper on `[0, 1]` with timestep 1/4 and `epsilon = 1/1000`, after the opening
of `iterateUntilDone`. -/
theorem C33_timestep_the_same_witness :
    ∃ w1, TimeIteration.TIMESTEP (1 / 1000) (ConstantStepper Real true 0 1 (1 / 4)) 0 1
        (Iteration.opening 0 [] (0 : Real)
          (TimeIteration.SET_TIME (ConstantStepper Real true 0 1 (1 / 4)) 0 (World.fresh 1)))
        = .ok w1 ∧
      (w1.vars 0).dtPrevious = -1 ∧
      (TimeIteration.isTimestepTheSame (w1.vars 0) = false ↔ (w1.vars 0).dt ≠ -1) := by
  obtain ⟨w1, h1, h2, h3, _⟩ := C33_timestep_the_same (S := Unit) (M := Unit)
    (1 / 1000) (ConstantStepper Real true 0 1 (1 / 4)) 0 1
    (Iteration.opening 0 [] (0 : Real)
      (TimeIteration.SET_TIME (ConstantStepper Real true 0 1 (1 / 4)) 0 (World.fresh 1)))
    (by simp [ConstantStepper])
  have hdt0 : ((Iteration.opening 0 [] (0 : Real)
      (TimeIteration.SET_TIME (ConstantStepper Real true 0 1 (1 / 4)) 0
        (World.fresh 1 : World Unit Real))).vars 0).dt = -1 := by
    simp [Iteration.vars_opening, TimeIteration.SET_TIME]
  rw [hdt0] at h2 h3
  exact ⟨w1, h1, h2, h3⟩


/-! ## The time at which the step loop exits -/

/-- When the test `NOT_DONE` fails after a `TIMESTEP`, the time committed is
the pending event time or lies at the distance `epsilon` before it. -/
theorem TimeIteration.timestepCore_exit (Forward : Bool) (epsilon t ne dt : Real)
    (h : Order Forward ne ((TimeIteration.timestepCore Forward epsilon t ne dt).1
      + direction Forward * epsilon) = false) :
    (TimeIteration.timestepCore Forward epsilon t ne dt).1 = ne ∨
    (TimeIteration.timestepCore Forward epsilon t ne dt).1 = ne - direction Forward * epsilon := by
  unfold TimeIteration.timestepCore at h ⊢
  cases Forward
  · simp only [Order, direction, Bool.false_eq_true, if_false, decide_eq_false_iff_not,
      decide_eq_true_eq, not_lt] at h ⊢
    split_ifs at h ⊢ with h1 h2
    · exact Or.inl rfl
    · exact Or.inl rfl
    · right
      dsimp only at h ⊢
      have h1' : epsilon ≤ |t + -1 * dt - ne| := not_lt.mp h1
      have h2' : ne ≤ t + -1 * dt := not_lt.mp h2
      rw [abs_of_nonneg (by linarith)] at h1'
      linarith
  · simp only [Order, direction, if_true, decide_eq_false_iff_not, decide_eq_true_eq, not_lt,
      gt_iff_lt] at h ⊢
    split_ifs at h ⊢ with h1 h2
    · exact Or.inl rfl
    · exact Or.inl rfl
    · right
      dsimp only at h ⊢
      have h1' : epsilon ≤ |t + 1 * dt - ne| := not_lt.mp h1
      have h2' : t + 1 * dt ≤ ne := not_lt.mp h2
      rw [abs_of_nonpos (by linarith)] at h1'
      linarith

/-- C37, counterexample. Forward constant stepper on `[0, 1]` with timestep
999/1000 and `epsilon = 1/1000`: the first step ends at 999/1000, which is not
within less than `epsilon` of the event time 1, so it is not snapped; the test
`NOT_DONE`, `1 > 999/1000 + 1/1000`, fails and the step loop exits with
`implicitTime = 999/1000`, not 1. The solve makes this one step, and the
terminal boundary at the time 1 acts on the solution computed at 999/1000. -/
theorem C37_exit_at_event_time_counterexample :
    nearMissSteps.toOption.map (fun r => (r.2.vars 0).implicitTime) = some (999 / 1000) ∧
    nearMissSteps.toOption.map (fun r => (r.2.vars 0).implicitTime) ≠ some 1 ∧
    nearMissMarch.toOption.map (fun r => (r.1, (r.2.vars 0).its,
        r.2.log.filter Call.isPushOrEvent))
      = some (1, [1], [Call.push 0 0, Call.push 0 (999 / 1000), Call.event unsignedMax,
          Call.push 0 1]) := by
  have h : nearMissSteps.toOption.map (fun r => (r.2.vars 0).implicitTime)
      = some (999 / 1000) := by decide!
  refine ⟨h, ?_, ?_⟩
  · rw [h]; norm_num
  · decide!

/-- C37, amended (the time at the exit of the step loop). Whenever the step
loop of a `TimeIteration` segment returns (the test `NOT_DONE` has failed), the
`implicitTime` of the last step is the pending event time, or lies at the
distance `epsilon` before it in march order:
`implicitTime == nextEventTime - direction * epsilon`. This holds for every
value of `timestep()` and every event time, when the inner iteration leaves the
variables of its parent alone. -/
theorem C37_exit_at_event_time {S M V : Type} (epsilon : Real) (root : IterationNode S M V)
    (solver : LinearSolver S M V) (it : TimeIteration V) (lvl : Nat)
    (child : Option (Runner S V))
    (hchild : ∀ run, child = some run → RunnerFrame (lvl + 1) run)
    (nextEventTime : Real) (fuel : Nat) (i : Bool) (w : World S V) (r : Bool × World S V)
    (h : Iteration.stepLoop root solver lvl it.nodes child
      (TimeIteration.TIMESTEP epsilon it lvl nextEventTime)
      (TimeIteration.NOT_DONE epsilon it lvl nextEventTime) fuel i w = .ok r) :
    TimeIteration.NOT_DONE epsilon it lvl nextEventTime r.2 = .ok false ∧
    ((r.2.vars lvl).implicitTime = nextEventTime ∨
     (r.2.vars lvl).implicitTime = nextEventTime - direction it.Forward * epsilon) := by
  obtain ⟨k, ws, hk1, _, _, hk, hturn, _, hdone⟩ := Iteration.stepLoop_trace root solver lvl
    it.nodes child _ _ fuel i w r h
  obtain ⟨j, rfl⟩ : ∃ j, k = j + 1 := ⟨k - 1, by omega⟩
  obtain ⟨w1, x, hw1, hv, _⟩ := Iteration.turn_vars root solver lvl it.nodes child hchild _ _
    (ws j) (ws (j + 1)) (hturn j (by omega))
  rw [hk] at hdone hv
  refine ⟨hdone, ?_⟩
  unfold TimeIteration.TIMESTEP at hw1
  split_ifs at hw1 with hpos
  simp only [Except.ok.injEq] at hw1
  subst hw1
  have ht : (r.2.vars lvl).implicitTime = (TimeIteration.timestepCore it.Forward epsilon
      ((ws j).vars lvl).implicitTime nextEventTime
      (it.timestep { (ws j).vars lvl with dtPrevious := ((ws j).vars lvl).dt })).1 := by
    rw [hv]; simp
  simp only [TimeIteration.NOT_DONE, Except.ok.injEq] at hdone
  rw [ht] at hdone ⊢
  exact TimeIteration.timestepCore_exit _ _ _ _ _ hdone

/-- Witness of the amended C37: the step loop of scenario S3 (constant
timestep 3/10, `epsilon = 1/1000`) towards the event at `t = 1/2`, entered
after the opening of `iterateUntilDone`; its second step is cut at the event
time. -/
theorem C37_exit_at_event_time_witness :
    ∃ r, Iteration.stepLoop (incrementRoot 0) identitySolver 0
        (ConstantStepper Real true 0 1 (3 / 10)).nodes none
        (TimeIteration.TIMESTEP (1 / 1000) (ConstantStepper Real true 0 1 (3 / 10)) 0 (1 / 2))
        (TimeIteration.NOT_DONE (1 / 1000) (ConstantStepper Real true 0 1 (3 / 10)) 0 (1 / 2))
        3 false
        (Iteration.opening 0 [] (5 : Real)
          (TimeIteration.SET_TIME (ConstantStepper Real true 0 1 (3 / 10)) 0 (World.fresh 1)))
        = .ok r ∧
      TimeIteration.NOT_DONE (1 / 1000) (ConstantStepper Real true 0 1 (3 / 10)) 0 (1 / 2) r.2
        = .ok false ∧
      ((r.2.vars 0).implicitTime = 1 / 2 ∨
       (r.2.vars 0).implicitTime
         = 1 / 2 - direction (ConstantStepper Real true 0 1 (3 / 10)).Forward * (1 / 1000)) := by
  have hok : (Iteration.stepLoop (incrementRoot 0) identitySolver 0
      (ConstantStepper Real true 0 1 (3 / 10)).nodes none
      (TimeIteration.TIMESTEP (1 / 1000) (ConstantStepper Real true 0 1 (3 / 10)) 0 (1 / 2))
      (TimeIteration.NOT_DONE (1 / 1000) (ConstantStepper Real true 0 1 (3 / 10)) 0 (1 / 2))
      3 false
      (Iteration.opening 0 [] (5 : Real)
        (TimeIteration.SET_TIME (ConstantStepper Real true 0 1 (3 / 10)) 0
          (World.fresh 1)))).toOption.isSome = true := by
    decide!
  cases hr : Iteration.stepLoop (incrementRoot 0) identitySolver 0
      (ConstantStepper Real true 0 1 (3 / 10)).nodes none
      (TimeIteration.TIMESTEP (1 / 1000) (ConstantStepper Real true 0 1 (3 / 10)) 0 (1 / 2))
      (TimeIteration.NOT_DONE (1 / 1000) (ConstantStepper Real true 0 1 (3 / 10)) 0 (1 / 2))
      3 false
      (Iteration.opening 0 [] (5 : Real)
        (TimeIteration.SET_TIME (ConstantStepper Real true 0 1 (3 / 10)) 0 (World.fresh 1))) with
  | error e => rw [hr] at hok; exact absurd hok (by simp [Except.toOption])
  | ok r =>
    exact ⟨r, rfl, C37_exit_at_event_time (1 / 1000) (incrementRoot 0) identitySolver
      (ConstantStepper Real true 0 1 (3 / 10)) 0 none
      (by intro run hrun; exact absurd hrun (by simp)) (1 / 2) 3 false _ r hr⟩


/-! ## The number of steps of a constant stepper -/

namespace TimeIteration

variable {S M V : Type}

/-- The test `NOT_DONE` holds exactly when more than `epsilon` is left to the
pending event time. -/
theorem order_distance (Forward : Bool) (epsilon ne t : Real) :
    Order Forward ne (t + direction Forward * epsilon) = true
      ↔ epsilon < distance Forward ne t := by
  cases Forward <;>
    simp only [Order, direction, distance, Bool.false_eq_true, if_false, if_true,
      decide_eq_true_eq, gt_iff_lt] <;>
    constructor <;> intro h <;> linarith

theorem distance_eq_zero (Forward : Bool) (ne t : Real) (h : distance Forward ne t = 0) :
    t = ne := by
  cases Forward <;>
    simp only [distance, direction, Bool.false_eq_true, if_false, if_true] at h <;> linarith

/-- A timestep `dt > epsilon` taken when a whole number `n + 1` of such
timesteps is left to the pending event time leaves `n` of them. -/
theorem timestepCore_constant (Forward : Bool) (epsilon t ne dt : Real) (heps : 0 ≤ epsilon)
    (hdt : epsilon < dt) (n : Nat) (hd : distance Forward ne t = ((n + 1 : Nat) : Real) * dt) :
    distance Forward ne (timestepCore Forward epsilon t ne dt).1 = (n : Real) * dt := by
  have hdt0 : 0 < dt := lt_of_le_of_lt heps hdt
  have hn : (0 : Real) ≤ (n : Real) * dt := mul_nonneg (Nat.cast_nonneg n) hdt0.le
  have hsmall : (n : Real) * dt < epsilon → n = 0 := by
    intro hlt
    rcases Nat.eq_zero_or_pos n with h0 | h0
    · exact h0
    · exfalso
      have h1 : (1 : Real) ≤ (n : Real) := by exact_mod_cast h0
      nlinarith
  unfold timestepCore
  push_cast at hd
  cases Forward
  · simp only [Order, direction, distance, Bool.false_eq_true, if_false,
      decide_eq_true_eq] at hd ⊢
    split_ifs with h1 h2
    · have e : |t + -1 * dt - ne| = (n : Real) * dt := by
        rw [abs_of_nonneg (by linarith)]; linarith
      rw [e] at h1
      rw [hsmall h1]
      simp
    · exfalso; linarith
    · dsimp only; linarith
  · simp only [Order, direction, distance, if_true, decide_eq_true_eq, gt_iff_lt] at hd ⊢
    split_ifs with h1 h2
    · have e : |t + 1 * dt - ne| = (n : Real) * dt := by
        rw [abs_of_nonpos (by linarith)]; linarith
      rw [e] at h1
      rw [hsmall h1]
      simp
    · exfalso; linarith
    · dsimp only; linarith

/-- A run of the step loop with a constant timestep `dt > epsilon`, entered
when `N ≥ 1` timesteps are left to the pending event time, makes `N` steps and
ends at that time. -/
theorem constant_stepLoop_count (epsilon dt : Real) (heps : 0 ≤ epsilon) (hdt : epsilon < dt)
    (root : IterationNode S M V) (solver : LinearSolver S M V) (it : TimeIteration V)
    (lvl : Nat) (child : Option (Runner S V))
    (hchild : ∀ run, child = some run → RunnerFrame (lvl + 1) run)
    (hts : ∀ v, it.timestep v = dt) (ne : Real) (N : Nat) (hN : 1 ≤ N)
    (fuel : Nat) (i : Bool) (w : World S V) (r : Bool × World S V)
    (h : Iteration.stepLoop root solver lvl it.nodes child (TIMESTEP epsilon it lvl ne)
      (NOT_DONE epsilon it lvl ne) fuel i w = .ok r)
    (hd : distance it.Forward ne (w.vars lvl).implicitTime = (N : Real) * dt)
    (l : List Nat) (c : Nat) (hits : (w.vars lvl).its = l ++ [c]) :
    (r.2.vars lvl).its = l ++ [c + N] ∧ (r.2.vars lvl).implicitTime = ne := by
  have hdt0 : 0 < dt := lt_of_le_of_lt heps hdt
  obtain ⟨k, ws, hk1, _, h0, hk, hturn, hgo, hdone⟩ := Iteration.stepLoop_trace root solver lvl
    it.nodes child _ _ fuel i w r h
  have key : ∀ j m, j + m = N → j ≤ k →
      distance it.Forward ne ((ws j).vars lvl).implicitTime = (m : Real) * dt ∧
      ((ws j).vars lvl).its = l ++ [c + j] := by
    intro j
    induction j with
    | zero =>
      intro m hm _
      rw [h0]
      simp only [Nat.zero_add] at hm
      subst hm
      exact ⟨hd, by simpa using hits⟩
    | succ j ih =>
      intro m hm hj
      obtain ⟨hdj, hij⟩ := ih (m + 1) (by omega) (by omega)
      obtain ⟨w1, x, hw1, hv, _⟩ := Iteration.turn_vars root solver lvl it.nodes child hchild _ _
        (ws j) (ws (j + 1)) (hturn j (by omega))
      unfold TIMESTEP at hw1
      split_ifs at hw1
      simp only [Except.ok.injEq] at hw1
      subst hw1
      rw [hv]
      simp only [Iteration.vars_setVars]
      constructor
      · rw [hts]
        exact timestepCore_constant _ _ _ _ _ heps hdt m hdj
      · rw [hij, Iteration.incrementBack_append_singleton]
        rfl
  have hkN : k = N := by
    rcases lt_trichotomy k N with hlt | heq | hgt
    · exfalso
      obtain ⟨hdk, _⟩ := key k (N - k) (by omega) (le_refl _)
      have hge : (1 : Real) ≤ ((N - k : Nat) : Real) := by
        have : 1 ≤ N - k := by omega
        exact_mod_cast this
      have ht : NOT_DONE epsilon it lvl ne (ws k) = .ok true := by
        simp only [NOT_DONE, Except.ok.injEq]
        rw [order_distance, hdk]
        nlinarith
      rw [ht] at hdone
      simp at hdone
    · exact heq
    · exfalso
      obtain ⟨hdN, _⟩ := key N 0 (by omega) (by omega)
      have ht := hgo N hN hgt
      simp only [NOT_DONE, Except.ok.injEq] at ht
      rw [order_distance, hdN] at ht
      simp only [Nat.cast_zero, zero_mul] at ht
      linarith
  obtain ⟨hdk, hik⟩ := key k 0 (by omega) (le_refl _)
  rw [hk] at hdk hik
  rw [hkN] at hik
  refine ⟨hik, distance_eq_zero it.Forward ne _ ?_⟩
  simpa using hdk

end TimeIteration

/-- C34 (step count of a constant stepper). For every `T > 0` and `N ≥ 1` with
`dt = T / N > epsilon` (exact arithmetic, `epsilon ≥ 0`), a time iteration on
`[0, T]` in either direction whose `timestep()` returns `dt` at every call and
that has no events, with an allocated history and an inner iteration (if any)
that returns and leaves the variables of its parents alone: `iterateUntilDone`
returns, for every loop budget above `N`, at the terminal time, having added to
`its` one entry equal to `N`, the number of timesteps. After the `its.clear()`
of `solve` this is `iterations() == [N]`. -/
theorem C34_constant_stepper_count {S M V : Type} [Inhabited V] (epsilon : Real)
    (heps : 0 ≤ epsilon) (T : Real) (N : Nat) (hT : 0 < T) (hN : 1 ≤ N)
    (hdt : epsilon < T / N) (it : TimeIteration V) (hstart : it.startTime = 0)
    (hend : it.endTime = T) (hev : it.events = []) (hts : ∀ v, it.timestep v = T / N)
    (root : IterationNode S M V) (solver : LinearSolver S M V) (lvl : Nat)
    (child : Option (Runner S V)) (hchild : ChildReturns lvl child)
    (hframe : ∀ run, child = some run → RunnerFrame (lvl + 1) run)
    (fuel : Nat) (hfuel : N + 1 ≤ fuel) (x : V) (time : Real) (i : Bool) (w : World S V)
    (hn : 0 < (w.vars lvl).history.n)
    (hlen : (w.vars lvl).history.data.length = (w.vars lvl).history.n.toNat) :
    ∃ r, TimeIteration.iterateUntilDone epsilon fuel root solver it lvl child x time i w = .ok r ∧
      (r.2.vars lvl).its = (w.vars lvl).its ++ [N] ∧
      ((w.vars lvl).its = [] → (r.2.vars lvl).its = [N]) ∧
      (r.2.vars lvl).implicitTime = it.terminalTime := by
  have hdt0 : 0 < T / N := lt_of_le_of_lt heps hdt
  have hN0 : (0 : Real) < (N : Real) := by exact_mod_cast hN
  have hTN : (N : Real) * (T / N) = T := by field_simp
  have hhead : TimeIteration.OUTER_HEAD it = [(unsignedMax, it.terminalTime, NullEvent)] := by
    simp [TimeIteration.OUTER_HEAD, hev, PriorityQueue.emplace]
  obtain ⟨hr0, ht0⟩ := TimeIteration.opening_ready lvl it.nodes x (TimeIteration.SET_TIME it lvl w)
    (by simpa [TimeIteration.SET_TIME] using hn) (by simpa [TimeIteration.SET_TIME] using hlen)
  have ht0' : ((Iteration.opening lvl it.nodes x (TimeIteration.SET_TIME it lvl w)).vars
      lvl).implicitTime = it.initialTime := by
    rw [ht0]; simp [TimeIteration.SET_TIME]
  have hits0 : ((Iteration.opening lvl it.nodes x (TimeIteration.SET_TIME it lvl w)).vars
      lvl).its = (w.vars lvl).its ++ [0] := by
    rw [Iteration.vars_opening]; simp [TimeIteration.SET_TIME]
  have hinit : it.startTime ≤ it.initialTime ∧ it.initialTime ≤ it.endTime := by
    simp only [TimeIteration.initialTime, hstart, hend]
    split_ifs <;> constructor <;> linarith
  obtain ⟨w', hw', htw', hrw'⟩ := TimeIteration.outerLoop_returns epsilon (T / N) heps hdt0 root
    solver it lvl child hchild (fun v => le_of_eq (hts v).symm) N fuel
    (by rw [hstart, hend, hTN]; linarith) hfuel
    1 fuel (TimeIteration.OUTER_HEAD it) i _ (by rw [hhead]; simp) (by omega)
    ⟨_, by rw [hhead]; exact List.mem_singleton.mpr rfl, rfl⟩
    (by
      intro a ha
      rw [hhead] at ha
      rw [List.mem_singleton.mp ha]
      simp only [TimeIteration.terminalTime, hstart, hend]
      split_ifs <;> constructor <;> linarith)
    hr0 (by rw [ht0']; exact hinit.1) (by rw [ht0']; exact hinit.2)
  obtain ⟨xr, hxr⟩ := Iteration.iterand_of_ready w' lvl hrw'
  obtain ⟨m, qs, ws, hm, hq0, hw0, hwm, hall⟩ := TimeIteration.outerLoop_schedule epsilon root
    solver it lvl child fuel fuel _ i _ w' hw'
  obtain ⟨e, i', r, r', he, hstep, htail, _, hws1, hcont⟩ := hall 0 (by omega)
  rw [hq0, hhead] at he
  simp only [PriorityQueue.top, List.head?_cons, Option.some.injEq] at he
  subst he
  simp only [TimeIteration.order_irrefl, Bool.false_eq_true, false_iff, not_lt] at hcont
  have hm1 : m = 1 := by omega
  subst hm1
  rw [hw0] at hstep
  have hdist : TimeIteration.distance it.Forward it.terminalTime
      ((Iteration.opening lvl it.nodes x (TimeIteration.SET_TIME it lvl w)).vars lvl).implicitTime
      = (N : Real) * (T / N) := by
    rw [ht0', hTN]
    simp only [TimeIteration.distance, direction, TimeIteration.terminalTime,
      TimeIteration.initialTime, hstart, hend]
    split_ifs <;> ring
  obtain ⟨hcount, _⟩ := TimeIteration.constant_stepLoop_count epsilon (T / N) heps hdt root solver
    it lvl child hframe hts it.terminalTime N hN fuel i' _ r hstep hdist (w.vars lvl).its 0 hits0
  have hb := (IterationKind.boundary_vars (IterationKind.time it) lvl r.2 r'.2
    ⟨_, _, r', htail, rfl⟩).1
  have hfinal : (w'.vars lvl).its = (w.vars lvl).its ++ [N] := by
    rw [← hwm, ← hws1, hb, hcount]
    simp
  refine ⟨(xr, w'), ?_, hfinal, ?_, htw'⟩
  · unfold TimeIteration.iterateUntilDone
    simp only [hw', hxr]
  · intro h0
    rw [hfinal, h0]
    rfl

/-- Witness of C34: the reverse constant stepper of scenario S1 (`T = 1`,
`N = 4`, `epsilon = 1/1000`), alone in the chain, with budget 5. -/
theorem C34_constant_stepper_count_witness :
    ∃ r, TimeIteration.iterateUntilDone (1 / 1000) 5 (incrementRoot 0) identitySolver
        (ConstantStepper Real false 0 1 (1 / 4)) 0 none (0 : Real) (-1) false (World.fresh 1)
        = .ok r ∧
      (r.2.vars 0).its = [4] := by
  obtain ⟨r, h1, _, h3, _⟩ := C34_constant_stepper_count (1 / 1000) (by norm_num) 1 4
    (by norm_num) (by norm_num) (by norm_num) (ConstantStepper Real false 0 1 (1 / 4)) rfl rfl rfl
    (by intro v; simp [ConstantStepper]) (incrementRoot 0) identitySolver 0 none
    (by intro run h; exact absurd h (by simp)) (by intro run h; exact absurd h (by simp))
    5 (by norm_num) (0 : Real) (-1) false (World.fresh 1)
    (by simp [World.fresh, CircularBuffer.new, CircularBuffer.clear])
    (by simp [World.fresh, CircularBuffer.new, CircularBuffer.clear])
  exact ⟨r, h1, h3 rfl⟩


/-! ## The march never turns back -/

namespace TimeIteration

variable {S M V : Type}

theorem before_iff (Forward : Bool) (s t : Real) :
    Before Forward s t ↔ 0 < distance Forward t s := by
  cases Forward <;>
    simp only [Before, distance, direction, Bool.false_eq_true, if_false, if_true] <;>
    constructor <;> intro h <;> linarith

theorem notPast_iff (Forward : Bool) (s t : Real) :
    NotPast Forward s t ↔ 0 ≤ distance Forward t s := by
  cases Forward <;>
    simp only [NotPast, distance, direction, Bool.false_eq_true, if_false, if_true] <;>
    constructor <;> intro h <;> linarith

theorem order_iff_distance (Forward : Bool) (a b : Real) :
    Order Forward a b = true ↔ 0 < distance Forward a b := by
  cases Forward <;>
    simp only [Order, distance, direction, Bool.false_eq_true, if_false, if_true,
      decide_eq_true_eq, gt_iff_lt] <;>
    constructor <;> intro h <;> linarith

theorem distance_add (Forward : Bool) (a b c : Real) :
    distance Forward c a = distance Forward c b + distance Forward b a := by
  simp only [distance]; ring

/-- A positive timestep taken strictly before the pending event time moves the
time strictly in the march direction, and not past the event time. -/
theorem timestepCore_advance (Forward : Bool) (epsilon t ne dt : Real) (hdt : 0 < dt)
    (hd : 0 < distance Forward ne t) :
    0 < distance Forward (timestepCore Forward epsilon t ne dt).1 t ∧
    0 ≤ distance Forward ne (timestepCore Forward epsilon t ne dt).1 := by
  unfold timestepCore
  cases Forward
  · simp only [Order, direction, distance, Bool.false_eq_true, if_false,
      decide_eq_true_eq] at hd ⊢
    split_ifs with h1 h2
    · constructor <;> linarith
    · constructor <;> linarith
    · dsimp only
      constructor <;> linarith
  · simp only [Order, direction, distance, if_true, decide_eq_true_eq, gt_iff_lt] at hd ⊢
    split_ifs with h1 h2
    · constructor <;> linarith
    · constructor <;> linarith
    · dsimp only
      constructor <;> linarith

/-- In a queue with `top()` first whose entries are all at or after `t`, the
entries left when those of time `t` are popped from the top are strictly after
`t`. -/
theorem dropWhile_after (Forward : Bool) (t : Real) :
    ∀ (q : PriorityQueue V), q.Pairwise (fun a b => TimeOrder Forward a b = false) →
      (∀ a ∈ q, a.2.1 = t ∨ Order Forward a.2.1 t = true) →
      ∀ a ∈ q.dropWhile (fun a => decide (a.2.1 = t)), 0 < distance Forward a.2.1 t := by
  intro q
  induction q with
  | nil => intro _ _ a ha; simp at ha
  | cons b q ih =>
    intro hq hmin a ha
    rw [List.pairwise_cons] at hq
    by_cases hb : b.2.1 = t
    · rw [List.dropWhile_cons, if_pos (by simpa using hb)] at ha
      exact ih hq.2 (fun a ha => hmin a (List.mem_cons_of_mem _ ha)) a ha
    · rw [List.dropWhile_cons, if_neg (by simpa using hb)] at ha
      have hbt : 0 < distance Forward b.2.1 t := by
        rcases hmin b (List.mem_cons_self _ _) with h | h
        · exact absurd h hb
        · exact (order_iff_distance _ _ _).mp h
      rcases List.mem_cons.mp ha with rfl | haq
      · exact hbt
      · rcases atOrAfter_of_behind Forward b a (hq.1 a haq) with h | h
        · rw [h]; exact hbt
        · have := (order_iff_distance _ _ _).mp h
          rw [distance_add Forward t b.2.1 a.2.1]
          linarith

/-- A run of the step loop entered strictly before the pending event time is a
march of turns that advance, and ends not past the event time. -/
theorem stepLoop_advances (epsilon : Real) (heps : 0 ≤ epsilon) (root : IterationNode S M V)
    (solver : LinearSolver S M V) (it : TimeIteration V) (lvl : Nat)
    (child : Option (Runner S V))
    (hframe : ∀ run, child = some run → RunnerFrame (lvl + 1) run)
    (B : World S V → World S V → Prop) (ne : Real)
    (hterm : 0 ≤ distance it.Forward it.terminalTime ne) :
    ∀ (fuel : Nat) (i : Bool) (w : World S V) (r : Bool × World S V),
      Iteration.stepLoop root solver lvl it.nodes child (TIMESTEP epsilon it lvl ne)
        (NOT_DONE epsilon it lvl ne) fuel i w = .ok r →
      0 < distance it.Forward ne (w.vars lvl).implicitTime →
      0 ≤ distance it.Forward ne (r.2.vars lvl).implicitTime ∧
      ∃ cs, Iteration.March
        (fun a _ b => StepAdvances epsilon root solver it lvl child a b) B w cs r.2 := by
  intro fuel
  induction fuel with
  | zero => intro i w r h; simp [Iteration.stepLoop] at h
  | succ fuel ih =>
    intro i w r h hstart
    rw [Iteration.stepLoop_succ] at h
    cases hturn : Iteration.turn root solver lvl it.nodes child (TIMESTEP epsilon it lvl ne) i w with
    | error e => rw [hturn] at h; exact absurd h (by simp)
    | ok w3 =>
      rw [hturn] at h
      simp only [] at h
      obtain ⟨w1, x, hw1, hv, _⟩ := Iteration.turn_vars root solver lvl it.nodes child hframe _ _
        w w3 hturn
      have hw1' := hw1
      unfold TIMESTEP at hw1
      split_ifs at hw1 with hpos
      simp only [Except.ok.injEq] at hw1
      have ht1 : (w1.vars lvl).implicitTime = (timestepCore it.Forward epsilon
          (w.vars lvl).implicitTime ne
          (it.timestep { w.vars lvl with dtPrevious := (w.vars lvl).dt })).1 := by
        rw [← hw1]; simp
      have ht3 : (w3.vars lvl).implicitTime = (w1.vars lvl).implicitTime := by rw [hv]
      obtain ⟨a1, a2⟩ := timestepCore_advance it.Forward epsilon (w.vars lvl).implicitTime ne _
        hpos hstart
      rw [← ht1] at a1 a2
      have hstepAdv : StepAdvances epsilon root solver it lvl child w w3 := by
        refine ⟨ne, i, w1, hw1', hturn, (before_iff _ _ _).mpr a1, ht3, (notPast_iff _ _ _).mpr ?_⟩
        rw [ht3, distance_add it.Forward (w1.vars lvl).implicitTime ne it.terminalTime]
        linarith
      have hone : Iteration.March
          (fun a _ b => StepAdvances epsilon root solver it lvl child a b) B w ([] ++ [0]) w3 :=
        Iteration.March.step (Iteration.March.start w) hstepAdv
      cases hnd : NOT_DONE epsilon it lvl ne w3 with
      | error e => rw [hnd] at h; exact absurd h (by simp)
      | ok b =>
        rw [hnd] at h
        cases b with
        | true =>
          simp only [] at h
          simp only [NOT_DONE, Except.ok.injEq] at hnd
          rw [order_distance] at hnd
          obtain ⟨g1, cs, g2⟩ := ih true w3 r h (lt_of_le_of_lt heps hnd)
          exact ⟨g1, _, Iteration.march_append hone g2⟩
        | false =>
          simp only [Except.ok.injEq] at h
          subst h
          refine ⟨?_, _, hone⟩
          show 0 ≤ distance it.Forward ne (w3.vars lvl).implicitTime
          rw [ht3]; exact a2

/-- A run of the loop over the event boundaries, entered strictly before every
time of the working queue, is a march of turns and boundaries that advance. -/
theorem outerLoop_advances [Inhabited V] (epsilon : Real) (heps : 0 ≤ epsilon)
    (root : IterationNode S M V) (solver : LinearSolver S M V) (it : TimeIteration V) (lvl : Nat)
    (child : Option (Runner S V))
    (hframe : ∀ run, child = some run → RunnerFrame (lvl + 1) run) (inner : Nat) :
    ∀ (fuel : Nat) (events : PriorityQueue V) (i : Bool) (w w' : World S V),
      outerLoop epsilon root solver it lvl child inner fuel events i w = .ok w' →
      events.Pairwise (fun a b => TimeOrder it.Forward a b = false) →
      (∀ a ∈ events, 0 < distance it.Forward a.2.1 (w.vars lvl).implicitTime ∧
        0 ≤ distance it.Forward it.terminalTime a.2.1) →
      ∃ cs, Iteration.March (fun a _ b => StepAdvances epsilon root solver it lvl child a b)
        (BoundaryAdvances it lvl) w cs w' := by
  intro fuel
  induction fuel with
  | zero => intro events i w w' h; simp [outerLoop] at h
  | succ fuel ih =>
    intro events i w w' h hsorted hinv
    unfold outerLoop at h
    split at h
    · exact absurd h (by simp)
    · rename_i e he
      have hmem : e ∈ events := by
        cases events with
        | nil => simp [PriorityQueue.top] at he
        | cons y ys =>
          simp only [PriorityQueue.top, List.head?_cons, Option.some.injEq] at he
          rw [← he]; exact List.mem_cons_self _ _
      have hmin : ∀ a ∈ events, a.2.1 = e.2.1 ∨ Order it.Forward a.2.1 e.2.1 = true := by
        cases events with
        | nil => simp [PriorityQueue.top] at he
        | cons y ys =>
          simp only [PriorityQueue.top, List.head?_cons, Option.some.injEq] at he
          subst he
          intro a ha
          rcases List.mem_cons.mp ha with rfl | ha'
          · exact Or.inl rfl
          · exact atOrAfter_of_behind it.Forward y a ((List.pairwise_cons.mp hsorted).1 a ha')
      split at h
      · exact absurd h (by simp)
      · rename_i r hr
        split at h
        · exact absurd h (by simp)
        · rename_i r' hr'
          obtain ⟨hq', ht', _⟩ := OUTER_TAIL_spec it lvl e.2.1 events r.2 r' hr'
          obtain ⟨g1, cs, g2⟩ := stepLoop_advances epsilon heps root solver it lvl child hframe
            (BoundaryAdvances it lvl) e.2.1 (hinv e hmem).2 inner i w r hr (hinv e hmem).1
          have hbound : BoundaryAdvances it lvl r.2 r'.2 := by
            refine ⟨e.2.1, events, r', hr', rfl, (notPast_iff _ _ _).mpr ?_,
              (notPast_iff _ _ _).mpr ?_⟩
            · rw [ht']; exact g1
            · rw [ht']; exact (hinv e hmem).2
          have hmarch := Iteration.March.boundary g2 hbound
          split_ifs at h with hO
          · obtain ⟨cs2, g3⟩ := ih r'.1 r.1 r'.2 w' h
              (by rw [hq']; exact hsorted.sublist (List.dropWhile_sublist _))
              (by
                intro a ha
                rw [hq'] at ha
                refine ⟨?_, (hinv a ((List.dropWhile_sublist _).subset ha)).2⟩
                rw [ht']
                exact dropWhile_after it.Forward e.2.1 events hsorted hmin a ha)
            exact ⟨_, Iteration.march_append hmarch g3⟩
          · simp only [Except.ok.injEq] at h
            subst h
            exact ⟨_, hmarch⟩

end TimeIteration

/-! ## Rounding to the nearest `double` -/

namespace Double

theorem halvings_spec : ∀ (fuel n : Nat), n ≤ fuel → 1 ≤ n →
    2 ^ halvings fuel n ≤ n ∧ n < 2 ^ (halvings fuel n + 1) := by
  intro fuel
  induction fuel with
  | zero => intro n h1 h2; omega
  | succ fuel ih =>
    intro n h1 h2
    unfold halvings
    by_cases hn : n < 2
    · rw [if_pos hn]
      have : n = 1 := by omega
      subst this
      simp
    · rw [if_neg hn]
      obtain ⟨a, b⟩ := ih (n / 2) (by omega) (by omega)
      constructor
      · rw [pow_succ]
        have := Nat.div_mul_le_self n 2
        calc 2 ^ halvings fuel (n / 2) * 2 ≤ n / 2 * 2 := Nat.mul_le_mul_right 2 a
          _ ≤ n := this
      · rw [pow_succ]
        have h3 : n / 2 + 1 ≤ 2 ^ (halvings fuel (n / 2) + 1) := b
        have h4 : n < (n / 2 + 1) * 2 := by omega
        calc n < (n / 2 + 1) * 2 := h4
          _ ≤ 2 ^ (halvings fuel (n / 2) + 1) * 2 := Nat.mul_le_mul_right 2 h3

theorem abs_eq_div (x : Real) : |x| = (x.num.natAbs : Real) / (x.den : Real) := by
  conv_lhs => rw [← Rat.num_div_den x]
  rw [abs_div, Nat.abs_cast]
  congr 1
  rw [Nat.cast_natAbs, Int.cast_abs]

theorem exponent_spec (x : Real) (hx : x ≠ 0) :
    (2 : Real) ^ exponent x ≤ |x| ∧ |x| < (2 : Real) ^ (exponent x + 1) := by
  have hn : 1 ≤ x.num.natAbs := by
    have : x.num ≠ 0 := Rat.num_ne_zero.mpr hx
    omega
  have hd : 1 ≤ x.den := x.den_pos
  obtain ⟨a1, a2⟩ := halvings_spec x.num.natAbs x.num.natAbs (le_refl _) hn
  obtain ⟨b1, b2⟩ := halvings_spec x.den x.den (le_refl _) hd
  have hdpos : (0 : Real) < x.den := by exact_mod_cast hd
  have A1 : (2 : Real) ^ (halvings x.num.natAbs x.num.natAbs : Int) ≤ (x.num.natAbs : Real) := by
    rw [zpow_natCast]; exact_mod_cast a1
  have A2 : (x.num.natAbs : Real) < (2 : Real) ^ ((halvings x.num.natAbs x.num.natAbs : Int) + 1) := by
    have : ((halvings x.num.natAbs x.num.natAbs : Int) + 1) = ((halvings x.num.natAbs x.num.natAbs + 1 : Nat) : Int) := by push_cast; ring
    rw [this, zpow_natCast]; exact_mod_cast a2
  have B1 : (2 : Real) ^ (halvings x.den x.den : Int) ≤ (x.den : Real) := by
    rw [zpow_natCast]; exact_mod_cast b1
  have B2 : (x.den : Real) < (2 : Real) ^ ((halvings x.den x.den : Int) + 1) := by
    have : ((halvings x.den x.den : Int) + 1) = ((halvings x.den x.den + 1 : Nat) : Int) := by push_cast; ring
    rw [this, zpow_natCast]; exact_mod_cast b2
  have h2 : (0 : Real) < 2 := by norm_num
  have habs := abs_eq_div x
  unfold exponent
  split_ifs with hc
  · refine ⟨hc, ?_⟩
    rw [habs, div_lt_iff₀ hdpos]
    calc (x.num.natAbs : Real) < (2 : Real) ^ ((halvings x.num.natAbs x.num.natAbs : Int) + 1) := A2
      _ = (2 : Real) ^ ((halvings x.num.natAbs x.num.natAbs : Int) - (halvings x.den x.den : Int) + 1)
            * (2 : Real) ^ (halvings x.den x.den : Int) := by
          rw [← zpow_add₀ (by norm_num : (2 : Real) ≠ 0)]; congr 1; ring
      _ ≤ _ := by
          apply mul_le_mul_of_nonneg_left B1
          positivity
  · push_neg at hc
    refine ⟨?_, by simpa using hc⟩
    rw [habs, le_div_iff₀ hdpos]
    calc (2 : Real) ^ ((halvings x.num.natAbs x.num.natAbs : Int) - (halvings x.den x.den : Int) - 1)
          * (x.den : Real)
        ≤ (2 : Real) ^ ((halvings x.num.natAbs x.num.natAbs : Int) - (halvings x.den x.den : Int) - 1)
          * (2 : Real) ^ ((halvings x.den x.den : Int) + 1) := by
          apply mul_le_mul_of_nonneg_left (le_of_lt B2)
          positivity
      _ = (2 : Real) ^ (halvings x.num.natAbs x.num.natAbs : Int) := by
          rw [← zpow_add₀ (by norm_num : (2 : Real) ≠ 0)]; congr 1; ring
      _ ≤ _ := A1

theorem exponent_unique (x : Real) (hx : x ≠ 0) (e : Int) (h1 : (2 : Real) ^ e ≤ |x|)
    (h2 : |x| < (2 : Real) ^ (e + 1)) : exponent x = e := by
  obtain ⟨s1, s2⟩ := exponent_spec x hx
  have one_lt : (1 : Real) < 2 := by norm_num
  have a : exponent x < e + 1 := (zpow_lt_zpow_iff_right₀ one_lt).mp (lt_of_le_of_lt s1 h2)
  have b : e < exponent x + 1 := (zpow_lt_zpow_iff_right₀ one_lt).mp (lt_of_le_of_lt h1 s2)
  omega


theorem nearestEven_intCast (n : Int) : nearestEven (n : Real) = n := by
  simp [nearestEven]

theorem floor_le_nearestEven (q : Real) : ⌊q⌋ ≤ nearestEven q := by
  unfold nearestEven
  split_ifs <;> omega

theorem nearestEven_le_floor_succ (q : Real) : nearestEven q ≤ ⌊q⌋ + 1 := by
  unfold nearestEven
  split_ifs <;> omega

theorem nearestEven_mono {q q' : Real} (h : q ≤ q') : nearestEven q ≤ nearestEven q' := by
  have hfl : ⌊q⌋ ≤ ⌊q'⌋ := Int.floor_mono h
  by_cases hf : ⌊q⌋ = ⌊q'⌋
  · unfold nearestEven
    rw [hf]
    split_ifs <;> first | omega | (exfalso; linarith)
  · have hlt : ⌊q⌋ + 1 ≤ ⌊q'⌋ := by omega
    exact le_trans (nearestEven_le_floor_succ q) (le_trans hlt (floor_le_nearestEven q'))

theorem nearestEven_neg (q : Real) : nearestEven (-q) = -nearestEven q := by
  by_cases hr : q = (⌊q⌋ : Int)
  · rw [hr, ← Int.cast_neg, nearestEven_intCast, nearestEven_intCast]
  · have h0 : (⌊q⌋ : Real) ≤ q := Int.floor_le q
    have h1 : q < (⌊q⌋ : Real) + 1 := Int.lt_floor_add_one q
    have hpos : (⌊q⌋ : Real) < q := lt_of_le_of_ne h0 (Ne.symm hr)
    have hfn : ⌊-q⌋ = -⌊q⌋ - 1 := by
      rw [Int.floor_eq_iff]
      push_cast
      constructor <;> linarith
    unfold nearestEven
    rw [hfn]
    push_cast
    split_ifs <;> first | omega | (exfalso; linarith)

theorem exponent_neg (x : Real) : exponent (-x) = exponent x := by
  simp [exponent]

theorem round_neg (x : Real) : round (-x) = -round x := by
  unfold round
  by_cases hx : x = 0
  · simp [hx]
  · rw [if_neg hx, if_neg (neg_ne_zero.mpr hx), exponent_neg, neg_div, nearestEven_neg]
    push_cast
    ring

theorem round_zero : round 0 = 0 := by simp [round]

theorem two_zpow_pos (e : Int) : (0 : Real) < (2 : Real) ^ e := by positivity

/-- The significand of a positive number lies between `2^52` and `2^53`. -/
theorem significand_bounds (x : Real) (hx : 0 < x) :
    (4503599627370496 : Int) ≤ nearestEven (x / (2 : Real) ^ (exponent x - 52)) ∧
    nearestEven (x / (2 : Real) ^ (exponent x - 52)) ≤ (9007199254740992 : Int) := by
  obtain ⟨s1, s2⟩ := exponent_spec x (ne_of_gt hx)
  rw [abs_of_pos hx] at s1 s2
  have hu := two_zpow_pos (exponent x - 52)
  have e1 : (2 : Real) ^ exponent x = 4503599627370496 * (2 : Real) ^ (exponent x - 52) := by
    have : (4503599627370496 : Real) = (2 : Real) ^ (52 : Int) := by norm_num
    rw [this, ← zpow_add₀ (by norm_num : (2 : Real) ≠ 0)]
    congr 1; ring
  have e2 : (2 : Real) ^ (exponent x + 1) = 9007199254740992 * (2 : Real) ^ (exponent x - 52) := by
    have : (9007199254740992 : Real) = (2 : Real) ^ (53 : Int) := by norm_num
    rw [this, ← zpow_add₀ (by norm_num : (2 : Real) ≠ 0)]
    congr 1; ring
  constructor
  · have : ((4503599627370496 : Int) : Real) ≤ x / (2 : Real) ^ (exponent x - 52) := by
      rw [le_div_iff₀ hu]; push_cast; rw [← e1]; exact s1
    have := nearestEven_mono this
    rwa [nearestEven_intCast] at this
  · have : x / (2 : Real) ^ (exponent x - 52) ≤ ((9007199254740992 : Int) : Real) := by
      rw [div_le_iff₀ hu]; push_cast; rw [← e2]; exact le_of_lt s2
    have := nearestEven_mono this
    rwa [nearestEven_intCast] at this

theorem round_pos_bounds (x : Real) (hx : 0 < x) :
    (2 : Real) ^ exponent x ≤ round x ∧ round x ≤ (2 : Real) ^ (exponent x + 1) := by
  obtain ⟨m1, m2⟩ := significand_bounds x hx
  have hu := two_zpow_pos (exponent x - 52)
  have e1 : (2 : Real) ^ exponent x = 4503599627370496 * (2 : Real) ^ (exponent x - 52) := by
    have : (4503599627370496 : Real) = (2 : Real) ^ (52 : Int) := by norm_num
    rw [this, ← zpow_add₀ (by norm_num : (2 : Real) ≠ 0)]
    congr 1; ring
  have e2 : (2 : Real) ^ (exponent x + 1) = 9007199254740992 * (2 : Real) ^ (exponent x - 52) := by
    have : (9007199254740992 : Real) = (2 : Real) ^ (53 : Int) := by norm_num
    rw [this, ← zpow_add₀ (by norm_num : (2 : Real) ≠ 0)]
    congr 1; ring
  unfold round
  rw [if_neg (ne_of_gt hx), e1, e2]
  have c1 : (4503599627370496 : Real) ≤ (nearestEven (x / (2 : Real) ^ (exponent x - 52)) : Real) := by
    exact_mod_cast m1
  have c2 : (nearestEven (x / (2 : Real) ^ (exponent x - 52)) : Real) ≤ 9007199254740992 := by
    exact_mod_cast m2
  exact ⟨mul_le_mul_of_nonneg_right c1 (le_of_lt hu), mul_le_mul_of_nonneg_right c2 (le_of_lt hu)⟩

theorem round_pos (x : Real) (hx : 0 < x) : 0 < round x :=
  lt_of_lt_of_le (two_zpow_pos _) (round_pos_bounds x hx).1

theorem round_mono_pos (x y : Real) (hx : 0 < x) (hxy : x ≤ y) : round x ≤ round y := by
  have hy : 0 < y := lt_of_lt_of_le hx hxy
  obtain ⟨sx1, sx2⟩ := exponent_spec x (ne_of_gt hx)
  obtain ⟨sy1, sy2⟩ := exponent_spec y (ne_of_gt hy)
  rw [abs_of_pos hx] at sx1 sx2
  rw [abs_of_pos hy] at sy1 sy2
  have one_lt : (1 : Real) < 2 := by norm_num
  have hE : exponent x < exponent y + 1 :=
    (zpow_lt_zpow_iff_right₀ one_lt).mp (lt_of_le_of_lt sx1 (lt_of_le_of_lt hxy sy2))
  by_cases heq : exponent x = exponent y
  · unfold round
    rw [if_neg (ne_of_gt hx), if_neg (ne_of_gt hy), heq]
    have hu := two_zpow_pos (exponent y - 52)
    apply mul_le_mul_of_nonneg_right _ (le_of_lt hu)
    have : x / (2 : Real) ^ (exponent y - 52) ≤ y / (2 : Real) ^ (exponent y - 52) :=
      div_le_div_of_nonneg_right hxy (le_of_lt hu)
    exact_mod_cast nearestEven_mono this
  · have hlt : exponent x + 1 ≤ exponent y := by omega
    calc round x ≤ (2 : Real) ^ (exponent x + 1) := (round_pos_bounds x hx).2
      _ ≤ (2 : Real) ^ exponent y := (zpow_le_zpow_iff_right₀ one_lt).mpr hlt
      _ ≤ round y := (round_pos_bounds y hy).1

/-- Rounding to the nearest `double` is monotone. -/
theorem round_monotone : Monotone round := by
  intro x y hxy
  rcases lt_trichotomy x 0 with hx | hx | hx
  · rcases lt_trichotomy y 0 with hy | hy | hy
    · have := round_mono_pos (-y) (-x) (by linarith) (by linarith)
      rw [round_neg, round_neg] at this
      linarith
    · rw [hy, round_zero]
      have := round_pos (-x) (by linarith)
      rw [round_neg] at this
      linarith
    · have h1 := round_pos (-x) (by linarith)
      rw [round_neg] at h1
      have h2 := round_pos y hy
      linarith
  · rw [hx, round_zero]
    rcases lt_or_eq_of_le (by rw [hx] at hxy; exact hxy : (0 : Real) ≤ y) with hy | hy
    · exact le_of_lt (round_pos y hy)
    · rw [← hy, round_zero]
  · exact round_mono_pos x y hx hxy

theorem round_of_ne (x : Real) (hx : x ≠ 0) :
    round x = nearestEven (x / (2 : Real) ^ (exponent x - 52)) * (2 : Real) ^ (exponent x - 52) := by
  unfold round; rw [if_neg hx]

theorem round_idempotent_pos (x : Real) (hx : 0 < x) : round (round x) = round x := by
  obtain ⟨m1, m2⟩ := significand_bounds x hx
  have hu := two_zpow_pos (exponent x - 52)
  have hune : (2 : Real) ^ (exponent x - 52) ≠ 0 := ne_of_gt hu
  have hr : round x = nearestEven (x / (2 : Real) ^ (exponent x - 52))
      * (2 : Real) ^ (exponent x - 52) := by
    unfold round; rw [if_neg (ne_of_gt hx)]
  have hrpos := round_pos x hx
  obtain ⟨b1, b2⟩ := round_pos_bounds x hx
  rcases lt_or_eq_of_le m2 with hlt | heq
  · have hE : exponent (round x) = exponent x := by
      apply exponent_unique _ (ne_of_gt hrpos)
      · rw [abs_of_pos hrpos]; exact b1
      · rw [abs_of_pos hrpos, hr]
        have e2 : (2 : Real) ^ (exponent x + 1)
            = 9007199254740992 * (2 : Real) ^ (exponent x - 52) := by
          have : (9007199254740992 : Real) = (2 : Real) ^ (53 : Int) := by norm_num
          rw [this, ← zpow_add₀ (by norm_num : (2 : Real) ≠ 0)]
          congr 1; ring
        rw [e2]
        apply mul_lt_mul_of_pos_right _ hu
        exact_mod_cast hlt
    rw [round_of_ne (round x) (ne_of_gt hrpos), hE]
    have hq : round x / (2 : Real) ^ (exponent x - 52)
        = ((nearestEven (x / (2 : Real) ^ (exponent x - 52)) : Int) : Real) := by
      rw [hr, mul_div_assoc, div_self hune, mul_one]
    rw [hq, nearestEven_intCast]
    exact hr.symm
  · have hval : round x = (2 : Real) ^ (exponent x + 1) := by
      rw [hr, heq]
      have : ((9007199254740992 : Int) : Real) = (2 : Real) ^ (53 : Int) := by norm_num
      rw [this, ← zpow_add₀ (by norm_num : (2 : Real) ≠ 0)]
      congr 1; ring
    have one_lt : (1 : Real) < 2 := by norm_num
    have hE : exponent (round x) = exponent x + 1 := by
      apply exponent_unique _ (ne_of_gt hrpos)
      · rw [abs_of_pos hrpos, hval]
      · rw [abs_of_pos hrpos, hval]
        exact (zpow_lt_zpow_iff_right₀ one_lt).mpr (by omega)
    rw [round_of_ne (round x) (ne_of_gt hrpos), hE]
    have hq : round x / (2 : Real) ^ (exponent x + 1 - 52) = ((4503599627370496 : Int) : Real) := by
      rw [hval, div_eq_iff (ne_of_gt (two_zpow_pos _))]
      have : ((4503599627370496 : Int) : Real) = (2 : Real) ^ (52 : Int) := by norm_num
      rw [this, ← zpow_add₀ (by norm_num : (2 : Real) ≠ 0)]
      congr 1; ring
    rw [hq, nearestEven_intCast, hval]
    have : ((4503599627370496 : Int) : Real) = (2 : Real) ^ (52 : Int) := by norm_num
    rw [this, ← zpow_add₀ (by norm_num : (2 : Real) ≠ 0)]
    congr 1; ring

/-- Rounding to the nearest `double` leaves every `double` as it is. -/
theorem round_idempotent (x : Real) : round (round x) = round x := by
  rcases lt_trichotomy x 0 with hx | hx | hx
  · have := round_idempotent_pos (-x) (by linarith)
    rw [round_neg, round_neg] at this
    linarith
  · rw [hx, round_zero, round_zero]
  · exact round_idempotent_pos x hx

end Double

/-! ## Termination of the time march in an arithmetic that rounds -/

namespace Iteration

variable {S M V : Type}

/-- With a readable history and a child that returns where `Inv` holds, the
step that produces the next iterand returns; it only pushes into the history
of its level. -/
theorem produce_returns_when (root : IterationNode S M V) (solver : LinearSolver S M V)
    (lvl : Nat) (child : Option (Runner S V)) (Inv : World S V → Prop)
    (hchild : ChildReturnsWhen lvl child Inv) (i : Bool) (w : World S V)
    (h : (w.vars lvl).history.Ready) (hI : Inv w) :
    ∃ w2, produce root solver lvl child i w = .ok w2 ∧ (w2.vars lvl).history.Ready ∧
      (w2.vars lvl).implicitTime = (w.vars lvl).implicitTime ∧ Inv w2 := by
  unfold produce
  cases child with
  | some run =>
    obtain ⟨x0, hx0⟩ := iterand_of_ready w lvl h
    obtain ⟨r, hr, hframe, hIr⟩ := hchild.2 run rfl x0 (w.vars lvl).implicitTime i w hI
    simp only [hx0, hr]
    refine ⟨_, rfl, ?_, ?_, ?_⟩
    · rw [vars_pushHistory, hframe]
      exact CircularBuffer.Ready_push _ h.1 _
    · rw [vars_pushHistory, hframe]
    · refine hchild.1 r.2 _ hIr ?_
      intro l hl
      simp [pushHistory, vars_setVars_ne _ _ _ _ hl]
  | none =>
    simp only []
    unfold solveLinearSystemAndSaveResult
    have hvars : ∀ w1 : World S V, w1.vars = w.vars → ∃ w2,
        (match iterand w1 lvl 0 with
          | none => (Except.error Error.assertion : Except Error (World S V))
          | some x0 => .ok (pushHistory lvl (w.vars lvl).implicitTime
              (solver.solve w1.solver (root.b w1 (w.vars lvl).implicitTime) x0)
              (w1.record [Call.b (w.vars lvl).implicitTime, Call.solve]))) = .ok w2 ∧
        (w2.vars lvl).history.Ready ∧
        (w2.vars lvl).implicitTime = (w.vars lvl).implicitTime ∧ Inv w2 := by
      intro w1 hw1
      have h1 : (w1.vars lvl).history.Ready := by rw [hw1]; exact h
      obtain ⟨x0, hx0⟩ := iterand_of_ready w1 lvl h1
      simp only [hx0]
      refine ⟨_, rfl, ?_, ?_, ?_⟩
      · rw [vars_pushHistory, vars_record, hw1]
        exact CircularBuffer.Ready_push _ h.1 _
      · rw [vars_pushHistory, vars_record, hw1]
      · refine hchild.1 w _ hI ?_
        intro l hl
        simp [pushHistory, vars_setVars_ne _ _ _ _ hl, hw1]
    exact hvars _ (by split_ifs <;> rfl)

end Iteration

namespace TimeIteration

variable {S M V : Type}

theorem TIMESTEPRounded_ok (fl : Real → Real) (epsilon : Real) (it : TimeIteration V) (lvl : Nat)
    (nextEventTime : Real) (w : World S V)
    (hpos : 0 < it.timestep { w.vars lvl with dtPrevious := (w.vars lvl).dt }) :
    TIMESTEPRounded fl epsilon it lvl nextEventTime w = .ok (w.setVars lvl { w.vars lvl with
      dtPrevious := (w.vars lvl).dt
      dt := (timestepCoreRounded fl it.Forward epsilon (w.vars lvl).implicitTime nextEventTime
        (it.timestep { w.vars lvl with dtPrevious := (w.vars lvl).dt })).2
      implicitTime := (timestepCoreRounded fl it.Forward epsilon (w.vars lvl).implicitTime
        nextEventTime (it.timestep { w.vars lvl with dtPrevious := (w.vars lvl).dt })).1 }) := by
  unfold TIMESTEPRounded
  rw [if_pos hpos]

/-- A rounded sum of `direction * x` for `x ≥ 0` is not behind the time it is
added to, when the rounding is monotone and leaves 0 and the time as they
are. -/
theorem rounded_sum_not_behind (fl : Real → Real) (hmono : Monotone fl) (hzero : fl 0 = 0)
    (Forward : Bool) (t x : Real) (hx : 0 ≤ x) (ht : fl t = t) :
    0 ≤ distance Forward (fl (t + fl (direction Forward * x))) t := by
  cases Forward
  · simp only [distance, direction, Bool.false_eq_true, if_false]
    have h1 : fl (-1 * x) ≤ 0 := by
      have := hmono (show -1 * x ≤ 0 by linarith)
      rwa [hzero] at this
    have h2 : fl (t + fl (-1 * x)) ≤ t := by
      have := hmono (show t + fl (-1 * x) ≤ t by linarith)
      rwa [ht] at this
    linarith
  · simp only [distance, direction, if_true]
    have h1 : 0 ≤ fl (1 * x) := by
      have := hmono (show 0 ≤ 1 * x by linarith)
      rwa [hzero] at this
    have h2 : t ≤ fl (t + fl (1 * x)) := by
      have := hmono (show t ≤ t + fl (1 * x) by linarith)
      rwa [ht] at this
    linarith

/-- At a time that the rounding leaves as it is, the test `NOT_DONE` towards
this very time is false. -/
theorem rounded_done_at (fl : Real → Real) (hmono : Monotone fl) (hzero : fl 0 = 0)
    (Forward : Bool) (epsilon ne : Real) (heps : 0 ≤ epsilon) (hne : fl ne = ne) :
    Order Forward ne (fl (ne + fl (direction Forward * epsilon))) = false := by
  have h := rounded_sum_not_behind fl hmono hzero Forward ne epsilon heps hne
  cases Forward
  · simp only [distance, direction, Bool.false_eq_true, if_false] at h
    simp only [Order, direction, Bool.false_eq_true, if_false, decide_eq_false_iff_not, not_lt]
    linarith
  · simp only [distance, direction, if_true] at h
    simp only [Order, direction, if_true, decide_eq_false_iff_not, not_lt, gt_iff_lt]
    linarith

/-- If the loop goes on after a step, the step committed the rounded sum
`implicitTime + direction * dt`, which is not past the pending event time. -/
theorem timestepCoreRounded_progress (fl : Real → Real) (hmono : Monotone fl)
    (hzero : fl 0 = 0) (Forward : Bool) (epsilon t ne dt : Real)
    (heps : 0 ≤ epsilon) (hne : fl ne = ne)
    (hnd : Order Forward ne (fl ((timestepCoreRounded fl Forward epsilon t ne dt).1
      + fl (direction Forward * epsilon))) = true) :
    (timestepCoreRounded fl Forward epsilon t ne dt).1 = fl (t + fl (direction Forward * dt)) ∧
    0 ≤ distance Forward ne (fl (t + fl (direction Forward * dt))) := by
  have hdone := rounded_done_at fl hmono hzero Forward epsilon ne heps hne
  unfold timestepCoreRounded at hnd ⊢
  split_ifs at hnd ⊢ with h1 h2
  · rw [hdone] at hnd; exact absurd hnd (by simp)
  · rw [hdone] at hnd; exact absurd hnd (by simp)
  · refine ⟨rfl, ?_⟩
    cases Forward
    · simp only [Order, Bool.false_eq_true, if_false, decide_eq_true_eq, not_lt] at h2
      simp only [distance, direction, Bool.false_eq_true, if_false] at h2 ⊢
      linarith
    · simp only [Order, if_true, decide_eq_true_eq, not_lt, gt_iff_lt] at h2
      simp only [distance, direction, if_true] at h2 ⊢
      linarith

/-- A time strictly after `t` and not past `ne` in the march direction lies in
every interval that holds `t` and `ne`. -/
theorem between_bounds (Forward : Bool) (lo hi t ne s delta : Real) (hdelta : 0 < delta)
    (h1 : delta ≤ distance Forward s t) (h2 : 0 ≤ distance Forward ne s)
    (hlo : lo ≤ t) (hhi : t ≤ hi) (hnelo : lo ≤ ne) (hnehi : ne ≤ hi) :
    lo ≤ s ∧ s ≤ hi ∧ distance Forward ne s ≤ distance Forward ne t - delta := by
  cases Forward <;>
    simp only [distance, direction, Bool.false_eq_true, if_false, if_true] at h1 h2 ⊢ <;>
    refine ⟨?_, ?_, ?_⟩ <;> linarith

/-- One turn of the step loop of a time iteration with a readable history, in
an arithmetic that rounds. -/
theorem stepLoop_turn_rounded (fl : Real → Real) (epsilon : Real) (root : IterationNode S M V)
    (solver : LinearSolver S M V) (it : TimeIteration V) (lvl : Nat)
    (child : Option (Runner S V)) (Inv : World S V → Prop)
    (hchild : ChildReturnsWhen lvl child Inv)
    (hpos : ∀ v, 0 < it.timestep v) (ne : Real) (fuel : Nat) (i : Bool) (w : World S V)
    (h : (w.vars lvl).history.Ready) (hI : Inv w) :
    ∃ w3, (w3.vars lvl).history.Ready ∧ Inv w3 ∧
      (w3.vars lvl).implicitTime = (timestepCoreRounded fl it.Forward epsilon
        (w.vars lvl).implicitTime ne
        (it.timestep { w.vars lvl with dtPrevious := (w.vars lvl).dt })).1 ∧
      Iteration.stepLoop root solver lvl it.nodes child (TIMESTEPRounded fl epsilon it lvl ne)
          (NOT_DONERounded fl epsilon it lvl ne) (fuel + 1) i w
        = (if Order it.Forward ne
              (fl ((w3.vars lvl).implicitTime + fl (direction it.Forward * epsilon)))
          then Iteration.stepLoop root solver lvl it.nodes child
            (TIMESTEPRounded fl epsilon it lvl ne) (NOT_DONERounded fl epsilon it lvl ne)
            fuel true w3
          else .ok (true, w3)) := by
  have hT := TIMESTEPRounded_ok fl epsilon it lvl ne w (hpos _)
  have hI1 : Inv (Iteration.startNodes it.nodes (w.setVars lvl { w.vars lvl with
      dtPrevious := (w.vars lvl).dt
      dt := (timestepCoreRounded fl it.Forward epsilon (w.vars lvl).implicitTime ne
        (it.timestep { w.vars lvl with dtPrevious := (w.vars lvl).dt })).2
      implicitTime := (timestepCoreRounded fl it.Forward epsilon (w.vars lvl).implicitTime ne
        (it.timestep { w.vars lvl with dtPrevious := (w.vars lvl).dt })).1 })) := by
    refine hchild.1 w _ hI ?_
    intro l hl
    simp [Iteration.vars_setVars_ne _ _ _ _ hl]
  obtain ⟨w2, hw2, hr2, ht2, hI2⟩ := Iteration.produce_returns_when root solver lvl child Inv
    hchild i
    (Iteration.startNodes it.nodes (w.setVars lvl { w.vars lvl with
      dtPrevious := (w.vars lvl).dt
      dt := (timestepCoreRounded fl it.Forward epsilon (w.vars lvl).implicitTime ne
        (it.timestep { w.vars lvl with dtPrevious := (w.vars lvl).dt })).2
      implicitTime := (timestepCoreRounded fl it.Forward epsilon (w.vars lvl).implicitTime ne
        (it.timestep { w.vars lvl with dtPrevious := (w.vars lvl).dt })).1 }))
    (by simpa using h) hI1
  refine ⟨Iteration.TAIL lvl it.nodes w2, ?_, ?_, ?_, ?_⟩
  · rw [Iteration.vars_TAIL]; exact hr2
  · refine hchild.1 w2 _ hI2 ?_
    intro l hl
    simp [Iteration.TAIL, Iteration.vars_setVars_ne _ _ _ _ hl]
  · rw [Iteration.vars_TAIL]; simpa using ht2
  · conv_lhs => unfold Iteration.stepLoop
    rw [hT]
    simp only [hw2, NOT_DONERounded]
    cases hO : Order it.Forward ne
        (fl (((Iteration.TAIL lvl it.nodes w2).vars lvl).implicitTime
          + fl (direction it.Forward * epsilon))) <;> simp [hO]

/-- The step loop returns once `distance / delta + 1` turns are paid for, when
every timestep moves the rounded time by at least `delta > 0`. -/
theorem stepLoop_returns_rounded (fl : Real → Real) (hmono : Monotone fl) (hzero : fl 0 = 0)
    (epsilon delta : Real) (heps : 0 ≤ epsilon) (hdelta : 0 < delta)
    (root : IterationNode S M V) (solver : LinearSolver S M V) (it : TimeIteration V)
    (lvl : Nat) (child : Option (Runner S V)) (Inv : World S V → Prop)
    (hchild : ChildReturnsWhen lvl child Inv) (hpos : ∀ v, 0 < it.timestep v)
    (lo hi : Real)
    (hprog : ∀ v : Vars V, lo ≤ v.implicitTime → v.implicitTime ≤ hi →
      delta ≤ distance it.Forward
        (fl (v.implicitTime + fl (direction it.Forward * it.timestep v))) v.implicitTime)
    (ne : Real) (hne : fl ne = ne) (hnelo : lo ≤ ne) (hnehi : ne ≤ hi) :
    ∀ (m fuel : Nat) (i : Bool) (w : World S V), m + 1 ≤ fuel →
      (w.vars lvl).history.Ready → Inv w →
      lo ≤ (w.vars lvl).implicitTime → (w.vars lvl).implicitTime ≤ hi →
      distance it.Forward ne (w.vars lvl).implicitTime ≤ m * delta →
      ∃ r, Iteration.stepLoop root solver lvl it.nodes child
          (TIMESTEPRounded fl epsilon it lvl ne) (NOT_DONERounded fl epsilon it lvl ne)
          fuel i w = .ok r ∧ (r.2.vars lvl).history.Ready ∧ Inv r.2 := by
  intro m
  induction m with
  | zero =>
    intro fuel i w hf hr hI hlo hhi hd
    obtain ⟨f, rfl⟩ : ∃ f, fuel = f + 1 := ⟨fuel - 1, by omega⟩
    obtain ⟨w3, hr3, hI3, ht3, heq⟩ := stepLoop_turn_rounded fl epsilon root solver it lvl child
      Inv hchild hpos ne f i w hr hI
    rw [heq]
    split_ifs with hO
    · rw [ht3] at hO
      obtain ⟨p1, p2⟩ := timestepCoreRounded_progress fl hmono hzero it.Forward epsilon _ ne _
        heps hne hO
      have hp := hprog { w.vars lvl with dtPrevious := (w.vars lvl).dt } hlo hhi
      obtain ⟨_, _, b3⟩ := between_bounds it.Forward lo hi _ ne _ delta hdelta hp p2 hlo hhi
        hnelo hnehi
      simp only [Nat.cast_zero, zero_mul] at hd
      linarith
    · exact ⟨_, rfl, hr3, hI3⟩
  | succ m ih =>
    intro fuel i w hf hr hI hlo hhi hd
    obtain ⟨f, rfl⟩ : ∃ f, fuel = f + 1 := ⟨fuel - 1, by omega⟩
    obtain ⟨w3, hr3, hI3, ht3, heq⟩ := stepLoop_turn_rounded fl epsilon root solver it lvl child
      Inv hchild hpos ne f i w hr hI
    rw [heq]
    split_ifs with hO
    · rw [ht3] at hO
      obtain ⟨p1, p2⟩ := timestepCoreRounded_progress fl hmono hzero it.Forward epsilon _ ne _
        heps hne hO
      have hp := hprog { w.vars lvl with dtPrevious := (w.vars lvl).dt } hlo hhi
      obtain ⟨b1, b2, b3⟩ := between_bounds it.Forward lo hi _ ne _ delta hdelta hp p2 hlo hhi
        hnelo hnehi
      apply ih f true w3 (by omega) hr3 hI3
      · rw [ht3, p1]; exact b1
      · rw [ht3, p1]; exact b2
      · rw [ht3, p1]
        push_cast at hd
        linarith
    · exact ⟨_, rfl, hr3, hI3⟩

/-- With a readable history, the event boundary completes and only changes the
variables of its level. -/
theorem OUTER_TAIL_returns_when [Inhabited V] (it : TimeIteration V) (lvl : Nat) (ne : Real)
    (events : PriorityQueue V) (w : World S V) (h : (w.vars lvl).history.Ready) :
    ∃ r x, OUTER_TAIL it lvl ne events w = .ok r ∧
      r.1 = (applyEvents ne events x default).2.1 ∧
      (r.2.vars lvl).implicitTime = ne ∧ (r.2.vars lvl).history.Ready ∧
      ∀ l, l ≠ lvl → r.2.vars l = w.vars l := by
  obtain ⟨r, x, h1, h2, h3, h4⟩ := OUTER_TAIL_returns it lvl ne events w h
  refine ⟨r, x, h1, h2, h3, h4, ?_⟩
  intro l hl
  unfold OUTER_TAIL at h1
  simp only [] at h1
  split at h1
  · exact absurd h1 (by simp)
  · simp only [Except.ok.injEq] at h1
    subst h1
    simp [Iteration.vars_pushHistory_ne _ _ _ _ _ hl, Iteration.clearHistory,
      Iteration.vars_setVars_ne _ _ _ _ hl]

/-- The loop over the event boundaries returns at the terminal time, in an
arithmetic that rounds, when the working queue holds an entry at the terminal
time and all of its times lie in `[startTime, endTime]` and are left as they are
by the rounding. -/
theorem outerLoop_returns_rounded [Inhabited V] (fl : Real → Real) (hmono : Monotone fl)
    (hzero : fl 0 = 0) (epsilon delta : Real) (heps : 0 ≤ epsilon)
    (hdelta : 0 < delta) (root : IterationNode S M V) (solver : LinearSolver S M V)
    (it : TimeIteration V) (lvl : Nat) (child : Option (Runner S V)) (Inv : World S V → Prop)
    (hchild : ChildReturnsWhen lvl child Inv) (hpos : ∀ v, 0 < it.timestep v)
    (hprog : ∀ v : Vars V, it.startTime ≤ v.implicitTime → v.implicitTime ≤ it.endTime →
      delta ≤ distance it.Forward
        (fl (v.implicitTime + fl (direction it.Forward * it.timestep v))) v.implicitTime)
    (bound inner : Nat) (hbound : it.endTime - it.startTime ≤ bound * delta)
    (hinner : bound + 1 ≤ inner) :
    ∀ (n fuel : Nat) (events : PriorityQueue V) (i : Bool) (w : World S V),
      events.length ≤ n → n ≤ fuel →
      (∃ a ∈ events, a.2.1 = it.terminalTime) →
      (∀ a ∈ events, it.startTime ≤ a.2.1 ∧ a.2.1 ≤ it.endTime ∧ fl a.2.1 = a.2.1) →
      (w.vars lvl).history.Ready → Inv w →
      it.startTime ≤ (w.vars lvl).implicitTime → (w.vars lvl).implicitTime ≤ it.endTime →
      ∃ w', outerLoopRounded fl epsilon root solver it lvl child inner fuel events i w = .ok w' ∧
        (w'.vars lvl).implicitTime = it.terminalTime ∧ (w'.vars lvl).history.Ready := by
  intro n
  induction n with
  | zero =>
    intro fuel events i w hlen _ hsent
    obtain ⟨a, ha, _⟩ := hsent
    have : events = [] := List.length_eq_zero.mp (by omega)
    rw [this] at ha
    exact absurd ha (List.not_mem_nil _)
  | succ n ih =>
    intro fuel events i w hlen hfuel hsent hall hr hI hlo hhi
    cases events with
    | nil =>
      obtain ⟨a, ha, _⟩ := hsent
      exact absurd ha (List.not_mem_nil _)
    | cons e q =>
      obtain ⟨f, rfl⟩ : ∃ f, fuel = f + 1 := ⟨fuel - 1, by omega⟩
      have he := hall e (List.mem_cons_self _ _)
      obtain ⟨r, hr1, hr2, hI2⟩ := stepLoop_returns_rounded fl hmono hzero epsilon delta heps
        hdelta root solver it lvl child Inv hchild hpos it.startTime it.endTime hprog e.2.1
        he.2.2 he.1 he.2.1 bound inner i w hinner hr hI hlo hhi
        (le_trans (distance_le it.Forward _ _ _ _ he.1 he.2.1 hlo hhi) hbound)
      obtain ⟨r', x, ho1, ho2, ho3, ho4, ho5⟩ := OUTER_TAIL_returns_when it lvl e.2.1 (e :: q)
        r.2 hr2
      unfold outerLoopRounded
      simp only [PriorityQueue.top, List.head?_cons, hr1, ho1]
      split_ifs with hO
      · have hne : it.terminalTime ≠ e.2.1 := by
          intro hc
          rw [ho3, hc, order_irrefl] at hO
          exact absurd hO (by simp)
        obtain ⟨i1, i2, i3⟩ := applyEvents_rest e.2.1 (e :: q) x default
        apply ih f r'.1 r.1 r'.2
        · rw [ho2]
          have := applyEvents_head_popped e.2.1 e q x default rfl
          simp only [List.length_cons] at hlen
          omega
        · omega
        · obtain ⟨a, ha, hat⟩ := hsent
          exact ⟨a, by rw [ho2]; exact i3 a ha (by rw [hat]; exact hne), hat⟩
        · intro a ha
          rw [ho2] at ha
          exact hall a (i2 a ha)
        · exact ho4
        · exact hchild.1 r.2 r'.2 hI2 ho5
        · rw [ho3]; exact he.1
        · rw [ho3]; exact he.2.1
      · refine ⟨_, rfl, ?_, ho4⟩
        rw [ho3] at hO ⊢
        have hO' : Order it.Forward it.terminalTime e.2.1 = false := by simpa using hO
        unfold terminalTime at hO' ⊢
        cases hF : it.Forward
        · rw [hF] at hO'
          simp only [Order, Bool.false_eq_true, if_false, decide_eq_false_iff_not, not_lt] at hO' ⊢
          exact le_antisymm hO' he.1
        · rw [hF] at hO'
          simp only [Order, if_true, decide_eq_false_iff_not, not_lt, gt_iff_lt] at hO' ⊢
          exact le_antisymm he.2.1 hO'

end TimeIteration

namespace TimeIteration

variable {S M V : Type}

theorem timestepCoreRounded_exact (fl : Real → Real) (hfl : ∀ y, fl y = y) (Forward : Bool)
    (epsilon t ne dt : Real) :
    timestepCoreRounded fl Forward epsilon t ne dt = timestepCore Forward epsilon t ne dt := by
  simp only [timestepCoreRounded, timestepCore, hfl]

theorem TIMESTEPRounded_exact (fl : Real → Real) (hfl : ∀ y, fl y = y) (epsilon : Real)
    (it : TimeIteration V) (lvl : Nat) (ne : Real) :
    (TIMESTEPRounded fl epsilon it lvl ne : World S V → Except Error (World S V))
      = TIMESTEP epsilon it lvl ne := by
  funext w
  simp only [TIMESTEPRounded, TIMESTEP, timestepCoreRounded_exact fl hfl]

theorem NOT_DONERounded_exact (fl : Real → Real) (hfl : ∀ y, fl y = y) (epsilon : Real)
    (it : TimeIteration V) (lvl : Nat) (ne : Real) :
    (NOT_DONERounded fl epsilon it lvl ne : World S V → Except Error Bool)
      = NOT_DONE epsilon it lvl ne := by
  funext w
  simp only [NOT_DONERounded, NOT_DONE, hfl]

theorem outerLoopRounded_exact [Inhabited V] (fl : Real → Real) (hfl : ∀ y, fl y = y)
    (epsilon : Real) (root : IterationNode S M V) (solver : LinearSolver S M V)
    (it : TimeIteration V) (lvl : Nat) (child : Option (Runner S V)) (inner : Nat) :
    ∀ (fuel : Nat) (events : PriorityQueue V) (i : Bool) (w : World S V),
      outerLoopRounded fl epsilon root solver it lvl child inner fuel events i w
        = outerLoop epsilon root solver it lvl child inner fuel events i w := by
  intro fuel
  induction fuel with
  | zero => intro events i w; rfl
  | succ fuel ih =>
    intro events i w
    unfold outerLoopRounded outerLoop
    simp only [TIMESTEPRounded_exact fl hfl, NOT_DONERounded_exact fl hfl, ih]

/-- With a rounding that changes nothing, the rounded run is the run in exact
arithmetic. -/
theorem iterateUntilDoneRounded_exact [Inhabited V] (fl : Real → Real) (hfl : ∀ y, fl y = y)
    (epsilon : Real) (fuel : Nat) (root : IterationNode S M V) (solver : LinearSolver S M V)
    (it : TimeIteration V) (lvl : Nat) (child : Option (Runner S V)) (x : V) (time : Real)
    (i : Bool) (w : World S V) :
    iterateUntilDoneRounded fl epsilon fuel root solver it lvl child x time i w
      = iterateUntilDone epsilon fuel root solver it lvl child x time i w := by
  simp only [iterateUntilDoneRounded, iterateUntilDone, outerLoopRounded_exact fl hfl]

/-- The step loop of `absorbedStepper` towards the terminal time 2, in the
arithmetic of `double`s, never returns from the time 1: every budget runs
out. -/
theorem absorbed_stepLoop (root : IterationNode Unit Unit Real)
    (solver : LinearSolver Unit Unit Real) :
    ∀ (fuel : Nat) (i : Bool) (w : World Unit Real), (w.vars 0).history.Ready →
      (w.vars 0).implicitTime = 1 →
      Iteration.stepLoop root solver 0 absorbedStepper.nodes none
        (TIMESTEPRounded Double.round (1 / 1024) absorbedStepper 0 2)
        (NOT_DONERounded Double.round (1 / 1024) absorbedStepper 0 2) fuel i w
        = .error Error.fuel := by
  intro fuel
  induction fuel with
  | zero => intro i w _ _; rfl
  | succ fuel ih =>
    intro i w hr ht
    obtain ⟨w3, hr3, _, ht3, heq⟩ := stepLoop_turn_rounded Double.round (1 / 1024) root solver
      absorbedStepper 0 none (fun _ => True)
      ⟨fun _ _ _ _ => trivial, fun run h => absurd h (by simp)⟩
      (by intro v; simp [absorbedStepper, ConstantStepper]) 2 fuel i w hr trivial
    have hcore : timestepCoreRounded Double.round true (1 / 1024) 1 2
        (1 / 1152921504606846976) = (1, 1 / 1152921504606846976) := by decide!
    have hval : (w3.vars 0).implicitTime = 1 := by
      rw [ht3, ht]
      simp only [absorbedStepper, ConstantStepper]
      rw [hcore]
    have hnd : Order true 2 (Double.round (1 + Double.round (direction true * (1 / 1024))))
        = true := by decide!
    rw [heq, if_pos]
    · exact ih true w3 hr3 hval
    · rw [hval]
      simpa [absorbedStepper, ConstantStepper] using hnd

end TimeIteration

/-- C5, counterexample. The configuration `absorbedStepper` is valid: it is
what the constructor builds for `startTime = 1 < endTime = 2`, it has no
events, its `timestep()` is `2^-60 > 0` at every call, a value of the type
`double` as the times 1 and 2 are, and root and solver are total. Yet in the
arithmetic of `double`s `iterateUntilDone` does not return: the first
`TIMESTEP` rounds `1 + 2^-60` to 1 and leaves `implicitTime` at 1, where
`NOT_DONE` holds, so with every loop budget the budget runs out. -/
theorem C5_termination_counterexample :
    TimeIteration.new true 1 2 absorbedStepper.timestep [] = some absorbedStepper ∧
    (∀ v, 0 < absorbedStepper.timestep v) ∧
    (∀ v, Double.round (absorbedStepper.timestep v) = absorbedStepper.timestep v) ∧
    Double.round 1 = 1 ∧ Double.round 2 = 2 ∧ Double.round (1 / 1024) = 1 / 1024 ∧
    (TimeIteration.timestepCoreRounded Double.round true (1 / 1024) 1 2
      (1 / 1152921504606846976)).1 = 1 ∧
    ∀ fuel, TimeIteration.iterateUntilDoneRounded Double.round (1 / 1024) fuel (carryRoot 0)
      identitySolver absorbedStepper 0 none (3 : Real) (-1) false (World.fresh 1)
      = .error Error.fuel := by
  refine ⟨by simp [TimeIteration.new, absorbedStepper, ConstantStepper],
    by intro v; simp [absorbedStepper, ConstantStepper],
    by intro v; simp only [absorbedStepper, ConstantStepper]; decide!,
    by decide!, by decide!, by decide!, by decide!, ?_⟩
  intro fuel
  unfold TimeIteration.iterateUntilDoneRounded
  cases fuel with
  | zero => rfl
  | succ fuel =>
    obtain ⟨hr0, ht0⟩ := TimeIteration.opening_ready 0 absorbedStepper.nodes (3 : Real)
      (TimeIteration.SET_TIME absorbedStepper 0 (World.fresh 1 : World Unit Real))
      (by simp [TimeIteration.SET_TIME, World.fresh, CircularBuffer.new, CircularBuffer.clear])
      (by simp [TimeIteration.SET_TIME, World.fresh, CircularBuffer.new, CircularBuffer.clear])
    have ht0' : ((Iteration.opening 0 absorbedStepper.nodes (3 : Real)
        (TimeIteration.SET_TIME absorbedStepper 0 (World.fresh 1 : World Unit Real))).vars
        0).implicitTime = 1 := by
      rw [ht0]
      simp [TimeIteration.SET_TIME, TimeIteration.initialTime, absorbedStepper, ConstantStepper]
    have hq : TimeIteration.OUTER_HEAD absorbedStepper = [(unsignedMax, 2, NullEvent)] := by
      simp [TimeIteration.OUTER_HEAD, absorbedStepper, ConstantStepper,
        TimeIteration.terminalTime, PriorityQueue.emplace]
    have hs := TimeIteration.absorbed_stepLoop (carryRoot 0) identitySolver (fuel + 1) false _
      hr0 ht0'
    rw [hq]
    unfold TimeIteration.outerLoopRounded
    simp only [PriorityQueue.top, List.head?_cons, hs]

/-- C5, amended (termination). In an arithmetic whose rounding `fl` is monotone
and leaves 0, the event times and the terminal time as they are (rounding to
nearest on `double`s, or no rounding at all): for a `TimeIteration` built by
the constructor (`startTime >= 0`, `startTime < endTime`) and accepted `add`
calls, with `epsilon >= 0`, whose `timestep()` returns at every call a value
`dt > 0` for which the rounded sum `implicitTime + direction * dt` is further
in the march direction than `implicitTime` by at least some fixed `delta > 0`
(in exact arithmetic: `dt >= delta`), with a child (if any) that returns
wherever its condition `Inv` holds and leaves the variables of its parent
alone, and with an allocated history: `iterateUntilDone` returns, for every
loop budget from some value on, and when it returns
`implicitTime == terminalTime`; with no rounding the run is the one of
`iterateUntilDone` in exact arithmetic. -/
theorem C5_termination {S M V : Type} [Inhabited V] (fl : Real → Real) (hmono : Monotone fl)
    (hzero : fl 0 = 0) (epsilon : Real) (heps : 0 ≤ epsilon)
    (Forward : Bool) (startTime endTime : Real) (timestep : Vars V → Real) (nodes : List Nat)
    (es : List (Real × (V → V))) (it0 it : TimeIteration V)
    (h0 : TimeIteration.new Forward startTime endTime timestep nodes = some it0)
    (h1 : TimeIteration.addAll epsilon it0 es = some it)
    (hfix : ∀ a ∈ TimeIteration.OUTER_HEAD it, fl a.2.1 = a.2.1)
    (delta : Real) (hdelta : 0 < delta) (hpos : ∀ v, 0 < it.timestep v)
    (hprog : ∀ v : Vars V, it.startTime ≤ v.implicitTime → v.implicitTime ≤ it.endTime →
      delta ≤ TimeIteration.distance it.Forward
        (fl (v.implicitTime + fl (direction it.Forward * it.timestep v))) v.implicitTime)
    (root : IterationNode S M V) (solver : LinearSolver S M V) (lvl : Nat)
    (child : Option (Runner S V)) (Inv : World S V → Prop)
    (hchild : ChildReturnsWhen lvl child Inv)
    (x : V) (time : Real) (i : Bool) (w : World S V) (hI : Inv w)
    (hn : 0 < (w.vars lvl).history.n)
    (hlen : (w.vars lvl).history.data.length = (w.vars lvl).history.n.toNat) :
    ∃ fuel0, ∀ fuel, fuel0 ≤ fuel →
      ∃ r, TimeIteration.iterateUntilDoneRounded fl epsilon fuel root solver it lvl child x time
          i w = .ok r ∧
        (r.2.vars lvl).implicitTime = it.terminalTime ∧
        it.terminalTime = (if Forward then endTime else startTime) ∧
        ((∀ y, fl y = y) →
          TimeIteration.iterateUntilDone epsilon fuel root solver it lvl child x time i w
            = .ok r) := by
  obtain ⟨e0, _, hse⟩ := TimeIteration.new_spec Forward startTime endTime timestep nodes it0 h0
  have hF0 : it0.Forward = Forward := by rw [e0]
  have hs0 : it0.startTime = startTime := by rw [e0]
  have he0 : it0.endTime = endTime := by rw [e0]
  have hev0 : it0.events = [] := by rw [e0]
  obtain ⟨_, g2, g3, g4, _, _, g7⟩ := TimeIteration.addAll_spec epsilon es it0 it h1
    (by rw [hev0]; exact List.Pairwise.nil) (by rw [e0]; norm_num)
  rw [hF0] at g2
  rw [hs0] at g3
  rw [he0] at g4
  have hterm : it.terminalTime = (if Forward then endTime else startTime) := by
    simp only [TimeIteration.terminalTime, g2, g3, g4]
  have hinit : it.startTime ≤ it.initialTime ∧ it.initialTime ≤ it.endTime := by
    simp only [TimeIteration.initialTime, g3, g4]
    split_ifs <;> constructor <;> linarith
  have hall : ∀ a ∈ TimeIteration.OUTER_HEAD it,
      it.startTime ≤ a.2.1 ∧ a.2.1 ≤ it.endTime ∧ fl a.2.1 = a.2.1 := by
    intro a ha
    refine ⟨?_, ?_, hfix a ha⟩
    · rcases (PriorityQueue.mem_emplace _ _ _ _).mp ha with rfl | ha'
      · simp only [hterm, g3, g4]
        split_ifs <;> linarith
      · rcases g7 a ha' with hin | hv
        · rw [hev0] at hin; exact absurd hin (List.not_mem_nil _)
        · rw [hs0, he0] at hv
          rw [g3]
          exact hv.1
    · rcases (PriorityQueue.mem_emplace _ _ _ _).mp ha with rfl | ha'
      · simp only [hterm, g3, g4]
        split_ifs <;> linarith
      · rcases g7 a ha' with hin | hv
        · rw [hev0] at hin; exact absurd hin (List.not_mem_nil _)
        · rw [hs0, he0] at hv
          rw [g4]
          linarith [hv.2.1]
  have hsent : ∃ a ∈ TimeIteration.OUTER_HEAD it, a.2.1 = it.terminalTime :=
    ⟨(unsignedMax, it.terminalTime, NullEvent),
      (PriorityQueue.mem_emplace _ _ _ _).mpr (Or.inl rfl), rfl⟩
  have hbound : it.endTime - it.startTime ≤ (⌈(endTime - startTime) / delta⌉₊ : Nat) * delta := by
    rw [g3, g4]
    have := Nat.le_ceil ((endTime - startTime) / delta)
    exact (div_le_iff₀ hdelta).mp this
  refine ⟨max (⌈(endTime - startTime) / delta⌉₊ + 1) (TimeIteration.OUTER_HEAD it).length, ?_⟩
  intro fuel hfuel
  obtain ⟨hr0, ht0⟩ := TimeIteration.opening_ready lvl it.nodes x (TimeIteration.SET_TIME it lvl w)
    (by simpa [TimeIteration.SET_TIME] using hn) (by simpa [TimeIteration.SET_TIME] using hlen)
  have ht0' : ((Iteration.opening lvl it.nodes x (TimeIteration.SET_TIME it lvl w)).vars
      lvl).implicitTime = it.initialTime := by
    rw [ht0]; simp [TimeIteration.SET_TIME]
  have hI0 : Inv (Iteration.opening lvl it.nodes x (TimeIteration.SET_TIME it lvl w)) := by
    refine hchild.1 w _ hI ?_
    intro l hl
    rw [Iteration.vars_opening_ne _ _ _ _ _ hl]
    simp [TimeIteration.SET_TIME, Iteration.vars_setVars_ne _ _ _ _ hl]
  obtain ⟨w', hw', htw', hrw'⟩ := TimeIteration.outerLoop_returns_rounded fl hmono hzero epsilon
    delta heps hdelta root solver it lvl child Inv hchild hpos hprog _ fuel hbound
    (le_trans (le_max_left _ _) hfuel)
    (TimeIteration.OUTER_HEAD it).length fuel (TimeIteration.OUTER_HEAD it) i _ (le_refl _)
    (le_trans (le_max_right _ _) hfuel) hsent hall hr0 hI0
    (by rw [ht0']; exact hinit.1) (by rw [ht0']; exact hinit.2)
  obtain ⟨xr, hxr⟩ := Iteration.iterand_of_ready w' lvl hrw'
  have hrun : TimeIteration.iterateUntilDoneRounded fl epsilon fuel root solver it lvl child x
      time i w = .ok (xr, w') := by
    unfold TimeIteration.iterateUntilDoneRounded
    simp only [hw', hxr]
  refine ⟨(xr, w'), hrun, htw', hterm, ?_⟩
  intro hfl
  rw [← TimeIteration.iterateUntilDoneRounded_exact fl hfl]
  exact hrun

/-! ## A tolerance iteration as the child of a time iteration -/

namespace CircularBuffer

variable {T : Type}

/-- With room for two entries, the entry read at index 0 before a push is read
at index 1 after it. -/
theorem get_one_push_of_get (c : CircularBuffer T) (h : c.WF) (hn2 : 2 ≤ c.n) (e y : T)
    (hy : c.get 0 = some y) : (c.push e).get 1 = some y := by
  obtain ⟨h1, h2, h3, h4, h5⟩ := h
  have hn : (c.push e).n = c.n := rfl
  have htm : (c.tail + 1).tmod c.n = (c.tail + 1) % c.n :=
    Int.tmod_eq_emod (by omega) (by omega)
  obtain ⟨q, hq0, hqn, hqt, hq1, hp0, hp1⟩ : ∃ q : Int, 0 ≤ q ∧ q < c.n ∧ q ≠ c.tail ∧
      (c.tail = 0 ∨ q = c.tail - 1) ∧ c.position 0 = q ∧ (c.push e).position 1 = q := by
    by_cases ht : c.tail = 0
    · refine ⟨c.n - 1, by omega, by omega, by omega, Or.inl ht, ?_, ?_⟩
      · exact tmod_of_decomposition _ _ _ 0 (by omega) (by omega) (by rw [ht]; ring) (by omega)
      · simp only [position, push, htm]
        rw [ht, Int.emod_eq_of_lt (by omega) (by omega)]
        exact tmod_of_decomposition _ _ _ 0 (by omega) (by omega) (by ring) (by omega)
    · refine ⟨c.tail - 1, by omega, by omega, by omega, Or.inr rfl, ?_, ?_⟩
      · exact tmod_of_decomposition _ _ _ 1 (by omega) (by omega) (by ring) (by omega)
      · simp only [position, push, htm]
        by_cases hlt : c.tail + 1 < c.n
        · rw [Int.emod_eq_of_lt (by omega) hlt]
          exact tmod_of_decomposition _ _ _ 1 (by omega) (by omega) (by ring) (by omega)
        · have heq : c.tail + 1 = c.n := by omega
          rw [heq, Int.emod_self]
          exact tmod_of_decomposition _ _ _ 0 (by omega) (by omega) (by omega) (by omega)
  unfold get at hy ⊢
  rw [hp0, if_pos ⟨le_refl _, h1⟩] at hy
  rw [hp1, if_pos ⟨by omega, by rw [hn]; omega⟩]
  by_cases hs0 : q < c.size
  · rw [if_pos hs0, if_pos hq0] at hy
    have hs : q < (c.push e).size := by
      simp only [push]
      split_ifs <;> omega
    rw [if_pos hs, if_pos hq0]
    simp only [push]
    rw [List.getElem?_set_ne (by omega)]
    exact hy
  · rw [if_neg hs0] at hy
    exact absurd hy (by simp)

end CircularBuffer

/-- The relative error of a finite number against itself, for a positive
scale, is the number 0. -/
theorem relativeError1_self (x s : Real) (hs : 0 < s) :
    relativeError1 (Double.finite x) (Double.finite x) s = Double.finite 0 := by
  have hne : Max.max s (Max.max |x| |x|) ≠ 0 := ne_of_gt (lt_of_lt_of_le hs (le_max_left _ _))
  simp only [relativeError1, Double.sub, Double.abs, Double.max_finite, Double.div, if_neg hne]
  simp

/-- On the root `carryRoot lvl` with the identity solver, the linear solve
pushes the iterand it read back into the history. -/
theorem carry_solve (lvl : Nat) (i : Bool) (w : World Unit Real) (x : Real)
    (hx : Iteration.iterand w lvl 0 = some x) :
    ∃ w2, Iteration.solveLinearSystemAndSaveResult (carryRoot lvl) identitySolver lvl i w
        = .ok w2 ∧
      w2.vars lvl = { w.vars lvl with
        history := (w.vars lvl).history.push ((w.vars lvl).implicitTime, x) } := by
  have hall : ∀ (s : Unit) (l : List Call),
      Iteration.iterand (⟨w.vars, s, l⟩ : World Unit Real) lvl 0 = some x := fun _ _ => hx
  unfold Iteration.solveLinearSystemAndSaveResult
  dsimp only
  split_ifs
  · simp only [World.record, hall]
    refine ⟨_, rfl, ?_⟩
    rw [Iteration.vars_pushHistory]
    simp [carryRoot, identitySolver, hall]
  · simp only [World.record, hall]
    refine ⟨_, rfl, ?_⟩
    rw [Iteration.vars_pushHistory]
    simp [carryRoot, identitySolver, hall]
  · simp only [World.record, hall]
    refine ⟨_, rfl, ?_⟩
    rw [Iteration.vars_pushHistory]
    simp [carryRoot, identitySolver, hall]

/-- The tolerance iteration `scalarTolerance` at level 1, on the root
`carryRoot 1` and the identity solver, returns from every world whose history
at level 1 is allocated with room for two entries: its first step reproduces
the initial iterand, so the relative error is 0. -/
theorem carry_tolerance_run (fuel : Nat) (x t : Real) (i : Bool) (w : World Unit Real)
    (hI : InnerAllocated w) :
    ∃ r, ToleranceIteration.iterateUntilDone (fuel + 1) (carryRoot 1) identitySolver
        scalarTolerance 1 none x t i w = .ok r ∧ InnerAllocated r.2 := by
  obtain ⟨hn2, hlen⟩ := hI
  have hopen : ((Iteration.opening 1 scalarTolerance.nodes x
      (w.setVars 1 { w.vars 1 with implicitTime := t })).vars 1).history
      = (w.vars 1).history.clear.push (t, x) := by
    rw [Iteration.vars_opening]; simp
  have htime : ((Iteration.opening 1 scalarTolerance.nodes x
      (w.setVars 1 { w.vars 1 with implicitTime := t })).vars 1).implicitTime = t := by
    rw [Iteration.vars_opening]; simp
  have hwf0 : ((w.vars 1).history.clear).WF := CircularBuffer.WF_clear _ (by omega) hlen
  have hwf1 : ((w.vars 1).history.clear.push (t, x)).WF := CircularBuffer.WF_push _ hwf0 _
  have hx0 : Iteration.iterand (Iteration.startNodes scalarTolerance.nodes
      (Iteration.opening 1 scalarTolerance.nodes x
        (w.setVars 1 { w.vars 1 with implicitTime := t }))) 1 0 = some x := by
    simp only [Iteration.iterand, Iteration.vars_startNodes]
    rw [hopen, CircularBuffer.get_zero_push _ hwf0]
    rfl
  obtain ⟨w2, hw2, hv2⟩ := carry_solve 1 i _ x hx0
  simp only [Iteration.vars_startNodes] at hv2
  rw [hopen, htime] at hv2
  have hh3 : ((Iteration.TAIL 1 scalarTolerance.nodes w2).vars 1).history
      = ((w.vars 1).history.clear.push (t, x)).push (t, x) := by
    rw [Iteration.vars_TAIL, hv2]
  have hi0 : Iteration.iterand (Iteration.TAIL 1 scalarTolerance.nodes w2) 1 0 = some x := by
    simp only [Iteration.iterand]
    rw [hh3, CircularBuffer.get_zero_push _ hwf1]
    rfl
  have hi1 : Iteration.iterand (Iteration.TAIL 1 scalarTolerance.nodes w2) 1 1 = some x := by
    simp only [Iteration.iterand]
    rw [hh3, CircularBuffer.get_one_push_of_get _ hwf1 (by simpa [CircularBuffer.push,
      CircularBuffer.clear] using hn2) (t, x) (t, x) (CircularBuffer.get_zero_push _ hwf0 _)]
    rfl
  have hnd : ToleranceIteration.NOT_DONE scalarTolerance 1
      (Iteration.TAIL 1 scalarTolerance.nodes w2) = .ok false := by
    unfold ToleranceIteration.NOT_DONE
    simp only [hi0, hi1]
    have : scalarTolerance.relativeError x x scalarTolerance.scale = Double.finite 0 :=
      relativeError1_self x (1 / 1000) (by norm_num)
    rw [this]
    simp [Double.gt, Double.lt, scalarTolerance]
  have hturn : Iteration.turn (carryRoot 1) identitySolver 1 scalarTolerance.nodes none
      (fun w => .ok w) i (Iteration.opening 1 scalarTolerance.nodes x
        (w.setVars 1 { w.vars 1 with implicitTime := t }))
      = .ok (Iteration.TAIL 1 scalarTolerance.nodes w2) := by
    unfold Iteration.turn Iteration.produce
    simp only [hw2]
  refine ⟨(x, Iteration.TAIL 1 scalarTolerance.nodes w2), ?_, ?_⟩
  · unfold ToleranceIteration.iterateUntilDone
    simp only []
    rw [Iteration.stepLoop_succ, hturn]
    simp only [hnd, hi0]
  · refine ⟨?_, ?_⟩
    · show 2 ≤ ((Iteration.TAIL 1 scalarTolerance.nodes w2).vars 1).history.n
      rw [hh3]
      simpa [CircularBuffer.push, CircularBuffer.clear] using hn2
    · show ((Iteration.TAIL 1 scalarTolerance.nodes w2).vars 1).history.data.length
        = ((Iteration.TAIL 1 scalarTolerance.nodes w2).vars 1).history.n.toNat
      rw [hh3]
      simpa [CircularBuffer.push, CircularBuffer.clear] using hlen

/-- The tolerance iteration `scalarTolerance`, the rest of a chain whose head
is at level 0, on the root `carryRoot 1` and the identity solver, is a child
that returns wherever its history is allocated with room for two entries. -/
theorem carry_tolerance_returns (epsilon : Real) (fuel : Nat) :
    ChildReturnsWhen 0
      (runChain epsilon (fuel + 1) (carryRoot 1) identitySolver
        [IterationKind.tolerance scalarTolerance] (0 + 1))
      (InnerAllocated : World Unit Real → Prop) := by
  refine ⟨?_, ?_⟩
  · intro w w' hI hv
    unfold InnerAllocated at hI ⊢
    rw [hv 1 (by decide)]
    exact hI
  · intro run hrun x t i w hI
    simp only [runChain, Option.some.injEq] at hrun
    subst hrun
    obtain ⟨r, hr, hIr⟩ := carry_tolerance_run fuel x t i w hI
    refine ⟨r, hr, ?_, hIr⟩
    exact ToleranceIteration.tolerance_frame (fuel + 1) (carryRoot 1) identitySolver
      scalarTolerance 1 none (by intro run h; exact absurd h (by simp)) x t i w r hr 0 (by decide)

/-- The two `add` calls of scenario S4 are accepted with `epsilon = 2^-10`. -/
theorem S4iteration_eq_binary (Forward : Bool) :
    TimeIteration.addAll (1 / 1024) (S4new Forward) S4events = some (S4iteration Forward) := by
  cases Forward <;>
  simp [TimeIteration.addAll, TimeIteration.add, S4events, S4new, S4iteration,
    TimeIteration.initialTime] <;> norm_num [PriorityQueue.emplace, TimeOrder, Order]

/-- The event times of scenario S4 and its terminal time are `double`s. -/
theorem S4_times_round :
    ∀ a ∈ TimeIteration.OUTER_HEAD (S4iteration true), Double.round a.2.1 = a.2.1 := by
  rw [S4_OUTER_HEAD_forward]
  intro a ha
  simp only [List.mem_cons, List.mem_singleton, List.not_mem_nil, or_false] at ha
  rcases ha with rfl | rfl | rfl
  · show Double.round (1 / 2) = 1 / 2
    decide!
  · show Double.round (1 / 2) = 1 / 2
    decide!
  · show Double.round 1 = 1
    decide!

/-- A step of 1/2 from a time in `[0, 1]`, rounded to a `double`, advances the
time by 1/4 at least. -/
theorem Double.round_add_half (t : Real) (h0 : 0 ≤ t) (h1 : t ≤ 1) :
    t + 1 / 4 ≤ Double.round (t + 1 / 2) := by
  have e1 : Double.round (1 / 2) = 1 / 2 := by decide!
  have e2 : Double.round (3 / 4) = 3 / 4 := by decide!
  have e3 : Double.round 1 = 1 := by decide!
  have e4 : Double.round (5 / 4) = 5 / 4 := by decide!
  by_cases c1 : t ≤ 1 / 4
  · have := Double.round_monotone (by linarith : (1 / 2 : Real) ≤ t + 1 / 2)
    rw [e1] at this
    linarith
  · by_cases c2 : t ≤ 1 / 2
    · have := Double.round_monotone (by linarith : (3 / 4 : Real) ≤ t + 1 / 2)
      rw [e2] at this
      linarith
    · by_cases c3 : t ≤ 3 / 4
      · have := Double.round_monotone (by linarith : (1 : Real) ≤ t + 1 / 2)
        rw [e3] at this
        linarith
      · have := Double.round_monotone (by linarith : (5 / 4 : Real) ≤ t + 1 / 2)
        rw [e4] at this
        linarith

/-- Witness of the amended C5: the forward iteration of scenario S4 (constant
timestep 1/2, two events at 1/2) with the tolerance iteration `scalarTolerance`
as its child, on the root `carryRoot 1`, from a fresh world with histories of
capacity 2: in the arithmetic of `double`s (`Double.round`, which is monotone
and leaves 0 and the event times as they are, with `epsilon = 2^-10`), and in
exact arithmetic. -/
theorem C5_termination_witness :
    (∃ fuel0, ∀ fuel, fuel0 ≤ fuel →
      ∃ r, TimeIteration.iterateUntilDoneRounded Double.round (1 / 1024) fuel (carryRoot 1)
          identitySolver (S4iteration true) 0
          (runChain (1 / 1024) (2 + 1) (carryRoot 1) identitySolver
            [IterationKind.tolerance scalarTolerance] (0 + 1))
          (3 : Real) (-1) false (World.fresh 2) = .ok r ∧
        (r.2.vars 0).implicitTime = (S4iteration true).terminalTime ∧
        (S4iteration true).terminalTime = (if true then 1 else 0)) ∧
    ∃ fuel0, ∀ fuel, fuel0 ≤ fuel →
      ∃ r, TimeIteration.iterateUntilDoneRounded (fun y => y) (1 / 1000) fuel (carryRoot 1)
          identitySolver (S4iteration true) 0
          (runChain (1 / 1000) (2 + 1) (carryRoot 1) identitySolver
            [IterationKind.tolerance scalarTolerance] (0 + 1))
          (3 : Real) (-1) false (World.fresh 2) = .ok r ∧
        (r.2.vars 0).implicitTime = (S4iteration true).terminalTime ∧
        (S4iteration true).terminalTime = (if true then 1 else 0) ∧
        ((∀ y : Real, (fun y => y) y = y) →
          TimeIteration.iterateUntilDone (1 / 1000) fuel (carryRoot 1) identitySolver
            (S4iteration true) 0
            (runChain (1 / 1000) (2 + 1) (carryRoot 1) identitySolver
              [IterationKind.tolerance scalarTolerance] (0 + 1))
            (3 : Real) (-1) false (World.fresh 2) = .ok r) := by
  constructor
  · obtain ⟨fuel0, hall⟩ := C5_termination Double.round Double.round_monotone Double.round_zero
      (1 / 1024) (by norm_num) true 0 1
      (fun _ => 1 / 2) [] S4events (S4new true) (S4iteration true) (S4new_eq true)
      (S4iteration_eq_binary true) S4_times_round (1 / 4) (by norm_num)
      (by intro v; simp [S4iteration, S4new])
      (by
        intro v hv0 hv1
        have e1 : Double.round (1 / 2) = 1 / 2 := by decide!
        have hs : (S4iteration true).startTime = 0 := rfl
        have he : (S4iteration true).endTime = 1 := rfl
        rw [hs] at hv0
        rw [he] at hv1
        have key := Double.round_add_half v.implicitTime hv0 hv1
        simp only [TimeIteration.distance, direction, S4iteration, S4new, if_true, one_mul, e1]
        linarith)
      (carryRoot 1) identitySolver 0 _ InnerAllocated (carry_tolerance_returns (1 / 1024) 2) 3
      (-1) false (World.fresh 2)
      (by simp [InnerAllocated, World.fresh, CircularBuffer.new, CircularBuffer.clear])
      (by simp [World.fresh, CircularBuffer.new, CircularBuffer.clear])
      (by simp [World.fresh, CircularBuffer.new, CircularBuffer.clear])
    refine ⟨fuel0, fun fuel hf => ?_⟩
    obtain ⟨r, a, b, c, _⟩ := hall fuel hf
    exact ⟨r, a, b, c⟩
  · exact C5_termination (fun y => y) (fun _ _ h => h) rfl (1 / 1000) (by norm_num) true 0 1
      (fun _ => 1 / 2) [] S4events (S4new true) (S4iteration true) (S4new_eq true)
      (S4iteration_eq true) (fun _ _ => rfl) (1 / 2) (by norm_num)
      (by intro v; simp [S4iteration, S4new])
      (by
        intro v _ _
        simp only [TimeIteration.distance, direction, S4iteration, S4new, if_true]
        norm_num)
      (carryRoot 1) identitySolver 0 _ InnerAllocated (carry_tolerance_returns (1 / 1000) 2) 3
      (-1) false (World.fresh 2)
      (by simp [InnerAllocated, World.fresh, CircularBuffer.new, CircularBuffer.clear])
      (by simp [World.fresh, CircularBuffer.new, CircularBuffer.clear])
      (by simp [World.fresh, CircularBuffer.new, CircularBuffer.clear])

/-! ## The march never turns back, in an arithmetic that rounds -/

namespace TimeIteration

variable {S M V : Type}

/-- A positive timestep taken strictly before the pending event time, with a
rounding that is monotone and idempotent and leaves 0, the time and the event
time as they are: the committed time is not behind the time of the step, it is
strictly after it unless the sum was rounded back to it, it is not past the
event time, and the rounding leaves it as it is. -/
theorem timestepCoreRounded_advance (fl : Real → Real) (hmono : Monotone fl)
    (hidem : ∀ y, fl (fl y) = fl y) (hzero : fl 0 = 0) (Forward : Bool)
    (epsilon t ne dt : Real) (hdt : 0 < dt) (ht : fl t = t) (hne : fl ne = ne)
    (hd : 0 < distance Forward ne t) :
    0 ≤ distance Forward (timestepCoreRounded fl Forward epsilon t ne dt).1 t ∧
    (0 < distance Forward (timestepCoreRounded fl Forward epsilon t ne dt).1 t ∨
      fl (t + fl (direction Forward * dt)) = t) ∧
    0 ≤ distance Forward ne (timestepCoreRounded fl Forward epsilon t ne dt).1 ∧
    fl (timestepCoreRounded fl Forward epsilon t ne dt).1
      = (timestepCoreRounded fl Forward epsilon t ne dt).1 := by
  have hs := rounded_sum_not_behind fl hmono hzero Forward t dt (le_of_lt hdt) ht
  have hself : distance Forward ne ne = 0 := by simp [distance]
  unfold timestepCoreRounded
  split_ifs with h1 h2
  · exact ⟨le_of_lt hd, Or.inl hd, by rw [hself], hne⟩
  · exact ⟨le_of_lt hd, Or.inl hd, by rw [hself], hne⟩
  · refine ⟨hs, ?_, ?_, hidem _⟩
    · by_cases heq : fl (t + fl (direction Forward * dt)) = t
      · exact Or.inr heq
      · refine Or.inl (lt_of_le_of_ne hs ?_)
        intro h0
        exact heq (distance_eq_zero Forward _ _ h0.symm).symm
    · cases Forward
      · simp only [Order, Bool.false_eq_true, if_false, decide_eq_true_eq, not_lt] at h2
        simp only [distance, direction, Bool.false_eq_true, if_false] at h2 ⊢
        linarith
      · simp only [Order, if_true, decide_eq_true_eq, not_lt, gt_iff_lt] at h2
        simp only [distance, direction, if_true] at h2 ⊢
        linarith

/-- A run of the step loop entered strictly before the pending event time, in
an arithmetic that rounds, is a march of turns that do not turn back, and ends
not past the event time, at a time that the rounding leaves as it is. -/
theorem stepLoop_advances_rounded (fl : Real → Real) (hmono : Monotone fl)
    (hidem : ∀ y, fl (fl y) = fl y) (hzero : fl 0 = 0) (epsilon : Real) (heps : 0 ≤ epsilon)
    (root : IterationNode S M V) (solver : LinearSolver S M V) (it : TimeIteration V) (lvl : Nat)
    (child : Option (Runner S V))
    (hframe : ∀ run, child = some run → RunnerFrame (lvl + 1) run)
    (B : World S V → World S V → Prop) (ne : Real) (hne : fl ne = ne)
    (hterm : 0 ≤ distance it.Forward it.terminalTime ne) :
    ∀ (fuel : Nat) (i : Bool) (w : World S V) (r : Bool × World S V),
      Iteration.stepLoop root solver lvl it.nodes child (TIMESTEPRounded fl epsilon it lvl ne)
        (NOT_DONERounded fl epsilon it lvl ne) fuel i w = .ok r →
      0 < distance it.Forward ne (w.vars lvl).implicitTime →
      fl (w.vars lvl).implicitTime = (w.vars lvl).implicitTime →
      0 ≤ distance it.Forward ne (r.2.vars lvl).implicitTime ∧
      ∃ cs, Iteration.March
        (fun a _ b => StepAdvancesRounded fl epsilon root solver it lvl child a b) B w cs r.2 := by
  intro fuel
  induction fuel with
  | zero => intro i w r h; simp [Iteration.stepLoop] at h
  | succ fuel ih =>
    intro i w r h hstart hrep
    rw [Iteration.stepLoop_succ] at h
    cases hturn : Iteration.turn root solver lvl it.nodes child
        (TIMESTEPRounded fl epsilon it lvl ne) i w with
    | error e => rw [hturn] at h; exact absurd h (by simp)
    | ok w3 =>
      rw [hturn] at h
      simp only [] at h
      obtain ⟨w1, x, hw1, hv, _⟩ := Iteration.turn_vars root solver lvl it.nodes child hframe _ _
        w w3 hturn
      have hw1' := hw1
      unfold TIMESTEPRounded at hw1
      split_ifs at hw1 with hpos
      simp only [Except.ok.injEq] at hw1
      have ht1 : (w1.vars lvl).implicitTime = (timestepCoreRounded fl it.Forward epsilon
          (w.vars lvl).implicitTime ne
          (it.timestep { w.vars lvl with dtPrevious := (w.vars lvl).dt })).1 := by
        rw [← hw1]; simp
      have ht3 : (w3.vars lvl).implicitTime = (w1.vars lvl).implicitTime := by rw [hv]
      obtain ⟨a0, a1, a2, a3⟩ := timestepCoreRounded_advance fl hmono hidem hzero it.Forward
        epsilon (w.vars lvl).implicitTime ne _ hpos hrep hne hstart
      rw [← ht1] at a0 a1 a2 a3
      have hstepAdv : StepAdvancesRounded fl epsilon root solver it lvl child w w3 := by
        refine ⟨ne, i, w1, hw1', hturn, (notPast_iff _ _ _).mpr a0, ?_, ht3,
          (notPast_iff _ _ _).mpr ?_⟩
        · rcases a1 with a1 | a1
          · exact Or.inl ((before_iff _ _ _).mpr a1)
          · exact Or.inr a1
        · rw [ht3, distance_add it.Forward (w1.vars lvl).implicitTime ne it.terminalTime]
          linarith
      have hone : Iteration.March
          (fun a _ b => StepAdvancesRounded fl epsilon root solver it lvl child a b) B w
          ([] ++ [0]) w3 :=
        Iteration.March.step (Iteration.March.start w) hstepAdv
      cases hnd : NOT_DONERounded fl epsilon it lvl ne w3 with
      | error e => rw [hnd] at h; exact absurd h (by simp)
      | ok b =>
        rw [hnd] at h
        cases b with
        | true =>
          simp only [] at h
          simp only [NOT_DONERounded, Except.ok.injEq] at hnd
          rw [order_iff_distance] at hnd
          have hrep3 : fl (w3.vars lvl).implicitTime = (w3.vars lvl).implicitTime := by
            rw [ht3]; exact a3
          have hnb := rounded_sum_not_behind fl hmono hzero it.Forward (w3.vars lvl).implicitTime
            epsilon heps hrep3
          have hstart3 : 0 < distance it.Forward ne (w3.vars lvl).implicitTime := by
            rw [distance_add it.Forward (w3.vars lvl).implicitTime
              (fl ((w3.vars lvl).implicitTime + fl (direction it.Forward * epsilon))) ne]
            linarith
          obtain ⟨g1, cs, g2⟩ := ih true w3 r h hstart3 hrep3
          exact ⟨g1, _, Iteration.march_append hone g2⟩
        | false =>
          simp only [Except.ok.injEq] at h
          subst h
          refine ⟨?_, _, hone⟩
          show 0 ≤ distance it.Forward ne (w3.vars lvl).implicitTime
          rw [ht3]; exact a2

/-- A run of the loop over the event boundaries, in an arithmetic that rounds,
entered strictly before every time of the working queue, is a march of turns
and boundaries that do not turn back. -/
theorem outerLoop_advances_rounded [Inhabited V] (fl : Real → Real) (hmono : Monotone fl)
    (hidem : ∀ y, fl (fl y) = fl y) (hzero : fl 0 = 0) (epsilon : Real) (heps : 0 ≤ epsilon)
    (root : IterationNode S M V) (solver : LinearSolver S M V) (it : TimeIteration V) (lvl : Nat)
    (child : Option (Runner S V))
    (hframe : ∀ run, child = some run → RunnerFrame (lvl + 1) run) (inner : Nat) :
    ∀ (fuel : Nat) (events : PriorityQueue V) (i : Bool) (w w' : World S V),
      outerLoopRounded fl epsilon root solver it lvl child inner fuel events i w = .ok w' →
      events.Pairwise (fun a b => TimeOrder it.Forward a b = false) →
      (∀ a ∈ events, 0 < distance it.Forward a.2.1 (w.vars lvl).implicitTime ∧
        0 ≤ distance it.Forward it.terminalTime a.2.1 ∧ fl a.2.1 = a.2.1) →
      fl (w.vars lvl).implicitTime = (w.vars lvl).implicitTime →
      ∃ cs, Iteration.March
        (fun a _ b => StepAdvancesRounded fl epsilon root solver it lvl child a b)
        (BoundaryAdvances it lvl) w cs w' := by
  intro fuel
  induction fuel with
  | zero => intro events i w w' h; simp [outerLoopRounded] at h
  | succ fuel ih =>
    intro events i w w' h hsorted hinv hrep
    unfold outerLoopRounded at h
    split at h
    · exact absurd h (by simp)
    · rename_i e he
      have hmem : e ∈ events := by
        cases events with
        | nil => simp [PriorityQueue.top] at he
        | cons y ys =>
          simp only [PriorityQueue.top, List.head?_cons, Option.some.injEq] at he
          rw [← he]; exact List.mem_cons_self _ _
      have hmin : ∀ a ∈ events, a.2.1 = e.2.1 ∨ Order it.Forward a.2.1 e.2.1 = true := by
        cases events with
        | nil => simp [PriorityQueue.top] at he
        | cons y ys =>
          simp only [PriorityQueue.top, List.head?_cons, Option.some.injEq] at he
          subst he
          intro a ha
          rcases List.mem_cons.mp ha with rfl | ha'
          · exact Or.inl rfl
          · exact atOrAfter_of_behind it.Forward y a ((List.pairwise_cons.mp hsorted).1 a ha')
      split at h
      · exact absurd h (by simp)
      · rename_i r hr
        split at h
        · exact absurd h (by simp)
        · rename_i r' hr'
          obtain ⟨hq', ht', _⟩ := OUTER_TAIL_spec it lvl e.2.1 events r.2 r' hr'
          obtain ⟨g1, cs, g2⟩ := stepLoop_advances_rounded fl hmono hidem hzero epsilon heps root
            solver it lvl child hframe (BoundaryAdvances it lvl) e.2.1 (hinv e hmem).2.2
            (hinv e hmem).2.1 inner i w r hr (hinv e hmem).1 hrep
          have hbound : BoundaryAdvances it lvl r.2 r'.2 := by
            refine ⟨e.2.1, events, r', hr', rfl, (notPast_iff _ _ _).mpr ?_,
              (notPast_iff _ _ _).mpr ?_⟩
            · rw [ht']; exact g1
            · rw [ht']; exact (hinv e hmem).2.1
          have hmarch := Iteration.March.boundary g2 hbound
          split_ifs at h with hO
          · obtain ⟨cs2, g3⟩ := ih r'.1 r.1 r'.2 w' h
              (by rw [hq']; exact hsorted.sublist (List.dropWhile_sublist _))
              (by
                intro a ha
                rw [hq'] at ha
                refine ⟨?_, (hinv a ((List.dropWhile_sublist _).subset ha)).2⟩
                rw [ht']
                exact dropWhile_after it.Forward e.2.1 events hsorted hmin a ha)
              (by rw [ht']; exact (hinv e hmem).2.2)
            exact ⟨_, Iteration.march_append hmarch g3⟩
          · simp only [Except.ok.injEq] at h
            subst h
            exact ⟨_, hmarch⟩

end TimeIteration

/-- C36, counterexample. The configuration `absorbedStepper` is valid (built
by the constructor for `startTime = 1 < endTime = 2`, no events, `timestep()`
equal to `2^-60 > 0` at every call). In the arithmetic of `double`s the first
`TIMESTEP` of its solve, taken at `implicitTime = 1` towards the terminal time
2, computes `1 + 2^-60`, which rounds to 1: it passes the assertion `dt > 0`
and leaves `implicitTime` at 1, so it does not move `implicitTime` strictly
in the march direction. -/
theorem C36_march_never_turns_back_counterexample :
    TimeIteration.new true 1 2 absorbedStepper.timestep [] = some absorbedStepper ∧
    (∀ v, 0 < absorbedStepper.timestep v) ∧
    Double.round (1 + 1 / 1152921504606846976) = 1 ∧
    ((Iteration.opening 0 absorbedStepper.nodes (3 : Real)
      (TimeIteration.SET_TIME absorbedStepper 0 (World.fresh 1 : World Unit Real))).vars
        0).implicitTime = 1 ∧
    ∃ w1, TimeIteration.TIMESTEPRounded Double.round (1 / 1024) absorbedStepper 0 2
        (Iteration.opening 0 absorbedStepper.nodes (3 : Real)
          (TimeIteration.SET_TIME absorbedStepper 0 (World.fresh 1 : World Unit Real)))
        = .ok w1 ∧
      (w1.vars 0).implicitTime = 1 ∧
      ¬ TimeIteration.Before absorbedStepper.Forward
        ((Iteration.opening 0 absorbedStepper.nodes (3 : Real)
          (TimeIteration.SET_TIME absorbedStepper 0 (World.fresh 1 : World Unit Real))).vars
            0).implicitTime (w1.vars 0).implicitTime := by
  have ht0 : ((Iteration.opening 0 absorbedStepper.nodes (3 : Real)
      (TimeIteration.SET_TIME absorbedStepper 0 (World.fresh 1 : World Unit Real))).vars
        0).implicitTime = 1 := by
    rw [Iteration.vars_opening]
    simp [TimeIteration.SET_TIME, TimeIteration.initialTime, absorbedStepper, ConstantStepper]
  have hval : (TimeIteration.TIMESTEPRounded Double.round (1 / 1024) absorbedStepper 0 2
      (Iteration.opening 0 absorbedStepper.nodes (3 : Real)
        (TimeIteration.SET_TIME absorbedStepper 0 (World.fresh 1 : World Unit Real)))).toOption.map
      (fun w1 => (w1.vars 0).implicitTime) = some 1 := by decide!
  refine ⟨by simp [TimeIteration.new, absorbedStepper, ConstantStepper],
    by intro v; simp [absorbedStepper, ConstantStepper], by decide!, ht0, ?_⟩
  cases hw1 : TimeIteration.TIMESTEPRounded Double.round (1 / 1024) absorbedStepper 0 2
      (Iteration.opening 0 absorbedStepper.nodes (3 : Real)
        (TimeIteration.SET_TIME absorbedStepper 0 (World.fresh 1 : World Unit Real))) with
  | error e => rw [hw1] at hval; exact absurd hval (by simp [Except.toOption])
  | ok w1 =>
    rw [hw1] at hval
    simp only [Except.toOption, Option.map_some', Option.some.injEq] at hval
    refine ⟨w1, rfl, hval, ?_⟩
    rw [ht0, hval]
    simp [TimeIteration.Before]

/-- C36 (the march never turns back), amended. In an arithmetic whose rounding
`fl` is monotone and idempotent and leaves 0, the initial time, the event times
and the terminal time as they are (rounding to nearest on `double`s, or no
rounding at all), for a `TimeIteration` built by the constructor and `add`
calls that were all accepted, with `epsilon ≥ 0` and an inner iteration (if
any) that leaves the variables of its parent alone: a run of `iterateUntilDone`
that returns starts at `initialTime()` and is, after its opening, a succession
of turns of the step loop and of event boundaries in which every `TIMESTEP`
moves `implicitTime` weakly in the march direction, and strictly unless the sum
`implicitTime + direction * dt` is rounded back to `implicitTime`; the rest of
the turn leaves it as committed, every event boundary moves it weakly in that
direction, and after every one of them `implicitTime` is not past
`terminalTime()`. With no rounding (exact arithmetic) every `TIMESTEP` moves
`implicitTime` strictly in the march direction. -/
theorem C36_march_never_turns_back {S M V : Type} [Inhabited V] (fl : Real → Real)
    (hmono : Monotone fl) (hidem : ∀ y, fl (fl y) = fl y) (hzero : fl 0 = 0) (epsilon : Real)
    (heps : 0 ≤ epsilon) (Forward : Bool) (startTime endTime : Real) (timestep : Vars V → Real)
    (nodes : List Nat) (es : List (Real × (V → V))) (it0 it : TimeIteration V)
    (h0 : TimeIteration.new Forward startTime endTime timestep nodes = some it0)
    (h1 : TimeIteration.addAll epsilon it0 es = some it)
    (hfix : ∀ a ∈ TimeIteration.OUTER_HEAD it, fl a.2.1 = a.2.1)
    (hfixInitial : fl it.initialTime = it.initialTime)
    (root : IterationNode S M V) (solver : LinearSolver S M V) (lvl : Nat)
    (child : Option (Runner S V))
    (hframe : ∀ run, child = some run → RunnerFrame (lvl + 1) run)
    (fuel : Nat) (x : V) (time : Real) (i : Bool) (w : World S V) (r : V × World S V)
    (h : TimeIteration.iterateUntilDoneRounded fl epsilon fuel root solver it lvl child x time i w
      = .ok r) :
    ((Iteration.opening lvl it.nodes x (TimeIteration.SET_TIME it lvl w)).vars lvl).implicitTime
      = it.initialTime ∧
    TimeIteration.Before it.Forward it.initialTime it.terminalTime ∧
    (∃ cs, Iteration.March
      (fun a _ b => TimeIteration.StepAdvancesRounded fl epsilon root solver it lvl child a b)
      (TimeIteration.BoundaryAdvances it lvl)
      (Iteration.opening lvl it.nodes x (TimeIteration.SET_TIME it lvl w)) cs r.2) ∧
    ((∀ y, fl y = y) → ∃ cs, Iteration.March
      (fun a _ b => TimeIteration.StepAdvances epsilon root solver it lvl child a b)
      (TimeIteration.BoundaryAdvances it lvl)
      (Iteration.opening lvl it.nodes x (TimeIteration.SET_TIME it lvl w)) cs r.2) := by
  obtain ⟨e0, _, hlt⟩ := TimeIteration.new_spec Forward startTime endTime timestep nodes it0 h0
  have hF0 : it0.Forward = Forward := by rw [e0]
  have hs0 : it0.startTime = startTime := by rw [e0]
  have he0 : it0.endTime = endTime := by rw [e0]
  have hev0 : it0.events = [] := by rw [e0]
  obtain ⟨g1, g2, g3, g4, _, _, g7⟩ := TimeIteration.addAll_spec epsilon es it0 it h1
    (by rw [hev0]; exact List.Pairwise.nil) (by rw [e0]; norm_num)
  rw [hs0] at g3
  rw [he0] at g4
  have ht0 : ((Iteration.opening lvl it.nodes x (TimeIteration.SET_TIME it lvl w)).vars
      lvl).implicitTime = it.initialTime := by
    rw [Iteration.vars_opening]; simp [TimeIteration.SET_TIME]
  have hsorted : (TimeIteration.OUTER_HEAD it).Pairwise
      (fun a b => TimeOrder it.Forward a b = false) := by
    unfold TimeIteration.OUTER_HEAD
    exact PriorityQueue.emplace_pairwise it.Forward _ _ (by rw [g2]; exact g1)
  have hsent : 0 < TimeIteration.distance it.Forward it.terminalTime it.initialTime := by
    simp only [TimeIteration.distance, direction, TimeIteration.terminalTime,
      TimeIteration.initialTime, g3, g4]
    split_ifs <;> linarith
  have hinv : ∀ a ∈ TimeIteration.OUTER_HEAD it,
      0 < TimeIteration.distance it.Forward a.2.1
        ((Iteration.opening lvl it.nodes x (TimeIteration.SET_TIME it lvl w)).vars
          lvl).implicitTime ∧
      0 ≤ TimeIteration.distance it.Forward it.terminalTime a.2.1 := by
    intro a ha
    rw [ht0]
    rcases (PriorityQueue.mem_emplace _ _ _ _).mp ha with rfl | ha'
    · exact ⟨hsent, by simp [TimeIteration.distance]⟩
    · rcases g7 a ha' with hin | hv
      · rw [hev0] at hin; exact absurd hin (List.not_mem_nil _)
      · rw [hs0, he0] at hv
        have hne : a.2.1 ≠ it.initialTime := by
          have := hv.2.2
          simpa [TimeIteration.initialTime, g2, g3, g4, hF0, hs0, he0] using this
        simp only [TimeIteration.distance, direction, TimeIteration.terminalTime,
          TimeIteration.initialTime, g3, g4] at hne ⊢
        split_ifs at hne ⊢
        · exact ⟨by
            have := lt_of_le_of_ne hv.1 (Ne.symm hne)
            linarith, by linarith [hv.2.1]⟩
        · exact ⟨by linarith [hv.2.1], by linarith [hv.1]⟩
  refine ⟨ht0, (TimeIteration.before_iff _ _ _).mpr hsent, ?_, ?_⟩
  · unfold TimeIteration.iterateUntilDoneRounded at h
    split at h
    · exact absurd h (by simp)
    · rename_i w' hw'
      split at h
      · exact absurd h (by simp)
      · simp only [Except.ok.injEq] at h
        subst h
        exact TimeIteration.outerLoop_advances_rounded fl hmono hidem hzero epsilon heps root
          solver it lvl child hframe fuel fuel _ i _ w' hw' hsorted
          (fun a ha => ⟨(hinv a ha).1, (hinv a ha).2, hfix a ha⟩)
          (by rw [ht0]; exact hfixInitial)
  · intro hfl
    rw [TimeIteration.iterateUntilDoneRounded_exact fl hfl] at h
    unfold TimeIteration.iterateUntilDone at h
    split at h
    · exact absurd h (by simp)
    · rename_i w' hw'
      split at h
      · exact absurd h (by simp)
      · simp only [Except.ok.injEq] at h
        subst h
        exact TimeIteration.outerLoop_advances epsilon heps root solver it lvl child hframe fuel
          fuel _ i _ w' hw' hsorted hinv

/-- Witness of the amended C36: scenario S4 marched forward (two events at
`t = 1/2`, constant timestep 1/2) from the vector 3: in the arithmetic of
`double`s (`Double.round`, which is monotone and idempotent and leaves 0 and
the times of S4 as they are, with `epsilon = 2^-10`), and in exact arithmetic
(`epsilon = 1/1000`). -/
theorem C36_march_never_turns_back_witness :
    (∃ r, TimeIteration.iterateUntilDoneRounded Double.round (1 / 1024) 3 (carryRoot 0)
        identitySolver (S4iteration true) 0 none (3 : Real) (-1) false (World.fresh 1) = .ok r ∧
      ∃ cs, Iteration.March
        (fun a _ b => TimeIteration.StepAdvancesRounded Double.round (1 / 1024) (carryRoot 0)
          identitySolver (S4iteration true) 0 none a b)
        (TimeIteration.BoundaryAdvances (S4iteration true) 0)
        (Iteration.opening 0 (S4iteration true).nodes (3 : Real)
          (TimeIteration.SET_TIME (S4iteration true) 0 (World.fresh 1))) cs r.2) ∧
    ∃ r, TimeIteration.iterateUntilDoneRounded (fun y => y) (1 / 1000) 3 (carryRoot 0)
        identitySolver (S4iteration true) 0 none (3 : Real) (-1) false (World.fresh 1) = .ok r ∧
      (∃ cs, Iteration.March
        (fun a _ b => TimeIteration.StepAdvancesRounded (fun y => y) (1 / 1000) (carryRoot 0)
          identitySolver (S4iteration true) 0 none a b)
        (TimeIteration.BoundaryAdvances (S4iteration true) 0)
        (Iteration.opening 0 (S4iteration true).nodes (3 : Real)
          (TimeIteration.SET_TIME (S4iteration true) 0 (World.fresh 1))) cs r.2) ∧
      ∃ cs, Iteration.March
        (fun a _ b => TimeIteration.StepAdvances (1 / 1000) (carryRoot 0) identitySolver
          (S4iteration true) 0 none a b)
        (TimeIteration.BoundaryAdvances (S4iteration true) 0)
        (Iteration.opening 0 (S4iteration true).nodes (3 : Real)
          (TimeIteration.SET_TIME (S4iteration true) 0 (World.fresh 1))) cs r.2 := by
  have hokR : (TimeIteration.iterateUntilDoneRounded Double.round (1 / 1024) 3 (carryRoot 0)
      identitySolver (S4iteration true) 0 none (3 : Real) (-1) false
      (World.fresh 1)).toOption.isSome = true := by
    decide!
  have hok : (TimeIteration.iterateUntilDoneRounded (fun y => y) (1 / 1000) 3 (carryRoot 0)
      identitySolver (S4iteration true) 0 none (3 : Real) (-1) false
      (World.fresh 1)).toOption.isSome = true := by
    decide!
  constructor
  · cases hr : TimeIteration.iterateUntilDoneRounded Double.round (1 / 1024) 3 (carryRoot 0)
        identitySolver (S4iteration true) 0 none (3 : Real) (-1) false (World.fresh 1) with
    | error e => rw [hr] at hokR; exact absurd hokR (by simp [Except.toOption])
    | ok r =>
      have hall := C36_march_never_turns_back Double.round Double.round_monotone
        Double.round_idempotent Double.round_zero (1 / 1024) (by norm_num) true 0 1
        (fun _ => 1 / 2) [] S4events (S4new true) (S4iteration true) (S4new_eq true)
        (S4iteration_eq_binary true) S4_times_round Double.round_zero (carryRoot 0)
        identitySolver 0 none
        (by intro run hrun; exact absurd hrun (by simp)) 3 3 (-1) false (World.fresh 1) r hr
      exact ⟨r, rfl, hall.2.2.1⟩
  · cases hr : TimeIteration.iterateUntilDoneRounded (fun y => y) (1 / 1000) 3 (carryRoot 0)
        identitySolver (S4iteration true) 0 none (3 : Real) (-1) false (World.fresh 1) with
    | error e => rw [hr] at hok; exact absurd hok (by simp [Except.toOption])
    | ok r =>
      have hall := C36_march_never_turns_back (fun y => y) (fun _ _ h => h) (fun _ => rfl) rfl
        (1 / 1000) (by norm_num) true 0 1
        (fun _ => 1 / 2) [] S4events (S4new true) (S4iteration true) (S4new_eq true)
        (S4iteration_eq true) (fun _ _ => rfl) rfl (carryRoot 0) identitySolver 0 none
        (by intro run hrun; exact absurd hrun (by simp)) 3 3 (-1) false (World.fresh 1) r hr
      exact ⟨r, rfl, hall.2.2.1, hall.2.2.2 (fun _ => rfl)⟩

end QuantPDE
